import Mathlib

/-! # Spooky: a Manchester-coded framing protocol (encoder and decoder)

Shallow embedding of `spooky_encoder.c` and `spooky_decoder.c`.

Conventions of the embedding:
* `uint8_t` / `uint16_t` fields are natural numbers; every C operation that can
  leave the range is followed by an explicit `% 256` / `% 65536`.
* the caller-owned buffer is a `List Nat` of bytes; a read outside the list
  yields `0` and a write outside the list is dropped.
* the functions take the structure itself: this is the path after the
  `enc == NULL` / `dec == NULL` guard. The two `init` functions, whose contract
  is about absent pointers, take `Option`s.
* the decoder's user callback is an effect; every function that may invoke it
  returns the list of `(data, data_size)` invocations it made, in order.
-/

namespace Spooky

/-! ## Encoder (`spooky_encoder.c`) -/

/-- The encoder's `tx_mode` enumeration. -/
inductive tx_mode where
  | TX_NONE
  | TX_SHARP
  | TX_LONG
  | TX_LENGTH
  | TX_CHKSUM
  | TX_PAYLOAD
  deriving DecidableEq, Repr

/-- The structure `struct spooky_encoder` of `spooky_encoder.h`. -/
structure spooky_encoder where
  index : Nat
  tx_rate : Nat
  buffer_size : Nat
  input_size : Nat
  ticks : Nat
  mode : tx_mode
  chksum : Nat
  buffer : List Nat
  deriving DecidableEq, Repr

/-- The result codes `enum spooky_encoder_init_res`. -/
inductive spooky_encoder_init_res where
  | SPOOKY_ENCODER_INIT_OK
  | SPOOKY_ENCODER_INIT_ERROR_NULL
  | SPOOKY_ENCODER_INIT_ERROR_BAD_ARGUMENT
  deriving DecidableEq, Repr

/-- The result codes `enum spooky_encoder_enqueue_res`. -/
inductive spooky_encoder_enqueue_res where
  | SPOOKY_ENCODER_ENQUEUE_OK
  | SPOOKY_ENCODER_ENQUEUE_ERROR_SIZE
  | SPOOKY_ENCODER_ENQUEUE_ERROR_FULL
  deriving DecidableEq, Repr

/-- The result codes `enum spooky_encoder_clear_res`. -/
inductive spooky_encoder_clear_res where
  | SPOOKY_ENCODER_CLEAR_OK
  | SPOOKY_ENCODER_CLEAR_ERROR_NULL
  deriving DecidableEq, Repr

/-- The result codes `enum spooky_encoder_step_res`. -/
inductive spooky_encoder_step_res where
  | SPOOKY_ENCODER_STEP_OK
  | SPOOKY_ENCODER_STEP_OK_LOW
  | SPOOKY_ENCODER_STEP_OK_HIGH
  | SPOOKY_ENCODER_STEP_OK_DONE
  | SPOOKY_ENCODER_STEP_ERROR_EMPTY
  | SPOOKY_ENCODER_STEP_ERROR_NULL
  deriving DecidableEq, Repr

open tx_mode spooky_encoder_init_res spooky_encoder_enqueue_res
open spooky_encoder_clear_res spooky_encoder_step_res

/-- The constant `HEADER_SHARP_TRANSITIONS`. -/
def HEADER_SHARP_TRANSITIONS : Nat := 8

/-- The constant `HEADER_LONG_TRANSITIONS`. -/
def HEADER_LONG_TRANSITIONS : Nat := 4

/-- The libc `memcpy(dst, src, n)` on byte lists: the first `n` bytes of `src`
replace the first `n` bytes of `dst`. -/
def memcpy : List Nat → List Nat → Nat → List Nat
  | _ :: ds, s :: ss, n + 1 => s :: memcpy ds ss n
  | ds, [], _ + 1 => ds
  | ds, _, 0 => ds
  | [], _, _ + 1 => []

/-- The libc `memset(dst, c, n)` on byte lists. -/
def memset : List Nat → Nat → Nat → List Nat
  | _ :: ds, c, n + 1 => c :: memset ds c n
  | ds, _, 0 => ds
  | [], _, _ + 1 => []

/-- The 8-bit sum-and-invert `calc_chksum(buf, length)`: `res` is a `uint8_t`
accumulator, the result is `~res`. -/
def calc_chksum (buf : List Nat) (length : Nat) : Nat :=
  255 - ((List.range length).foldl (fun res i => (res + buf.getD i 0) % 256) 0)

/-- The half-cell command `encode_bit(bit, index)`; both parameters are
`uint8_t`, so the 16-bit `index` is truncated on the way in. -/
def encode_bit (bit : Nat) (index : Nat) : spooky_encoder_step_res :=
  if ((index % 256) &&& 0x01) = 0 then
    (if bit % 256 ≠ 0 then SPOOKY_ENCODER_STEP_OK_LOW else SPOOKY_ENCODER_STEP_OK_HIGH)
  else
    (if bit % 256 ≠ 0 then SPOOKY_ENCODER_STEP_OK_HIGH else SPOOKY_ENCODER_STEP_OK_LOW)

/-- The function `spooky_encoder_init`. `enc` is the memory the encoder pointer
refers to (`none` for `NULL`), `buffer` the caller's buffer (`none` for `NULL`).
The second component is the encoder memory afterwards. -/
def spooky_encoder_init (enc : Option spooky_encoder) (buffer : Option (List Nat))
    (buffer_size tx_rate : Nat) : spooky_encoder_init_res × Option spooky_encoder :=
  match enc, buffer with
  | none, _ => (SPOOKY_ENCODER_INIT_ERROR_NULL, enc)
  | some _, none => (SPOOKY_ENCODER_INIT_ERROR_NULL, enc)
  | some _, some buf =>
    if buffer_size = 0 ∨ tx_rate = 0 then (SPOOKY_ENCODER_INIT_ERROR_BAD_ARGUMENT, enc)
    else
      (SPOOKY_ENCODER_INIT_OK,
        some { index := 0, tx_rate := tx_rate, buffer_size := buffer_size, input_size := 0,
               ticks := 0, mode := TX_NONE, chksum := 0, buffer := buf })

/-- The function `spooky_encoder_enqueue`. `input_size` is a `uint8_t`. -/
def spooky_encoder_enqueue (enc : spooky_encoder) (input : List Nat) (input_size : Nat) :
    spooky_encoder_enqueue_res × spooky_encoder :=
  if enc.mode ≠ TX_NONE then (SPOOKY_ENCODER_ENQUEUE_ERROR_FULL, enc)
  else
    let enc := { enc with mode := TX_SHARP }
    if input_size > enc.buffer_size then (SPOOKY_ENCODER_ENQUEUE_ERROR_SIZE, enc)
    else
      (SPOOKY_ENCODER_ENQUEUE_OK,
        { enc with buffer := memcpy enc.buffer input input_size,
                   input_size := input_size, index := 0 })

/-- The function `spooky_encoder_clear` on a non-`NULL` encoder. -/
def spooky_encoder_clear (enc : spooky_encoder) :
    spooky_encoder_clear_res × spooky_encoder :=
  if enc.mode ≠ TX_NONE then (SPOOKY_ENCODER_CLEAR_OK, { enc with mode := TX_NONE })
  else (SPOOKY_ENCODER_CLEAR_OK, enc)

/-- The function `spooky_encoder_step` on a non-`NULL` encoder. `ticks` is a
`uint8_t`, `index` a `uint16_t`. -/
def spooky_encoder_step (enc : spooky_encoder) : spooky_encoder_step_res × spooky_encoder :=
  let enc := { enc with ticks := (enc.ticks + 1) % 256 }
  if enc.ticks % enc.tx_rate ≠ 0 then (SPOOKY_ENCODER_STEP_OK, enc)
  else
    let enc := { enc with ticks := 0 }
    match enc.mode with
    | TX_NONE => (SPOOKY_ENCODER_STEP_OK_DONE, enc)
    | TX_SHARP =>
      let res := encode_bit 0x01 enc.index
      let enc := { enc with index := (enc.index + 1) % 65536 }
      if enc.index = 2 * HEADER_SHARP_TRANSITIONS then
        (res, { enc with mode := TX_LONG, index := 0 })
      else (res, enc)
    | TX_LONG =>
      let bit := 0x55 &&& (1 <<< (7 - enc.index / 2))
      let res := encode_bit bit enc.index
      let enc := { enc with index := (enc.index + 1) % 65536 }
      if enc.index = 4 * HEADER_LONG_TRANSITIONS then
        (res, { enc with mode := TX_LENGTH, index := 0 })
      else (res, enc)
    | TX_LENGTH =>
      let bit := enc.input_size &&& (1 <<< (7 - enc.index / 2))
      let res := encode_bit bit enc.index
      let enc := { enc with index := (enc.index + 1) % 65536 }
      if enc.index = 2 * 8 then
        (res, { enc with mode := TX_CHKSUM, index := 0,
                         chksum := calc_chksum enc.buffer enc.input_size })
      else (res, enc)
    | TX_CHKSUM =>
      let bit := enc.chksum &&& (1 <<< (7 - enc.index / 2))
      let res := encode_bit bit enc.index
      let enc := { enc with index := (enc.index + 1) % 65536 }
      if enc.index = 2 * 8 then
        (res, { enc with mode := TX_PAYLOAD, index := 0 })
      else (res, enc)
    | TX_PAYLOAD =>
      let byte_idx := (enc.index / 16) % 256
      let bit_idx := (enc.index % 16) / 2
      let byte := enc.buffer.getD byte_idx 0
      let bit := byte &&& (1 <<< (7 - bit_idx))
      let res := encode_bit bit enc.index
      let enc := { enc with index := (enc.index + 1) % 65536 }
      if enc.index = 8 * 2 * enc.input_size then
        (res, { enc with mode := TX_NONE })
      else (res, enc)

/-- The encoder after `n` calls of `spooky_encoder_step`. -/
def encoder_run : Nat → spooky_encoder → spooky_encoder
  | 0, enc => enc
  | n + 1, enc => encoder_run n (spooky_encoder_step enc).2

/-- The results of the first `n` calls of `spooky_encoder_step`, in order. -/
def encoder_trace : Nat → spooky_encoder → List spooky_encoder_step_res
  | 0, _ => []
  | n + 1, enc => (spooky_encoder_step enc).1 :: encoder_trace n (spooky_encoder_step enc).2

/-! ## Decoder (`spooky_decoder.c`) -/

/-- The decoder's `rx_mode` enumeration. -/
inductive rx_mode where
  | RX_HEADER
  | RX_LENGTH
  | RX_CHKSUM
  | RX_PAYLOAD
  deriving DecidableEq, Repr

/-- The structure `struct spooky_decoder` of `spooky_decoder.h`. The callback
pointer itself is not stored: its invocations are returned by the functions
that make them. `cb_udata` is the opaque user-data handle. -/
structure spooky_decoder where
  index : Nat
  buffer_size : Nat
  mode : rx_mode
  ticks : Nat
  bit_index : Nat
  bit_accum : Nat
  last : Nat
  interval : Nat
  payload_length : Nat
  chksum : Nat
  pre_ticks : Nat
  buffer : List Nat
  cb_udata : Nat
  deriving DecidableEq, Repr

/-- One invocation `cb(data, data_size, udata)` of the user callback: the
contents of the buffer `data` points to, the `uint8_t` size and the handle. -/
structure cb_call where
  data : List Nat
  data_size : Nat
  udata : Nat
  deriving DecidableEq, Repr

/-- The result codes `enum spooky_decoder_init_res`. -/
inductive spooky_decoder_init_res where
  | SPOOKY_DECODER_INIT_OK
  | SPOOKY_DECODER_INIT_ERROR_NULL
  | SPOOKY_DECODER_INIT_ERROR_BAD_ARGUMENT
  deriving DecidableEq, Repr

/-- The result codes `enum spooky_decoder_step_res`. -/
inductive spooky_decoder_step_res where
  | SPOOKY_DECODER_STEP_OK
  | SPOOKY_DECODER_STEP_DONE
  | SPOOKY_DECODER_STEP_ERROR_NULL
  deriving DecidableEq, Repr

open rx_mode spooky_decoder_init_res spooky_decoder_step_res

/-- The constant `SPOOKY_DECODER_MIN_BUFFER_SIZE`. -/
def SPOOKY_DECODER_MIN_BUFFER_SIZE : Nat := 16

/-- The constant `SPOOKY_DECODER_MAX_BUFFER_SIZE`. -/
def SPOOKY_DECODER_MAX_BUFFER_SIZE : Nat := 255

/-- The constant `RING_BUF_SZ`, that is `1 << RING_BUF_SZ_BITS`. -/
def RING_BUF_SZ : Nat := 16

/-- The constant `RING_BUF_MASK`. -/
def RING_BUF_MASK : Nat := RING_BUF_SZ - 1

/-- The constant `MAX_POSSIBLE_DELAY`, that is `(uint8_t)-1`. -/
def MAX_POSSIBLE_DELAY : Nat := 255

/-- The value of a C `bool` in an integer context. -/
def bool_val (bit : Bool) : Nat := if bit then 1 else 0

/-- The function `reset_decoder`. -/
def reset_decoder (dec : spooky_decoder) : spooky_decoder :=
  { dec with mode := RX_HEADER, ticks := 0, bit_index := 0x80, interval := 0,
             bit_accum := 0x00, payload_length := 0x00, pre_ticks := 0 }

/-- The function `spooky_decoder_init`. `dec` is the memory the decoder pointer
refers to, `output_buffer` the caller's buffer, `cb` says whether a callback is
given (`none` for `NULL` each), `buffer_size` is a `size_t`. -/
def spooky_decoder_init (dec : Option spooky_decoder) (output_buffer : Option (List Nat))
    (buffer_size : Nat) (cb : Option Unit) (udata : Nat) :
    spooky_decoder_init_res × Option spooky_decoder :=
  match dec, output_buffer, cb with
  | none, _, _ => (SPOOKY_DECODER_INIT_ERROR_NULL, dec)
  | some _, none, _ => (SPOOKY_DECODER_INIT_ERROR_NULL, dec)
  | some _, some _, none => (SPOOKY_DECODER_INIT_ERROR_NULL, dec)
  | some _, some buf, some _ =>
    if buffer_size < SPOOKY_DECODER_MIN_BUFFER_SIZE
        ∨ buffer_size > SPOOKY_DECODER_MAX_BUFFER_SIZE then
      (SPOOKY_DECODER_INIT_ERROR_BAD_ARGUMENT, dec)
    else
      let d : spooky_decoder :=
        { index := 0, buffer_size := 0, mode := RX_HEADER, ticks := 0, bit_index := 0,
          bit_accum := 0, last := 0, interval := 0, payload_length := 0, chksum := 0,
          pre_ticks := 0, buffer := [], cb_udata := 0 }
      let d := reset_decoder d
      let d := { d with last := 0xFF }
      let d := { d with buffer := buf, buffer_size := buffer_size % 256 }
      let d := { d with buffer := memset d.buffer 0 buffer_size }
      let d := { d with cb_udata := udata }
      (SPOOKY_DECODER_INIT_OK, some d)

/-- The C library `abs` on `int`. -/
def c_abs (x : Int) : Int := if x < 0 then -x else x

/-- The function `approx_eq(a, b)`: is `a` within `b/4` (at least 1) of `b`? -/
def approx_eq (a b : Int) : Bool :=
  let tol : Int := if b < 4 then 1 else b / 4
  decide (c_abs (a - b) ≤ tol)

/-- The function `append_to_ring_buffer(dec, offset)`; `offset` is a `uint8_t`
and the stored value is the `int` difference converted to `uint8_t`. -/
def append_to_ring_buffer (dec : spooky_decoder) (offset : Nat) : spooky_decoder :=
  let v := if dec.index = 0 then MAX_POSSIBLE_DELAY
           else (((dec.ticks : Int) - ((offset % 256 : Nat) : Int)) % 256).toNat
  { dec with buffer := dec.buffer.set (dec.index &&& RING_BUF_MASK) v,
             index := (dec.index + 1) % 65536 }

/-- The scan loop of `step_header`, `for (int i=0; i<RING_BUF_SZ; i++)`, with
`n` iterations left (so `i = RING_BUF_SZ - n`): returns `(long_count, avg)`. -/
def step_header_scan (buf : List Nat) (index : Nat) :
    Nat → Nat → Nat → Nat → Nat × Nat
  | 0, _, long_count, avg => (long_count, avg)
  | n + 1, total, long_count, avg =>
    let i := RING_BUF_SZ - (n + 1)
    let idx := ((index + i) &&& RING_BUF_MASK) % 256
    let val := buf.getD idx 0
    if val = MAX_POSSIBLE_DELAY then (long_count, avg)
    else if i < RING_BUF_SZ - 8 then
      let total := (total + val) % 65536
      if i = RING_BUF_SZ - 8 - 1 then
        step_header_scan buf index n total long_count (total / (RING_BUF_SZ - 8))
      else step_header_scan buf index n total long_count avg
    else if avg > 0 then
      if approx_eq (val : Int) ((2 * avg : Nat) : Int) then
        step_header_scan buf index n total ((long_count + 1) % 65536) avg
      else step_header_scan buf index n total long_count avg
    else step_header_scan buf index n total long_count avg

/-- The state function `step_header`. -/
def step_header (dec : spooky_decoder) (bit : Bool) : Nat × spooky_decoder :=
  if bool_val bit ≠ dec.last then
    let dec := append_to_ring_buffer dec 0
    let dec := { dec with ticks := 0 }
    let scan := step_header_scan dec.buffer dec.index RING_BUF_SZ 0 0 0
    let long_count := scan.1
    let avg := scan.2
    let dec := if long_count = 8 then
        { dec with mode := RX_LENGTH, ticks := 0, interval := avg % 256 }
      else dec
    (0, { dec with last := bool_val bit })
  else (0, dec)

/-- The function `longer_than_tolerance_allows(t, i)` on `uint16_t`s. -/
def longer_than_tolerance_allows (t i : Nat) : Bool :=
  let max := (i + i / 4) % 65536
  decide (t > max)

/-- The function `sink_bit`: returns whether a byte was completed. -/
def sink_bit (dec : spooky_decoder) (bit : Bool) : Nat × spooky_decoder :=
  let dec := if bool_val bit = 0 then dec
    else if bool_val bit = 1 then { dec with bit_accum := dec.bit_accum ||| dec.bit_index }
    else dec
  let dec := { dec with bit_index := dec.bit_index >>> 1 }
  if dec.bit_index = 0x00 then (1, { dec with bit_index := 0x80 })
  else (0, dec)

/-- The 8-bit sum-and-invert `checksum(buf, size)` of the decoder. -/
def checksum (buf : List Nat) (size : Nat) : Nat :=
  255 - ((List.range size).foldl (fun res i => (res + buf.getD i 0) % 256) 0)

/-- The type `byte_cb` of the per-state byte callbacks: the returned number says
whether the entire message payload is complete. -/
abbrev byte_cb := spooky_decoder → Nat × spooky_decoder × List cb_call

/-- The function `sink_bit_with_cb(dec, bit, cb, save_ticks)`. The arguments of
`longer_than_tolerance_allows` are `int`s converted to `uint16_t`. -/
def sink_bit_with_cb (dec : spooky_decoder) (bit : Bool) (cb : byte_cb) (save_ticks : Bool) :
    Nat × spooky_decoder × List cb_call :=
  if bool_val bit = dec.last then
    if longer_than_tolerance_allows
        ((((dec.ticks : Int) - (dec.pre_ticks : Int)) % 65536).toNat)
        ((2 * dec.interval) % 65536) then
      (0, reset_decoder dec, [])
    else (0, dec, [])
  else
    let dec := { dec with last := bool_val bit }
    if approx_eq (dec.ticks : Int) (dec.interval : Int) ∧ dec.pre_ticks = 0 then
      if save_ticks then
        let dec := append_to_ring_buffer dec 0
        (0, { dec with pre_ticks := dec.ticks }, [])
      else (0, dec, [])
    else if approx_eq (dec.ticks : Int) ((2 * dec.interval : Nat) : Int) then
      let dec := if save_ticks then append_to_ring_buffer dec dec.pre_ticks else dec
      let dec := { dec with pre_ticks := 0, ticks := 0 }
      let sunk := sink_bit dec bit
      if sunk.1 ≠ 0 then
        let r := cb sunk.2
        (r.1, { r.2.1 with bit_accum := 0x00 }, r.2.2)
      else (0, sunk.2, [])
    else (0, dec, [])

/-- The byte callback `length_byte_cb`. -/
def length_byte_cb : byte_cb := fun dec =>
  let dec := { dec with payload_length := dec.bit_accum }
  if dec.payload_length > dec.buffer_size then (0, reset_decoder dec, [])
  else if dec.payload_length = 0 then (0, reset_decoder dec, [])
  else (0, { dec with mode := RX_CHKSUM }, [])

/-- The byte callback `chksum_byte_cb`. -/
def chksum_byte_cb : byte_cb := fun dec =>
  (0, { dec with chksum := dec.bit_accum, index := 0, mode := RX_PAYLOAD }, [])

/-- The byte callback `payload_byte_cb`; the user callback gets `dec->index`
converted to `uint8_t` as its size. -/
def payload_byte_cb : byte_cb := fun dec =>
  let byte := dec.bit_accum
  let dec := { dec with buffer := dec.buffer.set dec.index byte }
  let dec := { dec with index := (dec.index + 1) % 65536 }
  if dec.index = dec.payload_length then
    let cs := checksum dec.buffer dec.payload_length
    let calls : List cb_call :=
      if cs = dec.chksum then
        [{ data := dec.buffer, data_size := dec.index % 256, udata := dec.cb_udata }]
      else []
    let dec := reset_decoder dec
    (1, { dec with index := 0 }, calls)
  else (0, dec, [])

/-- The state function `step_length`. -/
def step_length (dec : spooky_decoder) (bit : Bool) : Nat × spooky_decoder × List cb_call :=
  sink_bit_with_cb dec bit length_byte_cb true

/-- The state function `step_chksum`. -/
def step_chksum (dec : spooky_decoder) (bit : Bool) : Nat × spooky_decoder × List cb_call :=
  sink_bit_with_cb dec bit chksum_byte_cb true

/-- The state function `step_payload`. -/
def step_payload (dec : spooky_decoder) (bit : Bool) : Nat × spooky_decoder × List cb_call :=
  sink_bit_with_cb dec bit payload_byte_cb false

/-- The function `spooky_decoder_step` on a non-`NULL` decoder: the result code,
the decoder afterwards and the user-callback invocations made during the
step. `ticks` is a `uint8_t`. -/
def spooky_decoder_step (dec : spooky_decoder) (bit : Bool) :
    spooky_decoder_step_res × spooky_decoder × List cb_call :=
  let dec := { dec with ticks := (dec.ticks + 1) % 256 }
  match dec.mode with
  | RX_HEADER => (SPOOKY_DECODER_STEP_OK, (step_header dec bit).2, [])
  | RX_LENGTH =>
    let r := step_length dec bit
    (SPOOKY_DECODER_STEP_OK, r.2.1, r.2.2)
  | RX_CHKSUM =>
    let r := step_chksum dec bit
    (SPOOKY_DECODER_STEP_OK, r.2.1, r.2.2)
  | RX_PAYLOAD =>
    let r := step_payload dec bit
    if r.1 ≠ 0 then (SPOOKY_DECODER_STEP_DONE, r.2.1, r.2.2)
    else (SPOOKY_DECODER_STEP_OK, r.2.1, r.2.2)

/-- Feed the samples of a list to the decoder, one `spooky_decoder_step` each:
the decoder afterwards and all callback invocations, in order. -/
def decoder_feed : List Bool → spooky_decoder → spooky_decoder × List cb_call
  | [], dec => (dec, [])
  | bit :: bits, dec =>
    let r := spooky_decoder_step dec bit
    let rest := decoder_feed bits r.2.1
    (rest.1, r.2.2 ++ rest.2)

/-! ## The integration loop of `data_should_tx_and_rx_intact` -/

/-- The line level after an encoder command: low on `OK_LOW`, high on
`OK_HIGH`, unchanged otherwise. -/
def drive_line (bit : Bool) (res : spooky_encoder_step_res) : Bool :=
  if res = SPOOKY_ENCODER_STEP_OK_LOW then false
  else if res = SPOOKY_ENCODER_STEP_OK_HIGH then true
  else bit

/-- The state of the integration loop: both machines, the line level and the
callback invocations seen so far. -/
structure link_state where
  enc : spooky_encoder
  dec : spooky_decoder
  bit : Bool
  calls : List cb_call
  deriving DecidableEq, Repr

/-- One iteration of the loop: one `spooky_encoder_step`, the line update, then
`k` calls of `spooky_decoder_step` with the line level. -/
def link_iter (k : Nat) (st : link_state) : link_state :=
  let e := spooky_encoder_step st.enc
  let bit := drive_line st.bit e.1
  let d := decoder_feed (List.replicate k bit) st.dec
  { enc := e.2, dec := d.1, bit := bit, calls := st.calls ++ d.2 }

/-- The loop state after `n` iterations. -/
def link_run (k : Nat) : Nat → link_state → link_state
  | 0, st => st
  | n + 1, st => link_run k n (link_iter k st)

/-! ## The wire format as the specification words it -/

/-- The two half-cell commands of one logical bit: a `1` is low then high, a
`0` is high then low. -/
def manchester_bit (b : Bool) : List spooky_encoder_step_res :=
  if b then [SPOOKY_ENCODER_STEP_OK_LOW, SPOOKY_ENCODER_STEP_OK_HIGH]
  else [SPOOKY_ENCODER_STEP_OK_HIGH, SPOOKY_ENCODER_STEP_OK_LOW]

/-- The sixteen half-cell commands of one byte, most significant bit first. -/
def manchester_byte (x : Nat) : List spooky_encoder_step_res :=
  (List.range 8).flatMap (fun i => manchester_bit (x.testBit (7 - i)))

/-- The sum-and-invert checksum as the specification words it. -/
def spec_chksum (P : List Nat) : Nat := 255 - (P.sum % 256)

/-- The frame on the wire: `0xFF`, `0x55`, length, checksum, payload. -/
def wire_frame (P : List Nat) : List spooky_encoder_step_res :=
  manchester_byte 0xFF ++ manchester_byte 0x55 ++ manchester_byte P.length
    ++ manchester_byte (spec_chksum P) ++ P.flatMap manchester_byte

/-! ## Auxiliary definitions used by the statements and proofs -/

/-- The encoder after a successful `spooky_encoder_init` followed by a
successful `spooky_encoder_enqueue`; `none` when either call fails. `e0` is the
memory the encoder pointer refers to before `init`. -/
def encoder_start (e0 : spooky_encoder) (buf : List Nat) (buffer_size tx_rate : Nat)
    (input : List Nat) (input_size : Nat) : Option spooky_encoder :=
  match spooky_encoder_init (some e0) (some buf) buffer_size tx_rate with
  | (SPOOKY_ENCODER_INIT_OK, some enc) =>
    match spooky_encoder_enqueue enc input input_size with
    | (SPOOKY_ENCODER_ENQUEUE_OK, enc) => some enc
    | _ => none
  | _ => none

/-- The result of the `j`-th call (`j ≥ 1`) of `spooky_encoder_step`. -/
def encoder_result (e : spooky_encoder) (j : Nat) : spooky_encoder_step_res :=
  (spooky_encoder_step (encoder_run (j - 1) e)).1

/-- The command the encoder emits in cell `i` of a byte `x`. -/
def cell_out (x i : Nat) : spooky_encoder_step_res :=
  encode_bit (x &&& (1 <<< (7 - (i % 16) / 2))) i

/-- The encoder at payload cell `k` of a frame of `n` bytes, rate 1. -/
def pay_state (bs n c : Nat) (B : List Nat) (k : Nat) : spooky_encoder :=
  ⟨k, 1, bs, n, 0, if k = 16 * n then TX_NONE else TX_PAYLOAD, c, B⟩

/-- An all-zero encoder structure, as `memset(&enc, 0, sizeof(enc))` leaves it. -/
def enc_zero : spooky_encoder := ⟨0, 0, 0, 0, 0, TX_NONE, 0, []⟩

/-- The byte `sink_bit` leaves in `bit_accum` when it sinks `bit`. -/
def stored_byte (dec : spooky_decoder) (bit : Bool) : Nat :=
  if bit then dec.bit_accum ||| dec.bit_index else dec.bit_accum

/-- The sample `bit` is taken as a bit edge by `sink_bit_with_cb` (`dec` is the
decoder after the tick increment): an edge that is not a setup edge and comes
about two intervals after the last bit edge. -/
def bit_edge (dec : spooky_decoder) (bit : Bool) : Prop :=
  bool_val bit ≠ dec.last
    ∧ ¬ (approx_eq (dec.ticks : Int) (dec.interval : Int) = true ∧ dec.pre_ticks = 0)
    ∧ approx_eq (dec.ticks : Int) ((2 * dec.interval : Nat) : Int) = true

/-- The decoder `sink_bit_with_cb` hands to `sink_bit` at a bit edge. -/
def edge_state (dec : spooky_decoder) (bit : Bool) (save_ticks : Bool) : spooky_decoder :=
  let dec := { dec with last := bool_val bit }
  let dec := if save_ticks then append_to_ring_buffer dec dec.pre_ticks else dec
  { dec with pre_ticks := 0, ticks := 0 }

/-- The decoder with its tick counter incremented, as at the start of
`spooky_decoder_step`. -/
def ticked (dec : spooky_decoder) : spooky_decoder :=
  { dec with ticks := (dec.ticks + 1) % 256 }

/-- The step of `dec` with sample `bit` stores the final payload byte: the
decoder is in PAYLOAD, the sample is a bit edge, the bit completes a byte, and
storing that byte makes `index` reach `payload_length`. -/
def completes_payload (dec : spooky_decoder) (bit : Bool) : Prop :=
  dec.mode = RX_PAYLOAD ∧ bit_edge (ticked dec) bit ∧ dec.bit_index >>> 1 = 0
    ∧ (dec.index + 1) % 65536 = dec.payload_length

/-- An all-zero decoder structure, as `memset(&dec, 0, sizeof(dec))` leaves it. -/
def dec_zero : spooky_decoder := ⟨0, 0, RX_HEADER, 0, 0, 0, 0, 0, 0, 0, 0, [], 0⟩

/-- The samples `expect_byte` of the unit tests feeds for the byte `b`: per
bit, most significant first, `n` samples of the complement then `n` samples of
the bit (`n` is `rate * RATE_MUL`). -/
def expect_byte (n : Nat) (b : Nat) : List Bool :=
  (List.range 8).flatMap (fun i =>
    List.replicate n (!(b.testBit (7 - i))) ++ List.replicate n (b.testBit (7 - i)))

/-- The decoder the unit tests set up (`dec_setup`): 32-byte buffer, fresh
`spooky_decoder_init`. -/
def test_decoder : spooky_decoder :=
  ((spooky_decoder_init (some dec_zero) (some (List.replicate 32 0)) 32 (some ()) 0).2).getD
    dec_zero

instance (dec : spooky_decoder) (bit : Bool) : Decidable (bit_edge dec bit) := by
  unfold bit_edge; infer_instance

instance (dec : spooky_decoder) (bit : Bool) : Decidable (completes_payload dec bit) := by
  unfold completes_payload; infer_instance

/-- The samples of one bit period that precede its bit edge, seen from just
after the previous bit edge: the rest of the previous half-cell (level
`prev`), then the first half-cell of the bit (the complement of `b`). -/
def chunk_init (s : Nat) (prev b : Bool) : List Bool :=
  List.replicate (s - 1) prev ++ List.replicate s (!b)

/-- The samples of a run of bits, from just after the bit edge of the bit
`prev` up to and including the bit edge of the last bit. -/
def bits_stream (s : Nat) : Bool → List Bool → List Bool
  | _, [] => []
  | prev, b :: bs => chunk_init s prev b ++ [b] ++ bits_stream s b bs

/-- The accumulator and the mask after `sink_bit` has sunk the bits of a list
without completing a byte. -/
def sink_acc : List Bool → Nat → Nat → Nat × Nat
  | [], acc, bi => (acc, bi)
  | b :: bs, acc, bi => sink_acc bs (if b then acc ||| bi else acc) (bi >>> 1)

/-- The bits of a byte, most significant first. -/
def byte_bits (x : Nat) : List Bool := (List.range 8).map (fun i => x.testBit (7 - i))

/-- The seven most significant bits of a byte, most significant first. -/
def byte_hi (x : Nat) : List Bool :=
  [x.testBit 7, x.testBit 6, x.testBit 5, x.testBit 4, x.testBit 3, x.testBit 2, x.testBit 1]

/-- The buffer after `payload_byte_cb` has stored the bytes of a list from
position `idx` on. -/
def store_bytes : List Nat → Nat → List Nat → List Nat
  | buf, _, [] => buf
  | buf, idx, x :: xs => store_bytes (buf.set idx x) (idx + 1) xs

/-- The sixteen ring-buffer entries in the order `step_header` scans them:
cyclically from slot `index mod 16`, oldest first. -/
def ring_window (buf : List Nat) (index : Nat) : List Nat :=
  (List.range 16).map (fun i => buf.getD ((index + i) % 16) 0)

/-- The scan loop of `step_header` over a list of entries, `i` being the loop
counter of the first one: returns `(long_count, avg)`. -/
def scan_list : List Nat → Nat → Nat → Nat → Nat → Nat × Nat
  | [], _, _, long_count, avg => (long_count, avg)
  | val :: vs, i, total, long_count, avg =>
    if val = 255 then (long_count, avg)
    else if i < 8 then
      if i = 7 then scan_list vs (i + 1) ((total + val) % 65536) long_count
          ((total + val) % 65536 / 8)
      else scan_list vs (i + 1) ((total + val) % 65536) long_count avg
    else if avg > 0 then
      if approx_eq (val : Int) ((2 * avg : Nat) : Int) then
        scan_list vs (i + 1) total ((long_count + 1) % 65536) avg
      else scan_list vs (i + 1) total long_count avg
    else scan_list vs (i + 1) total long_count avg

/-- The samples from just after an edge to level `lvl` up to and including the
next edge, `g` samples later. -/
def gap_run (g : Nat) (lvl : Bool) : List Bool := List.replicate (g - 1) lvl ++ [!lvl]

/-- The decoder is in HEADER just after an edge to level `lvl`, with `m`
edges seen so far, window `w`, and every field `reset_decoder` sets still at
its reset value. -/
def hdr_state (d : spooky_decoder) (m B u : Nat) (w : List Nat) (lvl : Bool) : Prop :=
  ∃ buf, buf.length = B ∧ ring_window buf m = w
    ∧ d = ⟨m, B, RX_HEADER, 0, 0x80, 0, bool_val lvl, 0, 0, 0, 0, buf, u⟩

/-- The samples of a run of edges given by their gaps, starting just after an
edge to level `lvl`. -/
def gaps_stream : List Nat → Bool → List Bool
  | [], _ => []
  | g :: gs, lvl => gap_run g lvl ++ gaps_stream gs (!lvl)

/-- The level after `n` edges. -/
def flip_level (lvl : Bool) : Nat → Bool
  | 0 => lvl
  | n + 1 => flip_level (!lvl) n

/-- The samples the decoder gets for a run of half-cell levels, `s` samples per
half-cell, up to and including the first sample of the last half-cell. -/
def cells_stream (s : Nat) : List Bool → List Bool
  | [] => []
  | [l] => [l]
  | l :: l' :: ls => List.replicate s l ++ cells_stream s (l' :: ls)

/-- The half-cell levels of a run of bits: the complement of the bit, then the
bit (a `1` is low then high). -/
def pair_levels (bits : List Bool) : List Bool := bits.flatMap (fun b => [!b, b])

/-- The bits of a frame with payload `P`, in transmission order. -/
def frame_bits (P : List Nat) : List Bool :=
  byte_bits 0xFF ++ byte_bits 0x55 ++ byte_bits P.length ++ byte_bits (spec_chksum P)
    ++ P.flatMap byte_bits

/-- The line level after each of a list of encoder commands. -/
def line_trace : Bool → List spooky_encoder_step_res → List Bool
  | _, [] => []
  | bit, c :: cs => drive_line bit c :: line_trace (drive_line bit c) cs

/-- Is the result an edge command, `OK_LOW` or `OK_HIGH`? -/
def is_edge_command (c : spooky_encoder_step_res) : Bool :=
  decide (c = SPOOKY_ENCODER_STEP_OK_LOW ∨ c = SPOOKY_ENCODER_STEP_OK_HIGH)

/-- The edge commands among a list of step results, in order. -/
def edge_commands (l : List spooky_encoder_step_res) : List spooky_encoder_step_res :=
  l.filter is_edge_command

/-- The step results that come before the first `OK_DONE`. -/
def until_done (l : List spooky_encoder_step_res) : List spooky_encoder_step_res :=
  l.takeWhile (fun c => decide (c ≠ SPOOKY_ENCODER_STEP_OK_DONE))

/-- The results of the `r` steps of one cell at rate `r`: `r - 1` times `OK`,
then the command `c`. -/
def pad_cell (r : Nat) (c : spooky_encoder_step_res) : List spooky_encoder_step_res :=
  List.replicate (r - 1) SPOOKY_ENCODER_STEP_OK ++ [c]

/-- The sixteen ring-buffer slots hold bytes. -/
def ring_bytes (buf : List Nat) : Prop := ∀ i, i < 16 → buf.getD i 0 < 256

/-- The invariant of the decoder: the C types' ranges of the fields the proofs
need, the reset values of the assembler and of `interval` in HEADER, a positive
`interval` outside HEADER, and the length and index bounds of the data modes. -/
structure decoder_inv (d : spooky_decoder) : Prop where
  size_lo : 16 ≤ d.buffer_size
  size_hi : d.buffer_size ≤ 255
  ticks_lt : d.ticks < 256
  accum_lt : d.bit_accum < 256
  mask_lt : d.bit_index < 256
  ring : ring_bytes d.buffer
  header_fields : d.mode = RX_HEADER →
    d.interval = 0 ∧ d.pre_ticks = 0 ∧ d.bit_accum = 0 ∧ d.bit_index = 0x80
      ∧ d.payload_length = 0
  interval_pos : d.mode ≠ RX_HEADER → 0 < d.interval
  length_fields : d.mode = RX_LENGTH → d.payload_length = 0
  length_ok : d.mode = RX_CHKSUM ∨ d.mode = RX_PAYLOAD →
    1 ≤ d.payload_length ∧ d.payload_length ≤ d.buffer_size
  index_ok : d.mode = RX_PAYLOAD → d.index < d.payload_length

/-- The decoder states reachable from a successful `spooky_decoder_init` by a
sequence of `spooky_decoder_step` calls. -/
def decoder_reachable (d : spooky_decoder) : Prop :=
  ∃ (mem : spooky_decoder) (buf : List Nat) (bs udata : Nat) (d0 : spooky_decoder)
    (bits : List Bool),
    spooky_decoder_init (some mem) (some buf) bs (some ()) udata
        = (SPOOKY_DECODER_INIT_OK, some d0)
      ∧ (decoder_feed bits d0).1 = d

/-- The samples `expect_byte` feeds for one bit: `n` samples of the complement,
then `n` samples of the bit. -/
def expect_bit (n : Nat) (b : Bool) : List Bool :=
  List.replicate n (!b) ++ List.replicate n b

/-- The gaps between the edges of a run of Manchester bits with half-cell width
`h`, after the bit edge of the bit `prev`: a repeated bit gives two gaps of
`h`, a changed bit one gap of `2 * h`. -/
def bit_gaps (h : Nat) : Bool → List Bool → List Nat
  | _, [] => []
  | prev, b :: bs => (if b = prev then [h, h] else [2 * h]) ++ bit_gaps h b bs

/-- The decoder is in HEADER after each of the samples of a list. -/
def header_throughout : List Bool → spooky_decoder → Bool
  | [], _ => true
  | x :: xs, d =>
    decide ((spooky_decoder_step d x).2.1.mode = RX_HEADER)
      && header_throughout xs (spooky_decoder_step d x).2.1

/-- A window of ring-buffer entries as Manchester noise of half-cell width `h`
leaves it while the decoder stays in HEADER: either the sentinel is still in
it, followed only by gaps of `h` or `2 * h`, or every entry is such a gap. -/
def clean_window (h : Nat) (w : List Nat) : Prop :=
  w.length = 16
    ∧ ((∃ junk gs, w = junk ++ 255 :: gs ∧ ∀ x ∈ gs, x = h ∨ x = 2 * h)
        ∨ ∀ x ∈ w, x = h ∨ x = 2 * h)

/-- The calls of `sink_bit` for the bits of a list, one after the other: the
result and the decoder after each call. -/
def sink_trace : List Bool → spooky_decoder → List (Nat × spooky_decoder)
  | [], _ => []
  | b :: bs, d => sink_bit d b :: sink_trace bs (sink_bit d b).2

/-- A decoder in HEADER whose tick counter stands at 255, the level of the
line being the last one seen. -/
def full_ticks_decoder : spooky_decoder :=
  ⟨1, 32, RX_HEADER, 255, 0x80, 0, 1, 0, 0, 0, 0, 255 :: List.replicate 31 0, 0⟩

/-- A decoder in LENGTH with `interval = 2` on a line that has been quiet for
twenty samples. -/
def quiet_decoder : spooky_decoder :=
  ⟨3, 32, RX_LENGTH, 20, 0x80, 0, 1, 2, 0, 0x5A, 0, 255 :: List.replicate 31 7, 9⟩

/-- The decoder of the unit tests after the preamble `0xFF 0x55`, two samples
per half-cell, and three more samples of the last level: in LENGTH with
`interval = 2`, four ticks after the last edge. -/
def locked_quiet_decoder : spooky_decoder :=
  (decoder_feed ([0xFF, 0x55].flatMap (expect_byte 2) ++ List.replicate 3 true) test_decoder).1

/-- The decoder of the unit tests after the preamble, the length byte `0x01`
and the checksum byte `0xFE`, two samples per half-cell: in PAYLOAD, just
before the first half-cell of the first payload bit. -/
def payload_start_decoder : spooky_decoder :=
  (decoder_feed ([0xFF, 0x55, 0x01, 0xFE].flatMap (expect_byte 2)) test_decoder).1

/-- The sixteen ring-buffer entries after the step of `dec` with `bit`, oldest
first: cyclically from the slot after the one the step wrote. -/
def scanned_window (dec : spooky_decoder) (bit : Bool) : List Nat :=
  ring_window (spooky_decoder_step dec bit).2.1.buffer (spooky_decoder_step dec bit).2.1.index

/-- The average of the first eight entries of a window, rounded down. -/
def window_avg (w : List Nat) : Nat := (w.take 8).sum / 8

/-- The lock condition as the specification words it: no entry of the window
is the sentinel 255, the average of the first eight is positive, and each of
the last eight is approximately twice that average. -/
def window_locks (w : List Nat) : Prop :=
  (∀ x ∈ w, x ≠ 255) ∧ 0 < window_avg w
    ∧ ∀ x ∈ w.drop 8, approx_eq (x : Int) ((2 * window_avg w : Nat) : Int) = true

/-- The decoder of the unit tests after the first 62 samples of the preamble
`0xFF 0x55`, two samples per half-cell: one edge short of clock recovery. -/
def pre_lock_decoder : spooky_decoder :=
  (decoder_feed (([0xFF, 0x55].flatMap (expect_byte 2)).take 62) test_decoder).1

/-- One call of the encoder's interface on an initialised encoder:
`spooky_encoder_enqueue(enc, input, input_size)`, `spooky_encoder_clear(enc)`
or `spooky_encoder_step(enc)`. -/
inductive encoder_call where
  | call_enqueue (input : List Nat) (input_size : Nat)
  | call_clear
  | call_step
  deriving DecidableEq, Repr

open encoder_call

/-- The encoder after one call of its interface. -/
def encoder_apply (enc : spooky_encoder) : encoder_call → spooky_encoder
  | call_enqueue input input_size => (spooky_encoder_enqueue enc input input_size).2
  | call_clear => (spooky_encoder_clear enc).2
  | call_step => (spooky_encoder_step enc).2

/-- The encoder after a sequence of calls, in order. -/
def encoder_calls : List encoder_call → spooky_encoder → spooky_encoder
  | [], enc => enc
  | c :: cs, enc => encoder_calls cs (encoder_apply enc c)

/-- Every `spooky_encoder_enqueue` of the sequence either fails with
`ERROR_FULL` or succeeds with a non-empty payload (`input_size ≥ 1`); `clear`
and `step` calls are unrestricted. -/
def enqueues_full_or_nonempty : List encoder_call → spooky_encoder → Bool
  | [], _ => true
  | c :: cs, enc =>
    (match c with
      | call_enqueue input input_size =>
        decide ((spooky_encoder_enqueue enc input input_size).1
              = SPOOKY_ENCODER_ENQUEUE_ERROR_FULL
            ∨ ((spooky_encoder_enqueue enc input input_size).1 = SPOOKY_ENCODER_ENQUEUE_OK
                ∧ 1 ≤ input_size))
      | _ => true)
    && enqueues_full_or_nonempty cs (encoder_apply enc c)

/-- The index bound of each phase, with a non-empty payload outside IDLE. -/
def encoder_index_inv (e : spooky_encoder) : Prop :=
  ((e.mode = TX_SHARP ∨ e.mode = TX_LONG ∨ e.mode = TX_LENGTH ∨ e.mode = TX_CHKSUM) →
      e.index < 16)
    ∧ (e.mode = TX_PAYLOAD → e.index < 16 * e.input_size)
    ∧ (e.mode ≠ TX_NONE → 1 ≤ e.input_size)

/-- The encoder of the unit tests (`enc_setup`): 32-byte buffer, rate 1, fresh
`spooky_encoder_init`. -/
def test_encoder : spooky_encoder :=
  ((spooky_encoder_init (some enc_zero) (some (List.replicate 32 0)) 32 1).2).getD enc_zero

/-- The encoder of the unit tests after the enqueue of the unit test
`encoder_enqueue_should_reject_excessively_large_messages`: `BUF_SZ + 1 = 33`
bytes for a 32-byte buffer. -/
def oversize_enqueue : spooky_encoder_enqueue_res × spooky_encoder :=
  spooky_encoder_enqueue test_encoder ((List.range 33).map (fun i => i % 256)) 33

/-- The position of the caller's buffer that a step of `dec` writes, if it
writes at all: `buffer[dec->index]` in `payload_byte_cb`, and
`buf[dec->index & RING_BUF_MASK]` in `append_to_ring_buffer` otherwise. -/
def write_position (dec : spooky_decoder) : Nat :=
  if dec.mode = RX_PAYLOAD then dec.index else dec.index % 16

/-- The number of edges in a list of samples, `last` being the value of the
decoder's field `last` before the first one: a sample is an edge when it
differs from the one before. -/
def count_edges : List Bool → Nat → Nat
  | [], _ => 0
  | x :: xs, last => (if bool_val x ≠ last then 1 else 0) + count_edges xs (bool_val x)

/-- Samples with seventeen edges: a first sample, then eight edges two samples
apart and eight edges four samples apart. -/
def seventeen_edges : List Bool :=
  false :: gaps_stream (List.replicate 8 2 ++ List.replicate 8 4) false

/-- The edge commands (`OK_LOW` / `OK_HIGH`) the encoder emits for the frame
of payload `P`: those among the results of the first `M` steps after the
enqueue that come before the first `OK_DONE`. -/
def frame_commands (enc : spooky_encoder) (P : List Nat) (M : Nat) :
    List spooky_encoder_step_res :=
  edge_commands (until_done (encoder_trace M (spooky_encoder_enqueue enc P P.length).2))

/-- The decoder is not in PAYLOAD after any of the samples of a list. -/
def never_payload : List Bool → spooky_decoder → Bool
  | [], _ => true
  | x :: xs, d =>
    decide ((spooky_decoder_step d x).2.1.mode ≠ RX_PAYLOAD)
      && never_payload xs (spooky_decoder_step d x).2.1

/-- An interval `a` the header scan can lock on when the half-cell is `s`
samples wide: at least `s`, with `2 * s` within the tolerance of `2 * a`. -/
def good_interval (s a : Nat) : Prop := s ≤ a ∧ 2 * a ≤ 2 * s + (2 * a) / 4

/-- The gaps between the edges of one Manchester bit `b` after the bit edge of
`prev`: two of `s` for a repeated bit, one of `2 * s` for a changed one. -/
def one_bit_gaps (s : Nat) (prev b : Bool) : List Nat := if b = prev then [s, s] else [2 * s]

/-- The decoder just after a bit edge, as far as the noise argument needs it:
in HEADER; in LENGTH with `j` bits sunk, accumulator `acc` and interval `a`;
or in CHKSUM with `j` bits sunk and the length byte `L`. -/
inductive sync_kind where
  | hdr
  | len (j acc a : Nat)
  | chk (j acc a L : Nat)

/-- The decoder state a `sync_kind` stands for: just after a bit edge to level
`lvl`, with `index = m` and buffer `buf`, `ticks`, `pre_ticks` and `chksum` 0. -/
def sync_state (B u m : Nat) (buf : List Nat) (lvl : Bool) : sync_kind → spooky_decoder
  | sync_kind.hdr => ⟨m, B, RX_HEADER, 0, 0x80, 0, bool_val lvl, 0, 0, 0, 0, buf, u⟩
  | sync_kind.len j acc a =>
    ⟨m, B, RX_LENGTH, 0, 0x80 >>> j, acc, bool_val lvl, a, 0, 0, 0, buf, u⟩
  | sync_kind.chk j acc a L =>
    ⟨m, B, RX_CHKSUM, 0, 0x80 >>> j, acc, bool_val lvl, a, L, 0, 0, buf, u⟩

/-- The side conditions of a `sync_kind`: a good interval, fewer than eight
bits sunk, an empty accumulator before the first bit of the length byte. -/
def sync_ok (s : Nat) : sync_kind → Prop
  | sync_kind.hdr => True
  | sync_kind.len j acc a => good_interval s a ∧ j < 8 ∧ (j = 0 → acc = 0)
  | sync_kind.chk j _ a _ => good_interval s a ∧ j < 8

/-- The kind after one more bit `b`, `w` being the ring window with the gaps of
the bit pushed: HEADER locks when the window passes the scan, LENGTH and CHKSUM
sink the bit, a complete length byte is validated against `B`, and a complete
checksum byte leads to PAYLOAD (`none`). -/
def sync_next (B : Nat) (w : List Nat) (b : Bool) : sync_kind → Option sync_kind
  | sync_kind.hdr =>
    if (scan_list w 0 0 0 0).1 = 8 then some (sync_kind.len 0 0 (scan_list w 0 0 0 0).2)
    else some sync_kind.hdr
  | sync_kind.len j acc a =>
    if j < 7 then some (sync_kind.len (j + 1) (if b then acc ||| (0x80 >>> j) else acc) a)
    else if (if b then acc ||| 1 else acc) > B ∨ (if b then acc ||| 1 else acc) = 0 then
      some sync_kind.hdr
    else some (sync_kind.chk 0 0 a (if b then acc ||| 1 else acc))
  | sync_kind.chk j acc a L =>
    if j < 7 then some (sync_kind.chk (j + 1) (if b then acc ||| (0x80 >>> j) else acc) a L)
    else none

/-- The synchronised state after a run of bits, from the state `k` with window
`w` just after the bit edge of `prev`; `none` once PAYLOAD is reached. -/
def sync_run (B s : Nat) : List Nat → Bool → List Bool → sync_kind → Option sync_kind
  | _, _, [], k => some k
  | w, prev, b :: bs, k =>
    match sync_next B ((w ++ one_bit_gaps s prev b).drop (one_bit_gaps s prev b).length) b k with
    | none => none
    | some k' =>
      sync_run B s ((w ++ one_bit_gaps s prev b).drop (one_bit_gaps s prev b).length) b bs k'

/-- The synchronised state after a run of bits none of whose edges completes a
window that passes the clock-recovery scan. -/
def sync_run0 (B : Nat) : List Bool → sync_kind → Option sync_kind
  | [], k => some k
  | b :: bs, k =>
    match sync_next B [] b k with
    | none => none
    | some k' => sync_run0 B bs k'

/-- Feed `c` samples of level `x`, taking a run of samples that only advance
the tick counter of a decoder in HEADER in one stride: the decoder and the
callback invocations as `decoder_feed` gives them, and whether the decoder
stayed out of PAYLOAD as `never_payload` does. -/
def quiet_feed : Nat → Bool → spooky_decoder → (spooky_decoder × List cb_call) × Bool
  | 0, _, d => ((d, []), true)
  | c + 1, x, d =>
    if d.mode = RX_HEADER ∧ bool_val x = d.last ∧ d.ticks + (c + 1) < 256 then
      (({ d with ticks := d.ticks + (c + 1) }, []), true)
    else
      ((((quiet_feed c x (spooky_decoder_step d x).2.1).1).1,
          (spooky_decoder_step d x).2.2 ++ ((quiet_feed c x (spooky_decoder_step d x).2.1).1).2),
        decide ((spooky_decoder_step d x).2.1.mode ≠ RX_PAYLOAD)
          && (quiet_feed c x (spooky_decoder_step d x).2.1).2)

/-- Feed a list of runs, each `c` samples of one level, with `quiet_feed`. -/
def runs_feed : List (Nat × Bool) → spooky_decoder → (spooky_decoder × List cb_call) × Bool
  | [], d => ((d, []), true)
  | r :: rs, d =>
    ((((runs_feed rs ((quiet_feed r.1 r.2 d).1).1).1).1,
        ((quiet_feed r.1 r.2 d).1).2 ++ ((runs_feed rs ((quiet_feed r.1 r.2 d).1).1).1).2),
      (quiet_feed r.1 r.2 d).2 && (runs_feed rs ((quiet_feed r.1 r.2 d).1).1).2)

/-- The runs of samples `expect_byte` feeds for a list of bytes. -/
def byte_runs (n : Nat) (bytes : List Nat) : List (Nat × Bool) :=
  bytes.flatMap (fun b =>
    (List.range 8).flatMap (fun i => [(n, !(b.testBit (7 - i))), (n, b.testBit (7 - i))]))

/-! ## Encoder: bit and cell lemmas -/

theorem and_two_pow_ne_zero (x k : Nat) : x &&& (1 <<< k) ≠ 0 ↔ x.testBit k = true := by
  rw [Nat.one_shiftLeft]
  constructor
  · intro h
    by_contra hb
    apply h
    apply Nat.eq_of_testBit_eq
    intro i
    simp only [Nat.testBit_and, Nat.testBit_two_pow, Nat.zero_testBit]
    by_cases hk : k = i
    · subst hk; simp [hb]
    · simp [hk]
  · intro h h0
    have : (x &&& 2 ^ k).testBit k = true := by
      simp [Nat.testBit_and, Nat.testBit_two_pow_self, h]
    rw [h0] at this
    simp at this

theorem and_two_pow_lt (x k : Nat) (hk : k ≤ 7) : x &&& (1 <<< k) < 256 := by
  have h1 : x &&& (1 <<< k) ≤ 1 <<< k := Nat.and_le_right
  have h2 : (1 <<< k) ≤ 128 := by
    rw [Nat.one_shiftLeft]
    calc 2 ^ k ≤ 2 ^ 7 := Nat.pow_le_pow_right (by decide) hk
      _ = 128 := by norm_num
  omega

/-- `encode_bit` on a masked byte, by the parity of the cell index. -/
theorem encode_bit_mask (x k i : Nat) (hk : k ≤ 7) :
    encode_bit (x &&& (1 <<< k)) i =
      if i % 2 = 0 then
        (if x.testBit k then SPOOKY_ENCODER_STEP_OK_LOW else SPOOKY_ENCODER_STEP_OK_HIGH)
      else
        (if x.testBit k then SPOOKY_ENCODER_STEP_OK_HIGH else SPOOKY_ENCODER_STEP_OK_LOW) := by
  unfold encode_bit
  have h1 := and_two_pow_lt x k hk
  have h2 := and_two_pow_ne_zero x k
  rw [Nat.mod_eq_of_lt h1]
  have h3 : (i % 256 &&& 1) = i % 2 := by
    rw [Nat.and_one_is_mod]; omega
  rw [h3]
  by_cases hb : x.testBit k = true
  · have := h2.mpr hb
    simp [hb, this]
  · have : x &&& (1 <<< k) = 0 := by
      by_contra h; exact hb (h2.mp h)
    simp [hb, this]

theorem cell_out_eq (x i : Nat) :
    cell_out x i =
      if i % 2 = 0 then
        (if x.testBit (7 - (i % 16) / 2) then SPOOKY_ENCODER_STEP_OK_LOW
         else SPOOKY_ENCODER_STEP_OK_HIGH)
      else
        (if x.testBit (7 - (i % 16) / 2) then SPOOKY_ENCODER_STEP_OK_HIGH
         else SPOOKY_ENCODER_STEP_OK_LOW) :=
  encode_bit_mask x _ i (by omega)

theorem manchester_bit_eq (b : Bool) :
    manchester_bit b =
      [if b then SPOOKY_ENCODER_STEP_OK_LOW else SPOOKY_ENCODER_STEP_OK_HIGH,
       if b then SPOOKY_ENCODER_STEP_OK_HIGH else SPOOKY_ENCODER_STEP_OK_LOW] := by
  cases b <;> rfl

theorem cells_eq_manchester_byte (x : Nat) :
    (List.range' 0 16).map (cell_out x) = manchester_byte x := by
  have hr : List.range 8 = [0, 1, 2, 3, 4, 5, 6, 7] := by decide
  simp only [manchester_byte, hr, List.flatMap_cons, List.flatMap_nil, manchester_bit_eq,
    List.range', List.map, cell_out_eq]
  simp

theorem encoder_trace_add (a b : Nat) (e : spooky_encoder) :
    encoder_trace (a + b) e = encoder_trace a e ++ encoder_trace b (encoder_run a e) := by
  induction a generalizing e with
  | zero => simp [encoder_trace, encoder_run]
  | succ a ih =>
    rw [Nat.add_right_comm]
    simp [encoder_trace, encoder_run, ih]

theorem encoder_run_add (a b : Nat) (e : spooky_encoder) :
    encoder_run (a + b) e = encoder_run b (encoder_run a e) := by
  induction a generalizing e with
  | zero => simp [encoder_run]
  | succ a ih =>
    rw [Nat.add_right_comm]
    simp [encoder_run, ih]

/-- A run of cells: if `f i` is the encoder at cell `i` of a byte `x` and each
step emits the cell and moves on, `m` steps emit cells `j .. j+m`. -/
theorem trace_cells_from (x : Nat) (f : Nat → spooky_encoder) (base : Nat)
    (hstep : ∀ i, i < 16 → spooky_encoder_step (f i) = (cell_out x (base + i), f (i + 1)))
    (m j : Nat) (hj : j + m ≤ 16) :
    encoder_trace m (f j) = (List.range' j m).map (fun i => cell_out x (base + i))
      ∧ encoder_run m (f j) = f (j + m) := by
  induction m generalizing j with
  | zero => simp [encoder_trace, encoder_run]
  | succ m ih =>
    have hs := hstep j (by omega)
    have := ih (j + 1) (by omega)
    simp only [encoder_trace, encoder_run, hs, List.range', List.map]
    refine ⟨by rw [this.1], ?_⟩
    rw [this.2]; congr 1; omega

theorem cell_out_add (x b i : Nat) : cell_out x (16 * b + i) = cell_out x i := by
  unfold cell_out encode_bit
  have h1 : (16 * b + i) % 16 = i % 16 := by omega
  have h2 : ((16 * b + i) % 256 &&& 1) = (i % 256 &&& 1) := by
    rw [Nat.and_one_is_mod, Nat.and_one_is_mod]; omega
  rw [h1, h2]

theorem trace_byte (x : Nat) (f : Nat → spooky_encoder) (b : Nat)
    (hstep : ∀ i, i < 16 → spooky_encoder_step (f i) = (cell_out x (16 * b + i), f (i + 1))) :
    encoder_trace 16 (f 0) = manchester_byte x ∧ encoder_run 16 (f 0) = f 16 := by
  have := trace_cells_from x f (16 * b) hstep 16 0 (by omega)
  refine ⟨?_, by simpa using this.2⟩
  rw [this.1, ← cells_eq_manchester_byte]
  apply List.map_congr_left
  intro i _
  exact cell_out_add x b i

/-! ### Single steps at rate 1 -/

theorem enc_step_sharp (e : spooky_encoder) (hm : e.mode = TX_SHARP) (hr : e.tx_rate = 1)
    (hi : e.index < 16) :
    spooky_encoder_step e =
      (cell_out 0xFF e.index,
        if e.index + 1 = 16 then { e with ticks := 0, mode := TX_LONG, index := 0 }
        else { e with ticks := 0, index := e.index + 1 }) := by
  have hc : cell_out 0xFF e.index = encode_bit 0x01 e.index := by
    rw [cell_out_eq]
    have : Nat.testBit 255 (7 - e.index % 16 / 2) = true := by
      have := Nat.testBit_two_pow_sub_one 8 (7 - e.index % 16 / 2)
      simp only [show (2 : Nat) ^ 8 - 1 = 255 by norm_num] at this
      rw [this]; simp; omega
    rw [this]
    unfold encode_bit
    have h3 : (e.index % 256 &&& 1) = e.index % 2 := by
      rw [Nat.and_one_is_mod]; omega
    rw [h3]; simp
  have h1 : (e.index + 1) % 65536 = e.index + 1 := by omega
  unfold spooky_encoder_step
  simp only [hr, hm, Nat.mod_one, ne_eq, not_true_eq_false, if_false, h1, hc,
    HEADER_SHARP_TRANSITIONS]
  by_cases h : e.index + 1 = 16 <;> simp [h]

theorem enc_step_long (e : spooky_encoder) (hm : e.mode = TX_LONG) (hr : e.tx_rate = 1)
    (hi : e.index < 16) :
    spooky_encoder_step e =
      (cell_out 0x55 e.index,
        if e.index + 1 = 16 then { e with ticks := 0, mode := TX_LENGTH, index := 0 }
        else { e with ticks := 0, index := e.index + 1 }) := by
  have h1 : (e.index + 1) % 65536 = e.index + 1 := by omega
  have h2 : e.index % 16 = e.index := by omega
  unfold spooky_encoder_step cell_out
  simp only [hr, hm, Nat.mod_one, ne_eq, not_true_eq_false, if_false, h1, h2,
    HEADER_LONG_TRANSITIONS]
  by_cases h : e.index + 1 = 16 <;> simp [h]

theorem enc_step_length (e : spooky_encoder) (hm : e.mode = TX_LENGTH) (hr : e.tx_rate = 1)
    (hi : e.index < 16) :
    spooky_encoder_step e =
      (cell_out e.input_size e.index,
        if e.index + 1 = 16 then
          { e with ticks := 0, mode := TX_CHKSUM, index := 0,
                   chksum := calc_chksum e.buffer e.input_size }
        else { e with ticks := 0, index := e.index + 1 }) := by
  have h1 : (e.index + 1) % 65536 = e.index + 1 := by omega
  have h2 : e.index % 16 = e.index := by omega
  unfold spooky_encoder_step cell_out
  simp only [hr, hm, Nat.mod_one, ne_eq, not_true_eq_false, if_false, h1, h2]
  by_cases h : e.index + 1 = 16 <;> simp [h]

theorem enc_step_chksum (e : spooky_encoder) (hm : e.mode = TX_CHKSUM) (hr : e.tx_rate = 1)
    (hi : e.index < 16) :
    spooky_encoder_step e =
      (cell_out e.chksum e.index,
        if e.index + 1 = 16 then { e with ticks := 0, mode := TX_PAYLOAD, index := 0 }
        else { e with ticks := 0, index := e.index + 1 }) := by
  have h1 : (e.index + 1) % 65536 = e.index + 1 := by omega
  have h2 : e.index % 16 = e.index := by omega
  unfold spooky_encoder_step cell_out
  simp only [hr, hm, Nat.mod_one, ne_eq, not_true_eq_false, if_false, h1, h2]
  by_cases h : e.index + 1 = 16 <;> simp [h]

theorem enc_step_payload (e : spooky_encoder) (hm : e.mode = TX_PAYLOAD) (hr : e.tx_rate = 1)
    (hn : e.input_size ≤ 255) (hi : e.index < 16 * e.input_size) :
    spooky_encoder_step e =
      (cell_out (e.buffer.getD (e.index / 16) 0) e.index,
        if e.index + 1 = 16 * e.input_size then
          { e with ticks := 0, mode := TX_NONE, index := e.index + 1 }
        else { e with ticks := 0, index := e.index + 1 }) := by
  have h1 : (e.index + 1) % 65536 = e.index + 1 := by omega
  have h2 : e.index / 16 % 256 = e.index / 16 := by omega
  have h3 : 8 * 2 * e.input_size = 16 * e.input_size := by omega
  unfold spooky_encoder_step cell_out
  simp only [hr, hm, Nat.mod_one, ne_eq, not_true_eq_false, if_false, h1, h2, h3]
  by_cases h : e.index + 1 = 16 * e.input_size <;> simp [h]

theorem enc_step_none (e : spooky_encoder) (hm : e.mode = TX_NONE) (hr : e.tx_rate = 1) :
    spooky_encoder_step e = (SPOOKY_ENCODER_STEP_OK_DONE, { e with ticks := 0 }) := by
  unfold spooky_encoder_step
  simp only [hr, hm, Nat.mod_one, ne_eq, not_true_eq_false, if_false]

/-! ### The frame at rate 1 -/

theorem phase_sharp (bs n c : Nat) (B : List Nat) :
    encoder_trace 16 ⟨0, 1, bs, n, 0, TX_SHARP, c, B⟩ = manchester_byte 0xFF
      ∧ encoder_run 16 ⟨0, 1, bs, n, 0, TX_SHARP, c, B⟩ = ⟨0, 1, bs, n, 0, TX_LONG, c, B⟩ := by
  have := trace_byte 0xFF
    (fun i => if i < 16 then ⟨i, 1, bs, n, 0, TX_SHARP, c, B⟩ else ⟨0, 1, bs, n, 0, TX_LONG, c, B⟩) 0
    (by
      intro i hi
      have hc := cell_out_add 255 0 i
      simp only [Nat.mul_zero] at hc
      simp only [hi, if_true, Nat.mul_zero, hc]
      rw [enc_step_sharp _ rfl rfl (by simpa using hi)]
      by_cases h : i + 1 = 16
      · simp [h]
      · have : i + 1 < 16 := by omega
        simp [h, this])
  simpa using this

theorem phase_long (bs n c : Nat) (B : List Nat) :
    encoder_trace 16 ⟨0, 1, bs, n, 0, TX_LONG, c, B⟩ = manchester_byte 0x55
      ∧ encoder_run 16 ⟨0, 1, bs, n, 0, TX_LONG, c, B⟩ = ⟨0, 1, bs, n, 0, TX_LENGTH, c, B⟩ := by
  have := trace_byte 0x55
    (fun i => if i < 16 then ⟨i, 1, bs, n, 0, TX_LONG, c, B⟩ else ⟨0, 1, bs, n, 0, TX_LENGTH, c, B⟩) 0
    (by
      intro i hi
      have hc := cell_out_add 0x55 0 i
      simp only [Nat.mul_zero] at hc
      simp only [hi, if_true, Nat.mul_zero, hc]
      rw [enc_step_long _ rfl rfl (by simpa using hi)]
      by_cases h : i + 1 = 16
      · simp [h]
      · have : i + 1 < 16 := by omega
        simp [h, this])
  simpa using this

theorem phase_length (bs n c : Nat) (B : List Nat) :
    encoder_trace 16 ⟨0, 1, bs, n, 0, TX_LENGTH, c, B⟩ = manchester_byte n
      ∧ encoder_run 16 ⟨0, 1, bs, n, 0, TX_LENGTH, c, B⟩
          = ⟨0, 1, bs, n, 0, TX_CHKSUM, calc_chksum B n, B⟩ := by
  have := trace_byte n
    (fun i => if i < 16 then ⟨i, 1, bs, n, 0, TX_LENGTH, c, B⟩
              else ⟨0, 1, bs, n, 0, TX_CHKSUM, calc_chksum B n, B⟩) 0
    (by
      intro i hi
      have hc := cell_out_add n 0 i
      simp only [Nat.mul_zero] at hc
      simp only [hi, if_true, Nat.mul_zero, hc]
      rw [enc_step_length _ rfl rfl (by simpa using hi)]
      by_cases h : i + 1 = 16
      · simp [h]
      · have : i + 1 < 16 := by omega
        simp [h, this])
  simpa using this

theorem phase_chksum (bs n c : Nat) (B : List Nat) :
    encoder_trace 16 ⟨0, 1, bs, n, 0, TX_CHKSUM, c, B⟩ = manchester_byte c
      ∧ encoder_run 16 ⟨0, 1, bs, n, 0, TX_CHKSUM, c, B⟩ = ⟨0, 1, bs, n, 0, TX_PAYLOAD, c, B⟩ := by
  have := trace_byte c
    (fun i => if i < 16 then ⟨i, 1, bs, n, 0, TX_CHKSUM, c, B⟩
              else ⟨0, 1, bs, n, 0, TX_PAYLOAD, c, B⟩) 0
    (by
      intro i hi
      have hc := cell_out_add c 0 i
      simp only [Nat.mul_zero] at hc
      simp only [hi, if_true, Nat.mul_zero, hc]
      rw [enc_step_chksum _ rfl rfl (by simpa using hi)]
      by_cases h : i + 1 = 16
      · simp [h]
      · have : i + 1 < 16 := by omega
        simp [h, this])
  simpa using this

theorem phase_payload_byte (bs n c : Nat) (B : List Nat) (b : Nat) (hn : n ≤ 255) (hb : b < n) :
    encoder_trace 16 (pay_state bs n c B (16 * b)) = manchester_byte (B.getD b 0)
      ∧ encoder_run 16 (pay_state bs n c B (16 * b)) = pay_state bs n c B (16 * (b + 1)) := by
  have := trace_byte (B.getD b 0) (fun i => pay_state bs n c B (16 * b + i)) b
    (by
      intro i hi
      have hne : ¬ (16 * b + i = 16 * n) := by omega
      have hdiv : (16 * b + i) / 16 = b := by omega
      unfold pay_state
      simp only [hne, if_false]
      rw [enc_step_payload _ rfl rfl (by simpa using hn) (by simp; omega)]
      simp only [hdiv]
      rw [Nat.add_assoc]
      by_cases h : 16 * b + (i + 1) = 16 * n
      · simp [h]
      · simp [h])
  simpa [Nat.mul_add] using this

theorem phase_payload (bs n c : Nat) (B : List Nat) (hn : n ≤ 255) (m b : Nat) (hb : b + m ≤ n) :
    encoder_trace (16 * m) (pay_state bs n c B (16 * b))
        = (List.range' b m).flatMap (fun j => manchester_byte (B.getD j 0))
      ∧ encoder_run (16 * m) (pay_state bs n c B (16 * b)) = pay_state bs n c B (16 * (b + m)) := by
  induction m generalizing b with
  | zero => simp [encoder_trace, encoder_run]
  | succ m ih =>
    have h1 := phase_payload_byte bs n c B b hn (by omega)
    have h2 := ih (b + 1) (by omega)
    have e : 16 * (m + 1) = 16 + 16 * m := by omega
    rw [e, encoder_trace_add, encoder_run_add, h1.1, h1.2, h2.1, h2.2]
    refine ⟨by simp [List.range'], ?_⟩
    congr 1; omega

/-! ### The tick divider -/

theorem gate_hold (e : spooky_encoder) (h : e.ticks + 1 < e.tx_rate) (hr : e.tx_rate ≤ 256) :
    spooky_encoder_step e = (SPOOKY_ENCODER_STEP_OK, { e with ticks := e.ticks + 1 }) := by
  have h1 : (e.ticks + 1) % 256 = e.ticks + 1 := by omega
  have h2 : (e.ticks + 1) % e.tx_rate ≠ 0 := by
    rw [Nat.mod_eq_of_lt h]; omega
  unfold spooky_encoder_step
  simp only [h1, h2, ne_eq, not_false_eq_true, if_true]

theorem gate_fire (e : spooky_encoder) (h : e.ticks + 1 = e.tx_rate) (hr : e.tx_rate ≤ 255) :
    spooky_encoder_step e =
      ((spooky_encoder_step { e with tx_rate := 1, ticks := 0 }).1,
        { (spooky_encoder_step { e with tx_rate := 1, ticks := 0 }).2 with
            tx_rate := e.tx_rate }) := by
  have h1 : (e.ticks + 1) % 256 = e.ticks + 1 := by omega
  have h2 : (e.ticks + 1) % e.tx_rate = 0 := by
    rw [h]; exact Nat.mod_self _
  obtain ⟨index, tx_rate, bs, n, ticks, mode, c, B⟩ := e
  simp only at h h1 h2 hr
  unfold spooky_encoder_step
  simp only [h1, h2, ne_eq, not_true_eq_false, if_false, Nat.mod_one]
  cases mode <;> simp only [] <;> split_ifs <;> rfl

theorem step_tx_rate (e : spooky_encoder) : (spooky_encoder_step e).2.tx_rate = e.tx_rate := by
  obtain ⟨index, tx_rate, bs, n, ticks, mode, c, B⟩ := e
  unfold spooky_encoder_step
  cases mode <;> simp only [] <;> split_ifs <;> rfl

theorem step_ticks_rate_one (e : spooky_encoder) (h : e.tx_rate = 1) :
    (spooky_encoder_step e).2.ticks = 0 := by
  obtain ⟨index, tx_rate, bs, n, ticks, mode, c, B⟩ := e
  simp only at h
  unfold spooky_encoder_step
  simp only [h, Nat.mod_one, ne_eq, not_true_eq_false, if_false]
  cases mode <;> simp only [] <;> split_ifs <;> rfl

theorem run_tx_rate (n : Nat) (e : spooky_encoder) : (encoder_run n e).tx_rate = e.tx_rate := by
  induction n generalizing e with
  | zero => rfl
  | succ n ih => simp [encoder_run, ih, step_tx_rate]

theorem run_ticks_rate_one (n : Nat) (e : spooky_encoder) (h : e.tx_rate = 1) (ht : e.ticks = 0) :
    (encoder_run n e).ticks = 0 := by
  induction n generalizing e with
  | zero => exact ht
  | succ n ih =>
    simp only [encoder_run]
    exact ih _ (by rw [step_tx_rate, h]) (step_ticks_rate_one e h)

theorem encoder_run_succ_right (n : Nat) (e : spooky_encoder) :
    encoder_run (n + 1) e = (spooky_encoder_step (encoder_run n e)).2 := by
  induction n generalizing e with
  | zero => rfl
  | succ n ih => simp only [encoder_run] at ih ⊢; rw [ih]

theorem encoder_trace_succ_right (n : Nat) (e : spooky_encoder) :
    encoder_trace (n + 1) e = encoder_trace n e ++ [(spooky_encoder_step (encoder_run n e)).1] := by
  induction n generalizing e with
  | zero => rfl
  | succ n ih =>
    rw [encoder_trace, ih]
    simp [encoder_trace, encoder_run]

/-- Holding: `c < r` steps of the rate-`r` encoder only count ticks. -/
theorem run_hold (r : Nat) (hr : r ≤ 255) (e : spooky_encoder) (c : Nat) (hc : c < r) :
    encoder_run c { e with tx_rate := r, ticks := 0 } = { e with tx_rate := r, ticks := c }
      ∧ encoder_trace c { e with tx_rate := r, ticks := 0 }
          = List.replicate c SPOOKY_ENCODER_STEP_OK := by
  induction c with
  | zero => simp [encoder_run, encoder_trace]
  | succ c ih =>
    have ih := ih (by omega)
    rw [encoder_run_succ_right, encoder_trace_succ_right, ih.1, ih.2]
    rw [gate_hold _ (by simpa using hc) (by simp; omega)]
    simp [List.replicate_succ']

/-! ### The whole frame at rate 1 -/

theorem frame_rate_one (bs n c : Nat) (B : List Nat) (hn1 : 1 ≤ n) (hn : n ≤ 255) :
    encoder_trace (64 + 16 * n) ⟨0, 1, bs, n, 0, TX_SHARP, c, B⟩
        = manchester_byte 0xFF ++ manchester_byte 0x55 ++ manchester_byte n
            ++ manchester_byte (calc_chksum B n)
            ++ (List.range' 0 n).flatMap (fun j => manchester_byte (B.getD j 0))
      ∧ encoder_run (64 + 16 * n) ⟨0, 1, bs, n, 0, TX_SHARP, c, B⟩
        = ⟨16 * n, 1, bs, n, 0, TX_NONE, calc_chksum B n, B⟩ := by
  have e : 64 + 16 * n = 16 + (16 + (16 + (16 + 16 * n))) := by omega
  have hp := phase_payload bs n (calc_chksum B n) B hn n 0 (by omega)
  have hp0 : pay_state bs n (calc_chksum B n) B (16 * 0)
      = ⟨0, 1, bs, n, 0, TX_PAYLOAD, calc_chksum B n, B⟩ := by
    have : ¬ (0 = 16 * n) := by omega
    simp [pay_state, this]
  have hpn : pay_state bs n (calc_chksum B n) B (16 * (0 + n))
      = ⟨16 * n, 1, bs, n, 0, TX_NONE, calc_chksum B n, B⟩ := by
    simp [pay_state]
  rw [hp0, hpn] at hp
  rw [e]
  simp only [encoder_trace_add, encoder_run_add, (phase_sharp bs n c B).1,
    (phase_sharp bs n c B).2, (phase_long bs n c B).1, (phase_long bs n c B).2,
    (phase_length bs n c B).1, (phase_length bs n c B).2,
    (phase_chksum bs n (calc_chksum B n) B).1, (phase_chksum bs n (calc_chksum B n) B).2,
    hp.1, hp.2, List.append_assoc, and_self]

/-! ### `memcpy`, the checksum and the start state -/

theorem memcpy_length (dst src : List Nat) (n : Nat) : (memcpy dst src n).length = dst.length := by
  induction dst generalizing src n with
  | nil => cases src <;> cases n <;> simp [memcpy]
  | cons d ds ih =>
    cases src with
    | nil => cases n <;> simp [memcpy]
    | cons s ss =>
      cases n with
      | zero => simp [memcpy]
      | succ n => simp [memcpy, ih]

theorem memcpy_getD (dst src : List Nat) (n i : Nat) (hi : i < n) (hs : n ≤ src.length)
    (hd : n ≤ dst.length) : (memcpy dst src n).getD i 0 = src.getD i 0 := by
  induction dst generalizing src n i with
  | nil => simp at hd; omega
  | cons d ds ih =>
    cases src with
    | nil => simp at hs; omega
    | cons s ss =>
      cases n with
      | zero => omega
      | succ n =>
        cases i with
        | zero => simp [memcpy]
        | succ i =>
          simp only [memcpy, List.getD_cons_succ]
          exact ih ss n i (by omega) (by simpa using hs) (by simpa using hd)

theorem memcpy_prefix (dst P : List Nat) (hd : P.length ≤ dst.length) :
    (List.range' 0 P.length).map (fun j => (memcpy dst P P.length).getD j 0) = P := by
  apply List.ext_getElem
  · simp
  · intro i h1 h2
    simp only [List.getElem_map, List.getElem_range', Nat.zero_add, Nat.one_mul]
    rw [memcpy_getD dst P P.length i h2 (le_refl _) hd]
    simp [List.getD_eq_getElem?_getD, h2]

theorem chksum_fold (B : List Nat) (n : Nat) :
    (List.range n).foldl (fun res i => (res + B.getD i 0) % 256) 0
      = ((List.range n).map (fun j => B.getD j 0)).sum % 256 := by
  induction n with
  | zero => simp
  | succ n ih =>
    rw [List.range_succ, List.foldl_append, List.map_append, List.sum_append, ih]
    simp [Nat.add_mod]

theorem calc_chksum_eq (B : List Nat) (n : Nat) :
    calc_chksum B n = 255 - ((List.range' 0 n).map (fun j => B.getD j 0)).sum % 256 := by
  unfold calc_chksum
  rw [chksum_fold, List.range_eq_range']

theorem encoder_start_eq (e0 : spooky_encoder) (buf : List Nat) (bs r : Nat) (input : List Nat)
    (n : Nat) (hbs : bs ≠ 0) (hr : r ≠ 0) (hn : n ≤ bs) :
    encoder_start e0 buf bs r input n
      = some ⟨0, r, bs, n, 0, TX_SHARP, 0, memcpy buf input n⟩ := by
  have : ¬ n > bs := by omega
  simp [encoder_start, spooky_encoder_init, spooky_encoder_enqueue, hbs, hr, this]

/-- C1. Encoder wire format: for every payload `P` of `n` bytes with
`1 ≤ n ≤ buffer_size`, after `spooky_encoder_init` with `tx_rate = 1` and a
successful `spooky_encoder_enqueue(P)` (both succeed), the first `64 + 16 n`
results of `spooky_encoder_step` are the Manchester codings of `0xFF`, `0x55`,
`n`, the sum-and-invert checksum of `P` and the bytes of `P`, and the next
step returns `OK_DONE`. -/
theorem encoder_wire_format (e0 : spooky_encoder) (buf : List Nat) (bs : Nat) (P : List Nat)
    (h1 : 1 ≤ P.length) (h2 : P.length ≤ bs) (h3 : bs ≤ 255) (h4 : bs ≤ buf.length) :
    ∃ enc, encoder_start e0 buf bs 1 P P.length = some enc
      ∧ encoder_trace (64 + 16 * P.length) enc = wire_frame P
      ∧ (spooky_encoder_step (encoder_run (64 + 16 * P.length) enc)).1
          = SPOOKY_ENCODER_STEP_OK_DONE := by
  refine ⟨_, encoder_start_eq e0 buf bs 1 P P.length (by omega) (by omega) h2, ?_, ?_⟩
  · have hf := (frame_rate_one bs P.length 0 (memcpy buf P P.length) h1 (by omega)).1
    rw [hf, calc_chksum_eq, memcpy_prefix buf P (by omega)]
    have : (List.range' 0 P.length).flatMap
        (fun j => manchester_byte ((memcpy buf P P.length).getD j 0)) = P.flatMap manchester_byte := by
      conv_rhs => rw [← memcpy_prefix buf P (by omega : P.length ≤ buf.length)]
      rw [List.flatMap_map]
    rw [this]
    rfl
  · have hf := (frame_rate_one bs P.length 0 (memcpy buf P P.length) h1 (by omega)).2
    rw [hf, enc_step_none _ rfl rfl]

/-! ### The tick divider over whole runs -/

theorem run_hold_from (e : spooky_encoder) (c : Nat) (h : e.ticks + c < e.tx_rate)
    (hr : e.tx_rate ≤ 256) :
    encoder_run c e = { e with ticks := e.ticks + c }
      ∧ encoder_trace c e = List.replicate c SPOOKY_ENCODER_STEP_OK := by
  induction c with
  | zero => simp [encoder_run, encoder_trace]
  | succ c ih =>
    have ih := ih (by omega)
    rw [encoder_run_succ_right, encoder_trace_succ_right, ih.1, ih.2]
    rw [gate_hold _ (by simp; omega) (by simpa using hr)]
    simp [List.replicate_succ', Nat.add_assoc]

theorem run_cell (r : Nat) (hr1 : 1 ≤ r) (hr : r ≤ 255) (e : spooky_encoder)
    (h1 : e.tx_rate = 1) (ht : e.ticks = 0) :
    encoder_run r { e with tx_rate := r } = { (spooky_encoder_step e).2 with tx_rate := r } := by
  obtain ⟨r', rfl⟩ : ∃ r', r = r' + 1 := ⟨r - 1, by omega⟩
  have hh := (run_hold (r' + 1) hr e r' (by omega)).1
  have e0 : ({ e with tx_rate := r' + 1, ticks := 0 } : spooky_encoder)
      = { e with tx_rate := r' + 1 } := by
    cases e; simp_all
  rw [e0] at hh
  rw [encoder_run_succ_right, hh, gate_fire _ (by simp) (by simpa using hr)]
  have e1 : ({ e with tx_rate := 1, ticks := 0 } : spooky_encoder) = e := by
    cases e; simp_all
  simp only [e1]

theorem run_cells (r : Nat) (hr1 : 1 ≤ r) (hr : r ≤ 255) (k : Nat) (e : spooky_encoder)
    (h1 : e.tx_rate = 1) (ht : e.ticks = 0) :
    encoder_run (k * r) { e with tx_rate := r } = { encoder_run k e with tx_rate := r } := by
  induction k generalizing e with
  | zero => simp [encoder_run]
  | succ k ih =>
    have e2 : (k + 1) * r = r + k * r := by rw [Nat.succ_mul]; omega
    rw [e2, encoder_run_add, run_cell r hr1 hr e h1 ht,
      ih _ (by rw [step_tx_rate, h1]) (step_ticks_rate_one e h1)]
    rfl

/-- The `j`-th result at rate `r` in terms of the results at rate 1. -/
theorem encoder_result_rate (r : Nat) (hr1 : 1 ≤ r) (hr : r ≤ 255) (e : spooky_encoder)
    (h1 : e.tx_rate = 1) (ht : e.ticks = 0) (j : Nat) (hj : 1 ≤ j) :
    encoder_result { e with tx_rate := r } j
      = if j % r = 0 then encoder_result e (j / r) else SPOOKY_ENCODER_STEP_OK := by
  have hdm := Nat.div_add_mod (j - 1) r
  have hc : (j - 1) % r < r := Nat.mod_lt _ (by omega)
  generalize hq : (j - 1) / r = q at hdm
  generalize hcc : (j - 1) % r = c at hdm hc
  have hj' : j = q * r + c + 1 := by rw [Nat.mul_comm]; omega
  have hrun : encoder_run (j - 1) { e with tx_rate := r }
      = { encoder_run q e with tx_rate := r, ticks := c } := by
    have : j - 1 = q * r + c := by omega
    rw [this, encoder_run_add, run_cells r hr1 hr q e h1 ht]
    have hz := run_ticks_rate_one q e h1 ht
    have := (run_hold_from { encoder_run q e with tx_rate := r } c (by simp [hz]; omega)
      (by simp; omega)).1
    rw [this]; simp [hz]
  unfold encoder_result
  rw [hrun]
  by_cases hlast : c + 1 = r
  · have hmod : j % r = 0 := by
      rw [hj']
      have : q * r + c + 1 = (q + 1) * r := by rw [Nat.succ_mul]; omega
      rw [this]; exact Nat.mul_mod_left _ _
    have hdiv : j / r = q + 1 := by
      rw [hj']
      have : q * r + c + 1 = (q + 1) * r := by rw [Nat.succ_mul]; omega
      rw [this]; exact Nat.mul_div_cancel _ (by omega)
    rw [gate_fire _ (by simpa using hlast) (by simpa using hr)]
    simp only [hmod, if_true, hdiv, Nat.add_sub_cancel]
    have e1 : ({ encoder_run q e with tx_rate := 1, ticks := 0 } : spooky_encoder)
        = encoder_run q e := by
      have hz := run_ticks_rate_one q e h1 ht
      have hz1 : (encoder_run q e).tx_rate = 1 := by rw [run_tx_rate, h1]
      cases hh : encoder_run q e; simp_all
    simp only [e1]
  · have hmod : j % r ≠ 0 := by
      rw [hj']
      have : (q * r + c + 1) % r = c + 1 := by
        rw [Nat.add_assoc, Nat.mul_add_mod_of_lt (by omega)]
      omega
    rw [gate_hold _ (by simp; omega) (by simp; omega)]
    simp [hmod]

theorem encoder_start_some (e0 : spooky_encoder) (buf : List Nat) (bs r : Nat) (input : List Nat)
    (n : Nat) (er : spooky_encoder) (h : encoder_start e0 buf bs r input n = some er) :
    bs ≠ 0 ∧ r ≠ 0 ∧ n ≤ bs ∧ er = ⟨0, r, bs, n, 0, TX_SHARP, 0, memcpy buf input n⟩ := by
  by_cases hbs : bs = 0
  · simp [encoder_start, spooky_encoder_init, hbs] at h
  by_cases hr : r = 0
  · simp [encoder_start, spooky_encoder_init, hr] at h
  by_cases hn : n ≤ bs
  · rw [encoder_start_eq e0 buf bs r input n hbs hr hn] at h
    exact ⟨hbs, hr, hn, (Option.some.inj h).symm⟩
  · have : n > bs := by omega
    simp [encoder_start, spooky_encoder_init, spooky_encoder_enqueue, hbs, hr, this] at h

/-- C6. `tx_rate` division: for every `tx_rate` `r ≥ 1` and every payload,
starting from `init` followed by a successful `enqueue`, the `j`-th call of
`spooky_encoder_step` returns `OK` whenever `j` is not a multiple of `r`, and
the `(k*r)`-th call returns exactly what the `k`-th call returns for the same
payload with `tx_rate = 1`. -/
theorem tx_rate_division (e0 : spooky_encoder) (buf : List Nat) (bs r : Nat) (input : List Nat)
    (n : Nat) (er e1 : spooky_encoder) (hr1 : 1 ≤ r) (hr : r ≤ 255)
    (hsr : encoder_start e0 buf bs r input n = some er)
    (hs1 : encoder_start e0 buf bs 1 input n = some e1) :
    (∀ j, 1 ≤ j → j % r ≠ 0 → encoder_result er j = SPOOKY_ENCODER_STEP_OK)
      ∧ (∀ k, 1 ≤ k → encoder_result er (k * r) = encoder_result e1 k) := by
  obtain ⟨_, _, _, rfl⟩ := encoder_start_some _ _ _ _ _ _ _ hsr
  obtain ⟨_, _, _, rfl⟩ := encoder_start_some _ _ _ _ _ _ _ hs1
  have key := encoder_result_rate r hr1 hr
    ⟨0, 1, bs, n, 0, TX_SHARP, 0, memcpy buf input n⟩ rfl rfl
  constructor
  · intro j hj hne
    have := key j hj
    simp only [hne, if_false] at this
    exact this
  · intro k hk
    have hpos : 1 ≤ k * r := Nat.mul_pos (by omega) (by omega)
    have := key (k * r) hpos
    simp only [Nat.mul_mod_left, if_true, Nat.mul_div_cancel _ (by omega : 0 < r)] at this
    exact this

/-- Witness of C1 at the payload `{0xaa, 0x00}` of the unit test, buffer of 32
bytes. -/
theorem encoder_wire_format_witness :
    (1 ≤ [0xaa, 0x00].length ∧ [0xaa, 0x00].length ≤ 32 ∧ 32 ≤ 255
        ∧ 32 ≤ (List.replicate 32 0).length)
      ∧ ∃ enc, encoder_start enc_zero (List.replicate 32 0) 32 1 [0xaa, 0x00] [0xaa, 0x00].length
            = some enc
          ∧ encoder_trace (64 + 16 * [0xaa, 0x00].length) enc = wire_frame [0xaa, 0x00]
          ∧ (spooky_encoder_step (encoder_run (64 + 16 * [0xaa, 0x00].length) enc)).1
              = SPOOKY_ENCODER_STEP_OK_DONE :=
  ⟨⟨by decide, by decide, by decide, by decide⟩,
    encoder_wire_format enc_zero (List.replicate 32 0) 32 [0xaa, 0x00]
      (by decide) (by decide) (by decide) (by decide)⟩

/-- Witness of C6 at rate 10 and the payload `{0xaa, 0x00}` of the unit test. -/
theorem tx_rate_division_witness :
    (1 ≤ 10 ∧ 10 ≤ 255
        ∧ encoder_start enc_zero (List.replicate 32 0) 32 10 [0xaa, 0x00] 2
            = some ⟨0, 10, 32, 2, 0, TX_SHARP, 0, 0xaa :: 0x00 :: List.replicate 30 0⟩
        ∧ encoder_start enc_zero (List.replicate 32 0) 32 1 [0xaa, 0x00] 2
            = some ⟨0, 1, 32, 2, 0, TX_SHARP, 0, 0xaa :: 0x00 :: List.replicate 30 0⟩)
      ∧ ((∀ j, 1 ≤ j → j % 10 ≠ 0 →
            encoder_result ⟨0, 10, 32, 2, 0, TX_SHARP, 0, 0xaa :: 0x00 :: List.replicate 30 0⟩ j
              = SPOOKY_ENCODER_STEP_OK)
          ∧ (∀ k, 1 ≤ k →
            encoder_result ⟨0, 10, 32, 2, 0, TX_SHARP, 0, 0xaa :: 0x00 :: List.replicate 30 0⟩
                (k * 10)
              = encoder_result ⟨0, 1, 32, 2, 0, TX_SHARP, 0, 0xaa :: 0x00 :: List.replicate 30 0⟩
                  k)) :=
  ⟨⟨by decide, by decide, by decide, by decide⟩,
    tx_rate_division enc_zero (List.replicate 32 0) 32 10 [0xaa, 0x00] 2 _ _
      (by decide) (by decide) (by decide) (by decide)⟩

/-- C7. `spooky_encoder_enqueue` result codes: `ERROR_FULL` if and only if the
encoder is not IDLE (whatever the size); otherwise `ERROR_SIZE` if and only if
`input_size > buffer_size`; otherwise `OK`. -/
theorem enqueue_result_codes (enc : spooky_encoder) (input : List Nat) (input_size : Nat) :
    ((spooky_encoder_enqueue enc input input_size).1 = SPOOKY_ENCODER_ENQUEUE_ERROR_FULL
        ↔ enc.mode ≠ TX_NONE)
      ∧ (enc.mode = TX_NONE →
          ((spooky_encoder_enqueue enc input input_size).1 = SPOOKY_ENCODER_ENQUEUE_ERROR_SIZE
            ↔ input_size > enc.buffer_size))
      ∧ (enc.mode = TX_NONE → ¬ input_size > enc.buffer_size →
          (spooky_encoder_enqueue enc input input_size).1 = SPOOKY_ENCODER_ENQUEUE_OK) := by
  unfold spooky_encoder_enqueue
  by_cases hm : enc.mode = TX_NONE <;> by_cases hs : input_size > enc.buffer_size <;>
    simp [hm, hs]

/-- C9. `spooky_encoder_clear` on any encoder returns `OK` and leaves the
encoder IDLE (nothing else changes), so that an immediately following enqueue
with `input_size ≤ buffer_size` returns `OK`, also when a frame was in flight,
where enqueue without the clear returns `ERROR_FULL`. -/
theorem clear_then_enqueue (enc : spooky_encoder) :
    (spooky_encoder_clear enc).1 = SPOOKY_ENCODER_CLEAR_OK
      ∧ (spooky_encoder_clear enc).2 = { enc with mode := TX_NONE }
      ∧ (∀ (input : List Nat) (input_size : Nat), input_size ≤ enc.buffer_size →
          (spooky_encoder_enqueue (spooky_encoder_clear enc).2 input input_size).1
            = SPOOKY_ENCODER_ENQUEUE_OK)
      ∧ (enc.mode ≠ TX_NONE → ∀ (input : List Nat) (input_size : Nat),
          (spooky_encoder_enqueue enc input input_size).1
            = SPOOKY_ENCODER_ENQUEUE_ERROR_FULL) := by
  have hc : (spooky_encoder_clear enc).2 = { enc with mode := TX_NONE } := by
    unfold spooky_encoder_clear
    by_cases hm : enc.mode = TX_NONE
    · cases enc; simp_all
    · simp [hm]
  refine ⟨?_, hc, ?_, ?_⟩
  · unfold spooky_encoder_clear; split_ifs <;> rfl
  · intro input input_size h
    rw [hc]
    have : ¬ input_size > enc.buffer_size := by omega
    simp [spooky_encoder_enqueue, this]
  · intro hm input input_size
    simp [spooky_encoder_enqueue, hm]

theorem enqueue_ok_iff (enc : spooky_encoder) (input : List Nat) (n : Nat) :
    (spooky_encoder_enqueue enc input n).1 = SPOOKY_ENCODER_ENQUEUE_OK
      ↔ enc.mode = TX_NONE ∧ n ≤ enc.buffer_size := by
  unfold spooky_encoder_enqueue
  by_cases hm : enc.mode = TX_NONE <;> by_cases hs : n > enc.buffer_size <;>
    simp [hm, hs]
  all_goals omega

theorem enqueue_ok_state (enc : spooky_encoder) (input : List Nat) (n : Nat)
    (hm : enc.mode = TX_NONE) (hn : n ≤ enc.buffer_size) :
    (spooky_encoder_enqueue enc input n).2
      = { enc with mode := TX_SHARP, buffer := memcpy enc.buffer input n,
                   input_size := n, index := 0 } := by
  have : ¬ n > enc.buffer_size := by omega
  simp [spooky_encoder_enqueue, hm, this]

/-- The first edge command after an enqueue: the divider holds until `ticks`
reaches `tx_rate`, then the first cell of the preamble (low) is emitted. -/
theorem first_edge_after (e : spooky_encoder) (hm : e.mode = TX_SHARP) (hi : e.index = 0)
    (ht : e.ticks < e.tx_rate) (hr : e.tx_rate ≤ 255) :
    encoder_trace (e.tx_rate - e.ticks) e
      = List.replicate (e.tx_rate - e.ticks - 1) SPOOKY_ENCODER_STEP_OK
          ++ [SPOOKY_ENCODER_STEP_OK_LOW] := by
  have hsplit : e.tx_rate - e.ticks = (e.tx_rate - e.ticks - 1) + 1 := by omega
  have hh := run_hold_from e (e.tx_rate - e.ticks - 1) (by omega) (by omega)
  rw [hsplit, encoder_trace_succ_right, Nat.add_sub_cancel, hh.1, hh.2]
  rw [gate_fire _ (by simp; omega) (by simpa using hr)]
  rw [enc_step_sharp _ (by simpa using hm) rfl (by simp [hi])]
  simp only [hi, cell_out_eq]
  have : Nat.testBit 255 (7 - 0 % 16 / 2) = true := by decide
  simp [this]

/-- C8 (amended). Successful enqueue postcondition: whenever
`spooky_encoder_enqueue` returns `OK`, the first `input_size` bytes of the
encoder buffer equal the input, the stored `input_size` equals the argument,
mode is PREAMBLE_FAST and `index = 0`; `ticks` (like `tx_rate` and
`buffer_size`) is left as it was, so the first edge command comes
`tx_rate - ticks` steps later, which is `tx_rate` steps when `ticks = 0`. -/
theorem enqueue_ok_postcondition (enc : spooky_encoder) (input : List Nat) (n : Nat)
    (hok : (spooky_encoder_enqueue enc input n).1 = SPOOKY_ENCODER_ENQUEUE_OK)
    (hin : n ≤ input.length) (hbuf : enc.buffer_size ≤ enc.buffer.length) :
    (∀ i, i < n → (spooky_encoder_enqueue enc input n).2.buffer.getD i 0 = input.getD i 0)
      ∧ (spooky_encoder_enqueue enc input n).2.input_size = n
      ∧ (spooky_encoder_enqueue enc input n).2.mode = TX_SHARP
      ∧ (spooky_encoder_enqueue enc input n).2.index = 0
      ∧ (spooky_encoder_enqueue enc input n).2.ticks = enc.ticks
      ∧ (spooky_encoder_enqueue enc input n).2.tx_rate = enc.tx_rate
      ∧ (spooky_encoder_enqueue enc input n).2.buffer_size = enc.buffer_size
      ∧ (enc.ticks < enc.tx_rate → enc.tx_rate ≤ 255 →
          encoder_trace (enc.tx_rate - enc.ticks) (spooky_encoder_enqueue enc input n).2
            = List.replicate (enc.tx_rate - enc.ticks - 1) SPOOKY_ENCODER_STEP_OK
                ++ [SPOOKY_ENCODER_STEP_OK_LOW]) := by
  obtain ⟨hm, hn⟩ := (enqueue_ok_iff enc input n).mp hok
  rw [enqueue_ok_state enc input n hm hn]
  refine ⟨?_, rfl, rfl, rfl, rfl, rfl, rfl, ?_⟩
  · intro i hi
    exact memcpy_getD enc.buffer input n i hi hin (by omega)
  · intro ht hr
    exact first_edge_after
      { enc with mode := TX_SHARP, buffer := memcpy enc.buffer input n,
                 input_size := n, index := 0 } rfl rfl ht hr

/-- Witness of C8 (amended): a two-byte payload enqueued on an idle encoder of
rate 3 whose divider stands at 1. -/
theorem enqueue_ok_postcondition_witness :
    ((spooky_encoder_enqueue ⟨0, 3, 4, 0, 1, TX_NONE, 0, [9, 9, 9, 9]⟩ [1, 2] 2).1
          = SPOOKY_ENCODER_ENQUEUE_OK
        ∧ 2 ≤ [1, 2].length ∧ 4 ≤ [9, 9, 9, 9].length)
      ∧ (spooky_encoder_enqueue ⟨0, 3, 4, 0, 1, TX_NONE, 0, [9, 9, 9, 9]⟩ [1, 2] 2).2
          = ⟨0, 3, 4, 2, 1, TX_SHARP, 0, [1, 2, 9, 9]⟩
      ∧ (spooky_encoder_enqueue ⟨0, 3, 4, 0, 1, TX_NONE, 0, [9, 9, 9, 9]⟩ [1, 2] 2).2.ticks = 1 :=
  ⟨⟨by decide, by decide, by decide⟩, by decide,
    (enqueue_ok_postcondition ⟨0, 3, 4, 0, 1, TX_NONE, 0, [9, 9, 9, 9]⟩ [1, 2] 2
      (by decide) (by decide) (by decide)).2.2.2.2.1⟩

/-- C8 as stated fails: after `init` with `tx_rate = 3` and one step (the
encoder is still IDLE), a successful enqueue leaves `ticks = 1`, not `0`, and
the first edge command comes two steps later, not three. -/
theorem enqueue_ticks_counterexample :
    ∃ enc, spooky_encoder_init (some enc_zero) (some (List.replicate 32 0)) 32 3
          = (SPOOKY_ENCODER_INIT_OK, some enc)
      ∧ (spooky_encoder_step enc).1 = SPOOKY_ENCODER_STEP_OK
      ∧ (spooky_encoder_step enc).2.mode = TX_NONE
      ∧ (spooky_encoder_enqueue (spooky_encoder_step enc).2 [1, 2] 2).1
          = SPOOKY_ENCODER_ENQUEUE_OK
      ∧ (spooky_encoder_enqueue (spooky_encoder_step enc).2 [1, 2] 2).2.ticks = 1
      ∧ (spooky_encoder_enqueue (spooky_encoder_step enc).2 [1, 2] 2).2.ticks ≠ 0
      ∧ encoder_trace 3 (spooky_encoder_enqueue (spooky_encoder_step enc).2 [1, 2] 2).2
          = [SPOOKY_ENCODER_STEP_OK, SPOOKY_ENCODER_STEP_OK_LOW, SPOOKY_ENCODER_STEP_OK] :=
  ⟨_, rfl, by decide, by decide, by decide, by decide, by decide, by decide⟩

/-! ### The idle encoder -/

theorem idle_step (e : spooky_encoder) (hm : e.mode = TX_NONE) (ht : e.ticks < e.tx_rate)
    (hr : e.tx_rate ≤ 255) :
    spooky_encoder_step e
      = (if (e.ticks + 1) % e.tx_rate = 0 then SPOOKY_ENCODER_STEP_OK_DONE
          else SPOOKY_ENCODER_STEP_OK,
         { e with ticks := (e.ticks + 1) % e.tx_rate }) := by
  by_cases hf : e.ticks + 1 = e.tx_rate
  · have hz : (e.ticks + 1) % e.tx_rate = 0 := by rw [hf]; exact Nat.mod_self _
    rw [gate_fire e hf hr, enc_step_none _ (by simpa using hm) rfl]
    simp [hz]
  · have hlt : e.ticks + 1 < e.tx_rate := by omega
    have hz : (e.ticks + 1) % e.tx_rate = e.ticks + 1 := Nat.mod_eq_of_lt hlt
    rw [gate_hold e hlt (by omega)]
    simp [hz]

theorem idle_run (e : spooky_encoder) (hm : e.mode = TX_NONE) (ht : e.ticks < e.tx_rate)
    (hr : e.tx_rate ≤ 255) (j : Nat) :
    encoder_run j e = { e with ticks := (e.ticks + j) % e.tx_rate } := by
  induction j with
  | zero =>
    have : e.ticks % e.tx_rate = e.ticks := Nat.mod_eq_of_lt ht
    simp [encoder_run, this]
  | succ j ih =>
    rw [encoder_run_succ_right, ih,
      idle_step _ (by simpa using hm) (by simpa using Nat.mod_lt _ (by omega)) (by simpa using hr)]
    simp [Nat.add_assoc]

/-- C10 (amended). For every `tx_rate ≥ 1`, an encoder in IDLE stays IDLE and
returns `OK_DONE` from exactly those calls of `spooky_encoder_step` at which
the tick divider fires (every `tx_rate`-th call) and `OK` from the others,
for as long as enqueue is not called; with `tx_rate = 1` that is `OK_DONE`
from every call. -/
theorem idle_step_results (e : spooky_encoder) (hm : e.mode = TX_NONE) (hr1 : 1 ≤ e.tx_rate)
    (hr : e.tx_rate ≤ 255) (ht : e.ticks < e.tx_rate) (j : Nat) (hj : 1 ≤ j) :
    encoder_result e j
        = (if (e.ticks + j) % e.tx_rate = 0 then SPOOKY_ENCODER_STEP_OK_DONE
            else SPOOKY_ENCODER_STEP_OK)
      ∧ (encoder_run j e).mode = TX_NONE
      ∧ (e.tx_rate = 1 → encoder_result e j = SPOOKY_ENCODER_STEP_OK_DONE) := by
  have hres : encoder_result e j
        = (if (e.ticks + j) % e.tx_rate = 0 then SPOOKY_ENCODER_STEP_OK_DONE
            else SPOOKY_ENCODER_STEP_OK) := by
    unfold encoder_result
    rw [idle_run e hm ht hr (j - 1),
      idle_step _ (by simpa using hm) (by simpa using Nat.mod_lt _ (by omega)) (by simpa using hr)]
    have : (e.ticks + (j - 1)) % e.tx_rate + 1 ≡ e.ticks + j [MOD e.tx_rate] := by
      have h1 : e.ticks + j = (e.ticks + (j - 1)) + 1 := by omega
      rw [h1]
      exact Nat.ModEq.add_right 1 (Nat.mod_modEq _ _)
    simp only []
    rw [this]
  refine ⟨hres, ?_, ?_⟩
  · rw [idle_run e hm ht hr j]; exact hm
  · intro h1
    rw [hres, h1, Nat.mod_one]; simp

/-- Witness of C10 (amended): an idle encoder of rate 3, fourth call. -/
theorem idle_step_results_witness :
    (TX_NONE = TX_NONE ∧ 1 ≤ 3 ∧ 3 ≤ 255 ∧ 0 < 3 ∧ 1 ≤ 4)
      ∧ encoder_result ⟨0, 3, 32, 0, 0, TX_NONE, 0, List.replicate 32 0⟩ 4
          = SPOOKY_ENCODER_STEP_OK
      ∧ encoder_result ⟨0, 3, 32, 0, 0, TX_NONE, 0, List.replicate 32 0⟩ 3
          = SPOOKY_ENCODER_STEP_OK_DONE :=
  ⟨⟨rfl, by decide, by decide, by decide, by decide⟩,
    (idle_step_results ⟨0, 3, 32, 0, 0, TX_NONE, 0, List.replicate 32 0⟩ rfl
      (by decide) (by decide) (by decide) 4 (by decide)).1,
    by decide⟩

/-- C10 as stated fails: after `init` with `tx_rate = 2` the encoder is IDLE
and its first step returns `OK`, not `OK_DONE`. -/
theorem idle_step_counterexample :
    ∃ enc, spooky_encoder_init (some enc_zero) (some (List.replicate 32 0)) 32 2
          = (SPOOKY_ENCODER_INIT_OK, some enc)
      ∧ enc.mode = TX_NONE
      ∧ (spooky_encoder_step enc).1 = SPOOKY_ENCODER_STEP_OK
      ∧ (spooky_encoder_step enc).1 ≠ SPOOKY_ENCODER_STEP_OK_DONE :=
  ⟨_, rfl, by decide, by decide, by decide⟩

theorem sink_bit_eq (d : spooky_decoder) (bit : Bool) :
    sink_bit d bit
      = (if d.bit_index >>> 1 = 0 then 1 else 0,
          { d with bit_accum := stored_byte d bit,
                   bit_index := if d.bit_index >>> 1 = 0 then 0x80 else d.bit_index >>> 1 }) := by
  cases bit <;> simp only [sink_bit, bool_val, stored_byte] <;> split_ifs <;> simp_all

theorem sbwc_bit_edge (d : spooky_decoder) (bit : Bool) (cb : byte_cb) (st : Bool)
    (h : bit_edge d bit) :
    sink_bit_with_cb d bit cb st
      = (if (sink_bit (edge_state d bit st) bit).1 ≠ 0 then
          ((cb (sink_bit (edge_state d bit st) bit).2).1,
            { (cb (sink_bit (edge_state d bit st) bit).2).2.1 with bit_accum := 0x00 },
            (cb (sink_bit (edge_state d bit st) bit).2).2.2)
         else (0, (sink_bit (edge_state d bit st) bit).2, [])) := by
  obtain ⟨h1, h2, h3⟩ := h
  unfold sink_bit_with_cb
  simp only [h1, if_false, h2, h3, if_true]
  rfl

theorem sbwc_no_bit_edge (d : spooky_decoder) (bit : Bool) (cb : byte_cb) (st : Bool)
    (h : ¬ bit_edge d bit) :
    (sink_bit_with_cb d bit cb st).1 = 0 ∧ (sink_bit_with_cb d bit cb st).2.2 = [] := by
  unfold bit_edge at h
  unfold sink_bit_with_cb
  by_cases h1 : bool_val bit = d.last
  · simp only [h1, if_true]; split_ifs <;> exact ⟨rfl, rfl⟩
  · simp only [h1, if_false]
    by_cases h2 : approx_eq (d.ticks : Int) (d.interval : Int) = true ∧ d.pre_ticks = 0
    · simp only [h2, and_self, if_true]; split_ifs <;> exact ⟨rfl, rfl⟩
    · have h3 : ¬ approx_eq (d.ticks : Int) ((2 * d.interval : Nat) : Int) = true := by
        intro h3; exact h ⟨h1, h2, h3⟩
      simp only [h2, if_false, h3]
      exact ⟨rfl, rfl⟩

theorem payload_byte_cb_eq (d : spooky_decoder) :
    payload_byte_cb d
      = (if (d.index + 1) % 65536 = d.payload_length then
          (1,
            { reset_decoder { d with buffer := d.buffer.set d.index d.bit_accum,
                                     index := (d.index + 1) % 65536 } with index := 0 },
            if checksum (d.buffer.set d.index d.bit_accum) d.payload_length = d.chksum then
              [⟨d.buffer.set d.index d.bit_accum, (d.index + 1) % 65536 % 256, d.cb_udata⟩]
            else [])
         else
          (0, { d with buffer := d.buffer.set d.index d.bit_accum,
                       index := (d.index + 1) % 65536 }, [])) := by
  unfold payload_byte_cb
  simp only []

theorem step_header_mode (d : spooky_decoder) (bit : Bool) (h : d.mode = RX_HEADER) :
    spooky_decoder_step d bit = (SPOOKY_DECODER_STEP_OK, (step_header (ticked d) bit).2, []) := by
  obtain ⟨index, bs, mode, ticks, bi, acc, last, interval, pl, ck, pre, buf, u⟩ := d
  simp only at h
  subst h
  rfl

theorem step_length_mode (d : spooky_decoder) (bit : Bool) (h : d.mode = RX_LENGTH) :
    spooky_decoder_step d bit
      = (SPOOKY_DECODER_STEP_OK, (sink_bit_with_cb (ticked d) bit length_byte_cb true).2.1,
          (sink_bit_with_cb (ticked d) bit length_byte_cb true).2.2) := by
  obtain ⟨index, bs, mode, ticks, bi, acc, last, interval, pl, ck, pre, buf, u⟩ := d
  simp only at h
  subst h
  rfl

theorem step_chksum_mode (d : spooky_decoder) (bit : Bool) (h : d.mode = RX_CHKSUM) :
    spooky_decoder_step d bit
      = (SPOOKY_DECODER_STEP_OK, (sink_bit_with_cb (ticked d) bit chksum_byte_cb true).2.1,
          (sink_bit_with_cb (ticked d) bit chksum_byte_cb true).2.2) := by
  obtain ⟨index, bs, mode, ticks, bi, acc, last, interval, pl, ck, pre, buf, u⟩ := d
  simp only at h
  subst h
  rfl

theorem step_payload_mode (d : spooky_decoder) (bit : Bool) (h : d.mode = RX_PAYLOAD) :
    spooky_decoder_step d bit
      = (if (sink_bit_with_cb (ticked d) bit payload_byte_cb false).1 ≠ 0
          then SPOOKY_DECODER_STEP_DONE else SPOOKY_DECODER_STEP_OK,
          (sink_bit_with_cb (ticked d) bit payload_byte_cb false).2.1,
          (sink_bit_with_cb (ticked d) bit payload_byte_cb false).2.2) := by
  obtain ⟨index, bs, mode, ticks, bi, acc, last, interval, pl, ck, pre, buf, u⟩ := d
  simp only at h
  subst h
  simp only [spooky_decoder_step, step_payload, ticked]
  split_ifs <;> rfl

theorem sbwc_calls_nil (d : spooky_decoder) (bit : Bool) (cb : byte_cb) (st : Bool)
    (hcb : ∀ x, (cb x).2.2 = []) : (sink_bit_with_cb d bit cb st).2.2 = [] := by
  by_cases h : bit_edge d bit
  · rw [sbwc_bit_edge d bit cb st h]
    split_ifs
    · exact hcb _
    · rfl
  · exact (sbwc_no_bit_edge d bit cb st h).2

theorem length_byte_cb_calls (x : spooky_decoder) : (length_byte_cb x).2.2 = [] := by
  unfold length_byte_cb
  simp only []
  split_ifs <;> rfl

theorem chksum_byte_cb_calls (x : spooky_decoder) : (chksum_byte_cb x).2.2 = [] := rfl

/-- The outcome of `sink_bit_with_cb` in PAYLOAD: the returned flag and the
callback invocations, by whether the step completes the payload. -/
theorem payload_outcome (d : spooky_decoder) (bit : Bool) :
    (sink_bit_with_cb (ticked d) bit payload_byte_cb false).1
        = (if bit_edge (ticked d) bit ∧ d.bit_index >>> 1 = 0
              ∧ (d.index + 1) % 65536 = d.payload_length then 1 else 0)
      ∧ (sink_bit_with_cb (ticked d) bit payload_byte_cb false).2.2
        = (if (bit_edge (ticked d) bit ∧ d.bit_index >>> 1 = 0
                ∧ (d.index + 1) % 65536 = d.payload_length)
              ∧ checksum (d.buffer.set d.index (stored_byte d bit)) d.payload_length = d.chksum
           then [⟨d.buffer.set d.index (stored_byte d bit), (d.index + 1) % 65536 % 256,
                  d.cb_udata⟩]
           else [])
      ∧ ((bit_edge (ticked d) bit ∧ d.bit_index >>> 1 = 0
            ∧ (d.index + 1) % 65536 = d.payload_length) →
          (sink_bit_with_cb (ticked d) bit payload_byte_cb false).2.1
            = { d with mode := RX_HEADER, ticks := 0, bit_index := 0x80, interval := 0,
                       bit_accum := 0, payload_length := 0, pre_ticks := 0, index := 0,
                       last := bool_val bit,
                       buffer := d.buffer.set d.index (stored_byte d bit) }) := by
  obtain ⟨index, bs, mode, ticks, bi, acc, last, interval, pl, ck, pre, buf, u⟩ := d
  by_cases h : bit_edge (ticked ⟨index, bs, mode, ticks, bi, acc, last, interval, pl, ck, pre, buf, u⟩) bit
  · rw [sbwc_bit_edge _ bit _ false h, sink_bit_eq]
    have h' := h
    simp only [ticked] at h'
    simp only [edge_state, ticked, payload_byte_cb_eq, reset_decoder, stored_byte]
    by_cases hb : bi >>> 1 = 0 <;> by_cases hi : (index + 1) % 65536 = pl <;>
      simp [h', hb, hi]
  · have := sbwc_no_bit_edge _ bit payload_byte_cb false h
    simp only [h, false_and, if_false, false_implies, and_true]
    exact this

/-- The result code and the callback invocations of one decoder step. -/
theorem step_outcome (d : spooky_decoder) (bit : Bool) :
    (spooky_decoder_step d bit).1
        = (if completes_payload d bit then SPOOKY_DECODER_STEP_DONE else SPOOKY_DECODER_STEP_OK)
      ∧ (spooky_decoder_step d bit).2.2
        = (if completes_payload d bit
              ∧ checksum (d.buffer.set d.index (stored_byte d bit)) d.payload_length = d.chksum
           then [⟨d.buffer.set d.index (stored_byte d bit), d.payload_length % 256, d.cb_udata⟩]
           else []) := by
  cases hm : d.mode
  · have hc : ¬ completes_payload d bit := by intro h; rw [h.1] at hm; cases hm
    rw [step_header_mode d bit hm]; simp [hc]
  · have hc : ¬ completes_payload d bit := by intro h; rw [h.1] at hm; cases hm
    rw [step_length_mode d bit hm]
    simp [hc, sbwc_calls_nil _ _ _ _ length_byte_cb_calls]
  · have hc : ¬ completes_payload d bit := by intro h; rw [h.1] at hm; cases hm
    rw [step_chksum_mode d bit hm]
    simp [hc, sbwc_calls_nil _ _ _ _ chksum_byte_cb_calls]
  · rw [step_payload_mode d bit hm]
    obtain ⟨h1, h2, _⟩ := payload_outcome d bit
    simp only [h1, h2]
    by_cases hc : completes_payload d bit
    · obtain ⟨_, he, hb, hi⟩ := hc
      have hc : completes_payload d bit := ⟨hm, he, hb, hi⟩
      simp [hc, he, hb, hi]
    · have : ¬ (bit_edge (ticked d) bit ∧ d.bit_index >>> 1 = 0
          ∧ (d.index + 1) % 65536 = d.payload_length) := by
        intro h; exact hc ⟨hm, h⟩
      simp [hc, this]

theorem checksum_eq_spec (buf : List Nat) (n : Nat) (h : n ≤ buf.length) :
    checksum buf n = spec_chksum (buf.take n) := by
  have h1 : (List.range n).map (fun j => buf.getD j 0) = buf.take n := by
    apply List.ext_getElem
    · simp [h]
    · intro i h1 h2
      simp at h1
      simp [List.getD_eq_getElem?_getD, List.getElem?_eq_getElem (by omega : i < buf.length)]
  unfold checksum spec_chksum
  rw [chksum_fold, h1]

/-- C5. Callback iff valid frame: on the decoder step that stores the final
payload byte, the callback is invoked if and only if the sum-and-invert
checksum of `buffer[0..payload_length)` equals the received `chksum` byte;
when invoked it is invoked exactly once, with `(buffer, payload_length,
udata)`; in both cases the decoder ends that step in HEADER with
`interval = 0` and `index = 0`; and no other decoder step invokes the
callback. -/
theorem callback_iff_valid_frame (d : spooky_decoder) (bit : Bool)
    (hpl : d.payload_length < 256) (hbuf : d.payload_length ≤ d.buffer.length) :
    (completes_payload d bit →
        ((spooky_decoder_step d bit).2.2 ≠ []
            ↔ spec_chksum ((d.buffer.set d.index (stored_byte d bit)).take d.payload_length)
                = d.chksum)
        ∧ ((spooky_decoder_step d bit).2.2 ≠ [] →
            (spooky_decoder_step d bit).2.2
              = [⟨d.buffer.set d.index (stored_byte d bit), d.payload_length, d.cb_udata⟩])
        ∧ (spooky_decoder_step d bit).2.1.mode = RX_HEADER
        ∧ (spooky_decoder_step d bit).2.1.interval = 0
        ∧ (spooky_decoder_step d bit).2.1.index = 0)
      ∧ (¬ completes_payload d bit → (spooky_decoder_step d bit).2.2 = []) := by
  have hcs := checksum_eq_spec (d.buffer.set d.index (stored_byte d bit)) d.payload_length
    (by simpa using hbuf)
  have hmod : d.payload_length % 256 = d.payload_length := Nat.mod_eq_of_lt hpl
  obtain ⟨_, hcalls⟩ := step_outcome d bit
  constructor
  · intro hc
    have hst : (spooky_decoder_step d bit).2.1
        = { d with mode := RX_HEADER, ticks := 0, bit_index := 0x80, interval := 0,
                   bit_accum := 0, payload_length := 0, pre_ticks := 0, index := 0,
                   last := bool_val bit,
                   buffer := d.buffer.set d.index (stored_byte d bit) } := by
      rw [step_payload_mode d bit hc.1]
      exact (payload_outcome d bit).2.2 hc.2
    rw [hcalls, hst, hcs, hmod]
    refine ⟨?_, ?_, rfl, rfl, rfl⟩
    · by_cases hk : spec_chksum
          ((d.buffer.set d.index (stored_byte d bit)).take d.payload_length) = d.chksum
      · simp [hc, hk]
      · simp [hc, hk]
    · intro hne
      by_cases hk : spec_chksum
          ((d.buffer.set d.index (stored_byte d bit)).take d.payload_length) = d.chksum
      · simp [hc, hk]
      · simp [hc, hk] at hne
  · intro hc
    rw [hcalls]; simp [hc]

/-- C4 (amended). For every decoder state and every input bit,
`spooky_decoder_step` returns `DONE` if and only if the step stored the final
payload byte, whether or not the checksum matched: every step that invokes the
callback returns `DONE`, and so does a step that completes a payload whose
checksum does not match, on which the callback is not invoked. -/
theorem step_done_iff (d : spooky_decoder) (bit : Bool) :
    ((spooky_decoder_step d bit).1 = SPOOKY_DECODER_STEP_DONE ↔ completes_payload d bit)
      ∧ ((spooky_decoder_step d bit).2.2 ≠ [] →
          (spooky_decoder_step d bit).1 = SPOOKY_DECODER_STEP_DONE)
      ∧ (completes_payload d bit →
          checksum (d.buffer.set d.index (stored_byte d bit)) d.payload_length ≠ d.chksum →
          (spooky_decoder_step d bit).1 = SPOOKY_DECODER_STEP_DONE
            ∧ (spooky_decoder_step d bit).2.2 = []) := by
  obtain ⟨hres, hcalls⟩ := step_outcome d bit
  rw [hres, hcalls]
  by_cases hc : completes_payload d bit
  · simp [hc]
  · simp [hc]

/-- C4 as stated fails: in the unit test's frame with the wrong checksum
(`0xFF 0x55 0x01 0x58 0x7a`, two samples per half-cell) the step that
completes the payload returns `DONE` although the callback is not invoked
(neither on that step nor on any other step of the frame). -/
theorem done_without_callback_counterexample :
    (spooky_decoder_step
        (decoder_feed (([0xFF, 0x55, 0x01, 0x58, 0x7a].flatMap (expect_byte 2)).take 158)
          test_decoder).1 false).1 = SPOOKY_DECODER_STEP_DONE
      ∧ (spooky_decoder_step
          (decoder_feed (([0xFF, 0x55, 0x01, 0x58, 0x7a].flatMap (expect_byte 2)).take 158)
            test_decoder).1 false).2.2 = []
      ∧ ([0xFF, 0x55, 0x01, 0x58, 0x7a].flatMap (expect_byte 2)).drop 158 = [false, false]
      ∧ (decoder_feed ([0xFF, 0x55, 0x01, 0x58, 0x7a].flatMap (expect_byte 2))
          test_decoder).2 = [] := by
  set_option maxRecDepth 100000 in decide

/-- Witness of C5: the unit test's valid frame `0xFF 0x55 0x01 0x85 0x7a`, at
the step that stores the payload byte. -/
theorem callback_iff_valid_frame_witness :
    ((decoder_feed (([0xFF, 0x55, 0x01, 0x85, 0x7a].flatMap (expect_byte 2)).take 158)
          test_decoder).1.payload_length < 256
        ∧ (decoder_feed (([0xFF, 0x55, 0x01, 0x85, 0x7a].flatMap (expect_byte 2)).take 158)
            test_decoder).1.payload_length
          ≤ (decoder_feed (([0xFF, 0x55, 0x01, 0x85, 0x7a].flatMap (expect_byte 2)).take 158)
              test_decoder).1.buffer.length
        ∧ completes_payload
            (decoder_feed (([0xFF, 0x55, 0x01, 0x85, 0x7a].flatMap (expect_byte 2)).take 158)
              test_decoder).1 false)
      ∧ (spooky_decoder_step
            (decoder_feed (([0xFF, 0x55, 0x01, 0x85, 0x7a].flatMap (expect_byte 2)).take 158)
              test_decoder).1 false).2.1.mode = RX_HEADER
      ∧ ((spooky_decoder_step
            (decoder_feed (([0xFF, 0x55, 0x01, 0x85, 0x7a].flatMap (expect_byte 2)).take 158)
              test_decoder).1 false).2.2).map (fun c => (c.data.take c.data_size, c.data_size))
          = [([0x7a], 1)] :=
  ⟨⟨by set_option maxRecDepth 100000 in decide, by set_option maxRecDepth 100000 in decide,
      by set_option maxRecDepth 100000 in decide⟩,
    ((callback_iff_valid_frame _ false (by set_option maxRecDepth 100000 in decide)
      (by set_option maxRecDepth 100000 in decide)).1
        (by set_option maxRecDepth 100000 in decide)).2.2.1,
    by set_option maxRecDepth 100000 in decide⟩

/-! ## Decoder: feeding sample lists -/

theorem decoder_feed_append (xs ys : List Bool) (d : spooky_decoder) :
    decoder_feed (xs ++ ys) d
      = ((decoder_feed ys (decoder_feed xs d).1).1,
          (decoder_feed xs d).2 ++ (decoder_feed ys (decoder_feed xs d).1).2) := by
  induction xs generalizing d with
  | nil => simp [decoder_feed]
  | cons x xs ih => simp [decoder_feed, ih, List.append_assoc]

theorem decoder_feed_single (x : Bool) (d : spooky_decoder) :
    decoder_feed [x] d = ((spooky_decoder_step d x).2.1, (spooky_decoder_step d x).2.2) := by
  simp [decoder_feed]

/-- Feeding in two parts when the first part makes no callback. -/
theorem decoder_feed_append_of (xs ys : List Bool) (d d1 : spooky_decoder)
    (h : decoder_feed xs d = (d1, [])) :
    decoder_feed (xs ++ ys) d = decoder_feed ys d1 := by
  rw [decoder_feed_append, h]
  simp

/-! ## `approx_eq` on naturals -/

theorem approx_eq_nat (a b : Nat) :
    approx_eq (a : Int) (b : Int) = true
      ↔ a ≤ b + (if b < 4 then 1 else b / 4) ∧ b ≤ a + (if b < 4 then 1 else b / 4) := by
  unfold approx_eq c_abs
  simp only [decide_eq_true_eq]
  by_cases hb : b < 4
  · have hb' : (b : Int) < 4 := by omega
    simp only [hb, hb', if_true]
    split_ifs <;> omega
  · have hb' : ¬ (b : Int) < 4 := by omega
    simp only [hb, hb', if_false]
    split_ifs <;> omega

theorem approx_eq_self (a : Nat) : approx_eq (a : Int) (a : Int) = true := by
  rw [approx_eq_nat]; split_ifs <;> omega

theorem approx_eq_double_self (s : Nat) :
    approx_eq ((2 * s : Nat) : Int) ((2 * s : Nat) : Int) = true := approx_eq_self _

theorem not_approx_eq_double (s : Nat) (hs : 2 ≤ s) :
    ¬ approx_eq ((2 * s : Nat) : Int) (s : Int) = true := by
  rw [approx_eq_nat]; split_ifs <;> omega

theorem not_approx_eq_half (s a : Nat) (hs : 2 ≤ s) (ha : s ≤ a) :
    ¬ approx_eq (s : Int) ((2 * a : Nat) : Int) = true := by
  rw [approx_eq_nat]; split_ifs <;> omega

/-! ## Decoder: single steps in the data modes -/

theorem sbwc_quiet (d : spooky_decoder) (x : Bool) (cb : byte_cb) (st : Bool)
    (hx : bool_val x = d.last) (hp : d.pre_ticks ≤ d.ticks) (ht : d.ticks < 65536)
    (hq : d.ticks - d.pre_ticks ≤ 2 * d.interval + (2 * d.interval) / 4)
    (hi : d.interval ≤ 255) :
    sink_bit_with_cb d x cb st = (0, d, []) := by
  have h0 : ((d.ticks : Int) - (d.pre_ticks : Int)) % 65536
      = ((d.ticks - d.pre_ticks : Nat) : Int) := by omega
  have h1 : (((d.ticks : Int) - (d.pre_ticks : Int)) % 65536).toNat = d.ticks - d.pre_ticks := by
    rw [h0]; exact Int.toNat_ofNat _
  have h3 : (2 * d.interval) % 65536 = 2 * d.interval := by omega
  have h4 : (2 * d.interval + 2 * d.interval / 4) % 65536 = 2 * d.interval + 2 * d.interval / 4 := by
    omega
  have h2 : longer_than_tolerance_allows (d.ticks - d.pre_ticks) ((2 * d.interval) % 65536)
      = false := by
    unfold longer_than_tolerance_allows
    simp only [decide_eq_false_iff_not, h3, h4]
    omega
  unfold sink_bit_with_cb
  simp only [hx, if_true, h1, h2]
  rfl

theorem data_quiet_step (d : spooky_decoder) (x : Bool) (hm : d.mode ≠ RX_HEADER)
    (hx : bool_val x = d.last) (ht : d.ticks + 1 < 256) (hp : d.pre_ticks ≤ d.ticks + 1)
    (hq : d.ticks + 1 - d.pre_ticks ≤ 2 * d.interval + (2 * d.interval) / 4)
    (hi : d.interval ≤ 255) :
    spooky_decoder_step d x = (SPOOKY_DECODER_STEP_OK, { d with ticks := d.ticks + 1 }, []) := by
  obtain ⟨index, bs, mode, ticks, bi, acc, last, interval, pl, ck, pre, buf, u⟩ := d
  simp only at hm hx ht hp hq hi
  have hk : ticked ⟨index, bs, mode, ticks, bi, acc, last, interval, pl, ck, pre, buf, u⟩
      = ⟨index, bs, mode, ticks + 1, bi, acc, last, interval, pl, ck, pre, buf, u⟩ := by
    unfold ticked; simp only [Nat.mod_eq_of_lt ht]
  have hq' : ∀ cb st, sink_bit_with_cb
      ⟨index, bs, mode, ticks + 1, bi, acc, last, interval, pl, ck, pre, buf, u⟩ x cb st
      = (0, ⟨index, bs, mode, ticks + 1, bi, acc, last, interval, pl, ck, pre, buf, u⟩, []) := by
    intro cb st
    exact sbwc_quiet _ x cb st hx hp (by simp only; omega) hq hi
  cases mode
  · exact absurd rfl hm
  · rw [step_length_mode _ x rfl, hk, hq']
  · rw [step_chksum_mode _ x rfl, hk, hq']
  · rw [step_payload_mode _ x rfl, hk, hq']; simp

/-- A quiet run in a data mode: `c` samples at the current level only count
ticks, as long as the quiet-line threshold is not passed. -/
theorem data_quiet_run (c : Nat) (d : spooky_decoder) (x : Bool) (hm : d.mode ≠ RX_HEADER)
    (hx : bool_val x = d.last) (ht : d.ticks + c < 256) (hp : d.pre_ticks ≤ d.ticks)
    (hq : d.ticks + c - d.pre_ticks ≤ 2 * d.interval + (2 * d.interval) / 4)
    (hi : d.interval ≤ 255) :
    decoder_feed (List.replicate c x) d = ({ d with ticks := d.ticks + c }, []) := by
  induction c generalizing d with
  | zero => simp [decoder_feed]
  | succ c ih =>
    rw [List.replicate_succ, decoder_feed,
      data_quiet_step d x hm hx (by omega) (by omega) (by omega) hi]
    simp only [List.nil_append]
    rw [ih _ (by simpa using hm) (by simpa using hx) (by simp; omega) (by simp; omega)
      (by simp; omega) (by simpa using hi)]
    simp [Nat.add_assoc, Nat.add_comm 1 c]

theorem bool_val_ne (a b : Bool) (h : a ≠ b) : bool_val a ≠ bool_val b := by
  cases a <;> cases b <;> simp_all [bool_val]

theorem append_ring_eq (d : spooky_decoder) (off : Nat) :
    ∃ I Bf, Bf.length = d.buffer.length
      ∧ append_to_ring_buffer d off = { d with index := I, buffer := Bf } := by
  refine ⟨_, _, ?_, rfl⟩
  simp

/-- A setup edge in LENGTH or CHKSUM. -/
theorem setup_step_save (d : spooky_decoder) (x : Bool)
    (hm : d.mode = RX_LENGTH ∨ d.mode = RX_CHKSUM) (hx : bool_val x ≠ d.last)
    (hp : d.pre_ticks = 0) (ht : d.ticks + 1 < 256)
    (ha : approx_eq ((d.ticks + 1 : Nat) : Int) (d.interval : Int) = true) :
    ∃ I Bf, Bf.length = d.buffer.length
      ∧ spooky_decoder_step d x
        = (SPOOKY_DECODER_STEP_OK,
            { d with ticks := d.ticks + 1, last := bool_val x, pre_ticks := d.ticks + 1,
                     index := I, buffer := Bf }, []) := by
  obtain ⟨index, bs, mode, ticks, bi, acc, last, interval, pl, ck, pre, buf, u⟩ := d
  simp only at hm hx hp ht ha
  subst hp
  have hk : ticked ⟨index, bs, mode, ticks, bi, acc, last, interval, pl, ck, 0, buf, u⟩
      = ⟨index, bs, mode, ticks + 1, bi, acc, last, interval, pl, ck, 0, buf, u⟩ := by
    unfold ticked; simp only [Nat.mod_eq_of_lt ht]
  have key : ∀ cb, sink_bit_with_cb
      ⟨index, bs, mode, ticks + 1, bi, acc, last, interval, pl, ck, 0, buf, u⟩ x cb true
      = (0, { append_to_ring_buffer
                ⟨index, bs, mode, ticks + 1, bi, acc, bool_val x, interval, pl, ck, 0, buf, u⟩ 0
              with pre_ticks := ticks + 1 }, []) := by
    intro cb
    unfold sink_bit_with_cb
    simp only [hx, if_false, ha, and_self, if_true]
    rfl
  obtain ⟨I, Bf, hlen, happ⟩ := append_ring_eq
    ⟨index, bs, mode, ticks + 1, bi, acc, bool_val x, interval, pl, ck, 0, buf, u⟩ 0
  refine ⟨I, Bf, hlen, ?_⟩
  rcases hm with hm | hm
  · subst hm
    rw [step_length_mode _ x rfl, hk, key, happ]
  · subst hm
    rw [step_chksum_mode _ x rfl, hk, key, happ]

/-- A setup edge in PAYLOAD: only `last` (and the tick count) changes. -/
theorem setup_step_payload (d : spooky_decoder) (x : Bool)
    (hm : d.mode = RX_PAYLOAD) (hx : bool_val x ≠ d.last)
    (hp : d.pre_ticks = 0) (ht : d.ticks + 1 < 256)
    (ha : approx_eq ((d.ticks + 1 : Nat) : Int) (d.interval : Int) = true) :
    spooky_decoder_step d x
      = (SPOOKY_DECODER_STEP_OK, { d with ticks := d.ticks + 1, last := bool_val x }, []) := by
  obtain ⟨index, bs, mode, ticks, bi, acc, last, interval, pl, ck, pre, buf, u⟩ := d
  simp only at hm hx hp ht ha
  subst hp hm
  have hk : ticked ⟨index, bs, RX_PAYLOAD, ticks, bi, acc, last, interval, pl, ck, 0, buf, u⟩
      = ⟨index, bs, RX_PAYLOAD, ticks + 1, bi, acc, last, interval, pl, ck, 0, buf, u⟩ := by
    unfold ticked; simp only [Nat.mod_eq_of_lt ht]
  have key : ∀ cb, sink_bit_with_cb
      ⟨index, bs, RX_PAYLOAD, ticks + 1, bi, acc, last, interval, pl, ck, 0, buf, u⟩ x cb false
      = (0, ⟨index, bs, RX_PAYLOAD, ticks + 1, bi, acc, bool_val x, interval, pl, ck, 0, buf, u⟩,
          []) := by
    intro cb
    unfold sink_bit_with_cb
    simp only [hx, if_false, ha, and_self, if_true]
    rfl
  rw [step_payload_mode _ x rfl, hk, key]
  simp

theorem ticked_eq (idx bs : Nat) (mode : rx_mode) (t bi acc last iv pl ck pre : Nat)
    (buf : List Nat) (u : Nat) (ht : t + 1 < 256) :
    ticked ⟨idx, bs, mode, t, bi, acc, last, iv, pl, ck, pre, buf, u⟩
      = ⟨idx, bs, mode, t + 1, bi, acc, last, iv, pl, ck, pre, buf, u⟩ := by
  unfold ticked; simp only [Nat.mod_eq_of_lt ht]

/-- The state handed to `sink_bit` at a bit edge, in the three data modes. -/
theorem edge_state_eq (idx bs : Nat) (mode : rx_mode) (t bi acc last iv pl ck pre : Nat)
    (buf : List Nat) (u : Nat) (b : Bool) :
    ∃ I Bf, Bf.length = buf.length ∧ (mode = RX_PAYLOAD → I = idx ∧ Bf = buf)
      ∧ edge_state ⟨idx, bs, mode, t, bi, acc, last, iv, pl, ck, pre, buf, u⟩ b
          (decide (mode ≠ RX_PAYLOAD))
        = ⟨I, bs, mode, 0, bi, acc, bool_val b, iv, pl, ck, 0, Bf, u⟩ := by
  by_cases hm : mode = RX_PAYLOAD
  · subst hm
    exact ⟨idx, buf, rfl, fun _ => ⟨rfl, rfl⟩, rfl⟩
  · obtain ⟨I, Bf, hlen, happ⟩ := append_ring_eq
      ⟨idx, bs, mode, t, bi, acc, bool_val b, iv, pl, ck, pre, buf, u⟩ pre
    refine ⟨I, Bf, hlen, fun h => absurd h hm, ?_⟩
    have hd : decide (mode ≠ RX_PAYLOAD) = true := by simpa using hm
    unfold edge_state
    simp only [hd, if_true, happ]

/-- Arrival of a bit edge: from just after a bit edge (`ticks = 0`,
`pre_ticks = 0`) the samples up to the next bit edge make no callback and leave
the decoder one sample before a bit edge. -/
theorem chunk_arrive (s : Nat) (hs2 : 2 ≤ s) (hs : s ≤ 127) (idx bs : Nat) (mode : rx_mode)
    (hm : mode ≠ RX_HEADER) (bi acc : Nat) (prev b : Bool) (pl ck : Nat) (buf : List Nat)
    (u : Nat) :
    ∃ dpre I Bf,
      decoder_feed (chunk_init s prev b)
          ⟨idx, bs, mode, 0, bi, acc, bool_val prev, s, pl, ck, 0, buf, u⟩ = (dpre, [])
      ∧ dpre.mode = mode ∧ bit_edge (ticked dpre) b
      ∧ edge_state (ticked dpre) b (decide (mode ≠ RX_PAYLOAD))
          = ⟨I, bs, mode, 0, bi, acc, bool_val b, s, pl, ck, 0, Bf, u⟩
      ∧ Bf.length = buf.length ∧ (mode = RX_PAYLOAD → I = idx ∧ Bf = buf) := by
  have h2s : s - 1 + s + 1 = 2 * s := by omega
  by_cases hb : b = prev
  · -- a setup edge after `s` ticks, the bit edge after `2 s`
    subst hb
    have hne : bool_val (!b) ≠ bool_val b := bool_val_ne _ _ (by cases b <;> simp)
    have hq1 := data_quiet_run (s - 1)
      ⟨idx, bs, mode, 0, bi, acc, bool_val b, s, pl, ck, 0, buf, u⟩ b hm rfl
      (by simp only; omega) (by simp) (by simp only; omega) (by simp only; omega)
    simp only [Nat.zero_add] at hq1
    have hrep : List.replicate s (!b) = (!b) :: List.replicate (s - 1) (!b) := by
      obtain ⟨k, rfl⟩ : ∃ k, s = k + 1 := ⟨s - 1, by omega⟩
      simp [List.replicate_succ]
    have hsetup : ∃ I1 B1, B1.length = buf.length ∧ (mode = RX_PAYLOAD → I1 = idx ∧ B1 = buf)
        ∧ ∃ p1, (p1 = 0 ∨ p1 = s)
        ∧ spooky_decoder_step ⟨idx, bs, mode, s - 1, bi, acc, bool_val b, s, pl, ck, 0, buf, u⟩
            (!b)
          = (SPOOKY_DECODER_STEP_OK,
              ⟨I1, bs, mode, s, bi, acc, bool_val (!b), s, pl, ck, p1, B1, u⟩, []) := by
      have ha : approx_eq ((s - 1 + 1 : Nat) : Int) (s : Int) = true := by
        rw [Nat.sub_add_cancel (by omega)]; exact approx_eq_self s
      cases mode
      · exact absurd rfl hm
      · obtain ⟨I, Bf, hl, hst⟩ := setup_step_save
          ⟨idx, bs, RX_LENGTH, s - 1, bi, acc, bool_val b, s, pl, ck, 0, buf, u⟩ (!b)
          (Or.inl rfl) hne rfl (by simp only; omega) ha
        refine ⟨I, Bf, hl, (fun h => by cases h), s, Or.inr rfl, ?_⟩
        rw [hst]; simp only [Nat.sub_add_cancel (by omega : 1 ≤ s)]
      · obtain ⟨I, Bf, hl, hst⟩ := setup_step_save
          ⟨idx, bs, RX_CHKSUM, s - 1, bi, acc, bool_val b, s, pl, ck, 0, buf, u⟩ (!b)
          (Or.inr rfl) hne rfl (by simp only; omega) ha
        refine ⟨I, Bf, hl, (fun h => by cases h), s, Or.inr rfl, ?_⟩
        rw [hst]; simp only [Nat.sub_add_cancel (by omega : 1 ≤ s)]
      · have hst := setup_step_payload
          ⟨idx, bs, RX_PAYLOAD, s - 1, bi, acc, bool_val b, s, pl, ck, 0, buf, u⟩ (!b)
          rfl hne rfl (by simp only; omega) ha
        refine ⟨idx, buf, rfl, fun _ => ⟨rfl, rfl⟩, 0, Or.inl rfl, ?_⟩
        rw [hst]; simp only [Nat.sub_add_cancel (by omega : 1 ≤ s)]
    obtain ⟨I1, B1, hl1, hp1, p1, hp, hst⟩ := hsetup
    have hq2 := data_quiet_run (s - 1)
      ⟨I1, bs, mode, s, bi, acc, bool_val (!b), s, pl, ck, p1, B1, u⟩ (!b) hm rfl
      (by simp only; omega) (by rcases hp with h | h <;> simp [h])
      (by simp only; omega) (by simp only; omega)
    have hfeed : decoder_feed (chunk_init s b b)
        ⟨idx, bs, mode, 0, bi, acc, bool_val b, s, pl, ck, 0, buf, u⟩
        = (⟨I1, bs, mode, s + (s - 1), bi, acc, bool_val (!b), s, pl, ck, p1, B1, u⟩, []) := by
      unfold chunk_init
      rw [decoder_feed_append_of _ _ _ _ hq1, hrep, decoder_feed, hst]
      simp only [List.nil_append]
      rw [hq2]
    have htk := ticked_eq I1 bs mode (s + (s - 1)) bi acc (bool_val (!b)) s pl ck p1 B1 u
      (by omega)
    have h2s' : s + (s - 1) + 1 = 2 * s := by omega
    rw [h2s'] at htk
    obtain ⟨I, Bf, hl, hpay, hes⟩ := edge_state_eq I1 bs mode (2 * s) bi acc (bool_val (!b)) s
      pl ck p1 B1 u b
    refine ⟨_, I, Bf, hfeed, rfl, ?_, ?_, by rw [hl, hl1], ?_⟩
    · rw [htk]
      exact ⟨fun h => hne h.symm, fun h => not_approx_eq_double s hs2 h.1,
        approx_eq_double_self s⟩
    · rw [htk]; exact hes
    · intro h
      obtain ⟨h1, h2⟩ := hpay h
      obtain ⟨h3, h4⟩ := hp1 h
      exact ⟨h1.trans h3, h2.trans h4⟩
  · -- no setup edge: the line stays at `prev` for `2 s - 1` samples
    have hnb : (!b) = prev := by cases b <;> cases prev <;> simp_all
    have hne : bool_val b ≠ bool_val prev := bool_val_ne _ _ hb
    have hq := data_quiet_run (s - 1 + s)
      ⟨idx, bs, mode, 0, bi, acc, bool_val prev, s, pl, ck, 0, buf, u⟩ prev hm rfl
      (by simp only; omega) (by simp) (by simp only; omega) (by simp only; omega)
    simp only [Nat.zero_add] at hq
    have hfeed : decoder_feed (chunk_init s prev b)
        ⟨idx, bs, mode, 0, bi, acc, bool_val prev, s, pl, ck, 0, buf, u⟩
        = (⟨idx, bs, mode, s - 1 + s, bi, acc, bool_val prev, s, pl, ck, 0, buf, u⟩, []) := by
      unfold chunk_init
      rw [hnb, ← List.replicate_add, hq]
    have htk := ticked_eq idx bs mode (s - 1 + s) bi acc (bool_val prev) s pl ck 0 buf u
      (by omega)
    rw [h2s] at htk
    obtain ⟨I, Bf, hl, hpay, hes⟩ := edge_state_eq idx bs mode (2 * s) bi acc (bool_val prev) s
      pl ck 0 buf u b
    refine ⟨_, I, Bf, hfeed, rfl, ?_, ?_, hl, hpay⟩
    · rw [htk]
      exact ⟨hne, fun h => not_approx_eq_double s hs2 h.1, approx_eq_double_self s⟩
    · rw [htk]; exact hes

/-! ## Decoder: bit edges -/

/-- A bit edge that does not complete a byte. -/
theorem step_edge_midbyte (d : spooky_decoder) (b : Bool) (hm : d.mode ≠ RX_HEADER)
    (he : bit_edge (ticked d) b)
    (hb : (edge_state (ticked d) b (decide (d.mode ≠ RX_PAYLOAD))).bit_index >>> 1 ≠ 0) :
    spooky_decoder_step d b
      = (SPOOKY_DECODER_STEP_OK,
          { edge_state (ticked d) b (decide (d.mode ≠ RX_PAYLOAD)) with
              bit_accum := stored_byte (edge_state (ticked d) b (decide (d.mode ≠ RX_PAYLOAD))) b,
              bit_index :=
                (edge_state (ticked d) b (decide (d.mode ≠ RX_PAYLOAD))).bit_index >>> 1 },
          []) := by
  cases hmode : d.mode
  · exact absurd hmode hm
  · rw [hmode] at hb
    simp only [ne_eq, reduceCtorEq, not_false_eq_true, decide_True] at hb ⊢
    rw [step_length_mode d b hmode, sbwc_bit_edge _ b _ true he, sink_bit_eq]
    simp only [hb, if_false, ne_eq, not_true_eq_false]
  · rw [hmode] at hb
    simp only [ne_eq, reduceCtorEq, not_false_eq_true, decide_True] at hb ⊢
    rw [step_chksum_mode d b hmode, sbwc_bit_edge _ b _ true he, sink_bit_eq]
    simp only [hb, if_false, ne_eq, not_true_eq_false]
  · rw [hmode] at hb
    simp only [ne_eq, not_true_eq_false, decide_False] at hb ⊢
    rw [step_payload_mode d b hmode, sbwc_bit_edge _ b _ false he, sink_bit_eq]
    simp only [hb, if_false, ne_eq, not_true_eq_false]

/-- A bit edge that completes a byte in LENGTH. -/
theorem step_edge_byte_length (d : spooky_decoder) (b : Bool) (hm : d.mode = RX_LENGTH)
    (he : bit_edge (ticked d) b)
    (hb : (edge_state (ticked d) b true).bit_index >>> 1 = 0) :
    spooky_decoder_step d b
      = (SPOOKY_DECODER_STEP_OK,
          { (length_byte_cb
              { edge_state (ticked d) b true with
                  bit_accum := stored_byte (edge_state (ticked d) b true) b,
                  bit_index := 0x80 }).2.1 with bit_accum := 0 },
          []) := by
  rw [step_length_mode d b hm, sbwc_bit_edge _ b _ true he, sink_bit_eq]
  simp only [hb, if_true, ne_eq, one_ne_zero, not_false_eq_true, length_byte_cb_calls]

/-- A bit edge that completes a byte in CHKSUM. -/
theorem step_edge_byte_chksum (d : spooky_decoder) (b : Bool) (hm : d.mode = RX_CHKSUM)
    (he : bit_edge (ticked d) b)
    (hb : (edge_state (ticked d) b true).bit_index >>> 1 = 0) :
    spooky_decoder_step d b
      = (SPOOKY_DECODER_STEP_OK,
          { (chksum_byte_cb
              { edge_state (ticked d) b true with
                  bit_accum := stored_byte (edge_state (ticked d) b true) b,
                  bit_index := 0x80 }).2.1 with bit_accum := 0 },
          []) := by
  rw [step_chksum_mode d b hm, sbwc_bit_edge _ b _ true he, sink_bit_eq]
  simp only [hb, if_true, ne_eq, one_ne_zero, not_false_eq_true, chksum_byte_cb_calls]

/-- A bit edge that completes a byte in PAYLOAD. -/
theorem step_edge_byte_payload (d : spooky_decoder) (b : Bool) (hm : d.mode = RX_PAYLOAD)
    (he : bit_edge (ticked d) b)
    (hb : (edge_state (ticked d) b false).bit_index >>> 1 = 0) :
    spooky_decoder_step d b
      = (if (payload_byte_cb
              { edge_state (ticked d) b false with
                  bit_accum := stored_byte (edge_state (ticked d) b false) b,
                  bit_index := 0x80 }).1 ≠ 0
          then SPOOKY_DECODER_STEP_DONE else SPOOKY_DECODER_STEP_OK,
          { (payload_byte_cb
              { edge_state (ticked d) b false with
                  bit_accum := stored_byte (edge_state (ticked d) b false) b,
                  bit_index := 0x80 }).2.1 with bit_accum := 0 },
          (payload_byte_cb
              { edge_state (ticked d) b false with
                  bit_accum := stored_byte (edge_state (ticked d) b false) b,
                  bit_index := 0x80 }).2.2) := by
  rw [step_payload_mode d b hm, sbwc_bit_edge _ b _ false he, sink_bit_eq]
  simp only [hb, if_true, ne_eq, one_ne_zero, not_false_eq_true]

/-! ## Decoder: whole bits and bytes -/

/-- One bit that does not complete a byte: after its chunk the decoder is
again just after a bit edge, with the bit sunk. -/
theorem bit_feed (s : Nat) (hs2 : 2 ≤ s) (hs : s ≤ 127) (idx bs : Nat) (mode : rx_mode)
    (hm : mode ≠ RX_HEADER) (bi acc : Nat) (prev b : Bool) (pl ck : Nat) (buf : List Nat)
    (u : Nat) (hbi : bi >>> 1 ≠ 0) :
    ∃ I Bf,
      decoder_feed (chunk_init s prev b ++ [b])
          ⟨idx, bs, mode, 0, bi, acc, bool_val prev, s, pl, ck, 0, buf, u⟩
        = (⟨I, bs, mode, 0, bi >>> 1, if b then acc ||| bi else acc, bool_val b, s, pl, ck, 0,
              Bf, u⟩, [])
      ∧ Bf.length = buf.length ∧ (mode = RX_PAYLOAD → I = idx ∧ Bf = buf) := by
  obtain ⟨dpre, I, Bf, hfeed, hmode, hedge, hes, hl, hpay⟩ :=
    chunk_arrive s hs2 hs idx bs mode hm bi acc prev b pl ck buf u
  refine ⟨I, Bf, ?_, hl, hpay⟩
  rw [decoder_feed_append_of _ _ _ _ hfeed, decoder_feed_single]
  have hm' : dpre.mode ≠ RX_HEADER := by rw [hmode]; exact hm
  have hes' : edge_state (ticked dpre) b (decide (dpre.mode ≠ RX_PAYLOAD))
      = ⟨I, bs, mode, 0, bi, acc, bool_val b, s, pl, ck, 0, Bf, u⟩ := by
    rw [hmode]; exact hes
  rw [step_edge_midbyte dpre b hm' hedge (by rw [hes']; exact hbi), hes']
  rfl

theorem shiftRight_one_ne_zero (bi k : Nat) (h : bi >>> (k + 1) ≠ 0) : bi >>> 1 ≠ 0 := by
  intro h0
  apply h
  rw [Nat.add_comm, Nat.shiftRight_add, h0, Nat.zero_shiftRight]

/-- A run of bits none of which completes a byte. -/
theorem bits_feed (s : Nat) (hs2 : 2 ≤ s) (hs : s ≤ 127) (bs : Nat) (mode : rx_mode)
    (hm : mode ≠ RX_HEADER) (pl ck u : Nat) (bits : List Bool) :
    ∀ (idx bi acc : Nat) (prev : Bool) (buf : List Nat), bi >>> bits.length ≠ 0 →
    ∃ I Bf,
      decoder_feed (bits_stream s prev bits)
          ⟨idx, bs, mode, 0, bi, acc, bool_val prev, s, pl, ck, 0, buf, u⟩
        = (⟨I, bs, mode, 0, (sink_acc bits acc bi).2, (sink_acc bits acc bi).1,
              bool_val (bits.getLastD prev), s, pl, ck, 0, Bf, u⟩, [])
      ∧ Bf.length = buf.length ∧ (mode = RX_PAYLOAD → I = idx ∧ Bf = buf) := by
  induction bits with
  | nil =>
    intro idx bi acc prev buf _
    exact ⟨idx, buf, by simp [bits_stream, decoder_feed, sink_acc], rfl, fun _ => ⟨rfl, rfl⟩⟩
  | cons b bits ih =>
    intro idx bi acc prev buf hbi
    have hbi1 : bi >>> 1 ≠ 0 := shiftRight_one_ne_zero bi bits.length (by simpa using hbi)
    obtain ⟨I1, B1, hf1, hl1, hp1⟩ :=
      bit_feed s hs2 hs idx bs mode hm bi acc prev b pl ck buf u hbi1
    have hbi2 : (bi >>> 1) >>> bits.length ≠ 0 := by
      rw [← Nat.shiftRight_add, Nat.add_comm]; simpa using hbi
    obtain ⟨I2, B2, hf2, hl2, hp2⟩ := ih I1 (bi >>> 1) (if b then acc ||| bi else acc) b B1 hbi2
    refine ⟨I2, B2, ?_, by rw [hl2, hl1], ?_⟩
    · simp only [bits_stream]
      rw [decoder_feed_append_of _ _ _ _ hf1, hf2]
      simp only [sink_acc]
      cases bits <;> simp [List.getLastD]
    · intro h
      obtain ⟨h1, h2⟩ := hp1 h
      obtain ⟨h3, h4⟩ := hp2 h
      exact ⟨h3.trans h1, h4.trans h2⟩

theorem sink_acc_mask (bits : List Bool) (acc bi : Nat) :
    (sink_acc bits acc bi).2 = bi >>> bits.length := by
  induction bits generalizing acc bi with
  | nil => simp [sink_acc]
  | cons b bits ih =>
    simp only [sink_acc, ih, List.length_cons]
    rw [← Nat.shiftRight_add, Nat.add_comm]

theorem sink_acc_append (xs : List Bool) (b : Bool) (acc bi : Nat) :
    (sink_acc (xs ++ [b]) acc bi).1
      = if b then (sink_acc xs acc bi).1 ||| (sink_acc xs acc bi).2 else (sink_acc xs acc bi).1 := by
  induction xs generalizing acc bi with
  | nil => simp [sink_acc]
  | cons x xs ih =>
    rw [List.cons_append]
    simp only [sink_acc]
    exact ih _ _

theorem getLastD_cons (x prev : Bool) (xs : List Bool) :
    (x :: xs).getLastD prev = xs.getLastD x := by
  cases xs <;> simp [List.getLastD]

theorem bits_stream_append (s : Nat) (prev : Bool) (xs : List Bool) (b : Bool) :
    bits_stream s prev (xs ++ [b])
      = bits_stream s prev xs ++ chunk_init s (xs.getLastD prev) b ++ [b] := by
  induction xs generalizing prev with
  | nil => simp [bits_stream]
  | cons x xs ih =>
    rw [List.cons_append, bits_stream, ih x, getLastD_cons, bits_stream]
    simp only [List.append_assoc]

/-- Arrival of the last bit edge of a byte: seven bits are sunk and the
decoder stands one sample before the bit edge of the eighth. -/
theorem byte_arrive (s : Nat) (hs2 : 2 ≤ s) (hs : s ≤ 127) (idx bs : Nat) (mode : rx_mode)
    (hm : mode ≠ RX_HEADER) (prev : Bool) (pl ck : Nat) (buf : List Nat) (u : Nat)
    (xs : List Bool) (hx : xs.length = 7) (b : Bool) :
    ∃ dpre I Bf,
      decoder_feed (bits_stream s prev xs ++ chunk_init s (xs.getLastD prev) b)
          ⟨idx, bs, mode, 0, 0x80, 0, bool_val prev, s, pl, ck, 0, buf, u⟩ = (dpre, [])
      ∧ dpre.mode = mode ∧ bit_edge (ticked dpre) b
      ∧ edge_state (ticked dpre) b (decide (mode ≠ RX_PAYLOAD))
          = ⟨I, bs, mode, 0, 1, (sink_acc xs 0 0x80).1, bool_val b, s, pl, ck, 0, Bf, u⟩
      ∧ Bf.length = buf.length ∧ (mode = RX_PAYLOAD → I = idx ∧ Bf = buf) := by
  obtain ⟨I1, B1, hf1, hl1, hp1⟩ := bits_feed s hs2 hs bs mode hm pl ck u xs idx 0x80 0 prev buf
    (by rw [hx]; decide)
  have hmask : (sink_acc xs 0 0x80).2 = 1 := by rw [sink_acc_mask, hx]; decide
  rw [hmask] at hf1
  obtain ⟨dpre, I, Bf, hfeed, hmode, hedge, hes, hl, hpay⟩ :=
    chunk_arrive s hs2 hs I1 bs mode hm 1 (sink_acc xs 0 0x80).1 (xs.getLastD prev) b pl ck B1 u
  refine ⟨dpre, I, Bf, ?_, hmode, hedge, hes, by rw [hl, hl1], ?_⟩
  · rw [decoder_feed_append_of _ _ _ _ hf1, hfeed]
  · intro h
    obtain ⟨h1, h2⟩ := hp1 h
    obtain ⟨h3, h4⟩ := hpay h
    exact ⟨h3.trans h1, h4.trans h2⟩

theorem byte_bits_eq (x : Nat) : byte_bits x = byte_hi x ++ [x.testBit 0] := by
  have hr : List.range 8 = [0, 1, 2, 3, 4, 5, 6, 7] := by decide
  simp [byte_bits, byte_hi, hr]

theorem byte_hi_length (x : Nat) : (byte_hi x).length = 7 := rfl

set_option maxRecDepth 100000 in
theorem sink_byte (x : Nat) (hx : x < 256) : (sink_acc (byte_bits x) 0 0x80).1 = x := by
  revert x
  decide

theorem sink_byte_stored (x : Nat) (hx : x < 256) :
    (if x.testBit 0 then (sink_acc (byte_hi x) 0 0x80).1 ||| 1 else (sink_acc (byte_hi x) 0 0x80).1)
      = x := by
  have h := sink_byte x hx
  rw [byte_bits_eq, sink_acc_append] at h
  have hmask : (sink_acc (byte_hi x) 0 0x80).2 = 1 := by
    rw [sink_acc_mask, byte_hi_length]; decide
  rw [hmask] at h
  exact h

theorem byte_last (x : Nat) (prev : Bool) : (byte_bits x).getLastD prev = x.testBit 0 := by
  rw [byte_bits_eq]; simp [byte_hi, List.getLastD]

/-! ## Decoder: the bytes of a frame -/

/-- The length byte: a byte `x` with `1 ≤ x ≤ buffer_size` received in LENGTH
is stored as `payload_length` and moves the decoder to CHKSUM. -/
theorem length_byte_feed (s : Nat) (hs2 : 2 ≤ s) (hs : s ≤ 127) (idx bs : Nat) (prev : Bool)
    (pl ck : Nat) (buf : List Nat) (u : Nat) (x : Nat) (hx : x < 256) (hx1 : 1 ≤ x)
    (hxb : x ≤ bs) :
    ∃ I Bf,
      decoder_feed (bits_stream s prev (byte_bits x))
          ⟨idx, bs, RX_LENGTH, 0, 0x80, 0, bool_val prev, s, pl, ck, 0, buf, u⟩
        = (⟨I, bs, RX_CHKSUM, 0, 0x80, 0, bool_val (x.testBit 0), s, x, ck, 0, Bf, u⟩, [])
      ∧ Bf.length = buf.length := by
  obtain ⟨dpre, I, Bf, hfeed, hmode, hedge, hes, hl, _⟩ :=
    byte_arrive s hs2 hs idx bs RX_LENGTH (by decide) prev pl ck buf u (byte_hi x)
      (byte_hi_length x) (x.testBit 0)
  have hes' : edge_state (ticked dpre) (x.testBit 0) true
      = ⟨I, bs, RX_LENGTH, 0, 1, (sink_acc (byte_hi x) 0 0x80).1, bool_val (x.testBit 0), s, pl,
          ck, 0, Bf, u⟩ := hes
  refine ⟨I, Bf, ?_, hl⟩
  rw [byte_bits_eq, bits_stream_append, decoder_feed_append_of _ _ _ _ hfeed,
    decoder_feed_single, step_edge_byte_length dpre _ hmode hedge (by rw [hes']; show (1 : Nat) >>> 1 = 0; decide), hes']
  have hne : ¬ x > bs := by omega
  have hz : ¬ x = 0 := by omega
  simp only [stored_byte, sink_byte_stored x hx, length_byte_cb, hne, hz, if_false]

/-- The checksum byte: stored as `chksum`, `index` reset, on to PAYLOAD. -/
theorem chksum_byte_feed (s : Nat) (hs2 : 2 ≤ s) (hs : s ≤ 127) (idx bs : Nat) (prev : Bool)
    (pl ck : Nat) (buf : List Nat) (u : Nat) (x : Nat) (hx : x < 256) :
    ∃ Bf,
      decoder_feed (bits_stream s prev (byte_bits x))
          ⟨idx, bs, RX_CHKSUM, 0, 0x80, 0, bool_val prev, s, pl, ck, 0, buf, u⟩
        = (⟨0, bs, RX_PAYLOAD, 0, 0x80, 0, bool_val (x.testBit 0), s, pl, x, 0, Bf, u⟩, [])
      ∧ Bf.length = buf.length := by
  obtain ⟨dpre, I, Bf, hfeed, hmode, hedge, hes, hl, _⟩ :=
    byte_arrive s hs2 hs idx bs RX_CHKSUM (by decide) prev pl ck buf u (byte_hi x)
      (byte_hi_length x) (x.testBit 0)
  have hes' : edge_state (ticked dpre) (x.testBit 0) true
      = ⟨I, bs, RX_CHKSUM, 0, 1, (sink_acc (byte_hi x) 0 0x80).1, bool_val (x.testBit 0), s, pl,
          ck, 0, Bf, u⟩ := hes
  refine ⟨Bf, ?_, hl⟩
  rw [byte_bits_eq, bits_stream_append, decoder_feed_append_of _ _ _ _ hfeed,
    decoder_feed_single, step_edge_byte_chksum dpre _ hmode hedge (by rw [hes']; show (1 : Nat) >>> 1 = 0; decide), hes']
  simp only [stored_byte, sink_byte_stored x hx, chksum_byte_cb]

/-- A payload byte that is not the last one: stored at `buffer[index]`. -/
theorem payload_byte_feed (s : Nat) (hs2 : 2 ≤ s) (hs : s ≤ 127) (idx bs : Nat) (prev : Bool)
    (pl ck : Nat) (buf : List Nat) (u : Nat) (x : Nat) (hx : x < 256)
    (hidx : idx + 1 < pl) (hpl : pl < 65536) :
    decoder_feed (bits_stream s prev (byte_bits x))
        ⟨idx, bs, RX_PAYLOAD, 0, 0x80, 0, bool_val prev, s, pl, ck, 0, buf, u⟩
      = (⟨idx + 1, bs, RX_PAYLOAD, 0, 0x80, 0, bool_val (x.testBit 0), s, pl, ck, 0,
            buf.set idx x, u⟩, []) := by
  obtain ⟨dpre, I, Bf, hfeed, hmode, hedge, hes, hl, hpay⟩ :=
    byte_arrive s hs2 hs idx bs RX_PAYLOAD (by decide) prev pl ck buf u (byte_hi x)
      (byte_hi_length x) (x.testBit 0)
  obtain ⟨rfl, rfl⟩ := hpay rfl
  have hes' : edge_state (ticked dpre) (x.testBit 0) false
      = ⟨I, bs, RX_PAYLOAD, 0, 1, (sink_acc (byte_hi x) 0 0x80).1, bool_val (x.testBit 0), s, pl,
          ck, 0, Bf, u⟩ := hes
  rw [byte_bits_eq, bits_stream_append, decoder_feed_append_of _ _ _ _ hfeed,
    decoder_feed_single, step_edge_byte_payload dpre _ hmode hedge (by rw [hes']; show (1 : Nat) >>> 1 = 0; decide), hes']
  have h1 : (I + 1) % 65536 = I + 1 := by omega
  have h2 : ¬ I + 1 = pl := by omega
  simp only [stored_byte, sink_byte_stored x hx, payload_byte_cb_eq, h1, h2, if_false]

/-- The last payload byte: all samples before its final bit edge make no
callback; the step at that bit edge returns `DONE`, resets the decoder and
invokes the callback if and only if the checksum matches. -/
theorem payload_last_byte_feed (s : Nat) (hs2 : 2 ≤ s) (hs : s ≤ 127) (idx bs : Nat)
    (prev : Bool) (pl ck : Nat) (buf : List Nat) (u : Nat) (x : Nat) (hx : x < 256)
    (hidx : idx + 1 = pl) (hpl : pl < 65536) :
    ∃ dpre,
      decoder_feed (bits_stream s prev (byte_hi x) ++ chunk_init s ((byte_hi x).getLastD prev)
            (x.testBit 0))
          ⟨idx, bs, RX_PAYLOAD, 0, 0x80, 0, bool_val prev, s, pl, ck, 0, buf, u⟩ = (dpre, [])
      ∧ spooky_decoder_step dpre (x.testBit 0)
        = (SPOOKY_DECODER_STEP_DONE,
            ⟨0, bs, RX_HEADER, 0, 0x80, 0, bool_val (x.testBit 0), 0, 0, ck, 0, buf.set idx x, u⟩,
            if checksum (buf.set idx x) pl = ck then [⟨buf.set idx x, pl % 256, u⟩] else []) := by
  obtain ⟨dpre, I, Bf, hfeed, hmode, hedge, hes, hl, hpay⟩ :=
    byte_arrive s hs2 hs idx bs RX_PAYLOAD (by decide) prev pl ck buf u (byte_hi x)
      (byte_hi_length x) (x.testBit 0)
  obtain ⟨rfl, rfl⟩ := hpay rfl
  have hes' : edge_state (ticked dpre) (x.testBit 0) false
      = ⟨I, bs, RX_PAYLOAD, 0, 1, (sink_acc (byte_hi x) 0 0x80).1, bool_val (x.testBit 0), s, pl,
          ck, 0, Bf, u⟩ := hes
  refine ⟨dpre, hfeed, ?_⟩
  rw [step_edge_byte_payload dpre _ hmode hedge (by rw [hes']; show (1 : Nat) >>> 1 = 0; decide), hes']
  have h1 : (I + 1) % 65536 = pl := by omega
  simp only [stored_byte, sink_byte_stored x hx, payload_byte_cb_eq, h1, if_true,
    reset_decoder, ne_eq, one_ne_zero, not_false_eq_true]

theorem bits_stream_cat (s : Nat) (prev : Bool) (xs ys : List Bool) :
    bits_stream s prev (xs ++ ys) = bits_stream s prev xs ++ bits_stream s (xs.getLastD prev) ys := by
  induction xs generalizing prev with
  | nil => simp [bits_stream]
  | cons x xs ih =>
    rw [List.cons_append, bits_stream, ih x, getLastD_cons, bits_stream]
    simp only [List.append_assoc]

theorem store_bytes_length (buf : List Nat) (idx : Nat) (xs : List Nat) :
    (store_bytes buf idx xs).length = buf.length := by
  induction xs generalizing buf idx with
  | nil => rfl
  | cons x xs ih => simp [store_bytes, ih]

/-- The payload: its bytes are stored in order; every sample before the final
bit edge makes no callback; the step at the final bit edge returns `DONE` and
invokes the callback if and only if the checksum matches. -/
theorem payload_feed (s : Nat) (hs2 : 2 ≤ s) (hs : s ≤ 127) (bs pl ck u : Nat)
    (hpl : pl < 65536) (Q : List Nat) :
    ∀ (idx : Nat) (prev : Bool) (buf : List Nat), Q ≠ [] → idx + Q.length = pl →
      (∀ x ∈ Q, x < 256) →
    ∃ init lastb dpre,
      bits_stream s prev (Q.flatMap byte_bits) = init ++ [lastb]
      ∧ decoder_feed init
          ⟨idx, bs, RX_PAYLOAD, 0, 0x80, 0, bool_val prev, s, pl, ck, 0, buf, u⟩ = (dpre, [])
      ∧ spooky_decoder_step dpre lastb
        = (SPOOKY_DECODER_STEP_DONE,
            ⟨0, bs, RX_HEADER, 0, 0x80, 0, bool_val lastb, 0, 0, ck, 0, store_bytes buf idx Q, u⟩,
            if checksum (store_bytes buf idx Q) pl = ck
              then [⟨store_bytes buf idx Q, pl % 256, u⟩] else []) := by
  induction Q with
  | nil => intro _ _ _ h; exact absurd rfl h
  | cons x Q ih =>
    intro idx prev buf _ hlen hbytes
    have hx : x < 256 := hbytes x (List.mem_cons_self _ _)
    by_cases hQ : Q = []
    · subst hQ
      obtain ⟨dpre, hfeed, hstep⟩ := payload_last_byte_feed s hs2 hs idx bs prev pl ck buf u x hx
        (by simpa using hlen) hpl
      refine ⟨_, x.testBit 0, dpre, ?_, hfeed, ?_⟩
      · simp only [List.flatMap_cons, List.flatMap_nil, List.append_nil]
        rw [byte_bits_eq, bits_stream_append]
      · rw [hstep]; rfl
    · have hlen' : idx + 1 + Q.length = pl := by simp at hlen; omega
      have hpos : 0 < Q.length := List.length_pos.mpr hQ
      have hf1 := payload_byte_feed s hs2 hs idx bs prev pl ck buf u x hx (by omega) hpl
      obtain ⟨init, lastb, dpre, hsplit, hfeed, hstep⟩ :=
        ih (idx + 1) (x.testBit 0) (buf.set idx x) hQ hlen'
          (fun y hy => hbytes y (List.mem_cons_of_mem _ hy))
      refine ⟨bits_stream s prev (byte_bits x) ++ init, lastb, dpre, ?_, ?_, ?_⟩
      · rw [List.flatMap_cons, bits_stream_cat, byte_last, hsplit, List.append_assoc]
      · rw [decoder_feed_append_of _ _ _ _ hf1, hfeed]
      · rw [hstep]; rfl

theorem take_set_succ (buf : List Nat) (idx x : Nat) (h : idx < buf.length) :
    (buf.set idx x).take (idx + 1) = buf.take idx ++ [x] := by
  induction buf generalizing idx with
  | nil => simp at h
  | cons a l ih =>
    cases idx with
    | zero => simp
    | succ i => simpa using ih i (by simpa using h)

theorem store_bytes_take (Q : List Nat) :
    ∀ (buf : List Nat) (idx : Nat), idx + Q.length ≤ buf.length →
      (store_bytes buf idx Q).take (idx + Q.length) = buf.take idx ++ Q := by
  induction Q with
  | nil => intro buf idx _; simp [store_bytes]
  | cons x Q ih =>
    intro buf idx h
    simp only [List.length_cons] at h
    have := ih (buf.set idx x) (idx + 1) (by simp; omega)
    simp only [store_bytes, List.length_cons]
    rw [show idx + (Q.length + 1) = idx + 1 + Q.length by omega, this,
      take_set_succ buf idx x (by omega)]
    simp

/-- The data part of a frame (length, checksum, payload) received from the
LENGTH state the header leaves: no callback before the final bit edge; the
step at the final bit edge returns `DONE`, and when the checksum byte `c` is
the checksum of the payload it invokes the callback once with the payload. -/
theorem data_feed (s : Nat) (hs2 : 2 ≤ s) (hs : s ≤ 127) (bs u : Nat) (P : List Nat)
    (hP1 : 1 ≤ P.length) (hPb : P.length ≤ bs) (hbs : bs ≤ 255) (hbytes : ∀ x ∈ P, x < 256)
    (c : Nat) (hc : c < 256) (idx pl0 ck0 : Nat) (buf : List Nat) (prev : Bool) :
    ∃ init lastb dpre Bf,
      bits_stream s prev (byte_bits P.length ++ byte_bits c ++ P.flatMap byte_bits)
          = init ++ [lastb]
      ∧ decoder_feed init
          ⟨idx, bs, RX_LENGTH, 0, 0x80, 0, bool_val prev, s, pl0, ck0, 0, buf, u⟩ = (dpre, [])
      ∧ Bf.length = buf.length
      ∧ spooky_decoder_step dpre lastb
        = (SPOOKY_DECODER_STEP_DONE,
            ⟨0, bs, RX_HEADER, 0, 0x80, 0, bool_val lastb, 0, 0, c, 0, store_bytes Bf 0 P, u⟩,
            if checksum (store_bytes Bf 0 P) P.length = c
              then [⟨store_bytes Bf 0 P, P.length % 256, u⟩] else []) := by
  obtain ⟨I1, B1, hf1, hl1⟩ := length_byte_feed s hs2 hs idx bs prev pl0 ck0 buf u P.length
    (by omega) hP1 hPb
  obtain ⟨B2, hf2, hl2⟩ := chksum_byte_feed s hs2 hs I1 bs (P.length.testBit 0) P.length ck0 B1 u
    c hc
  obtain ⟨init, lastb, dpre, hsplit, hfeed, hstep⟩ :=
    payload_feed s hs2 hs bs P.length c u (by omega) P 0 (c.testBit 0) B2
      (by intro h; rw [h] at hP1; simp at hP1) (by simp) hbytes
  refine ⟨bits_stream s prev (byte_bits P.length)
      ++ (bits_stream s (P.length.testBit 0) (byte_bits c) ++ init), lastb, dpre, B2, ?_, ?_,
      by rw [hl2, hl1], hstep⟩
  · rw [List.append_assoc, bits_stream_cat, byte_last, bits_stream_cat, byte_last, hsplit]
    simp only [List.append_assoc]
  · rw [decoder_feed_append_of _ _ _ _ hf1, decoder_feed_append_of _ _ _ _ hf2, hfeed]

/-! ## Decoder: the clock-recovery scan -/

theorem ring_window_length (buf : List Nat) (index : Nat) : (ring_window buf index).length = 16 := by
  simp [ring_window]

theorem ring_window_getElem (buf : List Nat) (index i : Nat)
    (h : i < (ring_window buf index).length) :
    (ring_window buf index)[i] = buf.getD ((index + i) % 16) 0 := by
  simp [ring_window]

theorem step_header_scan_eq (buf : List Nat) (index : Nat) (n : Nat) (hn : n ≤ 16)
    (total lc avg : Nat) :
    step_header_scan buf index n total lc avg
      = scan_list ((ring_window buf index).drop (16 - n)) (16 - n) total lc avg := by
  induction n generalizing total lc avg with
  | zero =>
    have : (ring_window buf index).drop 16 = [] := by
      apply List.drop_eq_nil_of_le; rw [ring_window_length]
    simp [step_header_scan, this, scan_list]
  | succ n ih =>
    have hlt : 16 - (n + 1) < (ring_window buf index).length := by
      rw [ring_window_length]; omega
    rw [List.drop_eq_getElem_cons hlt, ring_window_getElem buf index _ hlt]
    have hidx : ((index + (16 - (n + 1))) &&& 15) % 256 = (index + (16 - (n + 1))) % 16 := by
      have := Nat.and_pow_two_sub_one_eq_mod (index + (16 - (n + 1))) 4
      simp only [show (2 : Nat) ^ 4 - 1 = 15 by norm_num, show (2 : Nat) ^ 4 = 16 by norm_num] at this
      rw [this]; omega
    have hnext : 16 - (n + 1) + 1 = 16 - n := by omega
    simp only [step_header_scan, scan_list, RING_BUF_SZ, RING_BUF_MASK, MAX_POSSIBLE_DELAY,
      hidx, hnext, ih (by omega)]

/-- Writing the slot at `index mod 16` and advancing `index` drops the oldest
entry of the window and appends the new one. -/
theorem ring_window_push (buf : List Nat) (index v : Nat) (hlen : 16 ≤ buf.length) :
    ring_window (buf.set (index % 16) v) (index + 1) = (ring_window buf index).tail ++ [v] := by
  apply List.ext_getElem
  · simp [ring_window_length]
  · intro i h1 h2
    rw [ring_window_getElem _ _ _ h1]
    rw [ring_window_length] at h1
    have hpos : index % 16 < buf.length := by
      have := Nat.mod_lt index (by decide : 16 > 0); omega
    by_cases hi : i = 15
    · subst hi
      have e : (index + 1 + 15) % 16 = index % 16 := by omega
      rw [e]
      simp [List.getD_eq_getElem?_getD, List.getElem?_set, hpos, List.getElem_append_right,
        ring_window_length]
    · have hlt : i < 15 := by omega
      have e : (index + 1 + i) % 16 ≠ index % 16 := by omega
      rw [List.getElem_append_left (by simp [ring_window_length]; omega)]
      simp only [List.getElem_tail]
      rw [ring_window_getElem _ _ _ (by rw [ring_window_length]; omega)]
      have e2 : (index + (i + 1)) % 16 = (index + 1 + i) % 16 := by congr 1; omega
      rw [e2]
      simp [List.getD_eq_getElem?_getD, List.getElem?_set, Ne.symm e]

/-- In the second half of the scan `long_count` grows by at most one per
entry. -/
theorem scan_bound (vs : List Nat) :
    ∀ (i total lc avg : Nat), 8 ≤ i → (scan_list vs i total lc avg).1 ≤ lc + vs.length := by
  induction vs with
  | nil => intro i total lc avg _; simp [scan_list]
  | cons v vs ih =>
    intro i total lc avg hi
    have h8 : ¬ i < 8 := by omega
    simp only [scan_list, h8, if_false, List.length_cons]
    split_ifs
    · omega
    · have := ih (i + 1) total ((lc + 1) % 65536) avg (by omega)
      have h2 : (lc + 1) % 65536 ≤ lc + 1 := Nat.mod_le _ _
      omega
    · have := ih (i + 1) total lc avg (by omega); omega
    · have := ih (i + 1) total lc avg (by omega); omega

/-- A sentinel in the second half of the scan keeps `long_count` strictly
below the count a full scan would reach. -/
theorem scan_sentinel_late (vs : List Nat) :
    ∀ (i total lc avg : Nat), 8 ≤ i → 255 ∈ vs →
      (scan_list vs i total lc avg).1 < lc + vs.length := by
  induction vs with
  | nil => intro i total lc avg _ h; simp at h
  | cons v vs ih =>
    intro i total lc avg hi hmem
    have h8 : ¬ i < 8 := by omega
    by_cases hv : v = 255
    · simp [scan_list, hv]
    · have hmem' : 255 ∈ vs := by
        rcases List.mem_cons.mp hmem with h | h
        · exact absurd h.symm hv
        · exact h
      simp only [scan_list, hv, h8, if_false, List.length_cons]
      split_ifs
      · have := ih (i + 1) total ((lc + 1) % 65536) avg (by omega) hmem'
        have h2 : (lc + 1) % 65536 ≤ lc + 1 := Nat.mod_le _ _
        omega
      · have := ih (i + 1) total lc avg (by omega) hmem'; omega
      · have := ih (i + 1) total lc avg (by omega) hmem'; omega

/-- A sentinel anywhere among the sixteen entries prevents `long_count = 8`. -/
theorem scan_sentinel (vs : List Nat) :
    ∀ (i total avg : Nat), i + vs.length = 16 → 255 ∈ vs →
      (scan_list vs i total 0 avg).1 < 8 := by
  induction vs with
  | nil => intro i total avg _ h; simp at h
  | cons v vs ih =>
    intro i total avg hlen hmem
    simp only [List.length_cons] at hlen
    by_cases hv : v = 255
    · simp [scan_list, hv]
    · have hmem' : 255 ∈ vs := by
        rcases List.mem_cons.mp hmem with h | h
        · exact absurd h.symm hv
        · exact h
      by_cases h8 : i < 8
      · simp only [scan_list, hv, h8, if_false, if_true]
        split_ifs
        · exact ih (i + 1) _ _ (by omega) hmem'
        · exact ih (i + 1) _ _ (by omega) hmem'
      · have := scan_sentinel_late (v :: vs) i total 0 avg (by omega) hmem
        simp only [List.length_cons] at this
        omega

/-- The first half of the scan, without a sentinel: the entries are summed and
the average is taken after the eighth. -/
theorem scan_first_half (as : List Nat) :
    ∀ (rest : List Nat) (i total lc avg : Nat), as ≠ [] → i + as.length = 8 →
      (∀ x ∈ as, x ≠ 255) →
      scan_list (as ++ rest) i total lc avg
        = scan_list rest 8 ((total + as.sum) % 65536) lc ((total + as.sum) % 65536 / 8) := by
  induction as with
  | nil => intro _ _ _ _ _ h; exact absurd rfl h
  | cons a as ih =>
    intro rest i total lc avg _ hlen hne
    simp only [List.length_cons] at hlen
    have ha : a ≠ 255 := hne a (List.mem_cons_self _ _)
    have hi : i < 8 := by omega
    by_cases hlast : as = []
    · subst hlast
      have hi7 : i = 7 := by simp at hlen; omega
      subst hi7
      simp [scan_list, ha]
    · have hi7 : ¬ i = 7 := by
        have := List.length_pos.mpr hlast; omega
      rw [List.cons_append, scan_list]
      simp only [ha, hi, hi7, if_false, if_true]
      rw [ih rest (i + 1) _ lc avg hlast (by omega)
        (fun x hx => hne x (List.mem_cons_of_mem _ hx))]
      simp only [List.sum_cons, Nat.mod_add_mod, Nat.add_assoc]

theorem scan_list_skip (v : Nat) (vs : List Nat) (i total lc avg : Nat) (hi : 8 ≤ i)
    (hv : v ≠ 255) (hx : ¬ approx_eq (v : Int) ((2 * avg : Nat) : Int) = true) :
    scan_list (v :: vs) i total lc avg = scan_list vs (i + 1) total lc avg := by
  have h8 : ¬ i < 8 := by omega
  rw [scan_list]
  simp only [hv, h8, if_false]
  split_ifs <;> rfl

theorem scan_list_hit (v : Nat) (vs : List Nat) (i total lc avg : Nat) (hi : 8 ≤ i)
    (hv : v ≠ 255) (ha : 0 < avg) (hx : approx_eq (v : Int) ((2 * avg : Nat) : Int) = true) :
    scan_list (v :: vs) i total lc avg = scan_list vs (i + 1) total ((lc + 1) % 65536) avg := by
  have h8 : ¬ i < 8 := by omega
  rw [scan_list]
  simp only [hv, h8, if_false, ha, hx, gt_iff_lt, if_true]

/-- No lock when the ninth entry is not about twice the average of the first
eight. -/
theorem scan_no_lock_mid (as : List Nat) (x : Nat) (rest : List Nat) (has : as.length = 8)
    (hrest : rest.length = 7)
    (hx : ¬ approx_eq (x : Int) ((2 * (as.sum % 65536 / 8) : Nat) : Int) = true) :
    (scan_list (as ++ x :: rest) 0 0 0 0).1 < 8 := by
  by_cases hs : ∀ y ∈ as, y ≠ 255
  · rw [scan_first_half as (x :: rest) 0 0 0 0 (by intro h; rw [h] at has; simp at has)
      (by omega) hs]
    simp only [Nat.zero_add]
    by_cases hx255 : x = 255
    · simp [scan_list, hx255]
    · have hb := scan_bound rest (8 + 1) (as.sum % 65536) 0 (as.sum % 65536 / 8) (by omega)
      rw [scan_list_skip _ _ _ _ _ _ (by omega) hx255 hx]
      omega
  · apply scan_sentinel
    · simp [has, hrest]
    · push_neg at hs
      obtain ⟨y, hy, hy255⟩ := hs
      rw [← hy255]
      exact List.mem_append_left _ hy

/-- The lock: eight entries `s` followed by eight entries `2 s`. -/
theorem scan_lock (s : Nat) (hs1 : 1 ≤ s) (hs : s ≤ 127) :
    scan_list (List.replicate 8 s ++ List.replicate 8 (2 * s)) 0 0 0 0 = (8, s) := by
  rw [scan_first_half (List.replicate 8 s) _ 0 0 0 0 (by simp) (by simp)
    (by intro x hx; rw [List.eq_of_mem_replicate hx]; omega)]
  have hsum : (0 + (List.replicate 8 s).sum) % 65536 = 8 * s := by
    simp [List.sum_replicate]; omega
  have havg : 8 * s / 8 = s := by omega
  have h255 : ¬ 2 * s = 255 := by omega
  have hpos : s > 0 := by omega
  have ha := approx_eq_double_self s
  rw [hsum, havg]
  have e8 : List.replicate 8 (2 * s)
      = [2 * s, 2 * s, 2 * s, 2 * s, 2 * s, 2 * s, 2 * s, 2 * s] := rfl
  rw [e8]
  repeat rw [scan_list_hit _ _ _ _ _ _ (by omega) h255 hpos ha]
  rfl

/-! ## Decoder: single steps in HEADER -/

theorem header_quiet_step (d : spooky_decoder) (x : Bool) (hm : d.mode = RX_HEADER)
    (hx : bool_val x = d.last) (ht : d.ticks + 1 < 256) :
    spooky_decoder_step d x = (SPOOKY_DECODER_STEP_OK, { d with ticks := d.ticks + 1 }, []) := by
  obtain ⟨index, bs, mode, ticks, bi, acc, last, interval, pl, ck, pre, buf, u⟩ := d
  simp only at hm hx ht
  subst hm
  rw [step_header_mode _ x rfl, ticked_eq _ _ _ _ _ _ _ _ _ _ _ _ _ ht]
  simp [step_header, hx]

theorem header_quiet_run (c : Nat) (d : spooky_decoder) (x : Bool) (hm : d.mode = RX_HEADER)
    (hx : bool_val x = d.last) (ht : d.ticks + c < 256) :
    decoder_feed (List.replicate c x) d = ({ d with ticks := d.ticks + c }, []) := by
  induction c generalizing d with
  | zero => simp [decoder_feed]
  | succ c ih =>
    rw [List.replicate_succ, decoder_feed, header_quiet_step d x hm hx (by omega)]
    simp only [List.nil_append]
    rw [ih _ (by simpa using hm) (by simpa using hx) (by simp; omega)]
    simp [Nat.add_assoc, Nat.add_comm 1 c]

/-- An edge in HEADER: the tick count is pushed into the ring buffer (the
sentinel 255 when `index = 0`), and the scan decides whether the decoder moves
to LENGTH. -/
theorem header_edge_step (m bs t bi acc last iv pl ck pre : Nat) (buf : List Nat) (u : Nat)
    (x : Bool) (hx : bool_val x ≠ last) (ht : t + 1 < 256) (hm : m + 1 < 65536) :
    spooky_decoder_step ⟨m, bs, RX_HEADER, t, bi, acc, last, iv, pl, ck, pre, buf, u⟩ x
      = (SPOOKY_DECODER_STEP_OK,
          (if (scan_list (ring_window (buf.set (m % 16) (if m = 0 then 255 else t + 1)) (m + 1))
                0 0 0 0).1 = 8 then
            ⟨m + 1, bs, RX_LENGTH, 0, bi, acc, bool_val x,
              (scan_list (ring_window (buf.set (m % 16) (if m = 0 then 255 else t + 1)) (m + 1))
                0 0 0 0).2 % 256, pl, ck, pre,
              buf.set (m % 16) (if m = 0 then 255 else t + 1), u⟩
           else
            ⟨m + 1, bs, RX_HEADER, 0, bi, acc, bool_val x, iv, pl, ck, pre,
              buf.set (m % 16) (if m = 0 then 255 else t + 1), u⟩),
          []) := by
  rw [step_header_mode _ x rfl, ticked_eq _ _ _ _ _ _ _ _ _ _ _ _ _ ht]
  have hidx : (m &&& 15) = m % 16 := by
    have := Nat.and_pow_two_sub_one_eq_mod m 4
    simpa using this
  have hv : ((((t + 1 : Nat) : Int) - ((0 % 256 : Nat) : Int)) % 256).toNat = t + 1 := by
    omega
  have hm1 : (m + 1) % 65536 = m + 1 := Nat.mod_eq_of_lt hm
  simp only [step_header, hx, ne_eq, not_false_eq_true, if_true, append_to_ring_buffer,
    RING_BUF_MASK, RING_BUF_SZ, MAX_POSSIBLE_DELAY, hidx, hv, hm1,
    show (16 : Nat) - 1 = 15 from rfl,
    step_header_scan_eq _ _ 16 (le_refl _), Nat.sub_self, List.drop_zero]
  split_ifs <;> rfl

/-! ## Decoder: the preamble -/

theorem bool_val_not_ne (lvl : Bool) : bool_val (!lvl) ≠ bool_val lvl :=
  bool_val_ne _ _ (by cases lvl <;> simp)

/-- One gap in HEADER that does not lock. -/
theorem hdr_gap (d : spooky_decoder) (m B u : Nat) (w : List Nat) (lvl : Bool) (g : Nat)
    (h : hdr_state d m B u w lvl) (hB : 16 ≤ B) (hm1 : 1 ≤ m) (hm : m + 1 < 65536)
    (hg1 : 1 ≤ g) (hg : g < 256) (hno : (scan_list (w.tail ++ [g]) 0 0 0 0).1 ≠ 8) :
    ∃ d', decoder_feed (gap_run g lvl) d = (d', [])
      ∧ hdr_state d' (m + 1) B u (w.tail ++ [g]) (!lvl) := by
  obtain ⟨buf, hlen, hw, rfl⟩ := h
  have hq := header_quiet_run (g - 1)
    ⟨m, B, RX_HEADER, 0, 0x80, 0, bool_val lvl, 0, 0, 0, 0, buf, u⟩ lvl rfl rfl
    (by simp only; omega)
  simp only [Nat.zero_add] at hq
  have hm0 : ¬ m = 0 := by omega
  have hg' : g - 1 + 1 = g := by omega
  have hwin : ring_window (buf.set (m % 16) g) (m + 1) = w.tail ++ [g] := by
    rw [ring_window_push buf m g (by omega), hw]
  have hstep := header_edge_step m B (g - 1) 0x80 0 (bool_val lvl) 0 0 0 0 buf u (!lvl)
    (bool_val_not_ne lvl) (by omega) hm
  simp only [hm0, if_false, hg', hwin, hno] at hstep
  refine ⟨_, ?_, ⟨buf.set (m % 16) g, by simpa using hlen, hwin, rfl⟩⟩
  unfold gap_run
  rw [decoder_feed_append_of _ _ _ _ hq, decoder_feed_single, hstep]

/-- The gap that locks: the decoder moves to LENGTH with `interval = avg`. -/
theorem hdr_lock (d : spooky_decoder) (m B u : Nat) (w : List Nat) (lvl : Bool) (g avg : Nat)
    (h : hdr_state d m B u w lvl) (hB : 16 ≤ B) (hm1 : 1 ≤ m) (hm : m + 1 < 65536)
    (hg1 : 1 ≤ g) (hg : g < 256) (havg : avg < 256)
    (hlock : scan_list (w.tail ++ [g]) 0 0 0 0 = (8, avg)) :
    ∃ buf', buf'.length = B
      ∧ decoder_feed (gap_run g lvl) d
        = (⟨m + 1, B, RX_LENGTH, 0, 0x80, 0, bool_val (!lvl), avg, 0, 0, 0, buf', u⟩, []) := by
  obtain ⟨buf, hlen, hw, rfl⟩ := h
  have hq := header_quiet_run (g - 1)
    ⟨m, B, RX_HEADER, 0, 0x80, 0, bool_val lvl, 0, 0, 0, 0, buf, u⟩ lvl rfl rfl
    (by simp only; omega)
  simp only [Nat.zero_add] at hq
  have hm0 : ¬ m = 0 := by omega
  have hg' : g - 1 + 1 = g := by omega
  have hwin : ring_window (buf.set (m % 16) g) (m + 1) = w.tail ++ [g] := by
    rw [ring_window_push buf m g (by omega), hw]
  have hstep := header_edge_step m B (g - 1) 0x80 0 (bool_val lvl) 0 0 0 0 buf u (!lvl)
    (bool_val_not_ne lvl) (by omega) hm
  simp only [hm0, if_false, hg', hwin, hlock, if_true, Nat.mod_eq_of_lt havg] at hstep
  refine ⟨buf.set (m % 16) g, by simpa using hlen, ?_⟩
  unfold gap_run
  rw [decoder_feed_append_of _ _ _ _ hq, decoder_feed_single, hstep]

/-- While the sentinel is in the window no run of gaps can lock. -/
theorem hdr_gaps_sentinel (B u : Nat) (hB : 16 ≤ B) (gs : List Nat) :
    ∀ (d : spooky_decoder) (m : Nat) (w : List Nat) (lvl : Bool) (p : Nat),
      hdr_state d m B u w lvl → w.length = 16 → gs.length ≤ p → p < 16 → w.getD p 0 = 255 →
      1 ≤ m → m + gs.length < 65536 → (∀ g ∈ gs, 1 ≤ g ∧ g < 256) →
      ∃ d', decoder_feed (gaps_stream gs lvl) d = (d', [])
        ∧ hdr_state d' (m + gs.length) B u ((w ++ gs).drop gs.length)
            (flip_level lvl gs.length) := by
  induction gs with
  | nil =>
    intro d m w lvl p h _ _ _ _ _ _ _
    exact ⟨d, by simp [gaps_stream, decoder_feed], by simpa [flip_level] using h⟩
  | cons g gs ih =>
    intro d m w lvl p h hw hp hp16 h255 hm1 hm hgs
    simp only [List.length_cons] at hp hm
    obtain ⟨hg1, hg⟩ := hgs g (List.mem_cons_self _ _)
    obtain ⟨a, w', rfl⟩ : ∃ a w', w = a :: w' := by
      cases w with
      | nil => simp at hw
      | cons a w' => exact ⟨a, w', rfl⟩
    simp only [List.length_cons] at hw
    have hp1 : 1 ≤ p := by omega
    obtain ⟨q, rfl⟩ : ∃ q, p = q + 1 := ⟨p - 1, by omega⟩
    have hq255 : (w' ++ [g]).getD q 0 = 255 := by
      simp only [List.getD_cons_succ] at h255
      rw [List.getD_eq_getElem?_getD] at h255 ⊢
      rw [List.getElem?_append_left (by omega)]
      exact h255
    have hmem : 255 ∈ w' ++ [g] := by
      rw [List.getD_eq_getElem?_getD] at hq255
      have hlt : q < (w' ++ [g]).length := by simp; omega
      rw [List.getElem?_eq_getElem hlt] at hq255
      simp only [Option.getD_some] at hq255
      rw [← hq255]
      exact List.getElem_mem _
    have hno : (scan_list ((a :: w').tail ++ [g]) 0 0 0 0).1 ≠ 8 := by
      have := scan_sentinel (w' ++ [g]) 0 0 0 (by simp; omega) hmem
      simp only [List.tail_cons]
      omega
    obtain ⟨d1, hf1, hs1⟩ := hdr_gap d m B u (a :: w') lvl g h hB hm1 (by omega) hg1 hg hno
    simp only [List.tail_cons] at hs1
    obtain ⟨d2, hf2, hs2⟩ := ih d1 (m + 1) (w' ++ [g]) (!lvl) q hs1 (by simp; omega)
      (by omega) (by omega) hq255 (by omega) (by omega)
      (fun x hx => hgs x (List.mem_cons_of_mem _ hx))
    refine ⟨d2, ?_, ?_⟩
    · simp only [gaps_stream]
      rw [decoder_feed_append_of _ _ _ _ hf1, hf2]
    · have e1 : m + 1 + gs.length = m + (gs.length + 1) := by omega
      have e2 : (w' ++ [g] ++ gs).drop gs.length = (a :: w' ++ g :: gs).drop (gs.length + 1) := by
        simp
      rw [e1, e2] at hs2
      simpa [flip_level] using hs2

theorem nolock_fast (s : Nat) (hs2 : 2 ≤ s) (hs : s ≤ 127) (rest : List Nat)
    (hrest : rest.length = 7) :
    (scan_list ([s, s, s, s, s, s, s, s] ++ s :: rest) 0 0 0 0).1 ≠ 8 := by
  have hsum : [s, s, s, s, s, s, s, s].sum % 65536 / 8 = s := by
    simp only [List.sum_cons, List.sum_nil]; omega
  have := scan_no_lock_mid [s, s, s, s, s, s, s, s] s rest rfl hrest
    (by rw [hsum]; exact not_approx_eq_half s s hs2 (le_refl _))
  omega

theorem nolock_first (s v : Nat) (hs2 : 2 ≤ s) (hs : s ≤ 127) (hv : s ≤ v) (hv2 : v < 256)
    (rest : List Nat) (hrest : rest.length = 7) :
    (scan_list ([v, s, s, s, s, s, s, s] ++ s :: rest) 0 0 0 0).1 ≠ 8 := by
  have hsum : s ≤ [v, s, s, s, s, s, s, s].sum % 65536 / 8 := by
    have h1 : [v, s, s, s, s, s, s, s].sum % 65536 = v + 7 * s := by
      simp only [List.sum_cons, List.sum_nil]; omega
    rw [h1, Nat.le_div_iff_mul_le (by decide)]
    omega
  have := scan_no_lock_mid [v, s, s, s, s, s, s, s] s rest rfl hrest
    (not_approx_eq_half s _ hs2 hsum)
  omega

/-- The first sample of a fresh decoder is an edge; it pushes the sentinel. -/
theorem hdr_first (B u : Nat) (buf : List Nat) (hlen : buf.length = B) (hB : 16 ≤ B)
    (x : Bool) :
    ∃ d' w, w.length = 15
      ∧ spooky_decoder_step ⟨0, B, RX_HEADER, 0, 0x80, 0, 0xFF, 0, 0, 0, 0, buf, u⟩ x
          = (SPOOKY_DECODER_STEP_OK, d', [])
      ∧ hdr_state d' 1 B u (w ++ [255]) x := by
  have hx : bool_val x ≠ 0xFF := by cases x <;> simp [bool_val]
  have hstep := header_edge_step 0 B 0 0x80 0 0xFF 0 0 0 0 buf u x hx (by omega) (by omega)
  have hwin : ring_window (buf.set (0 % 16) 255) (0 + 1) = (ring_window buf 0).tail ++ [255] :=
    ring_window_push buf 0 255 (by omega)
  have hmem : 255 ∈ (ring_window buf 0).tail ++ [255] := by simp
  have hno : ¬ (scan_list ((ring_window buf 0).tail ++ [255]) 0 0 0 0).1 = 8 := by
    have := scan_sentinel ((ring_window buf 0).tail ++ [255]) 0 0 0
      (by simp [ring_window_length]) hmem
    omega
  simp only [if_true, hwin, hno, if_false] at hstep
  refine ⟨_, (ring_window buf 0).tail, by simp [ring_window_length], hstep, ?_⟩
  exact ⟨buf.set (0 % 16) 255, by simpa using hlen, hwin, rfl⟩

/-- The preamble: after the edges of `0xFF` and `0x55`, sampled `s` times per
half-cell (the first half-cell `pre` samples longer), the decoder is in LENGTH
with `interval = s`, and it was in HEADER until the last of these edges. -/
theorem header_feed (s pre B u : Nat) (hs2 : 2 ≤ s) (hs : s ≤ 127) (hpre : pre < s)
    (hB : 16 ≤ B) (buf : List Nat) (hlen : buf.length = B) :
    ∃ buf', buf'.length = B
      ∧ decoder_feed
          (false :: gaps_stream ((pre + s) :: List.replicate 14 s ++ List.replicate 8 (2 * s))
            false)
          ⟨0, B, RX_HEADER, 0, 0x80, 0, 0xFF, 0, 0, 0, 0, buf, u⟩
        = (⟨24, B, RX_LENGTH, 0, 0x80, 0, bool_val true, s, 0, 0, 0, buf', u⟩, []) := by
  obtain ⟨d1, w0, hw0, hstep1, hst1⟩ := hdr_first B u buf hlen hB false
  -- the fifteen edges of `0xFF` that follow: the sentinel is still in the window
  obtain ⟨d16, hf16, hst16⟩ := hdr_gaps_sentinel B u hB ((pre + s) :: List.replicate 14 s)
    d1 1 (w0 ++ [255]) false 15 hst1 (by simp [hw0]) (by simp) (by omega)
    (by rw [List.getD_eq_getElem?_getD, List.getElem?_append_right (by omega)]; simp [hw0])
    (by omega) (by simp)
    (by
      intro g hg
      rcases List.mem_cons.mp hg with h | h
      · omega
      · rw [List.eq_of_mem_replicate h]; omega)
  have hwin16 : (w0 ++ [255] ++ (pre + s) :: List.replicate 14 s).drop
      ((pre + s) :: List.replicate 14 s).length
      = [255, pre + s, s, s, s, s, s, s, s, s, s, s, s, s, s, s] := by
    rw [List.append_assoc, List.drop_append_of_le_length (by simp [hw0])]
    have : List.drop ((pre + s) :: List.replicate 14 s).length w0 = [] := by
      apply List.drop_eq_nil_of_le; simp [hw0]
    rw [this]; rfl
  rw [hwin16] at hst16
  have hlv : flip_level false ((pre + s) :: List.replicate 14 s).length = true := rfl
  have hm16 : 1 + ((pre + s) :: List.replicate 14 s).length = 16 := by simp
  rw [hlv, hm16] at hst16
  -- the first seven edges of `0x55`
  obtain ⟨d17, hf17, hst17⟩ := hdr_gap d16 16 B u _ true (2 * s) hst16 hB (by omega) (by omega)
    (by omega) (by omega)
    (nolock_first s (pre + s) hs2 hs (by omega) (by omega) [s, s, s, s, s, s, 2 * s] rfl)
  obtain ⟨d18, hf18, hst18⟩ := hdr_gap d17 17 B u _ false (2 * s) hst17 hB (by omega) (by omega)
    (by omega) (by omega) (nolock_fast s hs2 hs [s, s, s, s, s, 2 * s, 2 * s] rfl)
  obtain ⟨d19, hf19, hst19⟩ := hdr_gap d18 18 B u _ true (2 * s) hst18 hB (by omega) (by omega)
    (by omega) (by omega) (nolock_fast s hs2 hs [s, s, s, s, 2 * s, 2 * s, 2 * s] rfl)
  obtain ⟨d20, hf20, hst20⟩ := hdr_gap d19 19 B u _ false (2 * s) hst19 hB (by omega) (by omega)
    (by omega) (by omega) (nolock_fast s hs2 hs [s, s, s, 2 * s, 2 * s, 2 * s, 2 * s] rfl)
  obtain ⟨d21, hf21, hst21⟩ := hdr_gap d20 20 B u _ true (2 * s) hst20 hB (by omega) (by omega)
    (by omega) (by omega) (nolock_fast s hs2 hs [s, s, 2 * s, 2 * s, 2 * s, 2 * s, 2 * s] rfl)
  obtain ⟨d22, hf22, hst22⟩ := hdr_gap d21 21 B u _ false (2 * s) hst21 hB (by omega) (by omega)
    (by omega) (by omega)
    (nolock_fast s hs2 hs [s, 2 * s, 2 * s, 2 * s, 2 * s, 2 * s, 2 * s] rfl)
  obtain ⟨d23, hf23, hst23⟩ := hdr_gap d22 22 B u _ true (2 * s) hst22 hB (by omega) (by omega)
    (by omega) (by omega)
    (nolock_fast s hs2 hs [2 * s, 2 * s, 2 * s, 2 * s, 2 * s, 2 * s, 2 * s] rfl)
  -- the eighth edge of `0x55` locks
  obtain ⟨buf', hlen', hf24⟩ := hdr_lock d23 23 B u _ false (2 * s) s hst23 hB (by omega)
    (by omega) (by omega) (by omega) (by omega) (scan_lock s (by omega) hs)
  refine ⟨buf', hlen', ?_⟩
  have hgs : gaps_stream ((pre + s) :: List.replicate 14 s ++ List.replicate 8 (2 * s)) false
      = gaps_stream ((pre + s) :: List.replicate 14 s) false
        ++ (gap_run (2 * s) true ++ (gap_run (2 * s) false ++ (gap_run (2 * s) true
        ++ (gap_run (2 * s) false ++ (gap_run (2 * s) true ++ (gap_run (2 * s) false
        ++ (gap_run (2 * s) true ++ gap_run (2 * s) false))))))) := by
    simp [List.replicate, gaps_stream]
  rw [hgs, decoder_feed, hstep1]
  simp only [List.nil_append]
  rw [decoder_feed_append_of _ _ _ _ hf16, decoder_feed_append_of _ _ _ _ hf17,
    decoder_feed_append_of _ _ _ _ hf18, decoder_feed_append_of _ _ _ _ hf19,
    decoder_feed_append_of _ _ _ _ hf20, decoder_feed_append_of _ _ _ _ hf21,
    decoder_feed_append_of _ _ _ _ hf22, decoder_feed_append_of _ _ _ _ hf23, hf24]
  rfl

/-! ## Decoder: a whole frame -/

theorem replicate_cons_pred (s : Nat) (hs : 1 ≤ s) (b : Bool) :
    b :: List.replicate (s - 1) b = List.replicate s b := by
  obtain ⟨k, rfl⟩ : ∃ k, s = k + 1 := ⟨s - 1, by omega⟩
  simp [List.replicate_succ]

theorem cells_stream_pairs (s : Nat) (hs : 1 ≤ s) (rest : List Bool) :
    ∀ b0 : Bool, cells_stream s (pair_levels (b0 :: rest))
      = List.replicate s (!b0) ++ [b0] ++ bits_stream s b0 rest := by
  induction rest with
  | nil => intro b0; simp [pair_levels, cells_stream, bits_stream]
  | cons b1 rest ih =>
    intro b0
    have h1 : pair_levels (b0 :: b1 :: rest) = (!b0) :: b0 :: (!b1) :: b1 :: pair_levels rest := by
      simp [pair_levels]
    have h2 : pair_levels (b1 :: rest) = (!b1) :: b1 :: pair_levels rest := by
      simp [pair_levels]
    have ih' := ih b1
    rw [h2] at ih'
    rw [h1]
    simp only [cells_stream]
    simp only [cells_stream] at ih'
    rw [ih']
    simp only [bits_stream, chunk_init, List.append_assoc, List.singleton_append,
      List.cons_append, List.nil_append]
    rw [← replicate_cons_pred s hs b0]
    simp

/-- The preamble samples as a run of gaps. -/
theorem header_stream_eq (s pre : Nat) (hs : 1 ≤ s) :
    List.replicate (pre + s) false ++ [true]
        ++ bits_stream s true ([true, true, true, true, true, true, true] ++ byte_bits 0x55)
      = false :: gaps_stream ((pre + s) :: List.replicate 14 s ++ List.replicate 8 (2 * s))
          false := by
  have h55 : byte_bits 0x55 = [false, true, false, true, false, true, false, true] := by decide
  have hd : List.replicate (s - 1) true ++ List.replicate s true
      = List.replicate (2 * s - 1) true := by
    rw [← List.replicate_add]; congr 1; omega
  have hd' : List.replicate (s - 1) false ++ List.replicate s false
      = List.replicate (2 * s - 1) false := by
    rw [← List.replicate_add]; congr 1; omega
  have hf : List.replicate (pre + s) false = false :: List.replicate (pre + s - 1) false := by
    rw [replicate_cons_pred _ (by omega)]
  have hs' : List.replicate s false = false :: List.replicate (s - 1) false :=
    (replicate_cons_pred s hs false).symm
  rw [h55, hf]
  simp only [List.cons_append, List.nil_append, bits_stream, chunk_init, gaps_stream, gap_run,
    List.replicate, Bool.not_true, Bool.not_false, List.append_assoc, List.singleton_append,
    List.append_nil]
  simp only [← List.append_assoc, hd, hd']
  simp only [List.append_assoc, List.cons_append, List.nil_append, List.singleton_append]
  simp only [hs', List.append_assoc, List.cons_append, List.nil_append, List.singleton_append]

theorem spec_chksum_lt (P : List Nat) : spec_chksum P < 256 := by
  unfold spec_chksum; omega

/-- A fresh decoder receives a frame: fed the samples of the frame's half-cell
levels (`s` samples per half-cell, `2 ≤ s ≤ 127`, after `pre < s` extra samples
of the idle-low line), it makes no callback before the first sample of the
last half-cell, and on that sample it returns `DONE` and invokes the callback
once, with the payload. -/
theorem decoder_receives_frame (s pre B u : Nat) (hs2 : 2 ≤ s) (hs : s ≤ 127) (hpre : pre < s)
    (hB : 16 ≤ B) (hB255 : B ≤ 255) (buf : List Nat) (hlen : buf.length = B) (P : List Nat)
    (hP1 : 1 ≤ P.length) (hPb : P.length ≤ B) (hbytes : ∀ x ∈ P, x < 256) :
    ∃ init lastb dpre Bf,
      List.replicate pre false ++ cells_stream s (pair_levels (frame_bits P)) = init ++ [lastb]
      ∧ decoder_feed init ⟨0, B, RX_HEADER, 0, 0x80, 0, 0xFF, 0, 0, 0, 0, buf, u⟩ = (dpre, [])
      ∧ Bf.length = B ∧ Bf.take P.length = P
      ∧ spooky_decoder_step dpre lastb
        = (SPOOKY_DECODER_STEP_DONE,
            ⟨0, B, RX_HEADER, 0, 0x80, 0, bool_val lastb, 0, 0, spec_chksum P, 0, Bf, u⟩,
            [⟨Bf, P.length, u⟩]) := by
  obtain ⟨buf1, hlen1, hhead⟩ := header_feed s pre B u hs2 hs hpre hB buf hlen
  obtain ⟨init, lastb, dpre, Bf, hsplit, hfeed, hlenf, hstep⟩ :=
    data_feed s hs2 hs B u P hP1 hPb hB255 hbytes (spec_chksum P) (spec_chksum_lt P) 24 0 0 buf1
      true
  have htake : (store_bytes Bf 0 P).take P.length = P := by
    have := store_bytes_take P Bf 0 (by rw [hlenf, hlen1]; omega)
    simpa using this
  have hck : checksum (store_bytes Bf 0 P) P.length = spec_chksum P := by
    rw [checksum_eq_spec _ _ (by rw [store_bytes_length, hlenf, hlen1]; exact hPb), htake]
  have hmod : P.length % 256 = P.length := Nat.mod_eq_of_lt (by omega)
  simp only [hck, if_true, hmod] at hstep
  refine ⟨false :: gaps_stream ((pre + s) :: List.replicate 14 s ++ List.replicate 8 (2 * s))
      false ++ init, lastb, dpre, store_bytes Bf 0 P, ?_, ?_,
      by rw [store_bytes_length, hlenf, hlen1], htake, hstep⟩
  · have hFF : byte_bits 0xFF = true :: [true, true, true, true, true, true, true] := by decide
    have hbits : frame_bits P
        = true :: (([true, true, true, true, true, true, true] ++ byte_bits 0x55)
            ++ (byte_bits P.length ++ byte_bits (spec_chksum P) ++ P.flatMap byte_bits)) := by
      unfold frame_bits
      rw [hFF]
      simp only [List.cons_append, List.append_assoc, List.nil_append]
    have hlast : ([true, true, true, true, true, true, true] ++ byte_bits 0x55).getLastD true
        = true := by decide
    rw [hbits, cells_stream_pairs s (by omega), bits_stream_cat, hlast, hsplit]
    have hrep : List.replicate pre false ++ List.replicate s (!true)
        = List.replicate (pre + s) false := by
      simp only [Bool.not_true]
      rw [List.replicate_add]
    rw [← header_stream_eq s pre (by omega), ← hrep]
    simp only [List.append_assoc]
  · rw [decoder_feed_append_of _ _ _ _ hhead]
    exact hfeed

/-! ## The integration loop -/

theorem link_run_add (k a b : Nat) (st : link_state) :
    link_run k (a + b) st = link_run k b (link_run k a st) := by
  induction a generalizing st with
  | zero => simp [link_run]
  | succ a ih =>
    rw [Nat.add_right_comm]
    simp [link_run, ih]

/-- Iterations on which the encoder's divider holds: the line keeps its level
and the decoder is fed that level. -/
theorem link_run_hold (k c : Nat) (enc : spooky_encoder) (dec : spooky_decoder) (bit : Bool)
    (calls : List cb_call) (h : enc.ticks + c < enc.tx_rate) (hr : enc.tx_rate ≤ 256) :
    link_run k c ⟨enc, dec, bit, calls⟩
      = ⟨{ enc with ticks := enc.ticks + c },
          (decoder_feed (List.replicate (c * k) bit) dec).1, bit,
          calls ++ (decoder_feed (List.replicate (c * k) bit) dec).2⟩ := by
  induction c generalizing enc dec calls with
  | zero => simp [link_run, decoder_feed]
  | succ c ih =>
    have hg := gate_hold enc (by omega) hr
    have hsplit : List.replicate ((c + 1) * k) bit
        = List.replicate k bit ++ List.replicate (c * k) bit := by
      rw [← List.replicate_add]; congr 1; rw [Nat.succ_mul]; omega
    simp only [link_run, link_iter, hg, drive_line]
    simp only [reduceCtorEq, if_false]
    rw [ih _ _ _ (by simp only; omega) (by simpa using hr), hsplit, decoder_feed_append]
    simp [Nat.add_assoc, Nat.add_comm 1 c, List.append_assoc]

/-- A whole frame through the loop: with an encoder of rate `r` whose commands
at rate 1 are `encoder_trace (T + 1) e1`, the decoder has, after
`r * (T + 1) - 1` iterations, been fed the first `(r - 1) * k` samples of the
initial level and then the levels after the commands, `r * k` samples each,
except the last; the next encoder step sets the line to the last level. -/
theorem link_frame (k r : Nat) (hr1 : 1 ≤ r) (hr : r ≤ 255) (T : Nat) :
    ∀ (e1 : spooky_encoder) (d0 : spooky_decoder) (bit0 : Bool) (calls0 : List cb_call),
      e1.tx_rate = 1 → e1.ticks = 0 →
      ∃ init lastb,
        List.replicate ((r - 1) * k) bit0
            ++ cells_stream (r * k) (line_trace bit0 (encoder_trace (T + 1) e1))
          = init ++ [lastb]
        ∧ (link_run k (r * (T + 1) - 1) ⟨{ e1 with tx_rate := r }, d0, bit0, calls0⟩).dec
            = (decoder_feed init d0).1
        ∧ (link_run k (r * (T + 1) - 1) ⟨{ e1 with tx_rate := r }, d0, bit0, calls0⟩).calls
            = calls0 ++ (decoder_feed init d0).2
        ∧ drive_line
            (link_run k (r * (T + 1) - 1) ⟨{ e1 with tx_rate := r }, d0, bit0, calls0⟩).bit
            (spooky_encoder_step
              (link_run k (r * (T + 1) - 1) ⟨{ e1 with tx_rate := r }, d0, bit0, calls0⟩).enc).1
          = lastb := by
  induction T with
  | zero =>
    intro e1 d0 bit0 calls0 h1 ht
    have hh := link_run_hold k (r - 1) { e1 with tx_rate := r } d0 bit0 calls0
      (by simp only [ht]; omega) (by simp only; omega)
    have hfire := gate_fire { e1 with tx_rate := r, ticks := r - 1 } (by simp only; omega)
      (by simpa using hr)
    have e1eq : ({ e1 with tx_rate := 1, ticks := 0 } : spooky_encoder) = e1 := by
      cases e1; simp_all
    simp only [e1eq] at hfire
    refine ⟨List.replicate ((r - 1) * k) bit0, drive_line bit0 (spooky_encoder_step e1).1, ?_,
      ?_, ?_, ?_⟩
    · simp [encoder_trace, line_trace, cells_stream]
    · simp only [Nat.zero_add, Nat.mul_one]; rw [hh]
    · simp only [Nat.zero_add, Nat.mul_one]; rw [hh]
    · simp only [Nat.zero_add, Nat.mul_one]; rw [hh]
      simp only [ht, Nat.zero_add, hfire]
  | succ T ih =>
    intro e1 d0 bit0 calls0 h1 ht
    have hsplit : r * (T + 1 + 1) - 1 = (r - 1) + (1 + (r * (T + 1) - 1)) := by
      have : 1 ≤ r * (T + 1) := Nat.mul_pos (by omega) (by omega)
      rw [Nat.mul_succ]; omega
    have hh := link_run_hold k (r - 1) { e1 with tx_rate := r } d0 bit0 calls0
      (by simp only [ht]; omega) (by simp only; omega)
    have hfire := gate_fire { e1 with tx_rate := r, ticks := r - 1 } (by simp only; omega)
      (by simpa using hr)
    have e1eq : ({ e1 with tx_rate := 1, ticks := 0 } : spooky_encoder) = e1 := by
      cases e1; simp_all
    simp only [e1eq] at hfire
    obtain ⟨init', lastb', hs', hd', hc', hl'⟩ := ih (spooky_encoder_step e1).2
      (decoder_feed (List.replicate k (drive_line bit0 (spooky_encoder_step e1).1))
        (decoder_feed (List.replicate ((r - 1) * k) bit0) d0).1).1
      (drive_line bit0 (spooky_encoder_step e1).1)
      ((calls0 ++ (decoder_feed (List.replicate ((r - 1) * k) bit0) d0).2)
        ++ (decoder_feed (List.replicate k (drive_line bit0 (spooky_encoder_step e1).1))
          (decoder_feed (List.replicate ((r - 1) * k) bit0) d0).1).2)
      (by rw [step_tx_rate, h1]) (step_ticks_rate_one e1 h1)
    have hrun : link_run k (r * (T + 1 + 1) - 1) ⟨{ e1 with tx_rate := r }, d0, bit0, calls0⟩
        = link_run k (r * (T + 1) - 1)
            ⟨{ (spooky_encoder_step e1).2 with tx_rate := r },
              (decoder_feed (List.replicate k (drive_line bit0 (spooky_encoder_step e1).1))
                (decoder_feed (List.replicate ((r - 1) * k) bit0) d0).1).1,
              drive_line bit0 (spooky_encoder_step e1).1,
              (calls0 ++ (decoder_feed (List.replicate ((r - 1) * k) bit0) d0).2)
                ++ (decoder_feed (List.replicate k (drive_line bit0 (spooky_encoder_step e1).1))
                  (decoder_feed (List.replicate ((r - 1) * k) bit0) d0).1).2⟩ := by
      rw [hsplit, link_run_add, hh, link_run_add]
      congr 1
      simp only [link_run, link_iter, ht, Nat.zero_add, hfire]
    rw [hrun]
    refine ⟨List.replicate ((r - 1) * k) bit0
        ++ (List.replicate k (drive_line bit0 (spooky_encoder_step e1).1) ++ init'), lastb',
      ?_, ?_, ?_, hl'⟩
    · have htr : encoder_trace (T + 1 + 1) e1
          = (spooky_encoder_step e1).1 :: encoder_trace (T + 1) (spooky_encoder_step e1).2 := rfl
      have hne : ∃ l' ls, line_trace (drive_line bit0 (spooky_encoder_step e1).1)
          (encoder_trace (T + 1) (spooky_encoder_step e1).2) = l' :: ls := ⟨_, _, rfl⟩
      obtain ⟨l', ls, hL⟩ := hne
      rw [htr, line_trace]
      rw [hL] at hs' ⊢
      simp only [cells_stream]
      have hrk : List.replicate (r * k) (drive_line bit0 (spooky_encoder_step e1).1)
          = List.replicate k (drive_line bit0 (spooky_encoder_step e1).1)
            ++ List.replicate ((r - 1) * k) (drive_line bit0 (spooky_encoder_step e1).1) := by
        rw [← List.replicate_add]; congr 1
        obtain ⟨q, rfl⟩ : ∃ q, r = q + 1 := ⟨r - 1, by omega⟩
        rw [Nat.succ_mul]; simp; omega
      rw [hrk]
      simp only [List.append_assoc]
      rw [hs']
    · rw [hd', decoder_feed_append, decoder_feed_append]
    · rw [hc', decoder_feed_append, decoder_feed_append]
      simp only [List.append_assoc]

/-! ## The frame on the line -/

theorem memset_length (l : List Nat) (c n : Nat) : (memset l c n).length = l.length := by
  induction l generalizing n with
  | nil => cases n <;> simp [memset]
  | cons a l ih => cases n <;> simp [memset, ih]

theorem wire_frame_trace (bs : Nat) (buf P : List Nat) (h1 : 1 ≤ P.length)
    (h2 : P.length ≤ 255) (h4 : P.length ≤ buf.length) :
    encoder_trace (64 + 16 * P.length)
        ⟨0, 1, bs, P.length, 0, TX_SHARP, 0, memcpy buf P P.length⟩ = wire_frame P := by
  have hf := (frame_rate_one bs P.length 0 (memcpy buf P P.length) h1 h2).1
  rw [hf, calc_chksum_eq, memcpy_prefix buf P h4]
  have : (List.range' 0 P.length).flatMap
      (fun j => manchester_byte ((memcpy buf P P.length).getD j 0)) = P.flatMap manchester_byte := by
    conv_rhs => rw [← memcpy_prefix buf P h4]
    rw [List.flatMap_map]
  rw [this]
  rfl

theorem manchester_byte_bits (x : Nat) :
    manchester_byte x = (byte_bits x).flatMap manchester_bit := by
  unfold manchester_byte byte_bits
  rw [List.flatMap_map]

theorem wire_frame_bits (P : List Nat) :
    wire_frame P = (frame_bits P).flatMap manchester_bit := by
  have hP : P.flatMap manchester_byte = (P.flatMap byte_bits).flatMap manchester_bit := by
    induction P with
    | nil => rfl
    | cons a P ih => simp only [List.flatMap_cons, List.flatMap_append, ih, manchester_byte_bits]
  unfold wire_frame frame_bits
  simp only [List.flatMap_append, manchester_byte_bits, hP]

theorem line_trace_manchester (bit : Bool) (bits : List Bool) :
    line_trace bit (bits.flatMap manchester_bit) = pair_levels bits := by
  induction bits generalizing bit with
  | nil => rfl
  | cons b bits ih =>
    cases b
    · have hf : (false :: bits).flatMap manchester_bit
          = SPOOKY_ENCODER_STEP_OK_HIGH :: SPOOKY_ENCODER_STEP_OK_LOW
              :: bits.flatMap manchester_bit := by
        simp [List.flatMap_cons, manchester_bit]
      have hp : pair_levels (false :: bits) = true :: false :: pair_levels bits := by
        simp [pair_levels]
      rw [hf, hp, line_trace, line_trace, ih]
      simp [drive_line]
    · have hf : (true :: bits).flatMap manchester_bit
          = SPOOKY_ENCODER_STEP_OK_LOW :: SPOOKY_ENCODER_STEP_OK_HIGH
              :: bits.flatMap manchester_bit := by
        simp [List.flatMap_cons, manchester_bit]
      have hp : pair_levels (true :: bits) = false :: true :: pair_levels bits := by
        simp [pair_levels]
      rw [hf, hp, line_trace, line_trace, ih]
      simp [drive_line]

theorem link_run_succ_right (k n : Nat) (st : link_state) :
    link_run k (n + 1) st = link_iter k (link_run k n st) := by
  rw [link_run_add]; rfl

/-- Callback invocations are only ever appended. -/
theorem link_calls_prefix (k n : Nat) (st : link_state) :
    ∃ extra, (link_run k n st).calls = st.calls ++ extra := by
  induction n generalizing st with
  | zero => exact ⟨[], by simp [link_run]⟩
  | succ n ih =>
    obtain ⟨extra, h⟩ := ih (link_iter k st)
    exact ⟨(decoder_feed (List.replicate k (drive_line st.bit (spooky_encoder_step st.enc).1))
      st.dec).2 ++ extra, by rw [link_run, h]; simp only [link_iter, List.append_assoc]⟩

theorem link_calls_nil_of_le (k m n : Nat) (st : link_state) (hmn : m ≤ n)
    (h : (link_run k n st).calls = []) : (link_run k m st).calls = [] := by
  obtain ⟨c, rfl⟩ : ∃ c, n = m + c := ⟨n - m, by omega⟩
  rw [link_run_add] at h
  obtain ⟨extra, he⟩ := link_calls_prefix k c (link_run k m st)
  rw [he] at h
  exact (List.append_eq_nil.mp h).1

/-- The round trip through the loop: an encoder at rate `r` and a decoder fed
each line level `k` times, with `2 ≤ r * k ≤ 127`. No callback happens during
the first `r * (64 + 16 |P|) - 1` iterations; the first decoder step of the
next iteration returns `DONE` and invokes the callback with `P`, and that is
the only invocation of the iteration. -/
theorem link_round_trip (r k : Nat) (hk1 : 1 ≤ k) (hs2 : 2 ≤ r * k) (hs : r * k ≤ 127)
    (ebuf : List Nat) (ebs : Nat) (dbuf : List Nat) (B u : Nat) (P : List Nat)
    (hP1 : 1 ≤ P.length) (hebuf : P.length ≤ ebuf.length)
    (hB : 16 ≤ B) (hB255 : B ≤ 255) (hPb : P.length ≤ B) (hdbuf : dbuf.length = B)
    (hbytes : ∀ x ∈ P, x < 256) :
    ∃ Bf, Bf.length = B ∧ Bf.take P.length = P
      ∧ (link_run k (r * (64 + 16 * P.length) - 1)
          ⟨⟨0, r, ebs, P.length, 0, TX_SHARP, 0, memcpy ebuf P P.length⟩,
            ⟨0, B, RX_HEADER, 0, 0x80, 0, 0xFF, 0, 0, 0, 0, dbuf, u⟩, false, []⟩).calls = []
      ∧ spooky_decoder_step
          (link_run k (r * (64 + 16 * P.length) - 1)
            ⟨⟨0, r, ebs, P.length, 0, TX_SHARP, 0, memcpy ebuf P P.length⟩,
              ⟨0, B, RX_HEADER, 0, 0x80, 0, 0xFF, 0, 0, 0, 0, dbuf, u⟩, false, []⟩).dec
          (drive_line
            (link_run k (r * (64 + 16 * P.length) - 1)
              ⟨⟨0, r, ebs, P.length, 0, TX_SHARP, 0, memcpy ebuf P P.length⟩,
                ⟨0, B, RX_HEADER, 0, 0x80, 0, 0xFF, 0, 0, 0, 0, dbuf, u⟩, false, []⟩).bit
            (spooky_encoder_step
              (link_run k (r * (64 + 16 * P.length) - 1)
                ⟨⟨0, r, ebs, P.length, 0, TX_SHARP, 0, memcpy ebuf P P.length⟩,
                  ⟨0, B, RX_HEADER, 0, 0x80, 0, 0xFF, 0, 0, 0, 0, dbuf, u⟩, false, []⟩).enc).1)
        = (SPOOKY_DECODER_STEP_DONE,
            ⟨0, B, RX_HEADER, 0, 0x80, 0,
              bool_val (drive_line
                (link_run k (r * (64 + 16 * P.length) - 1)
                  ⟨⟨0, r, ebs, P.length, 0, TX_SHARP, 0, memcpy ebuf P P.length⟩,
                    ⟨0, B, RX_HEADER, 0, 0x80, 0, 0xFF, 0, 0, 0, 0, dbuf, u⟩, false, []⟩).bit
                (spooky_encoder_step
                  (link_run k (r * (64 + 16 * P.length) - 1)
                    ⟨⟨0, r, ebs, P.length, 0, TX_SHARP, 0, memcpy ebuf P P.length⟩,
                      ⟨0, B, RX_HEADER, 0, 0x80, 0, 0xFF, 0, 0, 0, 0, dbuf, u⟩, false,
                      []⟩).enc).1),
              0, 0, spec_chksum P, 0, Bf, u⟩,
            [⟨Bf, P.length, u⟩])
      ∧ (link_run k (r * (64 + 16 * P.length))
          ⟨⟨0, r, ebs, P.length, 0, TX_SHARP, 0, memcpy ebuf P P.length⟩,
            ⟨0, B, RX_HEADER, 0, 0x80, 0, 0xFF, 0, 0, 0, 0, dbuf, u⟩, false, []⟩).calls
        = [⟨Bf, P.length, u⟩] := by
  have hr1 : 1 ≤ r := by
    rcases Nat.eq_zero_or_pos r with h | h
    · subst h; simp at hs2
    · exact h
  have hrk : r ≤ r * k := Nat.le_mul_of_pos_right r hk1
  have hk : k ≤ r * k := Nat.le_mul_of_pos_left k hr1
  have hP255 : P.length ≤ 255 := by omega
  have hpre : (r - 1) * k < r * k := by
    obtain ⟨q, rfl⟩ : ∃ q, r = q + 1 := ⟨r - 1, by omega⟩
    rw [Nat.succ_mul]; simp; omega
  obtain ⟨init, lastb, hstream, hdec, hcalls, hline⟩ :=
    link_frame k r hr1 (by omega) (63 + 16 * P.length)
      ⟨0, 1, ebs, P.length, 0, TX_SHARP, 0, memcpy ebuf P P.length⟩
      ⟨0, B, RX_HEADER, 0, 0x80, 0, 0xFF, 0, 0, 0, 0, dbuf, u⟩ false [] rfl rfl
  have hT : 63 + 16 * P.length + 1 = 64 + 16 * P.length := by omega
  rw [hT] at hstream hdec hcalls hline
  rw [wire_frame_trace ebs ebuf P hP1 hP255 hebuf, wire_frame_bits, line_trace_manchester]
    at hstream
  obtain ⟨init2, lastb2, dpre, Bf, hstream2, hfeed, hBf, htake, hstep⟩ :=
    decoder_receives_frame (r * k) ((r - 1) * k) B u hs2 hs hpre hB hB255 dbuf hdbuf P hP1 hPb
      hbytes
  rw [hstream] at hstream2
  obtain ⟨hi, hl⟩ := List.append_inj' hstream2 rfl
  have hl : lastb = lastb2 := by simpa using hl
  subst hi hl
  have hdec2 : (link_run k (r * (64 + 16 * P.length) - 1)
      ⟨⟨0, r, ebs, P.length, 0, TX_SHARP, 0, memcpy ebuf P P.length⟩,
        ⟨0, B, RX_HEADER, 0, 0x80, 0, 0xFF, 0, 0, 0, 0, dbuf, u⟩, false, []⟩).dec = dpre := by
    rw [hdec, hfeed]
  have hcalls2 : (link_run k (r * (64 + 16 * P.length) - 1)
      ⟨⟨0, r, ebs, P.length, 0, TX_SHARP, 0, memcpy ebuf P P.length⟩,
        ⟨0, B, RX_HEADER, 0, 0x80, 0, 0xFF, 0, 0, 0, 0, dbuf, u⟩, false, []⟩).calls = [] := by
    rw [hcalls, hfeed]; rfl
  have hN : r * (64 + 16 * P.length) = r * (64 + 16 * P.length) - 1 + 1 := by
    have : 1 ≤ r * (64 + 16 * P.length) := Nat.mul_pos hr1 (by omega)
    omega
  refine ⟨Bf, hBf, htake, hcalls2, ?_, ?_⟩
  · rw [hline, hdec2, hstep]
  · rw [hN, link_run_succ_right]
    simp only [link_iter]
    rw [hline, hdec2, hcalls2]
    obtain ⟨q, hq⟩ : ∃ q, k = q + 1 := ⟨k - 1, by omega⟩
    rw [hq, List.replicate_succ, decoder_feed, hstep]
    rw [header_quiet_run q _ lastb rfl rfl (by simp only; omega)]
    simp

theorem decoder_init_eq (d0 : spooky_decoder) (dbuf : List Nat) (B u : Nat) (hB : 16 ≤ B)
    (hB255 : B ≤ 255) :
    spooky_decoder_init (some d0) (some dbuf) B (some ()) u
      = (SPOOKY_DECODER_INIT_OK,
          some ⟨0, B, RX_HEADER, 0, 0x80, 0, 0xFF, 0, 0, 0, 0, memset dbuf 0 B, u⟩) := by
  have h1 : ¬ (B < 16 ∨ B > 255) := by omega
  have h2 : B % 256 = B := Nat.mod_eq_of_lt (by omega)
  simp [spooky_decoder_init, reset_decoder, SPOOKY_DECODER_MIN_BUFFER_SIZE,
    SPOOKY_DECODER_MAX_BUFFER_SIZE, h1, h2]

/-- A sample equal to the last one, in HEADER: only the tick counter moves. -/
theorem header_same_step (d : spooky_decoder) (x : Bool) (hm : d.mode = RX_HEADER)
    (hx : bool_val x = d.last) :
    spooky_decoder_step d x = (SPOOKY_DECODER_STEP_OK, ticked d, []) := by
  rw [step_header_mode d x hm]
  simp [step_header, ticked, hx]

theorem header_same_run (c : Nat) (d : spooky_decoder) (x : Bool) (hm : d.mode = RX_HEADER)
    (hx : bool_val x = d.last) :
    (decoder_feed (List.replicate c x) d).2 = []
      ∧ (decoder_feed (List.replicate c x) d).1.mode = RX_HEADER
      ∧ (decoder_feed (List.replicate c x) d).1.last = d.last := by
  induction c generalizing d with
  | zero => simp [decoder_feed, hm]
  | succ c ih =>
    rw [List.replicate_succ, decoder_feed, header_same_step d x hm hx]
    simp only [List.nil_append]
    exact ih (ticked d) hm hx

/-- Once the encoder is idle at rate 1 and the decoder is in HEADER with the
line at the level it last saw, no callback is ever invoked. -/
theorem link_idle_quiet (k c : Nat) (st : link_state) (hm : st.enc.mode = TX_NONE)
    (hr : st.enc.tx_rate = 1) (ht : st.enc.ticks = 0) (hd : st.dec.mode = RX_HEADER)
    (hl : bool_val st.bit = st.dec.last) : (link_run k c st).calls = st.calls := by
  induction c generalizing st with
  | zero => rfl
  | succ c ih =>
    have hs := idle_step st.enc hm (by omega) (by omega)
    simp only [ht, hr, Nat.mod_one, if_true] at hs
    have hq := header_same_run k st.dec st.bit hd hl
    have hi : link_iter k st
        = ⟨{ st.enc with ticks := 0 }, (decoder_feed (List.replicate k st.bit) st.dec).1, st.bit,
            st.calls⟩ := by
      simp only [link_iter, hs, drive_line]
      simp [hq.1, hr]
    rw [link_run, hi, ih _ (by simpa using hm) (by simpa using hr) rfl hq.2.1
      (by simp only; rw [hq.2.2]; exact hl)]

/-- C2. Integration round trip as tested: for every payload `P` with
`1 ≤ |P| ≤ 255` (bytes below 256), every `tx_rate` `r` with `1 ≤ r ≤ 63`, an
encoder initialised with `buffer_size ≥ |P|` that accepted `P`, and a freshly
initialised decoder with `buffer_size ≥ max(16, |P|)`, the loop "step the
encoder; move the line (initially low) on `OK_LOW` / `OK_HIGH`; step the
decoder twice with the line level" invokes no callback during its first
`r * (64 + 16 |P|) - 1` iterations, and the first decoder step after encoder
step number `r * (64 + 16 |P|)` returns `DONE` and invokes the callback once,
with `data_size = |P|` and the data bytes equal to `P`. -/
theorem round_trip_as_tested (r : Nat) (hr1 : 1 ≤ r) (hr : r ≤ 63)
    (e0 : spooky_encoder) (ebuf : List Nat) (ebs : Nat) (d0 : spooky_decoder) (dbuf : List Nat)
    (B u : Nat) (P : List Nat) (hP1 : 1 ≤ P.length) (hPe : P.length ≤ ebs)
    (hebuf : ebs ≤ ebuf.length) (hB : 16 ≤ B) (hB255 : B ≤ 255) (hPb : P.length ≤ B)
    (hdbuf : dbuf.length = B) (hbytes : ∀ x ∈ P, x < 256) :
    ∃ enc dec, encoder_start e0 ebuf ebs r P P.length = some enc
      ∧ spooky_decoder_init (some d0) (some dbuf) B (some ()) u
          = (SPOOKY_DECODER_INIT_OK, some dec)
      ∧ (∀ m, m < r * (64 + 16 * P.length) → (link_run 2 m ⟨enc, dec, false, []⟩).calls = [])
      ∧ ∃ Bf d',
          spooky_decoder_step (link_run 2 (r * (64 + 16 * P.length) - 1) ⟨enc, dec, false, []⟩).dec
              (drive_line (link_run 2 (r * (64 + 16 * P.length) - 1) ⟨enc, dec, false, []⟩).bit
                (spooky_encoder_step
                  (link_run 2 (r * (64 + 16 * P.length) - 1) ⟨enc, dec, false, []⟩).enc).1)
            = (SPOOKY_DECODER_STEP_DONE, d', [⟨Bf, P.length, u⟩])
          ∧ Bf.take P.length = P := by
  obtain ⟨Bf, _, htake, hnil, hstep, _⟩ :=
    link_round_trip r 2 (by omega) (by omega) (by omega) ebuf ebs (memset dbuf 0 B) B u P hP1
      (by omega) hB hB255 hPb (by rw [memset_length]; exact hdbuf) hbytes
  refine ⟨_, _, encoder_start_eq e0 ebuf ebs r P P.length (by omega) (by omega) hPe,
    decoder_init_eq d0 dbuf B u hB hB255, ?_, Bf, _, hstep, htake⟩
  intro m hm
  exact link_calls_nil_of_le 2 m _ _ (by omega) hnil

/-- Witness of C2 at rate 3 and the two-byte payload `{0x7A, 0x01}`. -/
theorem round_trip_as_tested_witness :
    (1 ≤ 3 ∧ 3 ≤ 63 ∧ 1 ≤ [0x7A, 0x01].length ∧ [0x7A, 0x01].length ≤ 16
        ∧ 16 ≤ (List.replicate 16 0).length ∧ (List.replicate 16 0).length = 16
        ∧ ∀ x ∈ [0x7A, 0x01], x < 256)
      ∧ ∃ enc dec, encoder_start enc_zero (List.replicate 16 0) 16 3 [0x7A, 0x01]
            [0x7A, 0x01].length = some enc
          ∧ spooky_decoder_init (some dec_zero) (some (List.replicate 16 0)) 16 (some ()) 42
              = (SPOOKY_DECODER_INIT_OK, some dec)
          ∧ (∀ m, m < 3 * (64 + 16 * [0x7A, 0x01].length) →
              (link_run 2 m ⟨enc, dec, false, []⟩).calls = [])
          ∧ ∃ Bf d',
              spooky_decoder_step
                  (link_run 2 (3 * (64 + 16 * [0x7A, 0x01].length) - 1)
                    ⟨enc, dec, false, []⟩).dec
                  (drive_line
                    (link_run 2 (3 * (64 + 16 * [0x7A, 0x01].length) - 1)
                      ⟨enc, dec, false, []⟩).bit
                    (spooky_encoder_step
                      (link_run 2 (3 * (64 + 16 * [0x7A, 0x01].length) - 1)
                        ⟨enc, dec, false, []⟩).enc).1)
                = (SPOOKY_DECODER_STEP_DONE, d', [⟨Bf, [0x7A, 0x01].length, 42⟩])
              ∧ Bf.take [0x7A, 0x01].length = [0x7A, 0x01] :=
  ⟨⟨by decide, by decide, by decide, by decide, by decide, by decide, by decide⟩,
    round_trip_as_tested 3 (by decide) (by decide) enc_zero (List.replicate 16 0) 16 dec_zero
      (List.replicate 16 0) 16 42 [0x7A, 0x01] (by decide) (by decide) (by decide) (by decide)
      (by decide) (by decide) (by decide) (by decide)⟩

/-- C3, counterexample. With `tx_rate = 1` and oversample `k = 1` (one sample
per half-cell) the one-byte payload `{0x7A}` is never delivered: both `init`
calls and `enqueue` succeed, and the callback is not invoked after any number
of loop iterations. -/
theorem round_trip_one_sample_counterexample :
    ∃ enc dec, encoder_start enc_zero (List.replicate 16 0) 16 1 [0x7A] 1 = some enc
      ∧ spooky_decoder_init (some dec_zero) (some (List.replicate 16 0)) 16 (some ()) 0
          = (SPOOKY_DECODER_INIT_OK, some dec)
      ∧ ¬ ∃ N, (link_run 1 N ⟨enc, dec, false, []⟩).calls ≠ [] := by
  refine ⟨_, _, encoder_start_eq enc_zero (List.replicate 16 0) 16 1 [0x7A] 1 (by decide)
    (by decide) (by decide), decoder_init_eq dec_zero (List.replicate 16 0) 16 0 (by decide)
    (by decide), ?_⟩
  rintro ⟨N, hN⟩
  apply hN
  have h81 : (link_run 1 81
      ⟨⟨0, 1, 16, 1, 0, TX_SHARP, 0, memcpy (List.replicate 16 0) [0x7A] 1⟩,
        ⟨0, 16, RX_HEADER, 0, 0x80, 0, 0xFF, 0, 0, 0, 0, memset (List.replicate 16 0) 0 16, 0⟩,
        false, []⟩).calls = []
      ∧ (link_run 1 81
      ⟨⟨0, 1, 16, 1, 0, TX_SHARP, 0, memcpy (List.replicate 16 0) [0x7A] 1⟩,
        ⟨0, 16, RX_HEADER, 0, 0x80, 0, 0xFF, 0, 0, 0, 0, memset (List.replicate 16 0) 0 16, 0⟩,
        false, []⟩).enc.mode = TX_NONE
      ∧ (link_run 1 81
      ⟨⟨0, 1, 16, 1, 0, TX_SHARP, 0, memcpy (List.replicate 16 0) [0x7A] 1⟩,
        ⟨0, 16, RX_HEADER, 0, 0x80, 0, 0xFF, 0, 0, 0, 0, memset (List.replicate 16 0) 0 16, 0⟩,
        false, []⟩).enc.tx_rate = 1
      ∧ (link_run 1 81
      ⟨⟨0, 1, 16, 1, 0, TX_SHARP, 0, memcpy (List.replicate 16 0) [0x7A] 1⟩,
        ⟨0, 16, RX_HEADER, 0, 0x80, 0, 0xFF, 0, 0, 0, 0, memset (List.replicate 16 0) 0 16, 0⟩,
        false, []⟩).enc.ticks = 0
      ∧ (link_run 1 81
      ⟨⟨0, 1, 16, 1, 0, TX_SHARP, 0, memcpy (List.replicate 16 0) [0x7A] 1⟩,
        ⟨0, 16, RX_HEADER, 0, 0x80, 0, 0xFF, 0, 0, 0, 0, memset (List.replicate 16 0) 0 16, 0⟩,
        false, []⟩).dec.mode = RX_HEADER
      ∧ bool_val (link_run 1 81
      ⟨⟨0, 1, 16, 1, 0, TX_SHARP, 0, memcpy (List.replicate 16 0) [0x7A] 1⟩,
        ⟨0, 16, RX_HEADER, 0, 0x80, 0, 0xFF, 0, 0, 0, 0, memset (List.replicate 16 0) 0 16, 0⟩,
        false, []⟩).bit = (link_run 1 81
      ⟨⟨0, 1, 16, 1, 0, TX_SHARP, 0, memcpy (List.replicate 16 0) [0x7A] 1⟩,
        ⟨0, 16, RX_HEADER, 0, 0x80, 0, 0xFF, 0, 0, 0, 0, memset (List.replicate 16 0) 0 16, 0⟩,
        false, []⟩).dec.last := by
    set_option maxRecDepth 100000 in decide
  obtain ⟨hc, hm, hr, ht, hd, hl⟩ := h81
  rcases Nat.le_total N 81 with h | h
  · exact link_calls_nil_of_le 1 N 81 _ h hc
  · obtain ⟨c, rfl⟩ : ∃ c, N = 81 + c := ⟨N - 81, by omega⟩
    rw [link_run_add, link_idle_quiet 1 c _ hm hr ht hd hl, hc]

/-- C3 (amended). Round-trip law: for every byte string `P` with
`1 ≤ |P| ≤ min(encoder buffer_size, decoder buffer_size)` (bytes below 256),
every `tx_rate` `r` and oversample `k ≥ 1` with `2 ≤ r * k ≤ 127` samples per
half-cell, an encoder that accepted `P` and a freshly initialised decoder
(`16 ≤ buffer_size ≤ 255`), driving the line (initially low) from the results
of `spooky_encoder_step` and feeding each step's level `k` times to the decoder
makes the decoder invoke the callback exactly once within the first
`r * (64 + 16 |P|)` loop iterations, with `data_size = |P|` and data `P`. -/
theorem round_trip_law (r k : Nat) (hk1 : 1 ≤ k) (hs2 : 2 ≤ r * k) (hs : r * k ≤ 127)
    (e0 : spooky_encoder) (ebuf : List Nat) (ebs : Nat) (d0 : spooky_decoder) (dbuf : List Nat)
    (B u : Nat) (P : List Nat) (hP1 : 1 ≤ P.length) (hPe : P.length ≤ ebs)
    (hebuf : ebs ≤ ebuf.length) (hB : 16 ≤ B) (hB255 : B ≤ 255) (hPb : P.length ≤ B)
    (hdbuf : dbuf.length = B) (hbytes : ∀ x ∈ P, x < 256) :
    ∃ enc dec Bf, encoder_start e0 ebuf ebs r P P.length = some enc
      ∧ spooky_decoder_init (some d0) (some dbuf) B (some ()) u
          = (SPOOKY_DECODER_INIT_OK, some dec)
      ∧ (link_run k (r * (64 + 16 * P.length)) ⟨enc, dec, false, []⟩).calls
          = [⟨Bf, P.length, u⟩]
      ∧ Bf.take P.length = P := by
  have hr0 : r ≠ 0 := by
    rintro rfl
    simp at hs2
  obtain ⟨Bf, _, htake, _, _, hcalls⟩ :=
    link_round_trip r k hk1 hs2 hs ebuf ebs (memset dbuf 0 B) B u P hP1
      (by omega) hB hB255 hPb (by rw [memset_length]; exact hdbuf) hbytes
  exact ⟨_, _, Bf, encoder_start_eq e0 ebuf ebs r P P.length (by omega) hr0 hPe,
    decoder_init_eq d0 dbuf B u hB hB255, hcalls, htake⟩

/-- Witness of C3 (amended) at rate 5, oversample 3 and the payload
`{0xaa, 0x00, 0x55}`. -/
theorem round_trip_law_witness :
    (1 ≤ 3 ∧ 2 ≤ 5 * 3 ∧ 5 * 3 ≤ 127 ∧ 1 ≤ [0xaa, 0x00, 0x55].length
        ∧ [0xaa, 0x00, 0x55].length ≤ 8 ∧ 8 ≤ (List.replicate 8 0).length
        ∧ 16 ≤ 16 ∧ 16 ≤ 255 ∧ [0xaa, 0x00, 0x55].length ≤ 16
        ∧ (List.replicate 16 7).length = 16
        ∧ ∀ x ∈ [0xaa, 0x00, 0x55], x < 256)
      ∧ ∃ enc dec Bf, encoder_start enc_zero (List.replicate 8 0) 8 5 [0xaa, 0x00, 0x55]
            [0xaa, 0x00, 0x55].length = some enc
          ∧ spooky_decoder_init (some dec_zero) (some (List.replicate 16 7)) 16 (some ()) 9
              = (SPOOKY_DECODER_INIT_OK, some dec)
          ∧ (link_run 3 (5 * (64 + 16 * [0xaa, 0x00, 0x55].length))
                ⟨enc, dec, false, []⟩).calls
              = [⟨Bf, [0xaa, 0x00, 0x55].length, 9⟩]
          ∧ Bf.take [0xaa, 0x00, 0x55].length = [0xaa, 0x00, 0x55] :=
  ⟨⟨by decide, by decide, by decide, by decide, by decide, by decide, by decide, by decide,
      by decide, by decide, by decide⟩,
    round_trip_law 5 3 (by decide) (by decide) (by decide) enc_zero (List.replicate 8 0) 8
      dec_zero (List.replicate 16 7) 16 9 [0xaa, 0x00, 0x55] (by decide) (by decide) (by decide)
      (by decide) (by decide) (by decide) (by decide) (by decide)⟩

/-! ## The two `init` functions -/

theorem memset_eq (l : List Nat) (c n : Nat) :
    memset l c n = List.replicate (min n l.length) c ++ l.drop n := by
  induction l generalizing n with
  | nil => cases n <;> simp [memset]
  | cons a l ih =>
    cases n with
    | zero => simp [memset]
    | succ n =>
      simp only [memset, ih, List.length_cons, List.drop_succ_cons]
      rw [Nat.succ_min_succ, List.replicate_succ, List.cons_append]

/-- C11. `spooky_encoder_init` returns `ERROR_NULL` iff the encoder or the
buffer is absent; otherwise `ERROR_BAD_ARGUMENT` iff `buffer_size == 0` or
`tx_rate == 0`; otherwise `OK`, and then the encoder is IDLE with `index = 0`,
`ticks = 0`, the given `buffer_size` and `tx_rate` stored and the given buffer
attached. On an error the encoder memory is left as it was. -/
theorem encoder_init_result_codes (enc : Option spooky_encoder) (buffer : Option (List Nat))
    (buffer_size tx_rate : Nat) :
    ((spooky_encoder_init enc buffer buffer_size tx_rate).1 = SPOOKY_ENCODER_INIT_ERROR_NULL
        ↔ (enc = none ∨ buffer = none))
      ∧ ((spooky_encoder_init enc buffer buffer_size tx_rate).1
            = SPOOKY_ENCODER_INIT_ERROR_BAD_ARGUMENT
          ↔ ¬ (enc = none ∨ buffer = none) ∧ (buffer_size = 0 ∨ tx_rate = 0))
      ∧ ((spooky_encoder_init enc buffer buffer_size tx_rate).1 = SPOOKY_ENCODER_INIT_OK
          ↔ ¬ (enc = none ∨ buffer = none) ∧ ¬ (buffer_size = 0 ∨ tx_rate = 0))
      ∧ ((spooky_encoder_init enc buffer buffer_size tx_rate).1 = SPOOKY_ENCODER_INIT_OK →
          ∃ e buf, buffer = some buf
            ∧ (spooky_encoder_init enc buffer buffer_size tx_rate).2 = some e
            ∧ e.mode = TX_NONE ∧ e.index = 0 ∧ e.ticks = 0 ∧ e.buffer_size = buffer_size
            ∧ e.tx_rate = tx_rate ∧ e.buffer = buf)
      ∧ ((spooky_encoder_init enc buffer buffer_size tx_rate).1 ≠ SPOOKY_ENCODER_INIT_OK →
          (spooky_encoder_init enc buffer buffer_size tx_rate).2 = enc) := by
  cases enc with
  | none => simp [spooky_encoder_init]
  | some e0 =>
    cases buffer with
    | none => simp [spooky_encoder_init]
    | some buf =>
      by_cases h : buffer_size = 0 ∨ tx_rate = 0
      · simp [spooky_encoder_init, h]
      · simp [spooky_encoder_init, h]

/-- C12. `spooky_decoder_init` returns `ERROR_NULL` iff the decoder, the buffer
or the callback is absent; otherwise `ERROR_BAD_ARGUMENT` iff
`buffer_size < 16` or `buffer_size > 255`; otherwise `OK`, and then
`mode = HEADER`, `ticks = interval = pre_ticks = payload_length = bit_accum =
index = 0`, `bit_index = 0x80`, `last` is neither 0 nor 1 (it is `0xFF`),
`buffer_size` is stored, and the first `buffer_size` bytes of the buffer are
zero while the rest of it is untouched. -/
theorem decoder_init_result_codes (dec : Option spooky_decoder)
    (output_buffer : Option (List Nat)) (buffer_size : Nat) (cb : Option Unit) (udata : Nat) :
    ((spooky_decoder_init dec output_buffer buffer_size cb udata).1
          = SPOOKY_DECODER_INIT_ERROR_NULL
        ↔ (dec = none ∨ output_buffer = none ∨ cb = none))
      ∧ ((spooky_decoder_init dec output_buffer buffer_size cb udata).1
            = SPOOKY_DECODER_INIT_ERROR_BAD_ARGUMENT
          ↔ ¬ (dec = none ∨ output_buffer = none ∨ cb = none)
            ∧ (buffer_size < 16 ∨ buffer_size > 255))
      ∧ ((spooky_decoder_init dec output_buffer buffer_size cb udata).1
            = SPOOKY_DECODER_INIT_OK
          ↔ ¬ (dec = none ∨ output_buffer = none ∨ cb = none)
            ∧ ¬ (buffer_size < 16 ∨ buffer_size > 255))
      ∧ ((spooky_decoder_init dec output_buffer buffer_size cb udata).1
            = SPOOKY_DECODER_INIT_OK →
          ∃ d buf, output_buffer = some buf
            ∧ (spooky_decoder_init dec output_buffer buffer_size cb udata).2 = some d
            ∧ d.mode = RX_HEADER ∧ d.ticks = 0 ∧ d.interval = 0 ∧ d.pre_ticks = 0
            ∧ d.payload_length = 0 ∧ d.bit_accum = 0 ∧ d.index = 0 ∧ d.bit_index = 0x80
            ∧ d.last = 0xFF ∧ d.last ≠ 0 ∧ d.last ≠ 1
            ∧ d.buffer_size = buffer_size ∧ d.cb_udata = udata
            ∧ d.buffer = List.replicate (min buffer_size buf.length) 0 ++ buf.drop buffer_size)
      := by
  cases dec with
  | none => simp [spooky_decoder_init]
  | some d0 =>
    cases output_buffer with
    | none => simp [spooky_decoder_init]
    | some buf =>
      cases cb with
      | none => simp [spooky_decoder_init]
      | some c =>
        by_cases h : buffer_size < 16 ∨ buffer_size > 255
        · simp [spooky_decoder_init, SPOOKY_DECODER_MIN_BUFFER_SIZE,
            SPOOKY_DECODER_MAX_BUFFER_SIZE, h]
        · have h2 : buffer_size % 256 = buffer_size := Nat.mod_eq_of_lt (by omega)
          simp [spooky_decoder_init, SPOOKY_DECODER_MIN_BUFFER_SIZE,
            SPOOKY_DECODER_MAX_BUFFER_SIZE, h, reset_decoder, h2, memset_eq]

/-! ## The checksum -/

theorem xor_255 (x : Nat) (h : x < 256) : x ^^^ 255 = 255 - x := by
  revert x
  set_option maxRecDepth 100000 in decide

/-- C13. Shared checksum: for every byte sequence `P`, the encoder's
`calc_chksum` and the decoder's `checksum` (over any buffer and length) return
the same value, which for the bytes `P` is the bitwise complement of the byte
sum modulo 256, `255 - (sum mod 256)`; the checksum of `[0x7A]` is `0x85`. -/
theorem shared_checksum (P : List Nat) :
    (∀ (buf : List Nat) (n : Nat), calc_chksum buf n = checksum buf n)
      ∧ calc_chksum P P.length = spec_chksum P
      ∧ checksum P P.length = spec_chksum P
      ∧ spec_chksum P = (P.sum % 256) ^^^ 255
      ∧ calc_chksum [0x7A] 1 = 0x85 ∧ checksum [0x7A] 1 = 0x85 := by
  have h : checksum P P.length = spec_chksum P := by
    rw [checksum_eq_spec P P.length (le_refl _), List.take_length]
  refine ⟨fun _ _ => rfl, h, h, ?_, by decide, by decide⟩
  unfold spec_chksum
  rw [xor_255 _ (Nat.mod_lt _ (by decide))]

/-! ## The frame at any rate -/

theorem wire_frame_trace_gen (bs c : Nat) (buf P : List Nat) (h1 : 1 ≤ P.length)
    (h2 : P.length ≤ 255) (h4 : P.length ≤ buf.length) :
    encoder_trace (64 + 16 * P.length)
        ⟨0, 1, bs, P.length, 0, TX_SHARP, c, memcpy buf P P.length⟩ = wire_frame P := by
  have hf := (frame_rate_one bs P.length c (memcpy buf P P.length) h1 h2).1
  rw [hf, calc_chksum_eq, memcpy_prefix buf P h4]
  have : (List.range' 0 P.length).flatMap
      (fun j => manchester_byte ((memcpy buf P P.length).getD j 0)) = P.flatMap manchester_byte := by
    conv_rhs => rw [← memcpy_prefix buf P h4]
    rw [List.flatMap_map]
  rw [this]
  rfl

/-- The first cell after the divider has counted `t` ticks. -/
theorem trace_cell_from (r t : Nat) (hr : r ≤ 255) (ht : t < r) (e : spooky_encoder)
    (h1 : e.tx_rate = 1) (h0 : e.ticks = 0) :
    encoder_trace (r - t) { e with tx_rate := r, ticks := t }
        = List.replicate (r - t - 1) SPOOKY_ENCODER_STEP_OK ++ [(spooky_encoder_step e).1]
      ∧ encoder_run (r - t) { e with tx_rate := r, ticks := t }
        = { (spooky_encoder_step e).2 with tx_rate := r } := by
  have hh := run_hold_from { e with tx_rate := r, ticks := t } (r - t - 1)
    (by simp only; omega) (by simp only; omega)
  have hfire := gate_fire { e with tx_rate := r, ticks := t + (r - t - 1) }
    (by simp only; omega) (by simpa using hr)
  have e1eq : ({ e with tx_rate := 1, ticks := 0 } : spooky_encoder) = e := by
    cases e; simp_all
  simp only [e1eq] at hfire
  have hsplit : r - t = (r - t - 1) + 1 := by omega
  rw [hsplit, encoder_trace_succ_right, encoder_run_succ_right, hh.1, hh.2, hfire]
  exact ⟨rfl, rfl⟩

theorem trace_cells (r : Nat) (hr1 : 1 ≤ r) (hr : r ≤ 255) (k : Nat) (e : spooky_encoder)
    (h1 : e.tx_rate = 1) (h0 : e.ticks = 0) :
    encoder_trace (k * r) { e with tx_rate := r } = (encoder_trace k e).flatMap (pad_cell r) := by
  induction k generalizing e with
  | zero => simp [encoder_trace]
  | succ k ih =>
    have e2 : (k + 1) * r = (r - 0) + k * r := by rw [Nat.succ_mul]; omega
    have e0 : ({ e with tx_rate := r } : spooky_encoder) = { e with tx_rate := r, ticks := 0 } := by
      cases e; simp_all
    have hc := trace_cell_from r 0 hr (by omega) e h1 h0
    rw [e2, encoder_trace_add, e0, hc.1, hc.2,
      ih _ (by rw [step_tx_rate, h1]) (step_ticks_rate_one e h1)]
    simp [encoder_trace, pad_cell]

theorem edge_commands_append (a b : List spooky_encoder_step_res) :
    edge_commands (a ++ b) = edge_commands a ++ edge_commands b := by
  simp [edge_commands]

theorem edge_commands_replicate_ok (c : Nat) :
    edge_commands (List.replicate c SPOOKY_ENCODER_STEP_OK) = [] := by
  induction c with
  | zero => rfl
  | succ c ih =>
    rw [List.replicate_succ]
    simp only [edge_commands, List.filter_cons, is_edge_command] at ih ⊢
    simpa using ih

theorem edge_commands_pad (r : Nat) (l : List spooky_encoder_step_res) :
    edge_commands (l.flatMap (pad_cell r)) = edge_commands l := by
  induction l with
  | nil => rfl
  | cons c l ih =>
    rw [List.flatMap_cons, edge_commands_append, ih, pad_cell, edge_commands_append,
      edge_commands_replicate_ok]
    simp only [edge_commands, List.filter_cons, List.filter_nil, List.nil_append]
    split <;> rfl

theorem until_done_append_of_not (a b : List spooky_encoder_step_res)
    (h : ∀ c ∈ a, c ≠ SPOOKY_ENCODER_STEP_OK_DONE) :
    until_done (a ++ SPOOKY_ENCODER_STEP_OK_DONE :: b) = a := by
  unfold until_done
  rw [List.takeWhile_append_of_pos (by simpa using h)]
  simp

theorem edge_commands_wire_frame (P : List Nat) : edge_commands (wire_frame P) = wire_frame P := by
  rw [wire_frame_bits]
  unfold edge_commands
  rw [List.filter_eq_self]
  intro c hc
  rw [List.mem_flatMap] at hc
  obtain ⟨b, _, hb⟩ := hc
  cases b <;> simp [manchester_bit] at hb <;> rcases hb with rfl | rfl <;> rfl

theorem wire_frame_length (P : List Nat) : (wire_frame P).length = 64 + 16 * P.length := by
  have hb : ∀ x, (manchester_byte x).length = 16 := by
    intro x
    rw [← cells_eq_manchester_byte]; simp
  have hP : (P.flatMap manchester_byte).length = 16 * P.length := by
    induction P with
    | nil => rfl
    | cons a P ih => rw [List.flatMap_cons, List.length_append, ih, hb]; simp; omega
  unfold wire_frame
  simp only [List.length_append, hb, hP]

/-- The whole trace of a frame at rate `r`, started when the divider has
counted `t` ticks: the first command comes after `r - t` steps, the others
every `r` steps, and `OK_DONE` follows `r` steps after the last command. -/
theorem frame_trace_rate (r t : Nat) (hr : r ≤ 255) (ht : t < r) (bs c : Nat) (buf P : List Nat)
    (hP1 : 1 ≤ P.length) (hP : P.length ≤ 255) (hbuf : P.length ≤ buf.length) :
    ∃ c1 rest, wire_frame P = c1 :: rest
      ∧ encoder_trace ((r - t) + (63 + 16 * P.length) * r + r)
          ⟨0, r, bs, P.length, t, TX_SHARP, c, memcpy buf P P.length⟩
        = (List.replicate (r - t - 1) SPOOKY_ENCODER_STEP_OK ++ [c1])
            ++ rest.flatMap (pad_cell r)
            ++ (List.replicate (r - 1) SPOOKY_ENCODER_STEP_OK ++ [SPOOKY_ENCODER_STEP_OK_DONE])
      := by
  have hr1 : 1 ≤ r := by omega
  have hT : 64 + 16 * P.length = (63 + 16 * P.length) + 1 := by omega
  have hw := wire_frame_trace_gen bs c buf P hP1 hP hbuf
  have hrun := (frame_rate_one bs P.length c (memcpy buf P P.length) hP1 hP).2
  rw [hT] at hw hrun
  rw [encoder_trace] at hw
  rw [encoder_run] at hrun
  refine ⟨_, _, hw.symm, ?_⟩
  have hc := trace_cell_from r t hr ht ⟨0, 1, bs, P.length, 0, TX_SHARP, c, memcpy buf P P.length⟩
    rfl rfl
  have hcs := trace_cells r hr1 hr (63 + 16 * P.length)
    (spooky_encoder_step ⟨0, 1, bs, P.length, 0, TX_SHARP, c, memcpy buf P P.length⟩).2
    (by rw [step_tx_rate]) (step_ticks_rate_one _ rfl)
  have hrc := run_cells r hr1 hr (63 + 16 * P.length)
    (spooky_encoder_step ⟨0, 1, bs, P.length, 0, TX_SHARP, c, memcpy buf P P.length⟩).2
    (by rw [step_tx_rate]) (step_ticks_rate_one _ rfl)
  rw [hrun] at hrc
  have hd := trace_cell_from r 0 hr (by omega)
    ⟨16 * P.length, 1, bs, P.length, 0, TX_NONE, calc_chksum (memcpy buf P P.length) P.length,
      memcpy buf P P.length⟩ rfl rfl
  rw [enc_step_none _ rfl rfl] at hd
  rw [encoder_trace_add, encoder_trace_add]
  rw [show (⟨0, r, bs, P.length, t, TX_SHARP, c, memcpy buf P P.length⟩ : spooky_encoder)
    = { (⟨0, 1, bs, P.length, 0, TX_SHARP, c, memcpy buf P P.length⟩ : spooky_encoder) with
        tx_rate := r, ticks := t } from rfl]
  rw [hc.1, encoder_run_add, hc.2, hcs, hrc]
  have := hd.1
  simp only [Nat.sub_zero] at this
  rw [show ({ (⟨16 * P.length, 1, bs, P.length, 0, TX_NONE,
      calc_chksum (memcpy buf P P.length) P.length, memcpy buf P P.length⟩ : spooky_encoder) with
      tx_rate := r } : spooky_encoder)
    = { (⟨16 * P.length, 1, bs, P.length, 0, TX_NONE,
      calc_chksum (memcpy buf P P.length) P.length, memcpy buf P P.length⟩ : spooky_encoder) with
      tx_rate := r, ticks := 0 } from rfl, this]

/-- The edge commands of a frame: whatever the rate and the divider's phase at
enqueue, the results before the first `OK_DONE` contain exactly the commands
of the wire frame, and `OK_DONE` does come. -/
theorem frame_edge_commands (r t : Nat) (hr : r ≤ 255) (ht : t < r) (bs c : Nat)
    (buf P : List Nat) (hP1 : 1 ≤ P.length) (hP : P.length ≤ 255) (hbuf : P.length ≤ buf.length)
    (M : Nat) (hM : r * (64 + 16 * P.length) + r - t ≤ M) :
    SPOOKY_ENCODER_STEP_OK_DONE
        ∈ encoder_trace M ⟨0, r, bs, P.length, t, TX_SHARP, c, memcpy buf P P.length⟩
      ∧ edge_commands (until_done
          (encoder_trace M ⟨0, r, bs, P.length, t, TX_SHARP, c, memcpy buf P P.length⟩))
        = wire_frame P := by
  obtain ⟨c1, rest, hw, htr⟩ := frame_trace_rate r t hr ht bs c buf P hP1 hP hbuf
  have hN : M = ((r - t) + (63 + 16 * P.length) * r + r)
      + (M - ((r - t) + (63 + 16 * P.length) * r + r)) := by
    have : r * (64 + 16 * P.length) = (63 + 16 * P.length) * r + r := by
      rw [Nat.mul_comm r, show 64 + 16 * P.length = (63 + 16 * P.length) + 1 by omega,
        Nat.succ_mul]
    omega
  have hedge : ∀ x ∈ wire_frame P, x = SPOOKY_ENCODER_STEP_OK_LOW
      ∨ x = SPOOKY_ENCODER_STEP_OK_HIGH := by
    intro x hx
    rw [← edge_commands_wire_frame, edge_commands, List.mem_filter] at hx
    simpa [is_edge_command] using hx.2
  have hnd : ∀ x ∈ (List.replicate (r - t - 1) SPOOKY_ENCODER_STEP_OK ++ [c1])
      ++ rest.flatMap (pad_cell r) ++ List.replicate (r - 1) SPOOKY_ENCODER_STEP_OK,
      x ≠ SPOOKY_ENCODER_STEP_OK_DONE := by
    intro x hx
    simp only [List.mem_append, List.mem_replicate, List.mem_singleton, List.mem_flatMap,
      pad_cell] at hx
    rcases hx with ((⟨_, rfl⟩ | rfl) | ⟨y, hy, ⟨_, rfl⟩ | rfl⟩) | ⟨_, rfl⟩
    · simp
    · rcases hedge x (by rw [hw]; simp) with rfl | rfl <;> simp
    · simp
    · rcases hedge x (by rw [hw]; simp [hy]) with rfl | rfl <;> simp
    · simp
  rw [hN, encoder_trace_add, htr]
  constructor
  · simp
  · rw [← List.append_assoc, List.append_assoc _ [SPOOKY_ENCODER_STEP_OK_DONE],
      List.singleton_append, until_done_append_of_not _ _ hnd]
    rw [edge_commands_append, edge_commands_append, edge_commands_append,
      edge_commands_replicate_ok, edge_commands_replicate_ok, edge_commands_pad,
      List.nil_append, List.append_nil, ← edge_commands_append, List.singleton_append, ← hw,
      edge_commands_wire_frame]

theorem wire_frame_getLast (P : List Nat) (hP1 : 1 ≤ P.length) :
    (wire_frame P).getLast?
      = some (if (P.getLast?.getD 0).testBit 0 then SPOOKY_ENCODER_STEP_OK_HIGH
          else SPOOKY_ENCODER_STEP_OK_LOW) := by
  obtain ⟨Q, x, rfl⟩ : ∃ Q x, P = Q ++ [x] := by
    rcases List.eq_nil_or_concat P with h | ⟨Q, x, h⟩
    · subst h; simp at hP1
    · exact ⟨Q, x, by simpa using h⟩
  have hb : manchester_byte x = (byte_hi x).flatMap manchester_bit
      ++ [if x.testBit 0 then SPOOKY_ENCODER_STEP_OK_LOW else SPOOKY_ENCODER_STEP_OK_HIGH,
          if x.testBit 0 then SPOOKY_ENCODER_STEP_OK_HIGH else SPOOKY_ENCODER_STEP_OK_LOW] := by
    rw [manchester_byte_bits, byte_bits_eq, List.flatMap_append]
    simp [manchester_bit_eq]
  unfold wire_frame
  rw [List.flatMap_append, List.flatMap_singleton, hb]
  simp [List.getLast?_append]

/-- C14 as stated fails: at `tx_rate = 2` the frame of the one-byte payload
`{0x7A}` has its first `OK_DONE` at step 162, and the 161 results before it
contain 80 edge commands, not `2 * (64 + 16 * 1) = 160`. -/
theorem edge_command_count_counterexample :
    ∃ enc, encoder_start enc_zero (List.replicate 32 0) 32 2 [0x7A] 1 = some enc
      ∧ until_done (encoder_trace 162 enc) = encoder_trace 161 enc
      ∧ (encoder_trace 162 enc).getLast? = some SPOOKY_ENCODER_STEP_OK_DONE
      ∧ (edge_commands (until_done (encoder_trace 162 enc))).length = 80
      ∧ (edge_commands (until_done (encoder_trace 162 enc))).length ≠ 2 * (64 + 16 * 1) := by
  refine ⟨⟨0, 2, 32, 1, 0, TX_SHARP, 0, 0x7A :: List.replicate 31 0⟩, by decide, ?_, ?_, ?_, ?_⟩
  all_goals set_option maxRecDepth 100000 in decide

/-- C14 (amended). For every idle encoder with `1 ≤ tx_rate` and every payload
`P` with `0 < |P| ≤ buffer_size`, `spooky_encoder_enqueue` succeeds, an
`OK_DONE` is returned within `tx_rate * (64 + 16 |P|) + tx_rate` steps, and
the number of edge commands (`OK_LOW` / `OK_HIGH`) returned before the first
`OK_DONE` is exactly `64 + 16 |P|`, whatever `tx_rate` is. -/
theorem edge_command_count (enc : spooky_encoder) (P : List Nat) (hm : enc.mode = TX_NONE)
    (hr : enc.tx_rate ≤ 255) (ht : enc.ticks < enc.tx_rate) (hP1 : 1 ≤ P.length)
    (hPb : P.length ≤ enc.buffer_size) (hbs : enc.buffer_size ≤ 255)
    (hbuf : enc.buffer_size ≤ enc.buffer.length) (M : Nat)
    (hM : enc.tx_rate * (64 + 16 * P.length) + enc.tx_rate ≤ M) :
    (spooky_encoder_enqueue enc P P.length).1 = SPOOKY_ENCODER_ENQUEUE_OK
      ∧ SPOOKY_ENCODER_STEP_OK_DONE
          ∈ encoder_trace M (spooky_encoder_enqueue enc P P.length).2
      ∧ (edge_commands (until_done
          (encoder_trace M (spooky_encoder_enqueue enc P P.length).2))).length
        = 64 + 16 * P.length := by
  obtain ⟨index, r, bs, n, t, mode, c, B⟩ := enc
  simp only at hm hr ht hPb hbs hbuf hM
  subst hm
  have hf := frame_edge_commands r t hr ht bs c B P hP1 (by omega) (by omega) M (by omega)
  refine ⟨(enqueue_ok_iff _ _ _).2 ⟨rfl, hPb⟩, ?_, ?_⟩
  · rw [enqueue_ok_state _ _ _ rfl hPb]
    exact hf.1
  · rw [enqueue_ok_state _ _ _ rfl hPb]
    simp only
    rw [hf.2, wire_frame_length]

/-- Witness of C14 (amended): the unit test's encoder (32-byte buffer) at
`tx_rate = 3` with the payload `{0xaa, 0x00}`. -/
theorem edge_command_count_witness :
    (spooky_encoder_enqueue ⟨0, 3, 32, 0, 0, TX_NONE, 0, List.replicate 32 0⟩ [0xaa, 0x00]
        [0xaa, 0x00].length).1 = SPOOKY_ENCODER_ENQUEUE_OK
      ∧ SPOOKY_ENCODER_STEP_OK_DONE
          ∈ encoder_trace 291 (spooky_encoder_enqueue
              ⟨0, 3, 32, 0, 0, TX_NONE, 0, List.replicate 32 0⟩ [0xaa, 0x00]
              [0xaa, 0x00].length).2
      ∧ (edge_commands (until_done
          (encoder_trace 291 (spooky_encoder_enqueue
            ⟨0, 3, 32, 0, 0, TX_NONE, 0, List.replicate 32 0⟩ [0xaa, 0x00]
            [0xaa, 0x00].length).2))).length
        = 64 + 16 * [0xaa, 0x00].length :=
  edge_command_count ⟨0, 3, 32, 0, 0, TX_NONE, 0, List.replicate 32 0⟩ [0xaa, 0x00] rfl
    (by decide) (by decide) (by decide) (by decide) (by decide) (by decide) 291 (by decide)

/-- C17 as stated fails: for the one-byte payload `{0x01}` (`tx_rate = 1`) the
last edge command before `OK_DONE` is `OK_HIGH`, so the line idles high. -/
theorem idle_line_level_counterexample :
    ∃ enc, encoder_start enc_zero (List.replicate 32 0) 32 1 [0x01] 1 = some enc
      ∧ (encoder_trace 81 enc).getLast? = some SPOOKY_ENCODER_STEP_OK_DONE
      ∧ until_done (encoder_trace 81 enc) = encoder_trace 80 enc
      ∧ (edge_commands (until_done (encoder_trace 81 enc))).getLast?
          = some SPOOKY_ENCODER_STEP_OK_HIGH := by
  refine ⟨⟨0, 1, 32, 1, 0, TX_SHARP, 0, 0x01 :: List.replicate 31 0⟩, by decide, ?_, ?_, ?_⟩
  all_goals set_option maxRecDepth 100000 in decide

/-- C17 (amended). Idle line level: for every idle encoder and every payload
`P` with `1 ≤ |P| ≤ buffer_size`, after the enqueue the last `OK_LOW` /
`OK_HIGH` command the encoder emits before `OK_DONE` is the second half-cell
of the last payload bit: `OK_LOW` when the last byte of `P` is even, `OK_HIGH`
when it is odd. -/
theorem idle_line_level (enc : spooky_encoder) (P : List Nat) (hm : enc.mode = TX_NONE)
    (hr : enc.tx_rate ≤ 255) (ht : enc.ticks < enc.tx_rate) (hP1 : 1 ≤ P.length)
    (hPb : P.length ≤ enc.buffer_size) (hbs : enc.buffer_size ≤ 255)
    (hbuf : enc.buffer_size ≤ enc.buffer.length) (M : Nat)
    (hM : enc.tx_rate * (64 + 16 * P.length) + enc.tx_rate ≤ M) :
    (spooky_encoder_enqueue enc P P.length).1 = SPOOKY_ENCODER_ENQUEUE_OK
      ∧ SPOOKY_ENCODER_STEP_OK_DONE
          ∈ encoder_trace M (spooky_encoder_enqueue enc P P.length).2
      ∧ (edge_commands (until_done
          (encoder_trace M (spooky_encoder_enqueue enc P P.length).2))).getLast?
        = some (if (P.getLast?.getD 0) % 2 = 1 then SPOOKY_ENCODER_STEP_OK_HIGH
            else SPOOKY_ENCODER_STEP_OK_LOW) := by
  obtain ⟨index, r, bs, n, t, mode, c, B⟩ := enc
  simp only at hm hr ht hPb hbs hbuf hM
  subst hm
  have hf := frame_edge_commands r t hr ht bs c B P hP1 (by omega) (by omega) M (by omega)
  refine ⟨(enqueue_ok_iff _ _ _).2 ⟨rfl, hPb⟩, ?_, ?_⟩
  · rw [enqueue_ok_state _ _ _ rfl hPb]
    exact hf.1
  · rw [enqueue_ok_state _ _ _ rfl hPb]
    simp only
    rw [hf.2, wire_frame_getLast P hP1]
    simp [Nat.testBit_zero]

/-- Witness of C17 (amended): the test payload `{0x7A}` (even, so the line ends low) at
`tx_rate = 4`. -/
theorem idle_line_level_witness :
    (spooky_encoder_enqueue ⟨0, 4, 32, 0, 0, TX_NONE, 0, List.replicate 32 0⟩ [0x7A]
        [0x7A].length).1 = SPOOKY_ENCODER_ENQUEUE_OK
      ∧ SPOOKY_ENCODER_STEP_OK_DONE
          ∈ encoder_trace 324 (spooky_encoder_enqueue
              ⟨0, 4, 32, 0, 0, TX_NONE, 0, List.replicate 32 0⟩ [0x7A] [0x7A].length).2
      ∧ (edge_commands (until_done
          (encoder_trace 324 (spooky_encoder_enqueue
            ⟨0, 4, 32, 0, 0, TX_NONE, 0, List.replicate 32 0⟩ [0x7A] [0x7A].length).2))).getLast?
        = some (if ([0x7A].getLast?.getD 0) % 2 = 1 then SPOOKY_ENCODER_STEP_OK_HIGH
            else SPOOKY_ENCODER_STEP_OK_LOW) :=
  idle_line_level ⟨0, 4, 32, 0, 0, TX_NONE, 0, List.replicate 32 0⟩ [0x7A] rfl
    (by decide) (by decide) (by decide) (by decide) (by decide) (by decide) 324 (by decide)

/-! ## Invariants of the decoder -/

theorem ring_bytes_set (buf : List Nat) (k v : Nat) (h : ring_bytes buf) (hv : v < 256) :
    ring_bytes (buf.set k v) := by
  intro i hi
  have := h i hi
  simp only [List.getD_eq_getElem?_getD, List.getElem?_set] at this ⊢
  split_ifs
  · simpa using hv
  · simp
  · exact this

theorem or_lt_256 (a b : Nat) (ha : a < 256) (hb : b < 256) : a ||| b < 256 :=
  Nat.or_lt_two_pow (n := 8) ha hb

theorem shiftRight_one_lt (b : Nat) (hb : b < 256) : b >>> 1 < 256 := by
  rw [Nat.shiftRight_eq_div_pow]; omega

theorem ring_value_lt (a b : Nat) : ((((a : Int) - (b : Int)) % 256).toNat) < 256 := by
  omega

/-- The counter `long_count` only grows when `avg` is positive. -/
theorem scan_avg_fixed (vs : List Nat) :
    ∀ (i total lc avg : Nat), 8 ≤ i → (scan_list vs i total lc avg).2 = avg := by
  induction vs with
  | nil => intro i total lc avg _; rfl
  | cons v vs ih =>
    intro i total lc avg hi
    have h8 : ¬ i < 8 := by omega
    simp only [scan_list, h8, if_false]
    split_ifs <;> first | rfl | exact ih _ _ _ _ (by omega)

theorem scan_count_zero_avg (vs : List Nat) :
    ∀ (i total lc : Nat), 8 ≤ i → (scan_list vs i total lc 0).1 = lc := by
  induction vs with
  | nil => intro i total lc _; rfl
  | cons v vs ih =>
    intro i total lc hi
    have h8 : ¬ i < 8 := by omega
    simp only [scan_list, h8, if_false, gt_iff_lt, Nat.lt_irrefl]
    split_ifs <;> first | rfl | exact ih _ _ _ (by omega)

theorem scan_count_pos (vs : List Nat) :
    ∀ (i total lc avg : Nat), (scan_list vs i total lc avg).1 ≠ lc →
      0 < (scan_list vs i total lc avg).2 := by
  induction vs with
  | nil => intro i total lc avg h; exact absurd rfl h
  | cons v vs ih =>
    intro i total lc avg h
    by_cases h8 : i < 8
    · simp only [scan_list, h8, if_true] at h ⊢
      split_ifs at h ⊢
      · exact absurd rfl h
      · exact ih _ _ _ _ h
      · exact ih _ _ _ _ h
    · rw [scan_avg_fixed _ _ _ _ _ (by omega)]
      rcases Nat.eq_zero_or_pos avg with h0 | h0
      · subst h0
        exact absurd (scan_count_zero_avg _ _ _ _ (by omega)) h
      · exact h0

theorem scan_avg_le (vs : List Nat) (hv : ∀ x ∈ vs, x < 256) :
    ∀ (i total lc avg : Nat), total ≤ 255 * i → avg ≤ 255 →
      (scan_list vs i total lc avg).2 ≤ 255 := by
  induction vs with
  | nil => intro i total lc avg _ ha; exact ha
  | cons v vs ih =>
    intro i total lc avg ht ha
    have hv0 : v < 256 := hv v (List.mem_cons_self _ _)
    have hvs : ∀ x ∈ vs, x < 256 := fun x hx => hv x (List.mem_cons_of_mem _ hx)
    by_cases h8 : i < 8
    · have hm : (total + v) % 65536 = total + v := Nat.mod_eq_of_lt (by omega)
      simp only [scan_list, h8, if_true, hm]
      split_ifs
      · exact ha
      · exact ih hvs _ _ _ _ (by omega) (by omega)
      · exact ih hvs _ _ _ _ (by omega) ha
    · rw [scan_avg_fixed _ _ _ _ _ (by omega)]
      exact ha

theorem ring_window_lt (buf : List Nat) (index : Nat) (h : ring_bytes buf) :
    ∀ x ∈ ring_window buf index, x < 256 := by
  intro x hx
  simp only [ring_window, List.mem_map, List.mem_range] at hx
  obtain ⟨i, _, rfl⟩ := hx
  exact h _ (Nat.mod_lt _ (by decide))

/-- When the scan of `step_header` counts eight long entries, the average it
found is a positive byte. -/
theorem header_scan_interval (buf : List Nat) (index : Nat) (h : ring_bytes buf)
    (h8 : (step_header_scan buf index RING_BUF_SZ 0 0 0).1 = 8) :
    0 < (step_header_scan buf index RING_BUF_SZ 0 0 0).2
      ∧ (step_header_scan buf index RING_BUF_SZ 0 0 0).2 ≤ 255 := by
  have he : step_header_scan buf index RING_BUF_SZ 0 0 0
      = scan_list (ring_window buf index) 0 0 0 0 := by
    have := step_header_scan_eq buf index 16 (le_refl _) 0 0 0
    simpa [RING_BUF_SZ] using this
  rw [he] at h8 ⊢
  exact ⟨scan_count_pos _ _ _ _ _ (by rw [h8]; decide),
    scan_avg_le _ (ring_window_lt buf index h) _ _ _ _ (by omega) (by omega)⟩

theorem decoder_inv_ticked (d : spooky_decoder) (h : decoder_inv d) : decoder_inv (ticked d) := by
  obtain ⟨h1, h2, h3, h4, h5, h6, h7, h8, h9, h10, h11⟩ := h
  exact ⟨h1, h2, Nat.mod_lt _ (by decide), h4, h5, h6, h7, h8, h9, h10, h11⟩

theorem decoder_inv_reset (d : spooky_decoder) (h : decoder_inv d) :
    decoder_inv (reset_decoder d) := by
  obtain ⟨h1, h2, h3, h4, h5, h6, h7, h8, h9, h10, h11⟩ := h
  refine ⟨h1, h2, ?_, ?_, ?_, h6, ?_, ?_, ?_, ?_, ?_⟩ <;> simp [reset_decoder]

theorem decoder_inv_header (d : spooky_decoder) (bit : Bool) (h : decoder_inv d)
    (hm : d.mode = RX_HEADER) : decoder_inv (step_header d bit).2 := by
  obtain ⟨index, bs, mode, ticks, bi, acc, last, interval, pl, ck, pre, buf, u⟩ := d
  simp only at hm
  subst hm
  have hh := h.header_fields rfl
  simp only at hh
  obtain ⟨rfl, rfl, rfl, rfl, rfl⟩ := hh
  unfold step_header
  by_cases hx : bool_val bit = last
  · simp only [hx, ne_eq, not_true_eq_false, if_false]
    exact h
  · simp only [hx, ne_eq, not_false_eq_true, if_true, append_to_ring_buffer]
    have hv : (if index = 0 then MAX_POSSIBLE_DELAY
        else (((ticks : Int) - ((0 % 256 : Nat) : Int)) % 256).toNat) < 256 := by
      split_ifs
      · decide
      · exact ring_value_lt _ _
    have hring := ring_bytes_set buf (index &&& RING_BUF_MASK) _ h.ring hv
    have hb : bool_val bit < 256 := by cases bit <;> decide
    by_cases h8 : (step_header_scan (buf.set (index &&& RING_BUF_MASK)
        (if index = 0 then MAX_POSSIBLE_DELAY
          else (((ticks : Int) - ((0 % 256 : Nat) : Int)) % 256).toNat))
        ((index + 1) % 65536) RING_BUF_SZ 0 0 0).1 = 8
    · have hi := header_scan_interval _ _ hring h8
      simp only [h8, if_true]
      refine ⟨h.size_lo, h.size_hi, by simp, by simp, by simp, hring, ?_, ?_, ?_, ?_, ?_⟩
      · intro hc; cases hc
      · intro _
        simp only
        rw [Nat.mod_eq_of_lt (by omega)]
        exact hi.1
      · intro _; rfl
      · rintro (hc | hc) <;> cases hc
      · intro hc; cases hc
    · simp only [h8, if_false]
      refine ⟨h.size_lo, h.size_hi, by simp, by simp, by simp, hring, ?_, ?_, ?_, ?_, ?_⟩
      · intro _; exact ⟨rfl, rfl, rfl, rfl, rfl⟩
      · intro hc; exact absurd rfl hc
      · intro hc; cases hc
      · rintro (hc | hc) <;> cases hc
      · intro hc; cases hc

/-- In a data mode the invariant only looks at some of the fields. -/
theorem decoder_inv_data (d d' : spooky_decoder) (h : decoder_inv d) (hm : d.mode ≠ RX_HEADER)
    (e1 : d'.buffer_size = d.buffer_size) (e2 : d'.mode = d.mode) (e3 : d'.ticks < 256)
    (e4 : d'.bit_accum < 256) (e5 : d'.bit_index < 256) (e6 : ring_bytes d'.buffer)
    (e7 : d'.interval = d.interval) (e8 : d'.payload_length = d.payload_length)
    (e9 : d.mode = RX_PAYLOAD → d'.index = d.index) : decoder_inv d' := by
  obtain ⟨h1, h2, h3, h4, h5, h6, h7, h8, h9, h10, h11⟩ := h
  refine ⟨by omega, by omega, e3, e4, e5, e6, ?_, ?_, ?_, ?_, ?_⟩
  · intro hc; rw [e2] at hc; exact absurd hc hm
  · intro _; rw [e7]; exact h8 hm
  · intro hc; rw [e2] at hc; rw [e8]; exact h9 hc
  · intro hc; rw [e2] at hc; rw [e8, e1]; exact h10 hc
  · intro hc; rw [e2] at hc; rw [e8, e9 hc]; exact h11 hc

theorem append_ring_fields (d : spooky_decoder) (off : Nat) (hr : ring_bytes d.buffer) :
    ring_bytes (append_to_ring_buffer d off).buffer
      ∧ (append_to_ring_buffer d off).buffer_size = d.buffer_size
      ∧ (append_to_ring_buffer d off).mode = d.mode
      ∧ (append_to_ring_buffer d off).ticks = d.ticks
      ∧ (append_to_ring_buffer d off).bit_accum = d.bit_accum
      ∧ (append_to_ring_buffer d off).bit_index = d.bit_index
      ∧ (append_to_ring_buffer d off).interval = d.interval
      ∧ (append_to_ring_buffer d off).payload_length = d.payload_length := by
  refine ⟨?_, rfl, rfl, rfl, rfl, rfl, rfl, rfl⟩
  unfold append_to_ring_buffer
  apply ring_bytes_set _ _ _ hr
  split_ifs
  · decide
  · exact ring_value_lt _ _

theorem stored_byte_lt (d : spooky_decoder) (bit : Bool) (ha : d.bit_accum < 256)
    (hb : d.bit_index < 256) : stored_byte d bit < 256 := by
  unfold stored_byte
  split_ifs
  · exact or_lt_256 _ _ ha hb
  · exact ha

/-- The three byte callbacks keep the invariant; `x` is the decoder `sink_bit`
hands over when a byte is complete. -/
theorem decoder_inv_length_cb (x : spooky_decoder) (h : decoder_inv x) (hm : x.mode = RX_LENGTH) :
    decoder_inv { (length_byte_cb x).2.1 with bit_accum := 0 } := by
  obtain ⟨index, bs, mode, ticks, bi, acc, last, interval, pl, ck, pre, buf, u⟩ := x
  simp only at hm
  subst hm
  have hiv := h.interval_pos (by simp)
  unfold length_byte_cb
  simp only
  split_ifs with h1 h2
  · exact ⟨h.size_lo, h.size_hi, by simp [reset_decoder], by simp, by simp [reset_decoder],
      h.ring, by simp [reset_decoder], by simp [reset_decoder], by simp [reset_decoder],
      by simp [reset_decoder], by simp [reset_decoder]⟩
  · exact ⟨h.size_lo, h.size_hi, by simp [reset_decoder], by simp, by simp [reset_decoder],
      h.ring, by simp [reset_decoder], by simp [reset_decoder], by simp [reset_decoder],
      by simp [reset_decoder], by simp [reset_decoder]⟩
  · refine ⟨h.size_lo, h.size_hi, h.ticks_lt, by simp, h.mask_lt, h.ring, by simp, ?_, by simp,
      ?_, by simp⟩
    · intro _; exact hiv
    · intro _
      simp only at h1 h2 ⊢
      omega

theorem decoder_inv_chksum_cb (x : spooky_decoder) (h : decoder_inv x) (hm : x.mode = RX_CHKSUM) :
    decoder_inv { (chksum_byte_cb x).2.1 with bit_accum := 0 } := by
  obtain ⟨index, bs, mode, ticks, bi, acc, last, interval, pl, ck, pre, buf, u⟩ := x
  simp only at hm
  subst hm
  have hiv := h.interval_pos (by simp)
  have hl := h.length_ok (Or.inl rfl)
  unfold chksum_byte_cb
  refine ⟨h.size_lo, h.size_hi, h.ticks_lt, by simp, h.mask_lt, h.ring, by simp, ?_, by simp,
    ?_, ?_⟩
  · intro _; exact hiv
  · intro _; exact hl
  · intro _; simp only at hl ⊢; omega

theorem decoder_inv_payload_cb (x : spooky_decoder) (h : decoder_inv x)
    (hm : x.mode = RX_PAYLOAD) :
    decoder_inv { (payload_byte_cb x).2.1 with bit_accum := 0 } := by
  obtain ⟨index, bs, mode, ticks, bi, acc, last, interval, pl, ck, pre, buf, u⟩ := x
  simp only at hm
  subst hm
  have hiv := h.interval_pos (by simp)
  have hl := h.length_ok (Or.inr rfl)
  have hi := h.index_ok rfl
  have hring := ring_bytes_set buf index acc h.ring h.accum_lt
  simp only at hl hi
  have hs := h.size_hi
  simp only at hs
  have hw : (index + 1) % 65536 = index + 1 := Nat.mod_eq_of_lt (by omega)
  rw [payload_byte_cb_eq]
  simp only [hw]
  by_cases h1 : index + 1 = pl
  · rw [if_pos h1]
    exact ⟨h.size_lo, h.size_hi, by simp [reset_decoder], by simp, by simp [reset_decoder],
      hring, by simp [reset_decoder], by simp [reset_decoder], by simp [reset_decoder],
      by simp [reset_decoder], by simp [reset_decoder]⟩
  · rw [if_neg h1]
    refine ⟨h.size_lo, h.size_hi, h.ticks_lt, by simp, h.mask_lt, hring, by simp, ?_, by simp,
      ?_, ?_⟩
    · intro _; exact hiv
    · intro _; exact hl
    · intro _; simp only at h1 ⊢; omega

/-- The function `sink_bit_with_cb` keeps the invariant in a data mode, given a
byte callback that does. -/
theorem decoder_inv_sbwc (d : spooky_decoder) (bit : Bool) (cb : byte_cb) (st : Bool)
    (h : decoder_inv d) (hm : d.mode ≠ RX_HEADER) (hst : d.mode = RX_PAYLOAD → st = false)
    (hcb : ∀ x, decoder_inv x → x.mode = d.mode →
      decoder_inv { (cb x).2.1 with bit_accum := 0 }) :
    decoder_inv (sink_bit_with_cb d bit cb st).2.1 := by
  have hb : bool_val bit < 256 := by cases bit <;> decide
  by_cases he : bit_edge d bit
  · -- a bit edge
    have hes : decoder_inv (edge_state d bit st) := by
      unfold edge_state
      cases st with
      | false =>
        exact decoder_inv_data d _ h hm rfl rfl (by simp) h.accum_lt h.mask_lt h.ring rfl rfl
          (fun _ => rfl)
      | true =>
        have ha := append_ring_fields { d with last := bool_val bit } d.pre_ticks h.ring
        simp only [if_true]
        exact decoder_inv_data d _ h hm ha.2.1 ha.2.2.1 (by simp) (by simpa using h.accum_lt)
          (by simpa using h.mask_lt) ha.1 ha.2.2.2.2.2.2.1 ha.2.2.2.2.2.2.2
          (fun hp => by simpa using hst hp)
    have hem : (edge_state d bit st).mode = d.mode := by
      unfold edge_state
      cases st <;> rfl
    rw [sbwc_bit_edge d bit cb st he, sink_bit_eq]
    have hx : decoder_inv
        { edge_state d bit st with
            bit_accum := stored_byte (edge_state d bit st) bit,
            bit_index := if (edge_state d bit st).bit_index >>> 1 = 0 then 0x80
              else (edge_state d bit st).bit_index >>> 1 } :=
      decoder_inv_data _ _ hes (by rw [hem]; exact hm) rfl rfl hes.ticks_lt
        (stored_byte_lt _ _ hes.accum_lt hes.mask_lt)
        (by
          simp only
          split_ifs
          · decide
          · exact shiftRight_one_lt _ hes.mask_lt)
        hes.ring rfl rfl (fun _ => rfl)
    by_cases hz : (edge_state d bit st).bit_index >>> 1 = 0
    · simp only [hz, if_true, ne_eq, one_ne_zero, not_false_eq_true]
      simp only [hz, if_true] at hx
      exact hcb _ hx hem
    · simp only [hz, if_false, ne_eq, not_true_eq_false]
      simp only [hz, if_false] at hx
      exact hx
  · -- no bit edge: quiet, timeout, setup edge or an unexpected edge
    unfold bit_edge at he
    unfold sink_bit_with_cb
    by_cases h1 : bool_val bit = d.last
    · simp only [h1, if_true]
      split_ifs
      · exact decoder_inv_reset d h
      · exact h
    · simp only [h1, if_false]
      by_cases h2 : approx_eq (d.ticks : Int) (d.interval : Int) = true ∧ d.pre_ticks = 0
      · simp only [h2, and_self, if_true]
        cases st with
        | false =>
          exact decoder_inv_data d _ h hm rfl rfl h.ticks_lt h.accum_lt h.mask_lt h.ring rfl rfl
            (fun _ => rfl)
        | true =>
          have ha := append_ring_fields { d with last := bool_val bit } 0 h.ring
          simp only [if_true]
          exact decoder_inv_data d _ h hm ha.2.1 ha.2.2.1 (by simpa [ha.2.2.2.1] using h.ticks_lt)
            (by simpa using h.accum_lt) (by simpa using h.mask_lt) ha.1 ha.2.2.2.2.2.2.1
            ha.2.2.2.2.2.2.2 (fun hp => by simpa using hst hp)
      · have h3 : ¬ approx_eq (d.ticks : Int) ((2 * d.interval : Nat) : Int) = true := by
          intro h3; exact he ⟨h1, h2, h3⟩
        simp only [h2, if_false, h3]
        exact decoder_inv_data d _ h hm rfl rfl h.ticks_lt h.accum_lt h.mask_lt h.ring rfl rfl
          (fun _ => rfl)

/-- Every call of `spooky_decoder_step` keeps the invariant. -/
theorem decoder_inv_step (d : spooky_decoder) (bit : Bool) (h : decoder_inv d) :
    decoder_inv (spooky_decoder_step d bit).2.1 := by
  have ht := decoder_inv_ticked d h
  rcases hmode : d.mode with _ | _ | _ | _
  · rw [step_header_mode d bit hmode]
    exact decoder_inv_header _ bit ht hmode
  · rw [step_length_mode d bit hmode]
    have hm2 : (ticked d).mode = RX_LENGTH := hmode
    exact decoder_inv_sbwc _ bit _ true ht (by rw [hm2]; simp) (by rw [hm2]; simp)
      (fun x hx hxm => decoder_inv_length_cb x hx (by rw [hxm, hm2]))
  · rw [step_chksum_mode d bit hmode]
    have hm2 : (ticked d).mode = RX_CHKSUM := hmode
    exact decoder_inv_sbwc _ bit _ true ht (by rw [hm2]; simp) (by rw [hm2]; simp)
      (fun x hx hxm => decoder_inv_chksum_cb x hx (by rw [hxm, hm2]))
  · rw [step_payload_mode d bit hmode]
    have hm2 : (ticked d).mode = RX_PAYLOAD := hmode
    exact decoder_inv_sbwc _ bit _ false ht (by rw [hm2]; simp) (fun _ => rfl)
      (fun x hx hxm => decoder_inv_payload_cb x hx (by rw [hxm, hm2]))

theorem decoder_inv_feed (bits : List Bool) :
    ∀ d, decoder_inv d → decoder_inv (decoder_feed bits d).1 := by
  induction bits with
  | nil => intro d h; exact h
  | cons b bits ih =>
    intro d h
    rw [decoder_feed]
    exact ih _ (decoder_inv_step d b h)

theorem decoder_inv_init (mem : spooky_decoder) (buf : List Nat) (bs udata : Nat)
    (d0 : spooky_decoder)
    (h : spooky_decoder_init (some mem) (some buf) bs (some ()) udata
      = (SPOOKY_DECODER_INIT_OK, some d0)) : decoder_inv d0 := by
  by_cases hb : bs < 16 ∨ bs > 255
  · simp [spooky_decoder_init, SPOOKY_DECODER_MIN_BUFFER_SIZE, SPOOKY_DECODER_MAX_BUFFER_SIZE,
      hb] at h
  · rw [decoder_init_eq mem buf bs udata (by omega) (by omega)] at h
    have h := (Prod.mk.inj h).2
    rw [Option.some.injEq] at h
    subst h
    refine ⟨by simp; omega, by simp; omega, by simp, by simp, by simp, ?_, by simp, by simp,
      by simp, by simp, by simp⟩
    intro i hi
    simp only [memset_eq, List.getD_eq_getElem?_getD]
    by_cases hl : i < buf.length
    · rw [List.getElem?_append_left (by simp; omega)]
      simp [List.getElem?_replicate]
      split_ifs <;> simp
    · rw [List.getElem?_eq_none (by simp; omega)]
      simp

theorem decoder_inv_reachable (d : spooky_decoder) (h : decoder_reachable d) :
    decoder_inv d := by
  obtain ⟨mem, buf, bs, udata, d0, bits, hinit, rfl⟩ := h
  exact decoder_inv_feed bits d0 (decoder_inv_init mem buf bs udata d0 hinit)

/-- C15. Length validation: when a step in LENGTH mode is a bit edge that
completes a byte `L` (the accumulator with the new bit), no callback is
invoked, and the decoder resets to HEADER (`interval = 0`,
`payload_length = 0`) if `L == 0` or `L > buffer_size`, and otherwise stores
`payload_length = L` and moves to CHECKSUM (keeping `interval`). -/
theorem length_validation (d : spooky_decoder) (b : Bool) (hm : d.mode = RX_LENGTH)
    (he : bit_edge (ticked d) b) (hb : d.bit_index >>> 1 = 0) :
    (spooky_decoder_step d b).1 = SPOOKY_DECODER_STEP_OK
      ∧ (spooky_decoder_step d b).2.2 = []
      ∧ (stored_byte d b = 0 ∨ stored_byte d b > d.buffer_size →
          (spooky_decoder_step d b).2.1.mode = RX_HEADER
            ∧ (spooky_decoder_step d b).2.1.interval = 0
            ∧ (spooky_decoder_step d b).2.1.payload_length = 0)
      ∧ (¬ (stored_byte d b = 0 ∨ stored_byte d b > d.buffer_size) →
          (spooky_decoder_step d b).2.1.mode = RX_CHKSUM
            ∧ (spooky_decoder_step d b).2.1.payload_length = stored_byte d b
            ∧ (spooky_decoder_step d b).2.1.interval = d.interval) := by
  have hb' : (edge_state (ticked d) b true).bit_index >>> 1 = 0 := hb
  rw [step_edge_byte_length d b hm he hb']
  have hs : stored_byte (edge_state (ticked d) b true) b = stored_byte d b := rfl
  have hsz : (edge_state (ticked d) b true).buffer_size = d.buffer_size := rfl
  have hiv : (edge_state (ticked d) b true).interval = d.interval := rfl
  refine ⟨rfl, rfl, ?_, ?_⟩
  · intro hL
    simp only [length_byte_cb, hs, hsz]
    rcases hL with h0 | hgt
    · have : ¬ stored_byte d b > d.buffer_size := by omega
      simp [this, h0, reset_decoder]
    · simp [hgt, reset_decoder]
  · intro hL
    have h1 : ¬ stored_byte d b > d.buffer_size := fun h => hL (Or.inr h)
    have h2 : ¬ stored_byte d b = 0 := fun h => hL (Or.inl h)
    simp only [length_byte_cb, hs, hsz]
    simp [h1, h2, hiv]

/-- Witness of C15: the unit test's oversize length byte 33 against a 32-byte
buffer, at the bit edge of its last bit: the decoder resets to HEADER. -/
theorem length_validation_witness :
    bit_edge (ticked ⟨30, 32, RX_LENGTH, 3, 1, 0x20, 0, 2, 0, 0, 2, List.replicate 32 0, 0⟩) true
      ∧ stored_byte ⟨30, 32, RX_LENGTH, 3, 1, 0x20, 0, 2, 0, 0, 2, List.replicate 32 0, 0⟩ true
          = 33
      ∧ (spooky_decoder_step
            ⟨30, 32, RX_LENGTH, 3, 1, 0x20, 0, 2, 0, 0, 2, List.replicate 32 0, 0⟩
            true).2.1.mode = RX_HEADER
      ∧ (spooky_decoder_step
            ⟨30, 32, RX_LENGTH, 3, 1, 0x20, 0, 2, 0, 0, 2, List.replicate 32 0, 0⟩
            true).2.1.interval = 0
      ∧ (spooky_decoder_step
            ⟨30, 32, RX_LENGTH, 3, 1, 0x20, 0, 2, 0, 0, 2, List.replicate 32 0, 0⟩
            true).2.1.payload_length = 0 :=
  ⟨by decide, by decide,
    (length_validation ⟨30, 32, RX_LENGTH, 3, 1, 0x20, 0, 2, 0, 0, 2, List.replicate 32 0, 0⟩
      true rfl (by decide) (by decide)).2.2.1 (Or.inr (by decide))⟩

/-- C19. Decoder invariant: in every decoder state reachable from a successful
init by any sequence of step calls, `mode == HEADER` if and only if
`interval == 0`. -/
theorem header_iff_interval_zero (d : spooky_decoder) (h : decoder_reachable d) :
    d.mode = RX_HEADER ↔ d.interval = 0 := by
  have hi := decoder_inv_reachable d h
  constructor
  · intro hm; exact (hi.header_fields hm).1
  · intro h0
    by_contra hm
    have := hi.interval_pos hm
    omega

/-- C20. Decoder invariant: in every decoder state reachable from a successful
init by any sequence of step calls, `mode` in `{CHECKSUM, PAYLOAD}` implies
`1 ≤ payload_length ≤ buffer_size`. -/
theorem payload_length_bounds (d : spooky_decoder) (h : decoder_reachable d)
    (hm : d.mode = RX_CHKSUM ∨ d.mode = RX_PAYLOAD) :
    1 ≤ d.payload_length ∧ d.payload_length ≤ d.buffer_size :=
  (decoder_inv_reachable d h).length_ok hm

/-- Witness of C19: the unit test's decoder after the preamble `0xFF 0x55` (two
samples per half-cell) is reachable, in LENGTH, with `interval = 2`. -/
theorem header_iff_interval_zero_witness :
    decoder_reachable (decoder_feed ([0xFF, 0x55].flatMap (expect_byte 2)) test_decoder).1
      ∧ (decoder_feed ([0xFF, 0x55].flatMap (expect_byte 2)) test_decoder).1.mode = RX_LENGTH
      ∧ (decoder_feed ([0xFF, 0x55].flatMap (expect_byte 2)) test_decoder).1.interval = 2
      ∧ ((decoder_feed ([0xFF, 0x55].flatMap (expect_byte 2)) test_decoder).1.mode = RX_HEADER
          ↔ (decoder_feed ([0xFF, 0x55].flatMap (expect_byte 2)) test_decoder).1.interval = 0)
      := by
  have hr : decoder_reachable
      (decoder_feed ([0xFF, 0x55].flatMap (expect_byte 2)) test_decoder).1 :=
    ⟨dec_zero, List.replicate 32 0, 32, 0, test_decoder, _, by decide, rfl⟩
  exact ⟨hr, by set_option maxRecDepth 100000 in decide,
    by set_option maxRecDepth 100000 in decide, header_iff_interval_zero _ hr⟩

/-- Witness of C20: the unit test's decoder after `0xFF 0x55 0x01` is reachable,
in CHECKSUM, with `payload_length = 1`. -/
theorem payload_length_bounds_witness :
    decoder_reachable (decoder_feed ([0xFF, 0x55, 0x01].flatMap (expect_byte 2)) test_decoder).1
      ∧ (decoder_feed ([0xFF, 0x55, 0x01].flatMap (expect_byte 2)) test_decoder).1.mode
          = RX_CHKSUM
      ∧ 1 ≤ (decoder_feed ([0xFF, 0x55, 0x01].flatMap (expect_byte 2))
              test_decoder).1.payload_length
      ∧ (decoder_feed ([0xFF, 0x55, 0x01].flatMap (expect_byte 2))
              test_decoder).1.payload_length
          ≤ (decoder_feed ([0xFF, 0x55, 0x01].flatMap (expect_byte 2))
              test_decoder).1.buffer_size := by
  have hr : decoder_reachable
      (decoder_feed ([0xFF, 0x55, 0x01].flatMap (expect_byte 2)) test_decoder).1 :=
    ⟨dec_zero, List.replicate 32 0, 32, 0, test_decoder, _, by decide, rfl⟩
  have hm : (decoder_feed ([0xFF, 0x55, 0x01].flatMap (expect_byte 2)) test_decoder).1.mode
      = RX_CHKSUM := by set_option maxRecDepth 100000 in decide
  exact ⟨hr, hm, payload_length_bounds _ hr (Or.inl hm)⟩

/-! ## The quiet-line timeout -/

/-- With `pre_ticks = 0` and `interval ≥ 102` the 8-bit tick counter can never
exceed the timeout threshold `2 * interval + (2 * interval) / 4 ≥ 255`: a
sample equal to `last` only moves `ticks` (modulo 256). -/
theorem silent_step_long_interval (d : spooky_decoder) (x : Bool) (hm : d.mode ≠ RX_HEADER)
    (hx : bool_val x = d.last) (hp : d.pre_ticks = 0) (hi : 102 ≤ d.interval)
    (hi2 : d.interval ≤ 255) :
    spooky_decoder_step d x = (SPOOKY_DECODER_STEP_OK, ticked d, []) := by
  have ht : (ticked d).ticks < 256 := Nat.mod_lt _ (by decide)
  have hq : ∀ cb st, sink_bit_with_cb (ticked d) x cb st = (0, ticked d, []) := by
    intro cb st
    apply sbwc_quiet (ticked d) x cb st hx
    · show d.pre_ticks ≤ (ticked d).ticks
      omega
    · omega
    · show (ticked d).ticks - d.pre_ticks ≤ 2 * d.interval + (2 * d.interval) / 4
      omega
    · exact hi2
  rcases hmode : d.mode with _ | _ | _ | _
  · exact absurd hmode hm
  · rw [step_length_mode d x hmode, hq]
  · rw [step_chksum_mode d x hmode, hq]
  · rw [step_payload_mode d x hmode, hq]
    simp

theorem silent_run_long_interval (N : Nat) (x : Bool) :
    ∀ (d : spooky_decoder), d.mode ≠ RX_HEADER → bool_val x = d.last → d.pre_ticks = 0 →
      102 ≤ d.interval → d.interval ≤ 255 →
      (decoder_feed (List.replicate N x) d).1.mode = d.mode
        ∧ (decoder_feed (List.replicate N x) d).2 = [] := by
  induction N with
  | zero => intro d _ _ _ _ _; exact ⟨rfl, rfl⟩
  | succ N ih =>
    intro d hm hx hp hi hi2
    rw [List.replicate_succ, decoder_feed, silent_step_long_interval d x hm hx hp hi hi2]
    have := ih (ticked d) hm hx hp hi hi2
    exact ⟨this.1, by simpa using this.2⟩

/-- C16, the failing input. A fresh decoder (16-byte buffer) is fed a preamble
at 110 samples per half-cell (one low sample, then 15 gaps of 110 and 8 gaps
of 220 samples between edges): it is then in LENGTH with `interval = 110`,
`pre_ticks = 0` and the line high. Holding the line high for any number `N` of
further samples leaves it in LENGTH: the quiet-line timeout never fires,
because the 8-bit `ticks` wraps before it can exceed `2 * 110 + 55`. -/
theorem silence_without_reset :
    ∃ d0 d, spooky_decoder_init (some dec_zero) (some (List.replicate 16 0)) 16 (some ()) 0
          = (SPOOKY_DECODER_INIT_OK, some d0)
      ∧ (decoder_feed
          (false :: gaps_stream (110 :: List.replicate 14 110 ++ List.replicate 8 220) false)
          d0).1 = d
      ∧ decoder_reachable d
      ∧ d.mode = RX_LENGTH ∧ d.interval = 110 ∧ d.last = bool_val true
      ∧ ¬ ∃ N, (decoder_feed (List.replicate N true) d).1.mode = RX_HEADER := by
  have hinit := decoder_init_eq dec_zero (List.replicate 16 0) 16 0 (by decide) (by decide)
  obtain ⟨buf', _, hfeed⟩ := header_feed 110 0 16 0 (by decide) (by decide) (by decide)
    (by decide) (memset (List.replicate 16 0) 0 16) (by rw [memset_length]; simp)
  have hfeed' : decoder_feed
      (false :: gaps_stream (110 :: List.replicate 14 110 ++ List.replicate 8 220) false)
      ⟨0, 16, RX_HEADER, 0, 0x80, 0, 0xFF, 0, 0, 0, 0, memset (List.replicate 16 0) 0 16, 0⟩
      = (⟨24, 16, RX_LENGTH, 0, 0x80, 0, bool_val true, 110, 0, 0, 0, buf', 0⟩, []) := hfeed
  refine ⟨_, _, hinit, by rw [hfeed'], ⟨dec_zero, List.replicate 16 0, 16, 0, _, _, hinit,
    by rw [hfeed']⟩, rfl, rfl, rfl, ?_⟩
  rintro ⟨N, hN⟩
  have := (silent_run_long_interval N true
    ⟨24, 16, RX_LENGTH, 0, 0x80, 0, bool_val true, 110, 0, 0, 0, buf', 0⟩ (by simp) rfl rfl
    (by simp) (by simp)).1
  rw [this] at hN
  cases hN

/-! ## Noise before a frame -/

theorem expect_byte_bits (n x : Nat) :
    expect_byte n x = (byte_bits x).flatMap (expect_bit n) := by
  unfold expect_byte byte_bits expect_bit
  rw [List.flatMap_map]

theorem expect_bytes_bits (n : Nat) (xs : List Nat) :
    xs.flatMap (expect_byte n) = (xs.flatMap byte_bits).flatMap (expect_bit n) := by
  induction xs with
  | nil => rfl
  | cons x xs ih => simp only [List.flatMap_cons, List.flatMap_append, ih, expect_byte_bits]

/-- The samples of a run of bits, split at the first bit edge and at the last
one. -/
theorem expect_bits_stream (s : Nat) (hs : 1 ≤ s) (rest : List Bool) :
    ∀ b0 : Bool, (b0 :: rest).flatMap (expect_bit s)
      = List.replicate s (!b0) ++ [b0] ++ bits_stream s b0 rest
          ++ List.replicate (s - 1) (rest.getLastD b0) := by
  induction rest with
  | nil =>
    intro b0
    simp only [List.flatMap_cons, List.flatMap_nil, List.append_nil, expect_bit, bits_stream,
      List.getLastD, List.append_assoc, List.singleton_append, replicate_cons_pred s hs]
  | cons b1 rest ih =>
    intro b0
    rw [List.flatMap_cons, ih b1, getLastD_cons, bits_stream, chunk_init, expect_bit]
    simp only [List.append_assoc, List.singleton_append, List.cons_append, List.nil_append]
    rw [← replicate_cons_pred s hs b0]
    simp only [List.cons_append]

theorem gaps_stream_append (a b : List Nat) :
    ∀ lvl : Bool, gaps_stream (a ++ b) lvl
      = gaps_stream a lvl ++ gaps_stream b (flip_level lvl a.length) := by
  induction a with
  | nil => intro lvl; rfl
  | cons g a ih =>
    intro lvl
    rw [List.cons_append, gaps_stream, ih, gaps_stream, List.length_cons, flip_level,
      List.append_assoc]

theorem bit_gaps_level (h : Nat) (bits : List Bool) :
    ∀ prev : Bool, flip_level prev (bit_gaps h prev bits).length = bits.getLastD prev := by
  induction bits with
  | nil => intro prev; rfl
  | cons b bits ih =>
    intro prev
    rw [bit_gaps, getLastD_cons, ← ih b]
    by_cases hb : b = prev
    · subst hb
      simp [flip_level]
    · have : b = !prev := by cases b <;> cases prev <;> simp_all
      subst this
      simp [flip_level]

/-- The samples of a run of bits as a run of gaps between edges. -/
theorem bits_stream_gaps (s : Nat) (hs : 1 ≤ s) (bits : List Bool) :
    ∀ prev : Bool, bits_stream s prev bits = gaps_stream (bit_gaps s prev bits) prev := by
  induction bits with
  | nil => intro prev; rfl
  | cons b bits ih =>
    intro prev
    rw [bits_stream, bit_gaps, gaps_stream_append, ih b, chunk_init]
    by_cases hb : b = prev
    · subst hb
      simp only [if_true, gaps_stream, gap_run, Bool.not_not, List.length_cons, List.length_nil,
        flip_level, List.append_nil, List.append_assoc]
      rw [← replicate_cons_pred s hs (!b)]
      simp
    · have hb2 : b = !prev := by cases b <;> cases prev <;> simp_all
      subst hb2
      have hne : ¬ (!prev) = prev := by cases prev <;> simp
      simp only [hne, if_false, gaps_stream, gap_run, Bool.not_not, List.length_cons,
        List.length_nil, flip_level, List.append_nil, List.append_assoc]
      have : List.replicate (s - 1) prev ++ List.replicate s prev
          = List.replicate (2 * s - 1) prev := by
        rw [← List.replicate_add]; congr 1; omega
      rw [← List.append_assoc, this]

theorem bit_gaps_mem (h : Nat) (bits : List Bool) :
    ∀ prev : Bool, ∀ g ∈ bit_gaps h prev bits, g = h ∨ g = 2 * h := by
  induction bits with
  | nil => intro prev g hg; simp [bit_gaps] at hg
  | cons b bits ih =>
    intro prev g hg
    rw [bit_gaps, List.mem_append] at hg
    rcases hg with hg | hg
    · split_ifs at hg <;> simp at hg <;> omega
    · exact ih b g hg

theorem bit_gaps_length_le (h : Nat) (bits : List Bool) :
    ∀ prev : Bool, (bit_gaps h prev bits).length ≤ 2 * bits.length := by
  induction bits with
  | nil => intro prev; simp [bit_gaps]
  | cons b bits ih =>
    intro prev
    have := ih b
    rw [bit_gaps, List.length_append, List.length_cons]
    split_ifs <;> simp <;> omega

theorem bit_gaps_append (h : Nat) (xs ys : List Bool) :
    ∀ prev : Bool, bit_gaps h prev (xs ++ ys)
      = bit_gaps h prev xs ++ bit_gaps h (xs.getLastD prev) ys := by
  induction xs with
  | nil => intro prev; rfl
  | cons x xs ih =>
    intro prev
    rw [List.cons_append, bit_gaps, ih x, getLastD_cons, bit_gaps, List.append_assoc]

theorem header_throughout_append (xs ys : List Bool) :
    ∀ d, header_throughout (xs ++ ys) d = true →
      header_throughout xs d = true ∧ header_throughout ys (decoder_feed xs d).1 = true := by
  induction xs with
  | nil => intro d h; exact ⟨rfl, h⟩
  | cons x xs ih =>
    intro d h
    simp only [List.cons_append, header_throughout, Bool.and_eq_true] at h ⊢
    have := ih _ h.2
    exact ⟨⟨h.1, this.1⟩, this.2⟩

theorem header_throughout_mode (xs : List Bool) :
    ∀ d, xs ≠ [] → header_throughout xs d = true → (decoder_feed xs d).1.mode = RX_HEADER := by
  induction xs with
  | nil => intro d h; exact absurd rfl h
  | cons x xs ih =>
    intro d _ h
    simp only [header_throughout, Bool.and_eq_true, decide_eq_true_eq] at h
    rw [decoder_feed]
    by_cases hx : xs = []
    · subst hx
      simpa [decoder_feed] using h.1
    · exact ih _ hx h.2

theorem clean_window_push (h : Nat) (w : List Nat) (g : Nat) (hw : clean_window h w)
    (hg : g = h ∨ g = 2 * h) : clean_window h (w.tail ++ [g]) := by
  obtain ⟨hlen, hc⟩ := hw
  refine ⟨by simp [hlen], ?_⟩
  rcases hc with ⟨junk, gs, rfl, hgs⟩ | hall
  · cases junk with
    | nil =>
      right
      intro x hx
      simp only [List.nil_append, List.tail_cons, List.mem_append, List.mem_singleton] at hx
      rcases hx with hx | rfl
      · exact hgs x hx
      · exact hg
    | cons j junk =>
      left
      refine ⟨junk, gs ++ [g], by simp, ?_⟩
      intro x hx
      rcases List.mem_append.mp hx with hx | hx
      · exact hgs x hx
      · simp only [List.mem_singleton] at hx; subst hx; exact hg
  · right
    intro x hx
    rcases List.mem_append.mp hx with hx | hx
    · exact hall x (List.mem_of_mem_tail hx)
    · simp only [List.mem_singleton] at hx; subst hx; exact hg

theorem sum_ge_of_mem (h : Nat) (l : List Nat) (hl : ∀ x ∈ l, h ≤ x) : h * l.length ≤ l.sum := by
  induction l with
  | nil => simp
  | cons a l ih =>
    have h1 := hl a (List.mem_cons_self _ _)
    have h2 := ih (fun x hx => hl x (List.mem_cons_of_mem _ hx))
    simp only [List.length_cons, List.sum_cons, Nat.mul_succ]
    omega

theorem sum_le_of_mem (h : Nat) (l : List Nat) (hl : ∀ x ∈ l, x ≤ h) : l.sum ≤ h * l.length := by
  induction l with
  | nil => simp
  | cons a l ih =>
    have h1 := hl a (List.mem_cons_self _ _)
    have h2 := ih (fun x hx => hl x (List.mem_cons_of_mem _ hx))
    simp only [List.length_cons, List.sum_cons, Nat.mul_succ]
    omega

/-- An entry of the second half that is not about twice the average keeps
`long_count` strictly below the count a full scan would reach. -/
theorem scan_miss_late (vs : List Nat) :
    ∀ (i total lc avg : Nat), 8 ≤ i →
      (∃ x ∈ vs, ¬ approx_eq (x : Int) ((2 * avg : Nat) : Int) = true) →
      (scan_list vs i total lc avg).1 < lc + vs.length := by
  induction vs with
  | nil => intro i total lc avg _ h; obtain ⟨x, hx, _⟩ := h; simp at hx
  | cons v vs ih =>
    intro i total lc avg hi hmiss
    have h8 : ¬ i < 8 := by omega
    by_cases hv : v = 255
    · simp [scan_list, hv]
    · by_cases ha : approx_eq (v : Int) ((2 * avg : Nat) : Int) = true
      · have hmiss' : ∃ x ∈ vs, ¬ approx_eq (x : Int) ((2 * avg : Nat) : Int) = true := by
          obtain ⟨x, hx, hxa⟩ := hmiss
          rcases List.mem_cons.mp hx with h | h
          · subst h; exact absurd ha hxa
          · exact ⟨x, h, hxa⟩
        simp only [scan_list, hv, h8, if_false, List.length_cons]
        split_ifs
        · have := ih (i + 1) total ((lc + 1) % 65536) avg (by omega) hmiss'
          have h2 : (lc + 1) % 65536 ≤ lc + 1 := Nat.mod_le _ _
          omega
        · have := ih (i + 1) total lc avg (by omega) hmiss'; omega
      · have hb := scan_bound vs (i + 1) total lc avg (by omega)
        simp only [scan_list, hv, h8, if_false, List.length_cons]
        split_ifs
        all_goals omega

/-- No lock on a clean window with a gap of `h` among its last eight entries. -/
theorem clean_window_no_lock (h : Nat) (hh2 : 2 ≤ h) (hh : h ≤ 127) (w : List Nat)
    (hw : clean_window h w) (p : Nat) (hp8 : 8 ≤ p) (hp : p < 16) (hwp : w.getD p 0 = h) :
    (scan_list w 0 0 0 0).1 ≠ 8 := by
  obtain ⟨hlen, hc⟩ := hw
  rcases hc with ⟨junk, gs, rfl, _⟩ | hall
  · have := scan_sentinel (junk ++ 255 :: gs) 0 0 0 (by omega) (by simp)
    omega
  · have hsplit : w = w.take 8 ++ w.drop 8 := (List.take_append_drop 8 w).symm
    have htl : (w.take 8).length = 8 := by simp [hlen]
    have hdl : (w.drop 8).length = 8 := by simp [hlen]
    have hlo : ∀ x ∈ w.take 8, h ≤ x := by
      intro x hx
      rcases hall x (List.mem_of_mem_take hx) with rfl | rfl <;> omega
    have hhi : ∀ x ∈ w.take 8, x ≤ 2 * h := by
      intro x hx
      rcases hall x (List.mem_of_mem_take hx) with rfl | rfl <;> omega
    have hs1 := sum_ge_of_mem h _ hlo
    have hs2 := sum_le_of_mem (2 * h) _ hhi
    rw [htl] at hs1 hs2
    have hmod : (0 + (w.take 8).sum) % 65536 = (w.take 8).sum := by
      rw [Nat.zero_add]; exact Nat.mod_eq_of_lt (by omega)
    have havg : h ≤ (w.take 8).sum / 8 := by
      rw [Nat.le_div_iff_mul_le (by decide)]; omega
    have hmem : h ∈ w.drop 8 := by
      rw [← hwp, List.getD_eq_getElem?_getD]
      have hlt : p - 8 < (w.drop 8).length := by omega
      have : (w.drop 8)[p - 8]? = w[p]? := by
        rw [List.getElem?_drop]; congr 1; omega
      rw [← this, List.getElem?_eq_getElem hlt]
      exact List.getElem_mem _
    rw [hsplit, scan_first_half (w.take 8) (w.drop 8) 0 0 0 0
      (by intro h0; rw [h0] at htl; simp at htl) (by omega)
      (by intro x hx; have := hhi x hx; omega), hmod]
    have := scan_miss_late (w.drop 8) 8 (w.take 8).sum 0 ((w.take 8).sum / 8) (le_refl _)
      ⟨h, hmem, not_approx_eq_half h _ hh2 havg⟩
    omega

/-- One gap of Manchester noise while the decoder stays in HEADER: the gap is
pushed into the window. -/
theorem hdr_gap_quiet (h : Nat) (hh2 : 2 ≤ h) (hh : h ≤ 127) (d : spooky_decoder)
    (m B u : Nat) (w : List Nat) (lvl : Bool) (g : Nat) (hst : hdr_state d m B u w lvl)
    (hB : 16 ≤ B) (hm1 : 1 ≤ m) (hm : m + 1 < 65536) (hg : g = h ∨ g = 2 * h)
    (hw : clean_window h w) (hq : (decoder_feed (gap_run g lvl) d).1.mode = RX_HEADER) :
    ∃ d', decoder_feed (gap_run g lvl) d = (d', [])
      ∧ hdr_state d' (m + 1) B u (w.tail ++ [g]) (!lvl) := by
  have hg1 : 1 ≤ g := by omega
  have hg256 : g < 256 := by omega
  by_cases hno : (scan_list (w.tail ++ [g]) 0 0 0 0).1 = 8
  · exfalso
    have hw' := clean_window_push h w g hw hg
    obtain ⟨hlen, hc⟩ := hw'
    rcases hc with ⟨junk, gs, he, _⟩ | hall
    · have := scan_sentinel (w.tail ++ [g]) 0 0 0 (by omega) (by rw [he]; simp)
      omega
    · have havg := scan_avg_le (w.tail ++ [g])
        (by intro x hx; rcases hall x hx with rfl | rfl <;> omega) 0 0 0 0 (by omega) (by omega)
      obtain ⟨buf', _, hf⟩ := hdr_lock d m B u w lvl g (scan_list (w.tail ++ [g]) 0 0 0 0).2
        hst hB hm1 hm hg1 hg256 (by omega) (Prod.ext hno rfl)
      rw [hf] at hq
      cases hq
  · exact hdr_gap d m B u w lvl g hst hB hm1 hm hg1 hg256 hno

theorem gap_run_ne_nil (g : Nat) (lvl : Bool) : gap_run g lvl ≠ [] := by
  simp [gap_run]

/-- A run of gaps of Manchester noise while the decoder stays in HEADER. -/
theorem hdr_gaps_quiet (h : Nat) (hh2 : 2 ≤ h) (hh : h ≤ 127) (B u : Nat) (hB : 16 ≤ B)
    (gs : List Nat) :
    ∀ (d : spooky_decoder) (m : Nat) (w : List Nat) (lvl : Bool),
      hdr_state d m B u w lvl → clean_window h w → 1 ≤ m → m + gs.length < 65536 →
      (∀ g ∈ gs, g = h ∨ g = 2 * h) → header_throughout (gaps_stream gs lvl) d = true →
      ∃ d' w', decoder_feed (gaps_stream gs lvl) d = (d', [])
        ∧ hdr_state d' (m + gs.length) B u w' (flip_level lvl gs.length)
        ∧ clean_window h w' := by
  induction gs with
  | nil =>
    intro d m w lvl hst hw _ _ _ _
    exact ⟨d, w, rfl, hst, hw⟩
  | cons g gs ih =>
    intro d m w lvl hst hw hm1 hm hgs hq
    simp only [List.length_cons] at hm
    have hg := hgs g (List.mem_cons_self _ _)
    rw [gaps_stream] at hq ⊢
    have hq2 := header_throughout_append _ _ d hq
    have hmode := header_throughout_mode _ d (gap_run_ne_nil g lvl) hq2.1
    obtain ⟨d1, hf1, hst1⟩ := hdr_gap_quiet h hh2 hh d m B u w lvl g hst hB hm1 (by omega) hg hw
      hmode
    have hq3 := hq2.2
    rw [hf1] at hq3
    obtain ⟨d2, w2, hf2, hst2, hw2⟩ := ih d1 (m + 1) (w.tail ++ [g]) (!lvl) hst1
      (clean_window_push h w g hw hg) (by omega) (by omega)
      (fun x hx => hgs x (List.mem_cons_of_mem _ hx)) hq3
    refine ⟨d2, w2, ?_, ?_, hw2⟩
    · rw [decoder_feed_append_of _ _ _ _ hf1, hf2]
    · simp only [List.length_cons, flip_level]
      rw [show m + (gs.length + 1) = m + 1 + gs.length by omega]
      exact hst2

/-- A run of gaps none of which completes a window that passes the scan. -/
theorem hdr_gaps_clean (B u : Nat) (hB : 16 ≤ B) (gs : List Nat) :
    ∀ (d : spooky_decoder) (m : Nat) (w : List Nat) (lvl : Bool),
      hdr_state d m B u w lvl → w.length = 16 → 1 ≤ m → m + gs.length < 65536 →
      (∀ g ∈ gs, 1 ≤ g ∧ g < 256) →
      (∀ k, k < gs.length →
        (scan_list ((w ++ gs.take (k + 1)).drop (k + 1)) 0 0 0 0).1 ≠ 8) →
      ∃ d', decoder_feed (gaps_stream gs lvl) d = (d', [])
        ∧ hdr_state d' (m + gs.length) B u ((w ++ gs).drop gs.length)
            (flip_level lvl gs.length) := by
  induction gs with
  | nil =>
    intro d m w lvl hst _ _ _ _ _
    exact ⟨d, rfl, by simpa [flip_level] using hst⟩
  | cons g gs ih =>
    intro d m w lvl hst hlen hm1 hm hgs hno
    simp only [List.length_cons] at hm
    have hg := hgs g (List.mem_cons_self _ _)
    obtain ⟨a, w', rfl⟩ : ∃ a w', w = a :: w' := by
      cases w with
      | nil => simp at hlen
      | cons a w' => exact ⟨a, w', rfl⟩
    have h0 := hno 0 (by simp)
    simp only [Nat.zero_add, List.take_succ_cons, List.take_zero, List.cons_append,
      List.drop_succ_cons, List.drop_zero] at h0
    obtain ⟨d1, hf1, hst1⟩ := hdr_gap d m B u (a :: w') lvl g hst hB hm1 (by omega) hg.1 hg.2
      (by simpa using h0)
    simp only [List.tail_cons] at hst1
    obtain ⟨d2, hf2, hst2⟩ := ih d1 (m + 1) (w' ++ [g]) (!lvl) hst1 (by simpa using hlen)
      (by omega) (by omega) (fun x hx => hgs x (List.mem_cons_of_mem _ hx))
      (by
        intro k hk
        have := hno (k + 1) (by simpa using hk)
        simpa [List.take_succ_cons, List.append_assoc] using this)
    refine ⟨d2, ?_, ?_⟩
    · rw [gaps_stream, decoder_feed_append_of _ _ _ _ hf1, hf2]
    · simp only [List.length_cons, flip_level]
      rw [show m + (gs.length + 1) = m + 1 + gs.length by omega]
      simpa [List.append_assoc] using hst2

theorem clean_window_pushes (h : Nat) (l : List Nat) :
    ∀ w, clean_window h w → (∀ x ∈ l, x = h ∨ x = 2 * h) →
      clean_window h ((w ++ l).drop l.length) := by
  induction l with
  | nil => intro w hw _; simpa using hw
  | cons g l ih =>
    intro w hw hl
    obtain ⟨a, w', rfl⟩ : ∃ a w', w = a :: w' := by
      cases w with
      | nil => have := hw.1; simp at this
      | cons a w' => exact ⟨a, w', rfl⟩
    have := ih (w' ++ [g]) (clean_window_push h (a :: w') g hw (hl g (List.mem_cons_self _ _)))
      (fun x hx => hl x (List.mem_cons_of_mem _ hx))
    simpa [List.append_assoc] using this

/-- The rest of the preamble after its first bit, up to its last edge but one:
fourteen gaps of `h` and seven of `2 * h`, none of which completes a window
that passes the scan. -/
theorem preamble_no_lock (h : Nat) (hh2 : 2 ≤ h) (hh : h ≤ 127) (w1 : List Nat)
    (hw : clean_window h w1) (k : Nat)
    (hk : k < (List.replicate 14 h ++ List.replicate 7 (2 * h)).length) :
    (scan_list ((w1 ++ (List.replicate 14 h ++ List.replicate 7 (2 * h)).take (k + 1)).drop
      (k + 1)) 0 0 0 0).1 ≠ 8 := by
  simp only [List.length_append, List.length_replicate] at hk
  have hTlen : ((List.replicate 14 h ++ List.replicate 7 (2 * h)).take (k + 1)).length = k + 1 := by
    simp; omega
  have hTmem : ∀ x ∈ (List.replicate 14 h ++ List.replicate 7 (2 * h)).take (k + 1),
      x = h ∨ x = 2 * h := by
    intro x hx
    have := List.mem_of_mem_take hx
    simp only [List.mem_append, List.mem_replicate] at this
    omega
  have hc := clean_window_pushes h _ w1 hw hTmem
  rw [hTlen] at hc
  have hw1 := hw.1
  have key : ∀ p, 16 ≤ k + 1 + p → k + p - 15 ≤ 13 → k + p - 15 < k + 1 →
      ((w1 ++ (List.replicate 14 h ++ List.replicate 7 (2 * h)).take (k + 1)).drop
        (k + 1)).getD p 0 = h := by
    intro p h1 h2 h3
    rw [List.getD_eq_getElem?_getD, List.getElem?_drop,
      List.getElem?_append_right (by omega), hw1, List.getElem?_take_of_lt (by omega),
      List.getElem?_append_left (by simp; omega), List.getElem?_replicate]
    rw [if_pos (by omega)]
    rfl
  by_cases hk13 : k ≤ 13
  · exact clean_window_no_lock h hh2 hh _ hc 15 (by omega) (by omega)
      (key 15 (by omega) (by omega) (by omega))
  · exact clean_window_no_lock h hh2 hh _ hc (28 - k) (by omega) (by omega)
      (key (28 - k) (by omega) (by omega) (by omega))

theorem getLastD_concat (xs : List Bool) (b p : Bool) : (xs ++ [b]).getLastD p = b := by
  induction xs generalizing p with
  | nil => rfl
  | cons x xs ih => rw [List.cons_append, getLastD_cons, ih]

theorem first_gap_eq (s : Nat) (hs : 1 ≤ s) (b0 : Bool) :
    List.replicate s (!b0) ++ [b0] = (!b0) :: gap_run s (!b0) := by
  rw [gap_run, Bool.not_not, ← List.cons_append, replicate_cons_pred s hs]

theorem preamble_gaps (s : Nat) (hs : 1 ≤ s) :
    bits_stream s true (List.replicate 7 true ++ byte_bits 0x55)
      = gaps_stream (List.replicate 14 s ++ List.replicate 7 (2 * s)) true
          ++ gap_run (2 * s) false := by
  have h55 : byte_bits 0x55 = [false, true, false, true, false, true, false, true] := by decide
  have hg : bit_gaps s true (List.replicate 7 true ++ byte_bits 0x55)
      = (List.replicate 14 s ++ List.replicate 7 (2 * s)) ++ [2 * s] := by
    rw [h55]
    simp [bit_gaps, List.replicate]
  have hl : flip_level true (List.replicate 14 s ++ List.replicate 7 (2 * s)).length = false := by
    simp [flip_level]
  rw [bits_stream_gaps s hs, hg, gaps_stream_append, hl]
  simp [gaps_stream]

/-- The last window of the preamble: eight gaps of `h`, then eight of `2 * h`. -/
theorem preamble_last_window (h : Nat) (w1 : List Nat) (hw : w1.length = 16) :
    ((w1 ++ (List.replicate 14 h ++ List.replicate 7 (2 * h))).drop
        (List.replicate 14 h ++ List.replicate 7 (2 * h)).length).tail ++ [2 * h]
      = List.replicate 8 h ++ List.replicate 8 (2 * h) := by
  have : (w1 ++ (List.replicate 14 h ++ List.replicate 7 (2 * h))).drop
      (List.replicate 14 h ++ List.replicate 7 (2 * h)).length
      = List.replicate 9 h ++ List.replicate 7 (2 * h) := by
    have h21 : (List.replicate 14 h ++ List.replicate 7 (2 * h)).length = 16 + 5 := by simp
    rw [h21, ← hw, List.drop_append]
    simp [List.replicate]
  rw [this]
  simp [List.replicate]

/-- Noise, then a frame. A fresh decoder is fed the Manchester samples (`s` per
half-cell, `2 ≤ s ≤ 127`) of arbitrary noise bits `N` followed by a frame with
payload `P`. If it is still in HEADER after every sample of the noise and of
the first preamble bit, the callback is invoked exactly once, with `P`. -/
theorem noise_then_frame (s : Nat) (hs2 : 2 ≤ s) (hs : s ≤ 127) (B u : Nat) (hB : 16 ≤ B)
    (hB255 : B ≤ 255) (buf : List Nat) (hlen : buf.length = B) (N : List Bool)
    (hN : N.length ≤ 30000) (P : List Nat) (hP1 : 1 ≤ P.length) (hPb : P.length ≤ B)
    (hbytes : ∀ x ∈ P, x < 256)
    (hq : header_throughout ((N ++ [true]).flatMap (expect_bit s))
      ⟨0, B, RX_HEADER, 0, 0x80, 0, 0xFF, 0, 0, 0, 0, buf, u⟩ = true) :
    ∃ Bf, Bf.length = B ∧ Bf.take P.length = P
      ∧ (decoder_feed ((N ++ frame_bits P).flatMap (expect_bit s))
          ⟨0, B, RX_HEADER, 0, 0x80, 0, 0xFF, 0, 0, 0, 0, buf, u⟩).2
        = [⟨Bf, P.length, u⟩] := by
  have hs1 : 1 ≤ s := by omega
  -- the bits up to the first preamble bit
  obtain ⟨b0, restA, hA, hlastA, hlenA⟩ : ∃ b0 restA, N ++ [true] = b0 :: restA
      ∧ restA.getLastD b0 = true ∧ restA.length ≤ N.length := by
    cases N with
    | nil => exact ⟨true, [], rfl, rfl, by simp⟩
    | cons x xs => exact ⟨x, xs ++ [true], rfl, by simp, by simp⟩
  -- the bits of the frame after its first bit
  have hFF : byte_bits 0xFF = [true] ++ List.replicate 7 true := by decide
  have hbits : N ++ frame_bits P
      = b0 :: (restA ++ ((List.replicate 7 true ++ byte_bits 0x55)
          ++ (byte_bits P.length ++ byte_bits (spec_chksum P) ++ P.flatMap byte_bits))) := by
    unfold frame_bits
    rw [hFF, ← List.cons_append, ← hA]
    simp only [List.append_assoc]
  obtain ⟨D', bl, hD⟩ : ∃ D' bl,
      byte_bits P.length ++ byte_bits (spec_chksum P) ++ P.flatMap byte_bits = D' ++ [bl] := by
    obtain ⟨Q, x, rfl⟩ : ∃ Q x, P = Q ++ [x] := by
      rcases List.eq_nil_or_concat P with h | ⟨Q, x, h⟩
      · subst h; simp at hP1
      · exact ⟨Q, x, by simpa using h⟩
    refine ⟨byte_bits (Q ++ [x]).length ++ byte_bits (spec_chksum (Q ++ [x]))
      ++ Q.flatMap byte_bits ++ byte_hi x, x.testBit 0, ?_⟩
    rw [List.flatMap_append, List.flatMap_singleton, byte_bits_eq x]
    simp only [List.append_assoc]
  have hH55 : (List.replicate 7 true ++ byte_bits 0x55).getLastD true = true := by decide
  -- the premise, as a run of gaps
  have hprem : (N ++ [true]).flatMap (expect_bit s)
      = ((!b0) :: gaps_stream (s :: bit_gaps s b0 restA) (!b0))
          ++ List.replicate (s - 1) true := by
    rw [hA, expect_bits_stream s hs1, hlastA, first_gap_eq s hs1, bits_stream_gaps s hs1,
      gaps_stream]
    simp only [List.cons_append, List.append_assoc, Bool.not_not]
  -- the whole stream, in its parts
  have hfull : (N ++ frame_bits P).flatMap (expect_bit s)
      = ((!b0) :: gaps_stream (s :: bit_gaps s b0 restA) (!b0))
          ++ (gaps_stream (List.replicate 14 s ++ List.replicate 7 (2 * s)) true
          ++ (gap_run (2 * s) false
          ++ (bits_stream s true
                (byte_bits P.length ++ byte_bits (spec_chksum P) ++ P.flatMap byte_bits)
          ++ List.replicate (s - 1) bl))) := by
    have hl : (restA ++ ((List.replicate 7 true ++ byte_bits 0x55)
        ++ (byte_bits P.length ++ byte_bits (spec_chksum P) ++ P.flatMap byte_bits))).getLastD b0
        = bl := by
      rw [hD, ← List.append_assoc, ← List.append_assoc]
      exact getLastD_concat _ _ _
    rw [hbits, expect_bits_stream s hs1, hl, first_gap_eq s hs1, bits_stream_cat, hlastA,
      bits_stream_cat, hH55, preamble_gaps s hs1, bits_stream_gaps s hs1 restA, gaps_stream]
    simp only [List.cons_append, List.append_assoc, Bool.not_not]
  rw [hprem] at hq
  have hq1 := (header_throughout_append _ _ _ hq).1
  -- the first sample
  obtain ⟨d1, w0, hw0, hstep1, hst1⟩ := hdr_first B u buf hlen hB (!b0)
  have hq2 : header_throughout (gaps_stream (s :: bit_gaps s b0 restA) (!b0)) d1 = true := by
    simp only [header_throughout, Bool.and_eq_true, hstep1] at hq1
    exact hq1.2
  have hw1 : clean_window s (w0 ++ [255]) :=
    ⟨by simp [hw0], Or.inl ⟨w0, [], rfl, by simp⟩⟩
  have hgl := bit_gaps_length_le s restA b0
  -- the noise and the first preamble bit
  obtain ⟨d2, w2, hf2, hst2, hw2⟩ := hdr_gaps_quiet s hs2 hs B u hB (s :: bit_gaps s b0 restA)
    d1 1 (w0 ++ [255]) (!b0) hst1 hw1 (le_refl _)
    (by simp only [List.length_cons]; omega)
    (by
      intro g hg
      rcases List.mem_cons.mp hg with h | h
      · exact Or.inl h
      · exact bit_gaps_mem s restA b0 g h)
    hq2
  have hlvl2 : flip_level (!b0) (s :: bit_gaps s b0 restA).length = true := by
    rw [List.length_cons, flip_level, Bool.not_not, bit_gaps_level, hlastA]
  rw [hlvl2] at hst2
  -- the rest of the preamble
  obtain ⟨d3, hf3, hst3⟩ := hdr_gaps_clean B u hB
    (List.replicate 14 s ++ List.replicate 7 (2 * s)) d2 _ w2 true hst2 hw2.1
    (by omega) (by simp only [List.length_cons, List.length_append, List.length_replicate]; omega)
    (by
      intro g hg
      simp only [List.mem_append, List.mem_replicate] at hg
      omega)
    (preamble_no_lock s hs2 hs w2 hw2)
  have hlvl3 : flip_level true (List.replicate 14 s ++ List.replicate 7 (2 * s)).length
      = false := by
    simp [flip_level]
  rw [hlvl3] at hst3
  obtain ⟨buf4, hlen4, hf4⟩ := hdr_lock d3 _ B u _ false (2 * s) s hst3 hB (by omega)
    (by simp only [List.length_cons, List.length_append, List.length_replicate]; omega)
    (by omega) (by omega) (by omega)
    (by rw [preamble_last_window s w2 hw2.1]; exact scan_lock s hs1 hs)
  rw [Bool.not_false] at hf4
  -- the data
  obtain ⟨init, lastb, dpre, Bf, hsplit, hfeed, hlenf, hstep⟩ :=
    data_feed s hs2 hs B u P hP1 hPb hB255 hbytes (spec_chksum P) (spec_chksum_lt P)
      (1 + (s :: bit_gaps s b0 restA).length
        + (List.replicate 14 s ++ List.replicate 7 (2 * s)).length + 1) 0 0 buf4 true
  have htake : (store_bytes Bf 0 P).take P.length = P := by
    have := store_bytes_take P Bf 0 (by rw [hlenf, hlen4]; omega)
    simpa using this
  have hck : checksum (store_bytes Bf 0 P) P.length = spec_chksum P := by
    rw [checksum_eq_spec _ _ (by rw [store_bytes_length, hlenf, hlen4]; exact hPb), htake]
  have hmod : P.length % 256 = P.length := Nat.mod_eq_of_lt (by omega)
  simp only [hck, if_true, hmod] at hstep
  have hlast : lastb = bl := by
    have hsplit' := hsplit
    rw [hD, bits_stream_append] at hsplit'
    have := List.append_inj_right' hsplit'.symm rfl
    simpa using this
  subst hlast
  -- the samples after the last bit edge
  have hquiet := header_quiet_run (s - 1)
    ⟨0, B, RX_HEADER, 0, 0x80, 0, bool_val lastb, 0, 0, spec_chksum P, 0, store_bytes Bf 0 P, u⟩
    lastb rfl rfl (by simp only; omega)
  refine ⟨store_bytes Bf 0 P, by rw [store_bytes_length, hlenf, hlen4], htake, ?_⟩
  rw [hfull, List.cons_append, decoder_feed, hstep1]
  simp only [List.nil_append]
  rw [decoder_feed_append_of _ _ _ _ hf2, decoder_feed_append_of _ _ _ _ hf3,
    decoder_feed_append_of _ _ _ _ hf4, hsplit, List.append_assoc,
    decoder_feed_append_of _ _ _ _ hfeed, List.singleton_append, decoder_feed, hstep, hquiet]
  rfl

/-- A sample equal to `last` in a data mode: the tick counter is incremented,
and the decoder is reset when the quiet-line test of `sink_bit_with_cb`
succeeds. -/
theorem silent_step (d : spooky_decoder) (x : Bool) (hm : d.mode ≠ RX_HEADER)
    (hx : bool_val x = d.last) :
    spooky_decoder_step d x
      = (SPOOKY_DECODER_STEP_OK,
          if longer_than_tolerance_allows
              (((((ticked d).ticks : Int) - (d.pre_ticks : Int)) % 65536).toNat)
              ((2 * d.interval) % 65536) = true
            then reset_decoder (ticked d) else ticked d,
          []) := by
  have hq : ∀ cb st, sink_bit_with_cb (ticked d) x cb st
      = (0, if longer_than_tolerance_allows
              (((((ticked d).ticks : Int) - (d.pre_ticks : Int)) % 65536).toNat)
              ((2 * d.interval) % 65536) = true
            then reset_decoder (ticked d) else ticked d, []) := by
    intro cb st
    have hx' : bool_val x = (ticked d).last := hx
    unfold sink_bit_with_cb
    simp only [hx', if_true]
    split_ifs with h1 h2 h2
    · rfl
    · exact absurd h1 h2
    · exact absurd h2 h1
    · rfl
  rcases hmode : d.mode with _ | _ | _ | _
  · exact absurd hmode hm
  · rw [step_length_mode d x hmode, hq]
  · rw [step_chksum_mode d x hmode, hq]
  · rw [step_payload_mode d x hmode, hq]
    simp

/-- Silence does reset the decoder when the tick counter can pass the
threshold: with `interval ≤ 101`, or after a setup edge (`pre_ticks ≠ 0`), at
most 256 samples equal to `last` bring a data mode back to HEADER, without a
callback. `n` is the number of samples before the one at which `ticks`
reaches the value `t` that is sure to pass the test. -/
theorem silence_resets_at (t : Nat) (n : Nat) :
    ∀ (d : spooky_decoder) (x : Bool), d.mode ≠ RX_HEADER → bool_val x = d.last →
      d.ticks < 256 → d.pre_ticks < 256 → d.interval < 256 →
      ((d.pre_ticks ≠ 0 ∧ t = 0) ∨ (d.pre_ticks = 0 ∧ d.interval ≤ 101 ∧ t = 255)) →
      (d.ticks + 1 + n) % 256 = t →
      ∃ N, N ≤ n + 1 ∧ (decoder_feed (List.replicate N x) d).1.mode = RX_HEADER
        ∧ (decoder_feed (List.replicate N x) d).2 = [] := by
  induction n with
  | zero =>
    intro d x hm hx ht hp hi hc hn
    refine ⟨1, le_refl _, ?_⟩
    have hk : (ticked d).ticks = t := by simpa [ticked] using hn
    have hlong : longer_than_tolerance_allows
        (((((ticked d).ticks : Int) - (d.pre_ticks : Int)) % 65536).toNat)
        ((2 * d.interval) % 65536) = true := by
      rw [hk]
      unfold longer_than_tolerance_allows
      simp only [decide_eq_true_eq]
      have h3 : (2 * d.interval) % 65536 = 2 * d.interval := Nat.mod_eq_of_lt (by omega)
      have h4 : (2 * d.interval + 2 * d.interval / 4) % 65536
          = 2 * d.interval + 2 * d.interval / 4 := Nat.mod_eq_of_lt (by omega)
      rw [h3, h4]
      rcases hc with ⟨h1, rfl⟩ | ⟨h1, h2, rfl⟩
      · have h5 : (((0 : Nat) : Int) - (d.pre_ticks : Int)) % 65536
            = ((65536 - d.pre_ticks : Nat) : Int) := by omega
        rw [h5, Int.toNat_ofNat]
        omega
      · have h5 : (((255 : Nat) : Int) - (d.pre_ticks : Int)) % 65536 = ((255 : Nat) : Int) := by
          omega
        rw [h5, Int.toNat_ofNat]
        omega
    simp only [List.replicate_succ, List.replicate_zero, decoder_feed, silent_step d x hm hx, hlong, if_true]
    exact ⟨rfl, rfl⟩
  | succ n ih =>
    intro d x hm hx ht hp hi hc hn
    by_cases hlong : longer_than_tolerance_allows
        (((((ticked d).ticks : Int) - (d.pre_ticks : Int)) % 65536).toNat)
        ((2 * d.interval) % 65536) = true
    · refine ⟨1, by omega, ?_⟩
      simp only [List.replicate_succ, List.replicate_zero, decoder_feed, silent_step d x hm hx,
        hlong, if_true]
      exact ⟨rfl, rfl⟩
    · have hstep : spooky_decoder_step d x = (SPOOKY_DECODER_STEP_OK, ticked d, []) := by
        rw [silent_step d x hm hx, if_neg hlong]
      obtain ⟨N, hN, h1, h2⟩ := ih (ticked d) x hm hx (Nat.mod_lt _ (by decide)) hp hi hc
        (by
          show ((d.ticks + 1) % 256 + 1 + n) % 256 = t
          rw [← hn]; omega)
      refine ⟨N + 1, by omega, ?_⟩
      rw [List.replicate_succ, decoder_feed, hstep]
      exact ⟨h1, by simpa using h2⟩

theorem silence_resets (d : spooky_decoder) (x : Bool) (hm : d.mode ≠ RX_HEADER)
    (hx : bool_val x = d.last) (ht : d.ticks < 256) (hp : d.pre_ticks < 256)
    (hi : d.interval < 256) (hc : d.pre_ticks ≠ 0 ∨ d.interval ≤ 101) :
    ∃ N, N ≤ 256 ∧ (decoder_feed (List.replicate N x) d).1.mode = RX_HEADER
      ∧ (decoder_feed (List.replicate N x) d).2 = [] := by
  by_cases hp0 : d.pre_ticks = 0
  · obtain ⟨N, hN, h⟩ := silence_resets_at 255 ((255 + 256 - (d.ticks + 1)) % 256) d x hm hx ht hp
      hi (Or.inr ⟨hp0, by omega, rfl⟩) (by omega)
    exact ⟨N, by omega, h⟩
  · obtain ⟨N, hN, h⟩ := silence_resets_at 0 ((256 - (d.ticks + 1)) % 256) d x hm hx ht hp
      hi (Or.inl ⟨hp0, rfl⟩) (by omega)
    exact ⟨N, by omega, h⟩

/-- C23. For all non-negative integers `a` and `b`, `approx_eq(a, b)` holds if
and only if `|a - b| ≤ max(1, floor(b / 4))`; for `b < 8` this tolerance is
exactly 1, so `approx_eq(a, b)` holds if and only if `|a - b| ≤ 1`. -/
theorem approx_eq_tolerance (a b : Nat) :
    (approx_eq (a : Int) (b : Int) = true ↔ |(a : Int) - (b : Int)| ≤ max 1 ((b : Int) / 4))
      ∧ (b < 8 → max (1 : Int) ((b : Int) / 4) = 1)
      ∧ (b < 8 → (approx_eq (a : Int) (b : Int) = true ↔ |(a : Int) - (b : Int)| ≤ 1)) := by
  have key : approx_eq (a : Int) (b : Int) = true
      ↔ |(a : Int) - (b : Int)| ≤ max 1 ((b : Int) / 4) := by
    rw [approx_eq_nat, abs_le]
    by_cases hb : b < 4
    · have h4 : (b : Int) / 4 = 0 := by omega
      rw [h4]
      simp only [hb, if_true]
      have : max (1 : Int) 0 = 1 := by decide
      rw [this]; omega
    · have h4 : (1 : Int) ≤ (b : Int) / 4 := by omega
      simp only [hb, if_false]
      rw [max_eq_right h4]; omega
  have tol : b < 8 → max (1 : Int) ((b : Int) / 4) = 1 := by
    intro hb
    have h4 : (b : Int) / 4 ≤ 1 := by omega
    exact max_eq_left h4
  refine ⟨key, tol, ?_⟩
  intro hb
  rw [key, tol hb]

/-- C26. MSB-first byte assembly: from `bit_accum = 0` and `bit_index = 0x80`,
sinking the eight bits `b7, ..., b0` with `sink_bit` returns 0 seven times and
then 1, the mask `bit_index` is `0x40, 0x20, ..., 0x01` and finally `0x80`
again (a single bit after every call), and `bit_accum` ends as the byte with
bits `b7..b0`, `b7` most significant; no other field changes. -/
theorem sink_bit_assembles_byte (d : spooky_decoder) (b7 b6 b5 b4 b3 b2 b1 b0 : Bool) :
    (sink_trace [b7, b6, b5, b4, b3, b2, b1, b0]
        { d with bit_accum := 0, bit_index := 0x80 }).map Prod.fst
        = [0, 0, 0, 0, 0, 0, 0, 1]
      ∧ (sink_trace [b7, b6, b5, b4, b3, b2, b1, b0]
          { d with bit_accum := 0, bit_index := 0x80 }).map (fun r => r.2.bit_index)
        = [0x40, 0x20, 0x10, 0x08, 0x04, 0x02, 0x01, 0x80]
      ∧ ((sink_trace [b7, b6, b5, b4, b3, b2, b1, b0]
          { d with bit_accum := 0, bit_index := 0x80 }).map Prod.snd).getLast?
        = some { d with
            bit_accum := 128 * bool_val b7 + 64 * bool_val b6 + 32 * bool_val b5
              + 16 * bool_val b4 + 8 * bool_val b3 + 4 * bool_val b2 + 2 * bool_val b1
              + bool_val b0,
            bit_index := 0x80 } := by
  obtain ⟨index, bs, mode, ticks, bi, acc, last, interval, pl, ck, pre, buf, u⟩ := d
  simp only [sink_trace, sink_bit_eq, stored_byte]
  simp
  cases b7 <;> cases b6 <;> cases b5 <;> cases b4 <;> cases b3 <;> cases b2 <;> cases b1
    <;> cases b0 <;> rfl

theorem reset_ticked (d : spooky_decoder) : reset_decoder (ticked d) = reset_decoder d := rfl

/-- C27 (as the code has it). The tick counter is an 8-bit counter that wraps:
a step without an edge leaves `ticks = (ticks + 1) mod 256` (in a data mode,
unless the quiet-line test resets the decoder, which zeroes `ticks`), so from
`ticks = 255` it goes to `0`. -/
theorem tick_counter_wraps (d : spooky_decoder) (x : Bool) (hx : bool_val x = d.last) :
    (d.mode = RX_HEADER →
        spooky_decoder_step d x
          = (SPOOKY_DECODER_STEP_OK, { d with ticks := (d.ticks + 1) % 256 }, []))
      ∧ (d.mode ≠ RX_HEADER →
          spooky_decoder_step d x
              = (SPOOKY_DECODER_STEP_OK, { d with ticks := (d.ticks + 1) % 256 }, [])
            ∨ spooky_decoder_step d x = (SPOOKY_DECODER_STEP_OK, reset_decoder d, []))
      ∧ (d.ticks = 255 → (spooky_decoder_step d x).2.1.ticks = 0) := by
  have h1 : d.mode = RX_HEADER →
      spooky_decoder_step d x
        = (SPOOKY_DECODER_STEP_OK, { d with ticks := (d.ticks + 1) % 256 }, []) := by
    intro hm
    rw [header_same_step d x hm hx]; rfl
  have h2 : d.mode ≠ RX_HEADER →
      spooky_decoder_step d x
          = (SPOOKY_DECODER_STEP_OK, { d with ticks := (d.ticks + 1) % 256 }, [])
        ∨ spooky_decoder_step d x = (SPOOKY_DECODER_STEP_OK, reset_decoder d, []) := by
    intro hm
    rw [silent_step d x hm hx]
    split_ifs
    · right; rfl
    · left; rfl
  refine ⟨h1, h2, ?_⟩
  intro ht
  by_cases hm : d.mode = RX_HEADER
  · rw [h1 hm]; simp [ht]
  · rcases h2 hm with h | h
    · rw [h]; simp [ht]
    · rw [h]; rfl

theorem tick_counter_wraps_witness :
    bool_val true = full_ticks_decoder.last
      ∧ full_ticks_decoder.ticks = 255
      ∧ (spooky_decoder_step full_ticks_decoder true).2.1.ticks = 0 :=
  ⟨by decide, by decide,
    (tick_counter_wraps full_ticks_decoder true (by decide)).2.2 (by decide)⟩

/-- C27 fails on the code. After the first sample, 255 further samples of the
same level bring the tick counter of a freshly initialised decoder to 255, and
the next such sample, a step without an edge, leaves `ticks = 0`, not 255. -/
theorem tick_saturation_counterexample :
    (decoder_feed (List.replicate 256 true) test_decoder).1.ticks = 255
      ∧ bool_val true = (decoder_feed (List.replicate 256 true) test_decoder).1.last
      ∧ (spooky_decoder_step (decoder_feed (List.replicate 256 true) test_decoder).1 true).2.1.ticks
          = 0
      ∧ (spooky_decoder_step (decoder_feed (List.replicate 256 true) test_decoder).1 true).2.1.ticks
          ≠ 255 := by
  set_option maxRecDepth 100000 in decide

/-- C28. Reset frame: `reset_decoder` sets `mode = HEADER`, `ticks = 0`,
`interval = 0`, `bit_index = 0x80`, `bit_accum = 0`, `payload_length = 0` and
`pre_ticks = 0` and changes nothing else; a step in a data mode that resets on
the quiet-line timeout yields exactly that state, so the buffer, `last`,
`index` and `chksum` (and `buffer_size`, `cb_udata`) are unchanged. -/
theorem reset_frame :
    (∀ d : spooky_decoder,
        reset_decoder d
          = ⟨d.index, d.buffer_size, RX_HEADER, 0, 0x80, 0, d.last, 0, 0, d.chksum, 0, d.buffer,
              d.cb_udata⟩)
      ∧ (∀ (d : spooky_decoder) (x : Bool), d.mode ≠ RX_HEADER → bool_val x = d.last →
          longer_than_tolerance_allows
              ((((((d.ticks + 1) % 256 : Nat) : Int) - (d.pre_ticks : Int)) % 65536).toNat)
              ((2 * d.interval) % 65536) = true →
          spooky_decoder_step d x
              = (SPOOKY_DECODER_STEP_OK,
                  ⟨d.index, d.buffer_size, RX_HEADER, 0, 0x80, 0, d.last, 0, 0, d.chksum, 0,
                    d.buffer, d.cb_udata⟩, [])
            ∧ (spooky_decoder_step d x).2.1.buffer = d.buffer
            ∧ (spooky_decoder_step d x).2.1.last = d.last
            ∧ (spooky_decoder_step d x).2.1.index = d.index
            ∧ (spooky_decoder_step d x).2.1.chksum = d.chksum) := by
  refine ⟨fun d => rfl, ?_⟩
  intro d x hm hx hq
  have h := silent_step d x hm hx
  have hq' : longer_than_tolerance_allows
      (((((ticked d).ticks : Int) - (d.pre_ticks : Int)) % 65536).toNat)
      ((2 * d.interval) % 65536) = true := hq
  rw [if_pos hq'] at h
  rw [h]
  exact ⟨rfl, rfl, rfl, rfl, rfl⟩

theorem reset_frame_witness :
    spooky_decoder_step quiet_decoder true
      = (SPOOKY_DECODER_STEP_OK,
          ⟨3, 32, RX_HEADER, 0, 0x80, 0, 1, 0, 0, 0x5A, 0, 255 :: List.replicate 31 7, 9⟩, []) :=
  (reset_frame.2 quiet_decoder true (by decide) (by decide) (by decide)).1

/-- C29. First sample is an edge: for a freshly initialised decoder (on a
buffer that holds `buffer_size` bytes) and either value of the first input
bit, the first `spooky_decoder_step` differs from `last`, stores the sentinel
255 in ring slot 0, sets `index = 1`, `ticks = 0` and `last = bit`, stays in
HEADER, changes nothing else, invokes no callback and returns OK. -/
theorem first_sample_is_edge (mem : spooky_decoder) (dbuf : List Nat) (B u : Nat)
    (d0 : spooky_decoder) (bit : Bool)
    (hinit : spooky_decoder_init (some mem) (some dbuf) B (some ()) u
      = (SPOOKY_DECODER_INIT_OK, some d0))
    (hlen : B ≤ dbuf.length) :
    bool_val bit ≠ d0.last
      ∧ d0.mode = RX_HEADER
      ∧ spooky_decoder_step d0 bit
          = (SPOOKY_DECODER_STEP_OK,
              { d0 with index := 1, ticks := 0, last := bool_val bit,
                        buffer := d0.buffer.set 0 255 }, [])
      ∧ (d0.buffer.set 0 255)[0]? = some 255 := by
  by_cases hb : B < 16 ∨ B > 255
  · simp [spooky_decoder_init, SPOOKY_DECODER_MIN_BUFFER_SIZE, SPOOKY_DECODER_MAX_BUFFER_SIZE,
      hb] at hinit
  · rw [decoder_init_eq mem dbuf B u (by omega) (by omega)] at hinit
    have h := (Prod.mk.inj hinit).2
    simp only [Option.some.injEq] at h
    subst h
    have hx : bool_val bit ≠ 0xFF := by cases bit <;> simp [bool_val]
    have hl : 16 ≤ (memset dbuf 0 B).length := by rw [memset_length]; omega
    have hstep := header_edge_step 0 B 0 0x80 0 0xFF 0 0 0 0 (memset dbuf 0 B) u bit hx
      (by omega) (by omega)
    have hwin : ring_window ((memset dbuf 0 B).set (0 % 16) 255) (0 + 1)
        = (ring_window (memset dbuf 0 B) 0).tail ++ [255] :=
      ring_window_push (memset dbuf 0 B) 0 255 hl
    have hmem : 255 ∈ (ring_window (memset dbuf 0 B) 0).tail ++ [255] := by simp
    have hno : ¬ (scan_list ((ring_window (memset dbuf 0 B) 0).tail ++ [255]) 0 0 0 0).1 = 8 := by
      have := scan_sentinel ((ring_window (memset dbuf 0 B) 0).tail ++ [255]) 0 0 0
        (by simp [ring_window_length]) hmem
      omega
    simp only [if_true, hwin, hno, if_false] at hstep
    refine ⟨hx, rfl, hstep, ?_⟩
    have h0 : 0 < (memset dbuf 0 B).length := by omega
    simp [List.getElem?_set, h0]

theorem first_sample_is_edge_witness :
    spooky_decoder_step test_decoder false
      = (SPOOKY_DECODER_STEP_OK,
          { test_decoder with index := 1, ticks := 0, last := bool_val false,
                              buffer := test_decoder.buffer.set 0 255 }, []) :=
  (first_sample_is_edge dec_zero (List.replicate 32 0) 32 0 test_decoder false
    (by decide) (by decide)).2.2.1

/-- The quiet-line test of `sink_bit_with_cb` on byte-sized fields: the 16-bit
difference exceeds `i + i / 4` for `i = 2 * interval` exactly when the tick
counter is below `pre_ticks` (the difference wraps) or the plain difference
exceeds `2 * interval + interval / 2`. -/
theorem quiet_test_eq (t p iv : Nat) (ht : t < 256) (hp : p < 256) (hi : iv < 256) :
    longer_than_tolerance_allows ((((t : Int) - (p : Int)) % 65536).toNat) ((2 * iv) % 65536)
        = true
      ↔ (t < p ∨ t - p > 2 * iv + iv / 2) := by
  unfold longer_than_tolerance_allows
  simp only [decide_eq_true_eq]
  have h3 : (2 * iv) % 65536 = 2 * iv := by omega
  rw [h3]
  have h2 : 2 * iv / 4 = iv / 2 := by omega
  have h4 : (2 * iv + 2 * iv / 4) % 65536 = 2 * iv + iv / 2 := by rw [h2]; omega
  rw [h4]
  by_cases hlt : t < p
  · have h5 : ((t : Int) - (p : Int)) % 65536 = ((65536 + t - p : Nat) : Int) := by omega
    rw [h5, Int.toNat_ofNat]
    constructor
    · intro _; left; exact hlt
    · intro _; omega
  · have h5 : ((t : Int) - (p : Int)) % 65536 = ((t - p : Nat) : Int) := by omega
    rw [h5, Int.toNat_ofNat]
    constructor
    · intro h; right; exact h
    · intro h; rcases h with h | h
      · exact absurd h hlt
      · exact h

/-- C24 (as the code has it). Quiet-line threshold: in LENGTH, CHECKSUM or
PAYLOAD, a step whose sample equals `last` resets the decoder to HEADER if and
only if `ticks - pre_ticks`, with `ticks` the 8-bit counter after this step's
increment, exceeds `2 * interval + floor(interval / 2)` (a quarter of the
doubled interval), or that counter is below `pre_ticks`, where the unsigned
difference wraps; otherwise the step changes nothing but `ticks`. -/
theorem quiet_line_threshold (d : spooky_decoder) (x : Bool) (hm : d.mode ≠ RX_HEADER)
    (hx : bool_val x = d.last) (hp : d.pre_ticks < 256) (hi : d.interval < 256) :
    spooky_decoder_step d x
        = (SPOOKY_DECODER_STEP_OK,
            if (d.ticks + 1) % 256 < d.pre_ticks
                ∨ (d.ticks + 1) % 256 - d.pre_ticks > 2 * d.interval + d.interval / 2
              then reset_decoder d
              else { d with ticks := (d.ticks + 1) % 256 },
            [])
      ∧ ((spooky_decoder_step d x).2.1.mode = RX_HEADER
          ↔ ((d.ticks + 1) % 256 < d.pre_ticks
              ∨ (d.ticks + 1) % 256 - d.pre_ticks > 2 * d.interval + d.interval / 2)) := by
  have ht : (d.ticks + 1) % 256 < 256 := Nat.mod_lt _ (by decide)
  have hq : longer_than_tolerance_allows
        (((((ticked d).ticks : Int) - (d.pre_ticks : Int)) % 65536).toNat)
        ((2 * d.interval) % 65536) = true
      ↔ ((d.ticks + 1) % 256 < d.pre_ticks
          ∨ (d.ticks + 1) % 256 - d.pre_ticks > 2 * d.interval + d.interval / 2) :=
    quiet_test_eq ((d.ticks + 1) % 256) d.pre_ticks d.interval ht hp hi
  have hs := silent_step d x hm hx
  have hs' : spooky_decoder_step d x
        = (SPOOKY_DECODER_STEP_OK,
            if (d.ticks + 1) % 256 < d.pre_ticks
                ∨ (d.ticks + 1) % 256 - d.pre_ticks > 2 * d.interval + d.interval / 2
              then reset_decoder d
              else { d with ticks := (d.ticks + 1) % 256 },
            []) := by
    rw [hs]
    by_cases hc : (d.ticks + 1) % 256 < d.pre_ticks
        ∨ (d.ticks + 1) % 256 - d.pre_ticks > 2 * d.interval + d.interval / 2
    · rw [if_pos hc, if_pos (hq.mpr hc)]; rfl
    · rw [if_neg hc, if_neg (fun h => hc (hq.mp h))]; rfl
  refine ⟨hs', ?_⟩
  rw [hs']
  by_cases hc : (d.ticks + 1) % 256 < d.pre_ticks
      ∨ (d.ticks + 1) % 256 - d.pre_ticks > 2 * d.interval + d.interval / 2
  · simp only [if_pos hc]
    exact ⟨fun _ => hc, fun _ => rfl⟩
  · simp only [if_neg hc]
    exact ⟨fun h => absurd h hm, fun h => absurd h hc⟩

theorem quiet_line_threshold_witness :
    (spooky_decoder_step locked_quiet_decoder true).2.1.mode = RX_HEADER
      ↔ ((locked_quiet_decoder.ticks + 1) % 256 < locked_quiet_decoder.pre_ticks
          ∨ (locked_quiet_decoder.ticks + 1) % 256 - locked_quiet_decoder.pre_ticks
              > 2 * locked_quiet_decoder.interval + locked_quiet_decoder.interval / 2) :=
  (quiet_line_threshold locked_quiet_decoder true
    (by set_option maxRecDepth 100000 in decide)
    (by set_option maxRecDepth 100000 in decide)
    (by set_option maxRecDepth 100000 in decide)
    (by set_option maxRecDepth 100000 in decide)).2

/-- C24 fails on the code. After the preamble at two samples per half-cell the
decoder is in LENGTH with `interval = 2` and `pre_ticks = 0`; at the fifth
quiet sample `ticks - pre_ticks = 5` exceeds `2 * interval + floor(interval /
4) = 4`, yet the step does not reset: it stays in LENGTH and only `ticks`
changes. -/
theorem quiet_line_threshold_counterexample :
    locked_quiet_decoder.mode = RX_LENGTH
      ∧ locked_quiet_decoder.interval = 2
      ∧ locked_quiet_decoder.pre_ticks = 0
      ∧ locked_quiet_decoder.ticks = 4
      ∧ bool_val true = locked_quiet_decoder.last
      ∧ (locked_quiet_decoder.ticks + 1) - locked_quiet_decoder.pre_ticks
          > 2 * locked_quiet_decoder.interval + locked_quiet_decoder.interval / 4
      ∧ spooky_decoder_step locked_quiet_decoder true
          = (SPOOKY_DECODER_STEP_OK, { locked_quiet_decoder with ticks := 5 }, [])
      ∧ (spooky_decoder_step locked_quiet_decoder true).2.1.mode ≠ RX_HEADER := by
  set_option maxRecDepth 100000 in decide

/-- C25 (as the code has it). Setup edge: in LENGTH, CHECKSUM and PAYLOAD, a
step with an edge at which `pre_ticks == 0` and `approx_eq(ticks, interval)`
(`ticks` after the increment) sets `last` and sinks no bit; in LENGTH and
CHECKSUM it also records `pre_ticks = ticks` and appends `ticks` to the ring
buffer, in PAYLOAD it leaves `pre_ticks` at 0 and the ring buffer alone. -/
theorem setup_edge (d : spooky_decoder) (x : Bool) (hm : d.mode ≠ RX_HEADER)
    (hx : bool_val x ≠ d.last) (hp : d.pre_ticks = 0)
    (ha : approx_eq (((d.ticks + 1) % 256 : Nat) : Int) (d.interval : Int) = true) :
    (d.mode = RX_LENGTH ∨ d.mode = RX_CHKSUM →
        spooky_decoder_step d x
          = (SPOOKY_DECODER_STEP_OK,
              { d with ticks := (d.ticks + 1) % 256, last := bool_val x,
                       pre_ticks := (d.ticks + 1) % 256,
                       index := (d.index + 1) % 65536,
                       buffer := d.buffer.set (d.index % 16)
                         (if d.index = 0 then 255 else (d.ticks + 1) % 256) }, []))
      ∧ (d.mode = RX_PAYLOAD →
          spooky_decoder_step d x
            = (SPOOKY_DECODER_STEP_OK,
                { d with ticks := (d.ticks + 1) % 256, last := bool_val x }, [])) := by
  obtain ⟨index, bs, mode, ticks, bi, acc, last, interval, pl, ck, pre, buf, u⟩ := d
  simp only at hm hx hp ha
  subst hp
  have hidx : (index &&& 15) = index % 16 := by
    have := Nat.and_pow_two_sub_one_eq_mod index 4
    simpa using this
  have hv : (((((ticks + 1) % 256 : Nat) : Int) - ((0 % 256 : Nat) : Int)) % 256).toNat
      = (ticks + 1) % 256 := by
    omega
  have keyS : ∀ (m : rx_mode) (cb : byte_cb), sink_bit_with_cb
      ⟨index, bs, m, (ticks + 1) % 256, bi, acc, last, interval, pl, ck, 0, buf, u⟩ x cb true
      = (0, ⟨(index + 1) % 65536, bs, m, (ticks + 1) % 256, bi, acc, bool_val x, interval, pl, ck,
              (ticks + 1) % 256,
              buf.set (index % 16) (if index = 0 then 255 else (ticks + 1) % 256), u⟩, []) := by
    intro m cb
    unfold sink_bit_with_cb
    simp only [hx, if_false, ha, and_self, if_true, append_to_ring_buffer, RING_BUF_MASK,
      RING_BUF_SZ, MAX_POSSIBLE_DELAY, hidx, hv, show (16 : Nat) - 1 = 15 from rfl]
  have keyP : ∀ cb, sink_bit_with_cb
      ⟨index, bs, RX_PAYLOAD, (ticks + 1) % 256, bi, acc, last, interval, pl, ck, 0, buf, u⟩ x cb
        false
      = (0, ⟨index, bs, RX_PAYLOAD, (ticks + 1) % 256, bi, acc, bool_val x, interval, pl, ck, 0,
              buf, u⟩, []) := by
    intro cb
    unfold sink_bit_with_cb
    simp only [hx, if_false, ha, and_self, if_true]
    rfl
  refine ⟨?_, ?_⟩
  · intro h
    simp only at h
    rcases h with h | h
    · subst h
      rw [step_length_mode _ x rfl]
      show (SPOOKY_DECODER_STEP_OK, (sink_bit_with_cb _ x length_byte_cb true).2.1,
        (sink_bit_with_cb _ x length_byte_cb true).2.2) = _
      unfold ticked
      rw [keyS]
    · subst h
      rw [step_chksum_mode _ x rfl]
      unfold ticked
      rw [keyS]
  · intro h
    simp only at h
    subst h
    rw [step_payload_mode _ x rfl]
    unfold ticked
    rw [keyP]
    simp

theorem setup_edge_witness :
    spooky_decoder_step payload_start_decoder true
      = (SPOOKY_DECODER_STEP_OK,
          { payload_start_decoder with ticks := (payload_start_decoder.ticks + 1) % 256,
                                       last := bool_val true }, []) :=
  (setup_edge payload_start_decoder true
    (by set_option maxRecDepth 100000 in decide)
    (by set_option maxRecDepth 100000 in decide)
    (by set_option maxRecDepth 100000 in decide)
    (by set_option maxRecDepth 100000 in decide)).2
    (by set_option maxRecDepth 100000 in decide)

/-- C25 fails on the code. After the preamble, the length byte `0x01` and the
checksum byte `0xFE`, the decoder is in PAYLOAD with `pre_ticks = 0`; the next
sample is an edge with `approx_eq(ticks, interval)`, and the step leaves
`pre_ticks = 0` with `ticks = 2`: `pre_ticks = ticks` is not recorded. -/
theorem setup_edge_counterexample :
    payload_start_decoder.mode = RX_PAYLOAD
      ∧ bool_val true ≠ payload_start_decoder.last
      ∧ payload_start_decoder.pre_ticks = 0
      ∧ payload_start_decoder.interval = 2
      ∧ approx_eq (((payload_start_decoder.ticks + 1) % 256 : Nat) : Int)
          (payload_start_decoder.interval : Int) = true
      ∧ (spooky_decoder_step payload_start_decoder true).2.1.ticks = 2
      ∧ (spooky_decoder_step payload_start_decoder true).2.1.pre_ticks = 0
      ∧ (spooky_decoder_step payload_start_decoder true).2.1.pre_ticks
          ≠ (spooky_decoder_step payload_start_decoder true).2.1.ticks := by
  set_option maxRecDepth 100000 in decide

/-- A step in HEADER with an edge, without bounds on the counters. -/
theorem header_edge_step_gen (m bs t bi acc last iv pl ck pre : Nat) (buf : List Nat) (u : Nat)
    (x : Bool) (hx : bool_val x ≠ last) :
    spooky_decoder_step ⟨m, bs, RX_HEADER, t, bi, acc, last, iv, pl, ck, pre, buf, u⟩ x
      = (SPOOKY_DECODER_STEP_OK,
          (if (scan_list (ring_window (buf.set (m % 16) (if m = 0 then 255 else (t + 1) % 256))
                ((m + 1) % 65536)) 0 0 0 0).1 = 8 then
            ⟨(m + 1) % 65536, bs, RX_LENGTH, 0, bi, acc, bool_val x,
              (scan_list (ring_window (buf.set (m % 16) (if m = 0 then 255 else (t + 1) % 256))
                ((m + 1) % 65536)) 0 0 0 0).2 % 256, pl, ck, pre,
              buf.set (m % 16) (if m = 0 then 255 else (t + 1) % 256), u⟩
           else
            ⟨(m + 1) % 65536, bs, RX_HEADER, 0, bi, acc, bool_val x, iv, pl, ck, pre,
              buf.set (m % 16) (if m = 0 then 255 else (t + 1) % 256), u⟩),
          []) := by
  rw [step_header_mode _ x rfl]
  unfold ticked
  have hidx : (m &&& 15) = m % 16 := by
    have := Nat.and_pow_two_sub_one_eq_mod m 4
    simpa using this
  have hv : (((((t + 1) % 256 : Nat) : Int) - ((0 % 256 : Nat) : Int)) % 256).toNat
      = (t + 1) % 256 := by
    omega
  simp only [step_header, hx, ne_eq, not_false_eq_true, if_true, append_to_ring_buffer,
    RING_BUF_MASK, RING_BUF_SZ, MAX_POSSIBLE_DELAY, hidx, hv,
    show (16 : Nat) - 1 = 15 from rfl,
    step_header_scan_eq _ _ 16 (le_refl _), Nat.sub_self, List.drop_zero]
  split_ifs <;> rfl

/-- When every late entry is a long one, the scan counts them all. -/
theorem scan_all_hit (vs : List Nat) :
    ∀ (i total lc avg : Nat), 8 ≤ i → 0 < avg → lc + vs.length < 65536 →
      (∀ x ∈ vs, x ≠ 255) →
      (∀ x ∈ vs, approx_eq (x : Int) ((2 * avg : Nat) : Int) = true) →
      scan_list vs i total lc avg = (lc + vs.length, avg) := by
  induction vs with
  | nil => intro i total lc avg _ _ _ _ _; rfl
  | cons v vs ih =>
    intro i total lc avg hi ha hlc hne hap
    simp only [List.length_cons] at hlc
    rw [scan_list_hit v vs i total lc avg hi (hne v (List.mem_cons_self _ _)) ha
      (hap v (List.mem_cons_self _ _))]
    have h1 : (lc + 1) % 65536 = lc + 1 := Nat.mod_eq_of_lt (by omega)
    rw [h1, ih (i + 1) total (lc + 1) avg (by omega) ha (by omega)
      (fun x hx => hne x (List.mem_cons_of_mem _ hx))
      (fun x hx => hap x (List.mem_cons_of_mem _ hx))]
    simp only [List.length_cons]
    congr 1
    omega

theorem sum_lt_of_bytes (l : List Nat) (h : ∀ x ∈ l, x < 256) : l.sum ≤ 255 * l.length := by
  induction l with
  | nil => simp
  | cons a l ih =>
    have h1 := h a (List.mem_cons_self _ _)
    have h2 := ih (fun x hx => h x (List.mem_cons_of_mem _ hx))
    simp only [List.sum_cons, List.length_cons]
    omega

/-- The scan of `step_header` over a window of sixteen bytes counts eight long
entries exactly when the window satisfies the lock condition; the average it
returns is then the average of the first eight, a byte. -/
theorem scan_lock_iff (w : List Nat) (hlen : w.length = 16) (hb : ∀ x ∈ w, x < 256) :
    ((scan_list w 0 0 0 0).1 = 8 ↔ window_locks w)
      ∧ ((scan_list w 0 0 0 0).1 = 8 → (scan_list w 0 0 0 0).2 = window_avg w)
      ∧ window_avg w ≤ 255 := by
  have hsplit : w = w.take 8 ++ w.drop 8 := (List.take_append_drop 8 w).symm
  have htl : (w.take 8).length = 8 := by simp [hlen]
  have hdl : (w.drop 8).length = 8 := by simp [hlen]
  have hsum : (w.take 8).sum ≤ 255 * 8 := by
    have := sum_lt_of_bytes (w.take 8) (fun x hx => hb x (List.mem_of_mem_take hx))
    rw [htl] at this; exact this
  have hmod : (0 + (w.take 8).sum) % 65536 = (w.take 8).sum := by omega
  have havg : window_avg w ≤ 255 := by unfold window_avg; omega
  have hne : w.take 8 ≠ [] := by intro h; rw [h] at htl; simp at htl
  have hfirst : (∀ x ∈ w, x ≠ 255) →
      scan_list w 0 0 0 0 = scan_list (w.drop 8) 8 (w.take 8).sum 0 (window_avg w) := by
    intro hno
    have := scan_first_half (w.take 8) (w.drop 8) 0 0 0 0 hne (by omega)
      (fun x hx => hno x (List.mem_of_mem_take hx))
    rw [← hsplit, hmod] at this
    exact this
  have hfwd : (scan_list w 0 0 0 0).1 = 8 → window_locks w := by
    intro h8
    have hno : ∀ x ∈ w, x ≠ 255 := by
      intro x hx hx255
      subst hx255
      have := scan_sentinel w 0 0 0 (by omega) hx
      omega
    have hf := hfirst hno
    rw [hf] at h8
    have hpos : 0 < window_avg w := by
      by_contra hz
      have hz0 : window_avg w = 0 := by omega
      rw [hz0, scan_count_zero_avg _ _ _ _ (le_refl _)] at h8
      omega
    refine ⟨hno, hpos, ?_⟩
    intro x hx
    by_contra hmiss
    have := scan_miss_late (w.drop 8) 8 (w.take 8).sum 0 (window_avg w) (le_refl _)
      ⟨x, hx, hmiss⟩
    omega
  have hbwd : window_locks w → scan_list w 0 0 0 0 = (8, window_avg w) := by
    intro hl
    obtain ⟨hno, hpos, hap⟩ := hl
    rw [hfirst hno, scan_all_hit (w.drop 8) 8 _ 0 (window_avg w) (le_refl _) hpos (by omega)
      (fun x hx => hno x (List.mem_of_mem_drop hx)) hap, hdl]
  refine ⟨⟨hfwd, fun hl => by rw [hbwd hl]⟩, ?_, havg⟩
  intro h8
  rw [hbwd (hfwd h8)]

/-- C21. Clock-recovery decision: in HEADER a step without an edge stays in
HEADER; a step with an edge writes the ring slot `index mod 16`, advances
`index`, and moves to LENGTH if and only if, reading the sixteen entries
oldest first (from the slot after the one just written), none is 255, the
average `avg` of the first eight (rounded down) is positive and each of the
last eight satisfies `approx_eq(entry, 2 * avg)`; otherwise it stays in
HEADER. On the move `interval` is `avg` itself, which fits a byte. -/
theorem clock_recovery_decision (d : spooky_decoder) (bit : Bool) (hm : d.mode = RX_HEADER)
    (hb : ring_bytes d.buffer) :
    (bool_val bit = d.last → (spooky_decoder_step d bit).2.1.mode = RX_HEADER)
      ∧ (bool_val bit ≠ d.last →
          (spooky_decoder_step d bit).2.1.buffer
              = d.buffer.set (d.index % 16) (if d.index = 0 then 255 else (d.ticks + 1) % 256)
            ∧ (spooky_decoder_step d bit).2.1.index = (d.index + 1) % 65536
            ∧ ((spooky_decoder_step d bit).2.1.mode = RX_LENGTH
                ↔ window_locks (scanned_window d bit))
            ∧ (¬ window_locks (scanned_window d bit) →
                (spooky_decoder_step d bit).2.1.mode = RX_HEADER)
            ∧ (window_locks (scanned_window d bit) →
                (spooky_decoder_step d bit).2.1.interval = window_avg (scanned_window d bit)
                  ∧ window_avg (scanned_window d bit) ≤ 255)) := by
  refine ⟨?_, ?_⟩
  · intro hx
    rw [header_same_step d bit hm hx]
    exact hm
  · intro hx
    obtain ⟨m, bs, mode, t, bi, acc, last, iv, pl, ck, pre, buf, u⟩ := d
    simp only at hm hb hx
    subst hm
    have hstep := header_edge_step_gen m bs t bi acc last iv pl ck pre buf u bit hx
    have hv : (if m = 0 then 255 else (t + 1) % 256) < 256 := by
      split_ifs
      · omega
      · exact Nat.mod_lt _ (by decide)
    have hw := scan_lock_iff
      (ring_window (buf.set (m % 16) (if m = 0 then 255 else (t + 1) % 256)) ((m + 1) % 65536))
      (ring_window_length _ _)
      (ring_window_lt _ _ (ring_bytes_set buf _ _ hb hv))
    unfold scanned_window
    by_cases h8 : (scan_list
        (ring_window (buf.set (m % 16) (if m = 0 then 255 else (t + 1) % 256))
          ((m + 1) % 65536)) 0 0 0 0).1 = 8
    · rw [if_pos h8] at hstep
      rw [hstep]
      have hl := hw.1.mp h8
      refine ⟨rfl, rfl, ⟨fun _ => hl, fun _ => rfl⟩, fun h => absurd hl h, ?_⟩
      intro _
      refine ⟨?_, hw.2.2⟩
      show (scan_list _ 0 0 0 0).2 % 256 = _
      rw [hw.2.1 h8]
      exact Nat.mod_eq_of_lt (by have := hw.2.2; omega)
    · rw [if_neg h8] at hstep
      rw [hstep]
      have hl : ¬ window_locks _ := fun h => h8 (hw.1.mpr h)
      refine ⟨rfl, rfl, ⟨fun h => (by cases h), fun h => absurd h hl⟩, fun _ => rfl, ?_⟩
      intro h
      exact absurd h hl

theorem pre_lock_reachable : decoder_reachable pre_lock_decoder :=
  ⟨dec_zero, List.replicate 32 0, 32, 0, test_decoder,
    ([0xFF, 0x55].flatMap (expect_byte 2)).take 62, by decide, rfl⟩

theorem clock_recovery_decision_witness :
    (spooky_decoder_step pre_lock_decoder true).2.1.mode = RX_LENGTH
      ∧ window_locks (scanned_window pre_lock_decoder true) :=
  ⟨by set_option maxRecDepth 100000 in decide,
    ((clock_recovery_decision pre_lock_decoder true
      (by set_option maxRecDepth 100000 in decide)
      (decoder_inv_reachable _ pre_lock_reachable).ring).2
      (by set_option maxRecDepth 100000 in decide)).2.2.1.mp
      (by set_option maxRecDepth 100000 in decide)⟩

/-- C22. Fresh assembler at LENGTH entry: when a step takes a decoder state
reachable from a successful init from HEADER to LENGTH (clock recovery
succeeds), the decoder enters LENGTH with `ticks = 0`, `pre_ticks = 0`,
`bit_accum = 0` and `bit_index = 0x80`. -/
theorem fresh_assembler_at_length (d : spooky_decoder) (bit : Bool)
    (hr : decoder_reachable d) (hm : d.mode = RX_HEADER)
    (hl : (spooky_decoder_step d bit).2.1.mode = RX_LENGTH) :
    (spooky_decoder_step d bit).2.1.ticks = 0
      ∧ (spooky_decoder_step d bit).2.1.pre_ticks = 0
      ∧ (spooky_decoder_step d bit).2.1.bit_accum = 0
      ∧ (spooky_decoder_step d bit).2.1.bit_index = 0x80 := by
  have hinv := decoder_inv_reachable d hr
  obtain ⟨_, hpre, hacc, hbi, _⟩ := hinv.header_fields hm
  by_cases hx : bool_val bit = d.last
  · rw [header_same_step d bit hm hx] at hl
    have : (ticked d).mode = d.mode := rfl
    simp only at hl
    rw [this, hm] at hl
    cases hl
  · obtain ⟨m, bs, mode, t, bi, acc, last, iv, pl, ck, pre, buf, u⟩ := d
    simp only at hm hx hpre hacc hbi
    subst hm hpre hacc hbi
    have hstep := header_edge_step_gen m bs t 0x80 0 last iv pl ck 0 buf u bit hx
    rw [hstep] at hl ⊢
    by_cases h8 : (scan_list
        (ring_window (buf.set (m % 16) (if m = 0 then 255 else (t + 1) % 256))
          ((m + 1) % 65536)) 0 0 0 0).1 = 8
    · rw [if_pos h8]
      exact ⟨rfl, rfl, rfl, rfl⟩
    · rw [if_neg h8] at hl
      cases hl

theorem fresh_assembler_at_length_witness :
    (spooky_decoder_step pre_lock_decoder true).2.1.ticks = 0
      ∧ (spooky_decoder_step pre_lock_decoder true).2.1.pre_ticks = 0
      ∧ (spooky_decoder_step pre_lock_decoder true).2.1.bit_accum = 0
      ∧ (spooky_decoder_step pre_lock_decoder true).2.1.bit_index = 0x80 :=
  fresh_assembler_at_length pre_lock_decoder true pre_lock_reachable
    (by set_option maxRecDepth 100000 in decide)
    (by set_option maxRecDepth 100000 in decide)

theorem encoder_index_inv_step (e : spooky_encoder) (h : encoder_index_inv e) :
    encoder_index_inv (spooky_encoder_step e).2 := by
  obtain ⟨index, r, bs, n, ticks, mode, c, B⟩ := e
  unfold encoder_index_inv at h ⊢
  simp only at h
  obtain ⟨h1, h2, h3⟩ := h
  unfold spooky_encoder_step
  simp only
  by_cases hg : (ticks + 1) % 256 % r ≠ 0
  · rw [if_pos hg]
    exact ⟨h1, h2, h3⟩
  · rw [if_neg hg]
    have hle : (index + 1) % 65536 ≤ index + 1 := Nat.mod_le _ _
    cases mode
    · simp
    · have := h1 (Or.inl rfl)
      have := h3 (by simp)
      simp only [HEADER_SHARP_TRANSITIONS]
      split_ifs <;> simp <;> omega
    · have := h1 (Or.inr (Or.inl rfl))
      have := h3 (by simp)
      simp only [HEADER_LONG_TRANSITIONS]
      split_ifs <;> simp <;> omega
    · have := h1 (Or.inr (Or.inr (Or.inl rfl)))
      have := h3 (by simp)
      simp only
      split_ifs <;> simp <;> omega
    · have := h1 (Or.inr (Or.inr (Or.inr rfl)))
      have := h3 (by simp)
      simp only
      split_ifs <;> simp <;> omega
    · have := h2 rfl
      have := h3 (by simp)
      simp only
      split_ifs
      · simp
      · simp
        omega

theorem encoder_index_inv_clear (e : spooky_encoder) :
    encoder_index_inv (spooky_encoder_clear e).2 := by
  unfold spooky_encoder_clear encoder_index_inv
  split_ifs with h
  · simp
  · have hm : e.mode = TX_NONE := by simpa using h
    simp [hm]

theorem encoder_index_inv_enqueue (e : spooky_encoder) (input : List Nat) (n : Nat)
    (h : encoder_index_inv e)
    (hc : (spooky_encoder_enqueue e input n).1 = SPOOKY_ENCODER_ENQUEUE_ERROR_FULL
      ∨ ((spooky_encoder_enqueue e input n).1 = SPOOKY_ENCODER_ENQUEUE_OK ∧ 1 ≤ n)) :
    encoder_index_inv (spooky_encoder_enqueue e input n).2 := by
  rcases hc with hc | ⟨hc, hn⟩
  · have : (spooky_encoder_enqueue e input n).2 = e := by
      by_cases hm : e.mode = TX_NONE
      · exfalso
        by_cases hs : n > e.buffer_size <;> simp [spooky_encoder_enqueue, hm, hs] at hc
      · simp [spooky_encoder_enqueue, hm]
    rw [this]; exact h
  · obtain ⟨hm, hs⟩ := (enqueue_ok_iff e input n).mp hc
    rw [enqueue_ok_state e input n hm hs]
    unfold encoder_index_inv
    simp
    omega

theorem encoder_index_inv_calls (cs : List encoder_call) :
    ∀ e, encoder_index_inv e → enqueues_full_or_nonempty cs e = true →
      encoder_index_inv (encoder_calls cs e) := by
  induction cs with
  | nil => intro e h _; exact h
  | cons c cs ih =>
    intro e h hc
    simp only [enqueues_full_or_nonempty, Bool.and_eq_true] at hc
    obtain ⟨hc1, hc2⟩ := hc
    rw [encoder_calls]
    apply ih _ _ hc2
    cases c with
    | call_enqueue input n =>
      exact encoder_index_inv_enqueue e input n h (by simpa using hc1)
    | call_clear => exact encoder_index_inv_clear e
    | call_step => exact encoder_index_inv_step e h

theorem encoder_index_inv_init (mem : spooky_encoder) (buf : List Nat) (bs r : Nat)
    (e0 : spooky_encoder)
    (h : spooky_encoder_init (some mem) (some buf) bs r = (SPOOKY_ENCODER_INIT_OK, some e0)) :
    encoder_index_inv e0 := by
  by_cases hb : bs = 0 ∨ r = 0
  · simp [spooky_encoder_init, hb] at h
  · simp only [spooky_encoder_init, hb, if_false] at h
    have h := (Prod.mk.inj h).2
    simp only [Option.some.injEq] at h
    subst h
    unfold encoder_index_inv
    simp

/-- An enqueue that fails with `ERROR_SIZE` still arms the encoder: after a
completed one-byte frame it leaves `mode = TX_SHARP` with the stale
`index = 16`. -/
theorem size_error_enqueue_stale_index :
    (spooky_encoder_enqueue
        (encoder_calls ([call_enqueue [0x41] 1] ++ List.replicate 80 call_step) test_encoder)
        (List.replicate 33 0) 33).1 = SPOOKY_ENCODER_ENQUEUE_ERROR_SIZE
      ∧ (encoder_calls
          ([call_enqueue [0x41] 1] ++ List.replicate 80 call_step
            ++ [call_enqueue (List.replicate 33 0) 33]) test_encoder).mode = TX_SHARP
      ∧ (encoder_calls
          ([call_enqueue [0x41] 1] ++ List.replicate 80 call_step
            ++ [call_enqueue (List.replicate 33 0) 33]) test_encoder).index = 16 := by
  set_option maxRecDepth 100000 in decide

/-- C30 (as the code has it). Encoder index invariant: in every encoder state
reached from a successful init by a sequence of step calls, clear calls and
enqueue calls that either fail with `ERROR_FULL` or succeed with a non-empty
payload, `index < 16` in the two preamble phases, LENGTH and CHECKSUM, and
`index < 16 * input_size` in PAYLOAD, so the payload byte read at `index / 16`
lies inside the enqueued bytes. -/
theorem encoder_index_invariant (mem : spooky_encoder) (buf : List Nat) (bs r : Nat)
    (e0 : spooky_encoder) (cs : List encoder_call)
    (hinit : spooky_encoder_init (some mem) (some buf) bs r
      = (SPOOKY_ENCODER_INIT_OK, some e0))
    (hcs : enqueues_full_or_nonempty cs e0 = true) :
    (((encoder_calls cs e0).mode = TX_SHARP ∨ (encoder_calls cs e0).mode = TX_LONG
        ∨ (encoder_calls cs e0).mode = TX_LENGTH ∨ (encoder_calls cs e0).mode = TX_CHKSUM) →
        (encoder_calls cs e0).index < 16)
      ∧ ((encoder_calls cs e0).mode = TX_PAYLOAD →
          (encoder_calls cs e0).index < 16 * (encoder_calls cs e0).input_size
            ∧ (encoder_calls cs e0).index / 16 < (encoder_calls cs e0).input_size) := by
  have h := encoder_index_inv_calls cs e0 (encoder_index_inv_init mem buf bs r e0 hinit) hcs
  obtain ⟨h1, h2, _⟩ := h
  refine ⟨h1, fun hm => ⟨h2 hm, ?_⟩⟩
  have := h2 hm
  omega

theorem encoder_index_invariant_witness :
    (encoder_calls
        ([call_enqueue [0x41, 0x42] 2] ++ List.replicate 70 call_step
          ++ [call_enqueue [0x43] 1, call_step])
        test_encoder).mode = TX_PAYLOAD
      ∧ (encoder_calls
          ([call_enqueue [0x41, 0x42] 2] ++ List.replicate 70 call_step
            ++ [call_enqueue [0x43] 1, call_step])
          test_encoder).index < 16 * 2 := by
  have h := (encoder_index_invariant enc_zero (List.replicate 32 0) 32 1 test_encoder
    ([call_enqueue [0x41, 0x42] 2] ++ List.replicate 70 call_step
      ++ [call_enqueue [0x43] 1, call_step])
    (by decide) (by set_option maxRecDepth 100000 in decide)).2
  have hm : (encoder_calls
        ([call_enqueue [0x41, 0x42] 2] ++ List.replicate 70 call_step
          ++ [call_enqueue [0x43] 1, call_step])
        test_encoder).mode = TX_PAYLOAD := by
    set_option maxRecDepth 100000 in decide
  exact ⟨hm, by
    have h2 := (h hm).1
    have hn : (encoder_calls
        ([call_enqueue [0x41, 0x42] 2] ++ List.replicate 70 call_step
          ++ [call_enqueue [0x43] 1, call_step])
        test_encoder).input_size = 2 := by
      set_option maxRecDepth 100000 in decide
    rw [hn] at h2
    exact h2⟩

/-- C30 fails on the code. An enqueue of zero bytes succeeds, and after the 64
steps of the preamble, the length byte and the checksum byte the encoder is in
PAYLOAD with `index = 0` and `input_size = 0`: `index < 16 * input_size` is
false, and the next step reads a payload byte no enqueue supplied. -/
theorem encoder_index_invariant_counterexample :
    (spooky_encoder_enqueue test_encoder [] 0).1 = SPOOKY_ENCODER_ENQUEUE_OK
      ∧ (encoder_calls ([call_enqueue [] 0] ++ List.replicate 64 call_step) test_encoder).mode
          = TX_PAYLOAD
      ∧ (encoder_calls ([call_enqueue [] 0] ++ List.replicate 64 call_step) test_encoder).index
          = 0
      ∧ (encoder_calls ([call_enqueue [] 0] ++ List.replicate 64 call_step)
          test_encoder).input_size = 0
      ∧ ¬ ((encoder_calls ([call_enqueue [] 0] ++ List.replicate 64 call_step)
            test_encoder).index
          < 16 * (encoder_calls ([call_enqueue [] 0] ++ List.replicate 64 call_step)
            test_encoder).input_size)
      ∧ (encoder_calls ([call_enqueue [] 0] ++ List.replicate 65 call_step) test_encoder).mode
          = TX_PAYLOAD
      ∧ (encoder_calls ([call_enqueue [] 0] ++ List.replicate 65 call_step) test_encoder).index
          = 1 := by
  set_option maxRecDepth 100000 in decide

/-- The three calls never change `buffer_size`, and leave `input_size` at most
`buffer_size`. -/
theorem input_size_le_apply (e : spooky_encoder) (c : encoder_call)
    (h : e.input_size ≤ e.buffer_size) :
    (encoder_apply e c).input_size ≤ (encoder_apply e c).buffer_size := by
  cases c with
  | call_enqueue input n =>
    show (spooky_encoder_enqueue e input n).2.input_size
      ≤ (spooky_encoder_enqueue e input n).2.buffer_size
    unfold spooky_encoder_enqueue
    by_cases hm : e.mode ≠ TX_NONE
    · rw [if_pos hm]; exact h
    · rw [if_neg hm]
      by_cases hs : n > e.buffer_size
      · simp only [hs, if_true]; exact h
      · simp only [hs, if_false]; omega
  | call_clear =>
    show (spooky_encoder_clear e).2.input_size ≤ (spooky_encoder_clear e).2.buffer_size
    unfold spooky_encoder_clear
    split_ifs <;> exact h
  | call_step =>
    obtain ⟨index, r, bs, n, ticks, mode, c, B⟩ := e
    simp only at h
    show (spooky_encoder_step _).2.input_size ≤ (spooky_encoder_step _).2.buffer_size
    unfold spooky_encoder_step
    cases mode <;> simp only [] <;> split_ifs <;> exact h

theorem input_size_le_calls (cs : List encoder_call) :
    ∀ e, e.input_size ≤ e.buffer_size →
      (encoder_calls cs e).input_size ≤ (encoder_calls cs e).buffer_size := by
  induction cs with
  | nil => intro e h; exact h
  | cons c cs ih =>
    intro e h
    rw [encoder_calls]
    exact ih _ (input_size_le_apply e c h)

theorem encoder_init_state (mem : spooky_encoder) (buf : List Nat) (bs r : Nat)
    (e0 : spooky_encoder)
    (h : spooky_encoder_init (some mem) (some buf) bs r = (SPOOKY_ENCODER_INIT_OK, some e0)) :
    bs ≠ 0 ∧ r ≠ 0 ∧ e0 = ⟨0, r, bs, 0, 0, TX_NONE, 0, buf⟩ := by
  by_cases hb : bs = 0 ∨ r = 0
  · simp [spooky_encoder_init, hb] at h
  · simp only [spooky_encoder_init, hb, if_false] at h
    have h := (Prod.mk.inj h).2
    simp only [Option.some.injEq] at h
    exact ⟨fun h0 => hb (Or.inl h0), fun h0 => hb (Or.inr h0), h.symm⟩

/-- The state after an enqueue that fails: `ERROR_FULL` leaves the encoder as
it was, `ERROR_SIZE` comes from an IDLE encoder and leaves it with
`mode = TX_SHARP`, every other field as it was. -/
theorem enqueue_error_state (enc : spooky_encoder) (input : List Nat) (n : Nat) :
    ((spooky_encoder_enqueue enc input n).1 = SPOOKY_ENCODER_ENQUEUE_ERROR_FULL →
        (spooky_encoder_enqueue enc input n).2 = enc)
      ∧ ((spooky_encoder_enqueue enc input n).1 = SPOOKY_ENCODER_ENQUEUE_ERROR_SIZE →
          enc.mode = TX_NONE
            ∧ (spooky_encoder_enqueue enc input n).2 = { enc with mode := TX_SHARP }) := by
  by_cases hm : enc.mode = TX_NONE
  · by_cases hs : n > enc.buffer_size
    · simp [spooky_encoder_enqueue, hm, hs]
    · simp [spooky_encoder_enqueue, hm, hs]
  · simp [spooky_encoder_enqueue, hm]

/-- C31 (as the code has it). Encoder `input_size` invariant: in every encoder
state reached from a successful init by any sequence of enqueue, clear and
step calls, `input_size ≤ buffer_size`; and when every enqueue of the sequence
either fails with `ERROR_FULL` or succeeds with a non-empty payload,
`mode ≠ IDLE` implies `0 < input_size ≤ buffer_size`. -/
theorem input_size_invariant (mem : spooky_encoder) (buf : List Nat) (bs r : Nat)
    (e0 : spooky_encoder) (cs : List encoder_call)
    (hinit : spooky_encoder_init (some mem) (some buf) bs r
      = (SPOOKY_ENCODER_INIT_OK, some e0)) :
    (encoder_calls cs e0).input_size ≤ (encoder_calls cs e0).buffer_size
      ∧ (enqueues_full_or_nonempty cs e0 = true →
          (encoder_calls cs e0).mode ≠ TX_NONE →
          0 < (encoder_calls cs e0).input_size
            ∧ (encoder_calls cs e0).input_size ≤ (encoder_calls cs e0).buffer_size) := by
  obtain ⟨_, _, he⟩ := encoder_init_state mem buf bs r e0 hinit
  have hle : (encoder_calls cs e0).input_size ≤ (encoder_calls cs e0).buffer_size := by
    apply input_size_le_calls
    rw [he]
    exact Nat.zero_le _
  refine ⟨hle, fun hcs hm => ⟨?_, hle⟩⟩
  have h := encoder_index_inv_calls cs e0 (encoder_index_inv_init mem buf bs r e0 hinit) hcs
  exact h.2.2 hm

theorem input_size_invariant_witness :
    (encoder_calls
        ([call_enqueue [0x41, 0x42] 2] ++ List.replicate 70 call_step
          ++ [call_enqueue [0x43] 1, call_step])
        test_encoder).mode = TX_PAYLOAD
      ∧ 0 < (encoder_calls
          ([call_enqueue [0x41, 0x42] 2] ++ List.replicate 70 call_step
            ++ [call_enqueue [0x43] 1, call_step])
          test_encoder).input_size :=
  ⟨by set_option maxRecDepth 100000 in decide,
    ((input_size_invariant enc_zero (List.replicate 32 0) 32 1 test_encoder
      ([call_enqueue [0x41, 0x42] 2] ++ List.replicate 70 call_step
        ++ [call_enqueue [0x43] 1, call_step])
      (by decide)).2
      (by set_option maxRecDepth 100000 in decide)
      (by set_option maxRecDepth 100000 in decide)).1⟩

/-- C31 fails on the code. On a freshly initialised encoder an enqueue of zero
bytes succeeds and leaves the encoder out of IDLE (`mode = TX_SHARP`) with
`input_size = 0`. -/
theorem input_size_invariant_counterexample :
    (spooky_encoder_enqueue test_encoder [] 0).1 = SPOOKY_ENCODER_ENQUEUE_OK
      ∧ (encoder_calls [call_enqueue [] 0] test_encoder).mode = TX_SHARP
      ∧ (encoder_calls [call_enqueue [] 0] test_encoder).mode ≠ TX_NONE
      ∧ (encoder_calls [call_enqueue [] 0] test_encoder).input_size = 0
      ∧ ¬ (0 < (encoder_calls [call_enqueue [] 0] test_encoder).input_size) := by
  decide

/-- C32 at the failing input. The enqueue of 33 bytes into the 32-byte encoder
of the unit tests returns `ERROR_SIZE`, but the encoder, IDLE before, is left
with `mode = TX_SHARP` (the other fields are unchanged): its next step emits
the edge command `OK_LOW`, and a following enqueue of one byte returns
`ERROR_FULL`. -/
theorem size_error_enqueue_arms_encoder :
    oversize_enqueue.1 = SPOOKY_ENCODER_ENQUEUE_ERROR_SIZE
      ∧ test_encoder.mode = TX_NONE
      ∧ oversize_enqueue.2.mode = TX_SHARP
      ∧ oversize_enqueue.2 = { test_encoder with mode := TX_SHARP }
      ∧ oversize_enqueue.2 ≠ test_encoder
      ∧ (spooky_encoder_step oversize_enqueue.2).1 = SPOOKY_ENCODER_STEP_OK_LOW
      ∧ (spooky_encoder_step test_encoder).1 = SPOOKY_ENCODER_STEP_OK_DONE
      ∧ (spooky_encoder_enqueue oversize_enqueue.2 [0x41] 1).1
          = SPOOKY_ENCODER_ENQUEUE_ERROR_FULL
      ∧ (spooky_encoder_enqueue test_encoder [0x41] 1).1 = SPOOKY_ENCODER_ENQUEUE_OK := by
  decide

theorem append_ring_buffer (d : spooky_decoder) (off : Nat) :
    ∃ v, (append_to_ring_buffer d off).buffer = d.buffer.set (d.index % 16) v := by
  have hidx : (d.index &&& 15) = d.index % 16 := by
    have := Nat.and_pow_two_sub_one_eq_mod d.index 4
    simpa using this
  refine ⟨if d.index = 0 then MAX_POSSIBLE_DELAY
    else (((d.ticks : Int) - ((off % 256 : Nat) : Int)) % 256).toNat, ?_⟩
  show d.buffer.set (d.index &&& RING_BUF_MASK) _ = _
  rw [show RING_BUF_MASK = 15 from rfl, hidx]

theorem sink_bit_buffer (d : spooky_decoder) (bit : Bool) :
    (sink_bit d bit).2.buffer = d.buffer ∧ (sink_bit d bit).2.index = d.index := by
  rw [sink_bit_eq]
  exact ⟨rfl, rfl⟩

/-- The buffer after `step_header`: unchanged, or written at ring slot
`index mod 16`. -/
theorem step_header_buffer (d : spooky_decoder) (bit : Bool) :
    (step_header d bit).2.buffer = d.buffer
      ∨ ∃ v, (step_header d bit).2.buffer = d.buffer.set (d.index % 16) v := by
  unfold step_header
  by_cases hx : bool_val bit ≠ d.last
  · right
    obtain ⟨v, hv⟩ := append_ring_buffer d 0
    refine ⟨v, ?_⟩
    simp only [hx, if_true]
    split_ifs <;> exact hv
  · left
    simp only [hx, if_false]

/-- The buffer after `sink_bit_with_cb` when the sample is not a bit edge:
unchanged, or (a setup edge with `save_ticks`) written at ring slot
`index mod 16`. -/
theorem sbwc_plain_buffer (d : spooky_decoder) (bit : Bool) (cb : byte_cb) (st : Bool)
    (he : ¬ bit_edge d bit) :
    (sink_bit_with_cb d bit cb st).2.1.buffer = d.buffer
      ∨ (st = true
          ∧ ∃ v, (sink_bit_with_cb d bit cb st).2.1.buffer = d.buffer.set (d.index % 16) v) := by
  unfold bit_edge at he
  unfold sink_bit_with_cb
  by_cases h1 : bool_val bit = d.last
  · left
    simp only [h1, if_true]
    split_ifs <;> rfl
  · simp only [h1, if_false]
    by_cases h2 : approx_eq (d.ticks : Int) (d.interval : Int) = true ∧ d.pre_ticks = 0
    · simp only [h2, and_self, if_true]
      cases st with
      | false => left; rfl
      | true =>
        right
        obtain ⟨v, hv⟩ := append_ring_buffer { d with last := bool_val bit } 0
        exact ⟨rfl, v, hv⟩
    · have h3 : ¬ approx_eq (d.ticks : Int) ((2 * d.interval : Nat) : Int) = true := by
        intro h3; exact he ⟨h1, h2, h3⟩
      left
      simp only [h2, if_false, h3]
      rfl

/-- The buffer after `sink_bit_with_cb` with `save_ticks` set and a byte
callback that leaves the buffer alone: unchanged, or written at ring slot
`index mod 16`. -/
theorem sbwc_save_buffer (d : spooky_decoder) (bit : Bool) (cb : byte_cb)
    (hcb : ∀ x, (cb x).2.1.buffer = x.buffer) :
    (sink_bit_with_cb d bit cb true).2.1.buffer = d.buffer
      ∨ ∃ v, (sink_bit_with_cb d bit cb true).2.1.buffer = d.buffer.set (d.index % 16) v := by
  by_cases he : bit_edge d bit
  · right
    obtain ⟨v, hv⟩ := append_ring_buffer { d with last := bool_val bit } d.pre_ticks
    refine ⟨v, ?_⟩
    have hes : (edge_state d bit true).buffer = d.buffer.set (d.index % 16) v := hv
    rw [sbwc_bit_edge d bit cb true he]
    split_ifs
    · show (cb (sink_bit (edge_state d bit true) bit).2).2.1.buffer = _
      rw [hcb, (sink_bit_buffer _ bit).1, hes]
    · show (sink_bit (edge_state d bit true) bit).2.buffer = _
      rw [(sink_bit_buffer _ bit).1, hes]
  · rcases sbwc_plain_buffer d bit cb true he with h | ⟨_, h⟩
    · left; exact h
    · right; exact h

/-- The buffer after `sink_bit_with_cb` in PAYLOAD (`save_ticks` clear,
`payload_byte_cb`): unchanged, or written at `index`. -/
theorem sbwc_payload_buffer (d : spooky_decoder) (bit : Bool) :
    (sink_bit_with_cb d bit payload_byte_cb false).2.1.buffer = d.buffer
      ∨ ∃ v, (sink_bit_with_cb d bit payload_byte_cb false).2.1.buffer
          = d.buffer.set d.index v := by
  by_cases he : bit_edge d bit
  · have hes : (edge_state d bit false).buffer = d.buffer
        ∧ (edge_state d bit false).index = d.index := ⟨rfl, rfl⟩
    rw [sbwc_bit_edge d bit payload_byte_cb false he]
    split_ifs
    · right
      refine ⟨(sink_bit (edge_state d bit false) bit).2.bit_accum, ?_⟩
      show (payload_byte_cb (sink_bit (edge_state d bit false) bit).2).2.1.buffer = _
      rw [payload_byte_cb_eq]
      split_ifs <;>
        (show (sink_bit (edge_state d bit false) bit).2.buffer.set
            (sink_bit (edge_state d bit false) bit).2.index _ = _
         rw [(sink_bit_buffer _ bit).1, (sink_bit_buffer _ bit).2, hes.1, hes.2])
    · left
      show (sink_bit (edge_state d bit false) bit).2.buffer = _
      rw [(sink_bit_buffer _ bit).1, hes.1]
  · rcases sbwc_plain_buffer d bit payload_byte_cb false he with h | ⟨h, _⟩
    · left; exact h
    · cases h

theorem length_byte_cb_buffer (x : spooky_decoder) : (length_byte_cb x).2.1.buffer = x.buffer := by
  unfold length_byte_cb
  simp only
  split_ifs <;> rfl

theorem chksum_byte_cb_buffer (x : spooky_decoder) : (chksum_byte_cb x).2.1.buffer = x.buffer := rfl

/-- The writes of one `spooky_decoder_step`: the buffer is unchanged, or one
byte is written, at ring slot `index mod 16` outside PAYLOAD and at `index` in
PAYLOAD. -/
theorem step_buffer_write (d : spooky_decoder) (bit : Bool) :
    (spooky_decoder_step d bit).2.1.buffer = d.buffer
      ∨ (d.mode ≠ RX_PAYLOAD
          ∧ ∃ v, (spooky_decoder_step d bit).2.1.buffer = d.buffer.set (d.index % 16) v)
      ∨ (d.mode = RX_PAYLOAD
          ∧ ∃ v, (spooky_decoder_step d bit).2.1.buffer = d.buffer.set d.index v) := by
  rcases hmode : d.mode with _ | _ | _ | _
  · rw [step_header_mode d bit hmode]
    rcases step_header_buffer (ticked d) bit with h | h
    · left; exact h
    · right; left; exact ⟨by simp, h⟩
  · rw [step_length_mode d bit hmode]
    rcases sbwc_save_buffer (ticked d) bit length_byte_cb length_byte_cb_buffer with h | h
    · left; exact h
    · right; left; exact ⟨by simp, h⟩
  · rw [step_chksum_mode d bit hmode]
    rcases sbwc_save_buffer (ticked d) bit chksum_byte_cb chksum_byte_cb_buffer with h | h
    · left; exact h
    · right; left; exact ⟨by simp, h⟩
  · rw [step_payload_mode d bit hmode]
    rcases sbwc_payload_buffer (ticked d) bit with h | h
    · left
      split_ifs <;> exact h
    · right; right
      refine ⟨rfl, ?_⟩
      obtain ⟨v, hv⟩ := h
      refine ⟨v, ?_⟩
      split_ifs <;> exact hv

theorem getD_set_of_ne (l : List Nat) (p i v : Nat) (h : p ≠ i) :
    (l.set p v).getD i 0 = l.getD i 0 := by
  simp only [List.getD_eq_getElem?_getD, List.getElem?_set]
  rw [if_neg h]

/-- C33. Decoder buffer writes stay in bounds: in every decoder state
reachable from a successful init, a step writes at most one byte into the
caller's buffer, at ring slot `index mod 16` (which is `< 16 ≤ buffer_size`)
outside PAYLOAD and at `index` in PAYLOAD, where
`index < payload_length ≤ buffer_size` holds; the position is `< buffer_size`,
and every byte at a position `≥ buffer_size` is left as it was. -/
theorem decoder_writes_in_bounds (d : spooky_decoder) (bit : Bool)
    (hr : decoder_reachable d) :
    16 ≤ d.buffer_size
      ∧ d.index % 16 < 16
      ∧ (d.mode = RX_PAYLOAD → d.index < d.payload_length ∧ d.payload_length ≤ d.buffer_size)
      ∧ write_position d < d.buffer_size
      ∧ ((spooky_decoder_step d bit).2.1.buffer = d.buffer
          ∨ ∃ v, (spooky_decoder_step d bit).2.1.buffer = d.buffer.set (write_position d) v)
      ∧ (∀ i, d.buffer_size ≤ i →
          (spooky_decoder_step d bit).2.1.buffer.getD i 0 = d.buffer.getD i 0)
      ∧ (spooky_decoder_step d bit).2.1.buffer.length = d.buffer.length := by
  have hinv := decoder_inv_reachable d hr
  have h16 := hinv.size_lo
  have hmod : d.index % 16 < 16 := Nat.mod_lt _ (by decide)
  have hpay : d.mode = RX_PAYLOAD →
      d.index < d.payload_length ∧ d.payload_length ≤ d.buffer_size :=
    fun hm => ⟨hinv.index_ok hm, (hinv.length_ok (Or.inr hm)).2⟩
  have hpos : write_position d < d.buffer_size := by
    unfold write_position
    split_ifs with hm
    · have := hpay hm; omega
    · omega
  have hw : (spooky_decoder_step d bit).2.1.buffer = d.buffer
      ∨ ∃ v, (spooky_decoder_step d bit).2.1.buffer = d.buffer.set (write_position d) v := by
    unfold write_position
    rcases step_buffer_write d bit with h | ⟨hm, h⟩ | ⟨hm, h⟩
    · left; exact h
    · right; rw [if_neg hm]; exact h
    · right; rw [if_pos hm]; exact h
  refine ⟨h16, hmod, hpay, hpos, hw, ?_, ?_⟩
  · intro i hi
    rcases hw with h | ⟨v, h⟩
    · rw [h]
    · rw [h]
      exact getD_set_of_ne _ _ _ _ (by omega)
  · rcases hw with h | ⟨v, h⟩
    · rw [h]
    · rw [h, List.length_set]

theorem decoder_writes_in_bounds_witness :
    write_position pre_lock_decoder < pre_lock_decoder.buffer_size
      ∧ ((spooky_decoder_step pre_lock_decoder true).2.1.buffer = pre_lock_decoder.buffer
          ∨ ∃ v, (spooky_decoder_step pre_lock_decoder true).2.1.buffer
              = pre_lock_decoder.buffer.set (write_position pre_lock_decoder) v) :=
  ⟨(decoder_writes_in_bounds pre_lock_decoder true pre_lock_reachable).2.2.2.1,
    (decoder_writes_in_bounds pre_lock_decoder true pre_lock_reachable).2.2.2.2.1⟩

/-- An edge in HEADER while the sentinel is in the ring: with `index < 16` and
slot 0 holding 255 (or about to get it, when `index = 0`), the step stays in
HEADER, advances `index` and leaves 255 in slot 0. -/
theorem sentinel_edge_step (d : spooky_decoder) (x : Bool) (hm : d.mode = RX_HEADER)
    (hk : d.index < 16) (hlen : 16 ≤ d.buffer.length)
    (h0 : 1 ≤ d.index → d.buffer.getD 0 0 = 255) (hx : bool_val x ≠ d.last) :
    (spooky_decoder_step d x).2.2 = []
      ∧ (spooky_decoder_step d x).2.1.mode = RX_HEADER
      ∧ (spooky_decoder_step d x).2.1.index = d.index + 1
      ∧ (spooky_decoder_step d x).2.1.last = bool_val x
      ∧ (spooky_decoder_step d x).2.1.buffer
          = d.buffer.set d.index (if d.index = 0 then 255 else (d.ticks + 1) % 256)
      ∧ (spooky_decoder_step d x).2.1.buffer.getD 0 0 = 255 := by
  obtain ⟨m, bs, mode, t, bi, acc, last, iv, pl, ck, pre, buf, u⟩ := d
  simp only at hm hk hlen h0 hx
  subst hm
  have hstep := header_edge_step_gen m bs t bi acc last iv pl ck pre buf u x hx
  have hm16 : m % 16 = m := Nat.mod_eq_of_lt hk
  have hm1 : (m + 1) % 65536 = m + 1 := Nat.mod_eq_of_lt (by omega)
  rw [hm16, hm1] at hstep
  have hslot : (buf.set m (if m = 0 then 255 else (t + 1) % 256)).getD 0 0 = 255 := by
    by_cases hz : m = 0
    · subst hz
      simp only [if_true, List.getD_eq_getElem?_getD, List.getElem?_set]
      have : 0 < buf.length := by omega
      simp [this]
    · rw [getD_set_of_ne _ _ _ _ hz]
      exact h0 (by omega)
  have hmem : 255 ∈ ring_window (buf.set m (if m = 0 then 255 else (t + 1) % 256)) (m + 1) := by
    unfold ring_window
    rw [List.mem_map]
    refine ⟨15 - m, List.mem_range.mpr (by omega), ?_⟩
    have : (m + 1 + (15 - m)) % 16 = 0 := by
      have : m + 1 + (15 - m) = 16 := by omega
      rw [this]
    rw [this]
    exact hslot
  have hno : ¬ (scan_list (ring_window (buf.set m (if m = 0 then 255 else (t + 1) % 256))
      (m + 1)) 0 0 0 0).1 = 8 := by
    have := scan_sentinel _ 0 0 0 (by simp [ring_window_length]) hmem
    omega
  rw [if_neg hno] at hstep
  rw [hstep]
  exact ⟨rfl, rfl, rfl, rfl, rfl, hslot⟩

/-- While at most sixteen edges have been seen since `index` was 0, the
decoder stays in HEADER and invokes no callback. -/
theorem sentinel_holds (xs : List Bool) :
    ∀ (d : spooky_decoder), d.mode = RX_HEADER → 16 ≤ d.buffer.length →
      (1 ≤ d.index → d.buffer.getD 0 0 = 255) →
      d.index + count_edges xs d.last ≤ 16 →
      (decoder_feed xs d).1.mode = RX_HEADER ∧ (decoder_feed xs d).2 = []
        ∧ (decoder_feed xs d).1.index = d.index + count_edges xs d.last := by
  induction xs with
  | nil => intro d hm _ _ _; exact ⟨hm, rfl, rfl⟩
  | cons x xs ih =>
    intro d hm hlen h0 hc
    rw [decoder_feed]
    simp only [count_edges] at hc ⊢
    by_cases hx : bool_val x = d.last
    · have hstep := header_same_step d x hm hx
      have hc' : d.index + count_edges xs d.last ≤ 16 := by simpa [hx] using hc
      have := ih (ticked d) hm hlen h0 hc'
      rw [hstep]
      simp only [hx, ne_eq, not_true_eq_false, if_false, Nat.zero_add, List.nil_append]
      exact this
    · simp only [hx, ne_eq, not_false_eq_true, if_true] at hc ⊢
      obtain ⟨h1, h2, h3, h4, h5, h6⟩ :=
        sentinel_edge_step d x hm (by omega) hlen h0 hx
      have hlen' : 16 ≤ (spooky_decoder_step d x).2.1.buffer.length := by
        rw [h5, List.length_set]; exact hlen
      have := ih (spooky_decoder_step d x).2.1 h2 hlen' (fun _ => h6)
        (by rw [h3, h4]; omega)
      rw [h3, h4] at this
      rw [h1]
      refine ⟨this.1, by simpa using this.2.1, ?_⟩
      rw [this.2.2]; omega

/-- The state after a step that returns `DONE`: reset to HEADER with
`index = 0`. -/
theorem done_state (d : spooky_decoder) (bit : Bool)
    (h : (spooky_decoder_step d bit).1 = SPOOKY_DECODER_STEP_DONE) :
    (spooky_decoder_step d bit).2.1.mode = RX_HEADER
      ∧ (spooky_decoder_step d bit).2.1.index = 0 := by
  have hc : completes_payload d bit := by
    by_contra hc
    rw [(step_outcome d bit).1, if_neg hc] at h
    cases h
  obtain ⟨hm, he, hb, hi⟩ := hc
  rw [step_payload_mode d bit hm]
  simp only
  rw [sbwc_bit_edge (ticked d) bit payload_byte_cb false he]
  have hs1 : (sink_bit (edge_state (ticked d) bit false) bit).1 ≠ 0 := by
    rw [sink_bit_eq]
    have : (edge_state (ticked d) bit false).bit_index = d.bit_index := rfl
    simp [this, hb]
  rw [if_pos hs1]
  simp only
  rw [payload_byte_cb_eq]
  have hidx : (sink_bit (edge_state (ticked d) bit false) bit).2.index = d.index := by
    rw [(sink_bit_buffer _ bit).2]; rfl
  have hpl : (sink_bit (edge_state (ticked d) bit false) bit).2.payload_length
      = d.payload_length := by
    rw [sink_bit_eq]; rfl
  rw [hidx, hpl, if_pos hi]
  exact ⟨rfl, rfl⟩

/-- C34. Sentinel blocks false matches: from a freshly initialised decoder,
and from the state right after a step that returned `DONE` (a completed
frame), the decoder is in HEADER with `index = 0`; the next edge stores 255 in
ring slot 0, and whatever bytes the buffer holds, the decoder is still in
HEADER, without a callback, after any samples with at most sixteen edges:
clock recovery can succeed on the seventeenth edge at the earliest. -/
theorem sentinel_blocks_false_matches (d : spooky_decoder) (xs : List Bool)
    (hstart :
      (∃ mem buf bs u, spooky_decoder_init (some mem) (some buf) bs (some ()) u
          = (SPOOKY_DECODER_INIT_OK, some d))
        ∨ (∃ d0 bit, (spooky_decoder_step d0 bit).1 = SPOOKY_DECODER_STEP_DONE
            ∧ (spooky_decoder_step d0 bit).2.1 = d))
    (hlen : 16 ≤ d.buffer.length) (hc : count_edges xs d.last ≤ 16) :
    d.mode = RX_HEADER ∧ d.index = 0
      ∧ (∀ x, bool_val x ≠ d.last →
          (spooky_decoder_step d x).2.1.buffer = d.buffer.set 0 255
            ∧ (spooky_decoder_step d x).2.1.buffer.getD 0 0 = 255
            ∧ (spooky_decoder_step d x).2.1.index = 1
            ∧ (spooky_decoder_step d x).2.1.mode = RX_HEADER)
      ∧ (decoder_feed xs d).1.mode = RX_HEADER
      ∧ (decoder_feed xs d).2 = [] := by
  have hst : d.mode = RX_HEADER ∧ d.index = 0 := by
    rcases hstart with ⟨mem, buf, bs, u, hinit⟩ | ⟨d0, bit, hdone, hd⟩
    · by_cases hb : bs < 16 ∨ bs > 255
      · simp [spooky_decoder_init, SPOOKY_DECODER_MIN_BUFFER_SIZE,
          SPOOKY_DECODER_MAX_BUFFER_SIZE, hb] at hinit
      · rw [decoder_init_eq mem buf bs u (by omega) (by omega)] at hinit
        have h := (Prod.mk.inj hinit).2
        simp only [Option.some.injEq] at h
        subst h
        exact ⟨rfl, rfl⟩
    · rw [← hd]
      exact done_state d0 bit hdone
  obtain ⟨hm, hi⟩ := hst
  have h0 : 1 ≤ d.index → d.buffer.getD 0 0 = 255 := by
    intro h; omega
  refine ⟨hm, hi, ?_, ?_⟩
  · intro x hx
    obtain ⟨_, h2, h3, _, h5, h6⟩ := sentinel_edge_step d x hm (by omega) hlen h0 hx
    rw [hi] at h5 h3
    exact ⟨by simpa using h5, h6, h3, h2⟩
  · have := sentinel_holds xs d hm hlen h0 (by omega)
    exact ⟨this.1, this.2.1⟩

theorem sentinel_blocks_false_matches_witness :
    count_edges seventeen_edges.dropLast test_decoder.last = 16
      ∧ (decoder_feed seventeen_edges.dropLast test_decoder).1.mode = RX_HEADER
      ∧ count_edges seventeen_edges test_decoder.last = 17
      ∧ (decoder_feed seventeen_edges test_decoder).1.mode = RX_LENGTH :=
  ⟨by decide,
    (sentinel_blocks_false_matches test_decoder seventeen_edges.dropLast
      (Or.inl ⟨dec_zero, List.replicate 32 0, 32, 0, by decide⟩)
      (by decide) (by decide)).2.2.2.1,
    by decide,
    by set_option maxRecDepth 100000 in decide⟩

/-- The two commands of every bit of a Manchester-coded run differ. -/
theorem manchester_pair_differs (bits : List Bool) :
    ∀ j, 2 * j + 1 < (bits.flatMap manchester_bit).length →
      (bits.flatMap manchester_bit)[2 * j]? ≠ (bits.flatMap manchester_bit)[2 * j + 1]? := by
  induction bits with
  | nil => intro j h; simp at h
  | cons b bits ih =>
    intro j h
    have hcons : (b :: bits).flatMap manchester_bit
        = (if b then SPOOKY_ENCODER_STEP_OK_LOW else SPOOKY_ENCODER_STEP_OK_HIGH)
          :: (if b then SPOOKY_ENCODER_STEP_OK_HIGH else SPOOKY_ENCODER_STEP_OK_LOW)
          :: bits.flatMap manchester_bit := by
      cases b <;> simp [List.flatMap_cons, manchester_bit]
    rw [hcons] at h ⊢
    cases j with
    | zero =>
      cases b <;> simp
    | succ j =>
      simp only [List.length_cons] at h
      have e1 : 2 * (j + 1) = (2 * j + 1) + 1 := by omega
      have e2 : 2 * (j + 1) + 1 = (2 * j + 1 + 1) + 1 := by omega
      rw [e2, List.getElem?_cons_succ, List.getElem?_cons_succ, e1,
        List.getElem?_cons_succ, List.getElem?_cons_succ]
      exact ih j (by omega)

/-- In a list whose pairs differ, no three consecutive entries
are equal. -/
theorem no_three_equal (L : List spooky_encoder_step_res)
    (hp : ∀ j, 2 * j + 1 < L.length → L[2 * j]? ≠ L[2 * j + 1]?) :
    ∀ i, i + 2 < L.length → ¬ (L[i]? = L[i + 1]? ∧ L[i + 1]? = L[i + 2]?) := by
  intro i hi ⟨h1, h2⟩
  rcases Nat.even_or_odd' i with ⟨j, hj | hj⟩
  · subst hj
    exact hp j (by omega) h1
  · subst hj
    have := hp (j + 1) (by omega)
    have e1 : 2 * (j + 1) = 2 * j + 1 + 1 := by omega
    rw [e1] at this
    exact this h2

/-- C35. Self-clocking output: for every payload `P` with
`1 ≤ |P| ≤ buffer_size`, the `64 + 16 |P|` edge commands the encoder emits for
the frame (at any `tx_rate`) are such that the two commands of every bit
period (commands `2j+1` and `2j+2`, counted from 1) differ, and no three
consecutive commands are equal. -/
theorem self_clocking_output (enc : spooky_encoder) (P : List Nat) (hm : enc.mode = TX_NONE)
    (hr : enc.tx_rate ≤ 255) (ht : enc.ticks < enc.tx_rate) (hP1 : 1 ≤ P.length)
    (hPb : P.length ≤ enc.buffer_size) (hbs : enc.buffer_size ≤ 255)
    (hbuf : enc.buffer_size ≤ enc.buffer.length) (M : Nat)
    (hM : enc.tx_rate * (64 + 16 * P.length) + enc.tx_rate ≤ M) :
    (spooky_encoder_enqueue enc P P.length).1 = SPOOKY_ENCODER_ENQUEUE_OK
      ∧ (frame_commands enc P M).length = 64 + 16 * P.length
      ∧ (∀ c ∈ frame_commands enc P M,
          c = SPOOKY_ENCODER_STEP_OK_LOW ∨ c = SPOOKY_ENCODER_STEP_OK_HIGH)
      ∧ (∀ j, 2 * j + 1 < (frame_commands enc P M).length →
          (frame_commands enc P M)[2 * j]? ≠ (frame_commands enc P M)[2 * j + 1]?)
      ∧ (∀ i, i + 2 < (frame_commands enc P M).length →
          ¬ ((frame_commands enc P M)[i]? = (frame_commands enc P M)[i + 1]?
              ∧ (frame_commands enc P M)[i + 1]? = (frame_commands enc P M)[i + 2]?)) := by
  obtain ⟨index, r, bs, n, t, mode, c, B⟩ := enc
  simp only at hm hr ht hPb hbs hbuf hM
  subst hm
  have hf := (frame_edge_commands r t hr ht bs c B P hP1 (by omega) (by omega) M
    (by omega)).2
  have hfc : frame_commands ⟨index, r, bs, n, t, TX_NONE, c, B⟩ P M
      = (frame_bits P).flatMap manchester_bit := by
    unfold frame_commands
    rw [enqueue_ok_state _ _ _ rfl hPb]
    rw [← wire_frame_bits]
    exact hf
  have hlen : ((frame_bits P).flatMap manchester_bit).length = 64 + 16 * P.length := by
    rw [← wire_frame_bits, wire_frame_length]
  have hpair := manchester_pair_differs (frame_bits P)
  refine ⟨(enqueue_ok_iff _ _ _).2 ⟨rfl, hPb⟩, ?_, ?_, ?_, ?_⟩
  · rw [hfc, hlen]
  · intro c hc
    unfold frame_commands edge_commands at hc
    have := (List.mem_filter.mp hc).2
    simpa [is_edge_command] using this
  · rw [hfc]; exact hpair
  · rw [hfc]
    exact no_three_equal _ hpair

theorem self_clocking_output_witness :
    (frame_commands ⟨0, 3, 32, 0, 0, TX_NONE, 0, List.replicate 32 0⟩ [0xaa, 0x00] 291).length
        = 64 + 16 * [0xaa, 0x00].length
      ∧ (∀ i, i + 2
            < (frame_commands ⟨0, 3, 32, 0, 0, TX_NONE, 0, List.replicate 32 0⟩ [0xaa, 0x00]
                291).length →
          ¬ ((frame_commands ⟨0, 3, 32, 0, 0, TX_NONE, 0, List.replicate 32 0⟩ [0xaa, 0x00]
                291)[i]?
              = (frame_commands ⟨0, 3, 32, 0, 0, TX_NONE, 0, List.replicate 32 0⟩ [0xaa, 0x00]
                291)[i + 1]?
            ∧ (frame_commands ⟨0, 3, 32, 0, 0, TX_NONE, 0, List.replicate 32 0⟩ [0xaa, 0x00]
                291)[i + 1]?
              = (frame_commands ⟨0, 3, 32, 0, 0, TX_NONE, 0, List.replicate 32 0⟩ [0xaa, 0x00]
                291)[i + 2]?)) :=
  ⟨(self_clocking_output ⟨0, 3, 32, 0, 0, TX_NONE, 0, List.replicate 32 0⟩ [0xaa, 0x00] rfl
      (by decide) (by decide) (by decide) (by decide) (by decide) (by decide) 291
      (by decide)).2.1,
    (self_clocking_output ⟨0, 3, 32, 0, 0, TX_NONE, 0, List.replicate 32 0⟩ [0xaa, 0x00] rfl
      (by decide) (by decide) (by decide) (by decide) (by decide) (by decide) 291
      (by decide)).2.2.2.2⟩

theorem never_payload_append (xs ys : List Bool) :
    ∀ d, never_payload (xs ++ ys) d = true →
      never_payload xs d = true ∧ never_payload ys (decoder_feed xs d).1 = true := by
  induction xs with
  | nil => intro d h; exact ⟨rfl, h⟩
  | cons x xs ih =>
    intro d h
    simp only [List.cons_append, never_payload, Bool.and_eq_true] at h ⊢
    have := ih _ h.2
    exact ⟨⟨h.1, this.1⟩, this.2⟩

theorem never_payload_mode (xs : List Bool) :
    ∀ d, xs ≠ [] → never_payload xs d = true → (decoder_feed xs d).1.mode ≠ RX_PAYLOAD := by
  induction xs with
  | nil => intro d h; exact absurd rfl h
  | cons x xs ih =>
    intro d _ h
    simp only [never_payload, Bool.and_eq_true, decide_eq_true_eq] at h
    rw [decoder_feed]
    by_cases hx : xs = []
    · subst hx
      simpa [decoder_feed] using h.1
    · exact ih _ hx h.2

theorem good_interval_facts (s a : Nat) (hs2 : 2 ≤ s) (hs : s ≤ 127) (h : good_interval s a) :
    a ≤ 255 ∧ approx_eq (s : Int) (a : Int) = true
      ∧ ¬ approx_eq ((2 * s : Nat) : Int) (a : Int) = true
      ∧ approx_eq ((2 * s : Nat) : Int) ((2 * a : Nat) : Int) = true := by
  obtain ⟨h1, h2⟩ := h
  refine ⟨by omega, ?_, ?_, ?_⟩
  · rw [approx_eq_nat]; split_ifs <;> omega
  · rw [approx_eq_nat]; split_ifs <;> omega
  · rw [approx_eq_nat]; split_ifs <;> omega

/-- A setup edge in LENGTH or CHKSUM, with the ring slot it writes. -/
theorem setup_step_ring (m bs : Nat) (mode : rx_mode) (t bi acc last a pl ck : Nat)
    (buf : List Nat) (u : Nat) (x : Bool) (hm : mode = RX_LENGTH ∨ mode = RX_CHKSUM)
    (hx : bool_val x ≠ last) (ht : t + 1 < 256)
    (ha : approx_eq ((t + 1 : Nat) : Int) (a : Int) = true) (hm0 : m ≠ 0)
    (hm1 : m + 1 < 65536) :
    spooky_decoder_step ⟨m, bs, mode, t, bi, acc, last, a, pl, ck, 0, buf, u⟩ x
      = (SPOOKY_DECODER_STEP_OK,
          ⟨m + 1, bs, mode, t + 1, bi, acc, bool_val x, a, pl, ck, t + 1,
            buf.set (m % 16) (t + 1), u⟩, []) := by
  have hidx : (m &&& 15) = m % 16 := by
    have := Nat.and_pow_two_sub_one_eq_mod m 4
    simpa using this
  have hv : ((((t + 1 : Nat) : Int) - ((0 % 256 : Nat) : Int)) % 256).toNat = t + 1 := by
    omega
  have hmm : (m + 1) % 65536 = m + 1 := Nat.mod_eq_of_lt hm1
  have key : ∀ (cb : byte_cb), sink_bit_with_cb
      ⟨m, bs, mode, t + 1, bi, acc, last, a, pl, ck, 0, buf, u⟩ x cb true
      = (0, ⟨m + 1, bs, mode, t + 1, bi, acc, bool_val x, a, pl, ck, t + 1,
              buf.set (m % 16) (t + 1), u⟩, []) := by
    intro cb
    unfold sink_bit_with_cb
    simp only [hx, if_false, ha, and_self, if_true, append_to_ring_buffer, RING_BUF_MASK,
      RING_BUF_SZ, MAX_POSSIBLE_DELAY, hidx, hv, hmm, hm0, show (16 : Nat) - 1 = 15 from rfl]
  rcases hm with h | h
  · subst h
    rw [step_length_mode _ x rfl, ticked_eq _ _ _ _ _ _ _ _ _ _ _ _ _ ht, key]
  · subst h
    rw [step_chksum_mode _ x rfl, ticked_eq _ _ _ _ _ _ _ _ _ _ _ _ _ ht, key]

/-- The state handed to `sink_bit` at a bit edge in LENGTH or CHKSUM, with the
ring slot it writes. -/
theorem edge_state_ring (m bs : Nat) (mode : rx_mode) (t bi acc last a pl ck p : Nat)
    (buf : List Nat) (u : Nat) (b : Bool) (hm0 : m ≠ 0) (hm1 : m + 1 < 65536) (hp : p ≤ t)
    (ht : t < 256) :
    edge_state ⟨m, bs, mode, t, bi, acc, last, a, pl, ck, p, buf, u⟩ b true
      = ⟨m + 1, bs, mode, 0, bi, acc, bool_val b, a, pl, ck, 0, buf.set (m % 16) (t - p), u⟩ := by
  have hidx : (m &&& 15) = m % 16 := by
    have := Nat.and_pow_two_sub_one_eq_mod m 4
    simpa using this
  have hv : (((t : Int) - ((p % 256 : Nat) : Int)) % 256).toNat = t - p := by
    omega
  have hmm : (m + 1) % 65536 = m + 1 := Nat.mod_eq_of_lt hm1
  unfold edge_state
  simp only [if_true, append_to_ring_buffer, RING_BUF_MASK, RING_BUF_SZ, MAX_POSSIBLE_DELAY, hidx,
    hv, hmm, hm0, if_false, show (16 : Nat) - 1 = 15 from rfl]

theorem window_push_one (w : List Nat) (g : Nat) (hw : w.length = 16) :
    w.tail ++ [g] = (w ++ [g]).drop 1 := by
  cases w with
  | nil => simp at hw
  | cons a w => simp

theorem window_push_two (w : List Nat) (g1 g2 : Nat) (hw : w.length = 16) :
    (w.tail ++ [g1]).tail ++ [g2] = (w ++ [g1, g2]).drop 2 := by
  cases w with
  | nil => simp at hw
  | cons a w =>
    cases w with
    | nil => simp at hw
    | cons a' w => simp

/-- The samples of a bit up to its bit edge, in LENGTH or CHKSUM with a good
interval: the decoder arrives at a bit edge, and the state handed to `sink_bit`
has the gaps of the bit pushed into the ring. -/
theorem chunk_arrive_ring (s a : Nat) (hs2 : 2 ≤ s) (hs : s ≤ 127) (hg : good_interval s a)
    (m bs : Nat) (mode : rx_mode) (hm : mode = RX_LENGTH ∨ mode = RX_CHKSUM) (bi acc : Nat)
    (prev b : Bool) (pl ck : Nat) (buf : List Nat) (u : Nat) (hlen : 16 ≤ buf.length)
    (hm0 : 1 ≤ m) (hm2 : m + 2 < 65536) :
    ∃ dpre buf',
      decoder_feed (chunk_init s prev b)
          ⟨m, bs, mode, 0, bi, acc, bool_val prev, a, pl, ck, 0, buf, u⟩ = (dpre, [])
      ∧ dpre.mode = mode ∧ bit_edge (ticked dpre) b
      ∧ edge_state (ticked dpre) b true
          = ⟨m + (one_bit_gaps s prev b).length, bs, mode, 0, bi, acc, bool_val b, a, pl, ck, 0,
              buf', u⟩
      ∧ buf'.length = buf.length
      ∧ ring_window buf' (m + (one_bit_gaps s prev b).length)
          = (ring_window buf m ++ one_bit_gaps s prev b).drop (one_bit_gaps s prev b).length := by
  obtain ⟨ha255, hap1, hap2, hap3⟩ := good_interval_facts s a hs2 hs hg
  have hsa : s ≤ a := hg.1
  have hmh : mode ≠ RX_HEADER := by rcases hm with h | h <;> rw [h] <;> simp
  have hwl := ring_window_length buf m
  by_cases hb : b = prev
  · subst hb
    have hne : bool_val (!b) ≠ bool_val b := bool_val_ne _ _ (by cases b <;> simp)
    have hq1 := data_quiet_run (s - 1)
      ⟨m, bs, mode, 0, bi, acc, bool_val b, a, pl, ck, 0, buf, u⟩ b hmh rfl
      (by simp only; omega) (by simp) (by simp only; omega) (by simp only; omega)
    simp only [Nat.zero_add] at hq1
    have hrep : List.replicate s (!b) = (!b) :: List.replicate (s - 1) (!b) := by
      obtain ⟨k, rfl⟩ : ∃ k, s = k + 1 := ⟨s - 1, by omega⟩
      simp [List.replicate_succ]
    have hst := setup_step_ring m bs mode (s - 1) bi acc (bool_val b) a pl ck buf u (!b) hm hne
      (by omega) (by rw [Nat.sub_add_cancel (by omega)]; exact hap1) (by omega) (by omega)
    rw [Nat.sub_add_cancel (by omega : 1 ≤ s)] at hst
    have hq2 := data_quiet_run (s - 1)
      ⟨m + 1, bs, mode, s, bi, acc, bool_val (!b), a, pl, ck, s, buf.set (m % 16) s, u⟩ (!b)
      hmh rfl (by simp only; omega) (by simp) (by simp only; omega) (by simp only; omega)
    have hfeed : decoder_feed (chunk_init s b b)
        ⟨m, bs, mode, 0, bi, acc, bool_val b, a, pl, ck, 0, buf, u⟩
        = (⟨m + 1, bs, mode, s + (s - 1), bi, acc, bool_val (!b), a, pl, ck, s,
              buf.set (m % 16) s, u⟩, []) := by
      unfold chunk_init
      rw [decoder_feed_append_of _ _ _ _ hq1, hrep, decoder_feed, hst]
      simp only [List.nil_append]
      rw [hq2]
    have htk := ticked_eq (m + 1) bs mode (s + (s - 1)) bi acc (bool_val (!b)) a pl ck s
      (buf.set (m % 16) s) u (by omega)
    have h2s' : s + (s - 1) + 1 = 2 * s := by omega
    rw [h2s'] at htk
    have hes := edge_state_ring (m + 1) bs mode (2 * s) bi acc (bool_val (!b)) a pl ck s
      (buf.set (m % 16) s) u b (by omega) (by omega) (by omega) (by omega)
    have h2ss : 2 * s - s = s := by omega
    rw [h2ss] at hes
    have hgl : one_bit_gaps s b b = [s, s] := by simp [one_bit_gaps]
    rw [hgl]
    refine ⟨_, (buf.set (m % 16) s).set ((m + 1) % 16) s, hfeed, rfl, ?_, ?_, by simp, ?_⟩
    · rw [htk]
      refine ⟨fun h => hne h.symm, fun h => ?_, hap3⟩
      have := h.2
      simp only at this
      omega
    · rw [htk, hes]
      rfl
    · simp only [List.length_cons, List.length_nil]
      rw [show m + (0 + 1 + 1) = m + 1 + 1 by omega,
        ring_window_push _ (m + 1) s (by simp; omega), ring_window_push buf m s hlen,
        window_push_two _ s s hwl]
  · have hnb : (!b) = prev := by cases b <;> cases prev <;> simp_all
    have hne : bool_val b ≠ bool_val prev := bool_val_ne _ _ hb
    have hq := data_quiet_run (s - 1 + s)
      ⟨m, bs, mode, 0, bi, acc, bool_val prev, a, pl, ck, 0, buf, u⟩ prev hmh rfl
      (by simp only; omega) (by simp) (by simp only; omega) (by simp only; omega)
    simp only [Nat.zero_add] at hq
    have hfeed : decoder_feed (chunk_init s prev b)
        ⟨m, bs, mode, 0, bi, acc, bool_val prev, a, pl, ck, 0, buf, u⟩
        = (⟨m, bs, mode, s - 1 + s, bi, acc, bool_val prev, a, pl, ck, 0, buf, u⟩, []) := by
      unfold chunk_init
      rw [hnb, ← List.replicate_add, hq]
    have htk := ticked_eq m bs mode (s - 1 + s) bi acc (bool_val prev) a pl ck 0 buf u
      (by omega)
    have h2s : s - 1 + s + 1 = 2 * s := by omega
    rw [h2s] at htk
    have hes := edge_state_ring m bs mode (2 * s) bi acc (bool_val prev) a pl ck 0 buf u b
      (by omega) (by omega) (by omega) (by omega)
    rw [Nat.sub_zero] at hes
    have hgl : one_bit_gaps s prev b = [2 * s] := by simp [one_bit_gaps, hb]
    rw [hgl]
    refine ⟨_, buf.set (m % 16) (2 * s), hfeed, rfl, ?_, ?_, by simp, ?_⟩
    · rw [htk]
      exact ⟨hne, fun h => hap2 h.1, hap3⟩
    · rw [htk, hes]
      rfl
    · simp only [List.length_cons, List.length_nil]
      rw [show m + (0 + 1) = m + 1 by omega, ring_window_push buf m (2 * s) hlen,
        window_push_one _ _ hwl]

/-- A window of true gaps that passes the scan gives a good interval. -/
theorem lock_good (s : Nat) (hs2 : 2 ≤ s) (hs : s ≤ 127) (w : List Nat)
    (hw : clean_window s w) (h8 : (scan_list w 0 0 0 0).1 = 8) :
    good_interval s (scan_list w 0 0 0 0).2 := by
  obtain ⟨hlen, hc⟩ := hw
  rcases hc with ⟨junk, gs, rfl, _⟩ | hall
  · have := scan_sentinel (junk ++ 255 :: gs) 0 0 0 (by omega) (by simp)
    omega
  · have hb : ∀ x ∈ w, x < 256 := by
      intro x hx; rcases hall x hx with rfl | rfl <;> omega
    obtain ⟨hiff, havg, _⟩ := scan_lock_iff w hlen hb
    obtain ⟨_, _, hap⟩ := hiff.mp h8
    rw [havg h8]
    have htl : (w.take 8).length = 8 := by simp [hlen]
    have hlo : ∀ x ∈ w.take 8, s ≤ x := by
      intro x hx
      rcases hall x (List.mem_of_mem_take hx) with rfl | rfl <;> omega
    have hs1 := sum_ge_of_mem s _ hlo
    rw [htl] at hs1
    have hge : s ≤ window_avg w := by
      unfold window_avg
      rw [Nat.le_div_iff_mul_le (by decide)]; omega
    have hne : w.drop 8 ≠ [] := by
      intro h0
      have : (w.drop 8).length = 8 := by simp [hlen]
      rw [h0] at this; simp at this
    obtain ⟨x, hx⟩ := List.exists_mem_of_ne_nil _ hne
    have hx2 := hap x hx
    rcases hall x (List.mem_of_mem_drop hx) with rfl | rfl
    · exact absurd hx2 (not_approx_eq_half _ _ hs2 hge)
    · rw [approx_eq_nat] at hx2
      refine ⟨hge, ?_⟩
      split_ifs at hx2 <;> omega

/-- The gap that locks, with the ring window after it. -/
theorem hdr_lock_ring (d : spooky_decoder) (m B u : Nat) (w : List Nat) (lvl : Bool)
    (g avg : Nat) (h : hdr_state d m B u w lvl) (hB : 16 ≤ B) (hm1 : 1 ≤ m)
    (hm : m + 1 < 65536) (hg1 : 1 ≤ g) (hg : g < 256) (havg : avg < 256)
    (hlock : scan_list (w.tail ++ [g]) 0 0 0 0 = (8, avg)) :
    ∃ buf', buf'.length = B ∧ ring_window buf' (m + 1) = w.tail ++ [g]
      ∧ decoder_feed (gap_run g lvl) d
        = (⟨m + 1, B, RX_LENGTH, 0, 0x80, 0, bool_val (!lvl), avg, 0, 0, 0, buf', u⟩, []) := by
  obtain ⟨buf, hlen, hw, rfl⟩ := h
  have hq := header_quiet_run (g - 1)
    ⟨m, B, RX_HEADER, 0, 0x80, 0, bool_val lvl, 0, 0, 0, 0, buf, u⟩ lvl rfl rfl
    (by simp only; omega)
  simp only [Nat.zero_add] at hq
  have hm0 : ¬ m = 0 := by omega
  have hg' : g - 1 + 1 = g := by omega
  have hwin : ring_window (buf.set (m % 16) g) (m + 1) = w.tail ++ [g] := by
    rw [ring_window_push buf m g (by omega), hw]
  have hstep := header_edge_step m B (g - 1) 0x80 0 (bool_val lvl) 0 0 0 0 buf u (!lvl)
    (bool_val_not_ne lvl) (by omega) hm
  simp only [hm0, if_false, hg', hwin, hlock, if_true, Nat.mod_eq_of_lt havg] at hstep
  refine ⟨buf.set (m % 16) g, by simpa using hlen, hwin, ?_⟩
  unfold gap_run
  rw [decoder_feed_append_of _ _ _ _ hq, decoder_feed_single, hstep]

theorem chunk_gaps (s : Nat) (hs : 1 ≤ s) (prev b : Bool) :
    chunk_init s prev b ++ [b] = gaps_stream (one_bit_gaps s prev b) prev := by
  have h := bits_stream_gaps s hs [b] prev
  simp only [bits_stream, bit_gaps, List.append_nil] at h
  exact h

theorem clean_window_one_bit (s : Nat) (w : List Nat) (prev b : Bool) (hw : clean_window s w) :
    clean_window s ((w ++ one_bit_gaps s prev b).drop (one_bit_gaps s prev b).length) := by
  apply clean_window_pushes s _ w hw
  intro x hx
  unfold one_bit_gaps at hx
  split_ifs at hx <;> simp at hx <;> omega

theorem getD_last_16 (w : List Nat) (g : Nat) (hw : w.length = 16) :
    (w.tail ++ [g]).getD 15 0 = g := by
  have h : w.tail.length = 15 := by simp [hw]
  rw [List.getD_eq_getElem?_getD, List.getElem?_append_right (by omega), h]
  simp

/-- One bit in HEADER: the gaps of the bit are pushed into the window, and the
decoder locks exactly when the window then passes the scan. -/
theorem sync_bit_hdr (s B u : Nat) (hs2 : 2 ≤ s) (hs : s ≤ 127) (hB : 16 ≤ B) (m : Nat)
    (buf : List Nat) (prev b : Bool) (hlen : buf.length = B) (hm1 : 1 ≤ m)
    (hm2 : m + 2 < 65536) (hw : clean_window s (ring_window buf m)) :
    ∃ buf', buf'.length = B
      ∧ ring_window buf' (m + (one_bit_gaps s prev b).length)
          = (ring_window buf m ++ one_bit_gaps s prev b).drop (one_bit_gaps s prev b).length
      ∧ ∃ k', sync_next B
            ((ring_window buf m ++ one_bit_gaps s prev b).drop (one_bit_gaps s prev b).length)
            b sync_kind.hdr = some k'
          ∧ sync_ok s k'
          ∧ decoder_feed (chunk_init s prev b ++ [b]) (sync_state B u m buf prev sync_kind.hdr)
              = (sync_state B u (m + (one_bit_gaps s prev b).length) buf' b k', []) := by
  have hwl := ring_window_length buf m
  have hst : hdr_state (sync_state B u m buf prev sync_kind.hdr) m B u (ring_window buf m) prev :=
    ⟨buf, hlen, rfl, rfl⟩
  rw [chunk_gaps s (by omega)]
  by_cases hb : b = prev
  · subst hb
    have hgl : one_bit_gaps s b b = [s, s] := by simp [one_bit_gaps]
    rw [hgl]
    have hc1 := clean_window_push s _ s hw (Or.inl rfl)
    have hno1 := clean_window_no_lock s hs2 hs _ hc1 15 (by omega) (by omega)
      (getD_last_16 _ s hwl)
    obtain ⟨d1, hf1, hst1⟩ := hdr_gap _ m B u _ b s hst hB hm1 (by omega) (by omega) (by omega)
      hno1
    have hc2 := clean_window_push s _ s hc1 (Or.inl rfl)
    have hno2 := clean_window_no_lock s hs2 hs _ hc2 15 (by omega) (by omega)
      (getD_last_16 _ s hc1.1)
    obtain ⟨d2, hf2, hst2⟩ := hdr_gap d1 (m + 1) B u _ (!b) s hst1 hB (by omega) (by omega)
      (by omega) (by omega) hno2
    obtain ⟨buf2, hlen2, hw2, rfl⟩ := hst2
    rw [window_push_two _ s s hwl] at hw2 hno2
    refine ⟨buf2, hlen2, hw2, sync_kind.hdr, ?_, trivial, ?_⟩
    · simp only [sync_next, List.length_cons, List.length_nil]
      rw [if_neg hno2]
    · simp only [gaps_stream, List.append_nil]
      rw [decoder_feed_append_of _ _ _ _ hf1, hf2, Bool.not_not]
      rfl
  · have hnb : (!prev) = b := by cases b <;> cases prev <;> simp_all
    have hgl : one_bit_gaps s prev b = [2 * s] := by simp [one_bit_gaps, hb]
    rw [hgl]
    have hc1 := clean_window_push s _ (2 * s) hw (Or.inr rfl)
    have hpush := window_push_one (ring_window buf m) (2 * s) hwl
    simp only [gaps_stream, List.append_nil, List.length_cons, List.length_nil]
    by_cases h8 : (scan_list ((ring_window buf m).tail ++ [2 * s]) 0 0 0 0).1 = 8
    · have hgood := lock_good s hs2 hs _ hc1 h8
      have ha := (good_interval_facts s _ hs2 hs hgood).1
      obtain ⟨buf', hlen', hw', hf⟩ := hdr_lock_ring _ m B u _ prev (2 * s)
        (scan_list ((ring_window buf m).tail ++ [2 * s]) 0 0 0 0).2 hst hB hm1 (by omega)
        (by omega) (by omega) (by omega) (Prod.ext h8 rfl)
      rw [hpush] at hw' h8 hgood hf
      refine ⟨buf', hlen', hw', sync_kind.len 0 0 _, ?_, ⟨hgood, by omega, fun _ => rfl⟩, ?_⟩
      · simp only [sync_next]
        rw [if_pos h8]
      · rw [hf, hnb]
        rfl
    · obtain ⟨d1, hf1, hst1⟩ := hdr_gap _ m B u _ prev (2 * s) hst hB hm1 (by omega) (by omega)
        (by omega) h8
      obtain ⟨buf1, hlen1, hw1, rfl⟩ := hst1
      rw [hpush] at hw1 h8
      refine ⟨buf1, hlen1, hw1, sync_kind.hdr, ?_, trivial, ?_⟩
      · simp only [sync_next]
        rw [if_neg h8]
      · rw [hf1, hnb]
        rfl

theorem mask_shift_ne (j : Nat) (hj : j < 7) : (0x80 >>> j) >>> 1 ≠ 0 := by
  interval_cases j <;> decide

theorem mask_shift_succ (j : Nat) : (0x80 >>> j) >>> 1 = 0x80 >>> (j + 1) := by
  rw [← Nat.shiftRight_add]

/-- One bit in LENGTH: the bit is sunk, and the eighth bit completes the length
byte, which is validated. -/
theorem sync_bit_len (s B u : Nat) (hs2 : 2 ≤ s) (hs : s ≤ 127) (hB : 16 ≤ B)
    (j acc a : Nat) (hk : sync_ok s (sync_kind.len j acc a)) (m : Nat)
    (buf : List Nat) (prev b : Bool) (hlen : buf.length = B) (hm1 : 1 ≤ m)
    (hm2 : m + 2 < 65536) :
    ∃ buf', buf'.length = B
      ∧ ring_window buf' (m + (one_bit_gaps s prev b).length)
          = (ring_window buf m ++ one_bit_gaps s prev b).drop (one_bit_gaps s prev b).length
      ∧ ∃ k', sync_next B
            ((ring_window buf m ++ one_bit_gaps s prev b).drop (one_bit_gaps s prev b).length)
            b (sync_kind.len j acc a) = some k'
          ∧ sync_ok s k'
          ∧ decoder_feed (chunk_init s prev b ++ [b])
              (sync_state B u m buf prev (sync_kind.len j acc a))
              = (sync_state B u (m + (one_bit_gaps s prev b).length) buf' b k', []) := by
  obtain ⟨hg, hj, _⟩ := hk
  obtain ⟨dpre, buf', hfeed, hmode, hedge, hes, hl, hwin⟩ :=
    chunk_arrive_ring s a hs2 hs hg m B RX_LENGTH (Or.inl rfl) (0x80 >>> j) acc prev b 0 0 buf u
      (by omega) hm1 hm2
  have hfeed' : decoder_feed (chunk_init s prev b)
      (sync_state B u m buf prev (sync_kind.len j acc a)) = (dpre, []) := hfeed
  refine ⟨buf', by rw [hl, hlen], hwin, ?_⟩
  rw [decoder_feed_append_of _ _ _ _ hfeed', decoder_feed_single]
  have hm' : dpre.mode ≠ RX_HEADER := by rw [hmode]; simp
  by_cases hj7 : j < 7
  · have hes' : edge_state (ticked dpre) b (decide (dpre.mode ≠ RX_PAYLOAD))
        = ⟨m + (one_bit_gaps s prev b).length, B, RX_LENGTH, 0, 0x80 >>> j, acc, bool_val b, a,
            0, 0, 0, buf', u⟩ := by
      rw [hmode]; exact hes
    refine ⟨sync_kind.len (j + 1) (if b then acc ||| (0x80 >>> j) else acc) a, ?_,
      ⟨hg, by omega, fun h => by omega⟩, ?_⟩
    · simp only [sync_next, if_pos hj7]
    · rw [step_edge_midbyte dpre b hm' hedge (by rw [hes']; exact mask_shift_ne j hj7), hes']
      simp only [stored_byte, mask_shift_succ]
      rfl
  · have hj' : j = 7 := by omega
    subst hj'
    have hb0 : (edge_state (ticked dpre) b true).bit_index >>> 1 = 0 := by
      rw [hes]; show ((0x80 : Nat) >>> 7) >>> 1 = 0; decide
    rw [step_edge_byte_length dpre b hmode hedge hb0, hes]
    simp only [stored_byte, show (0x80 : Nat) >>> 7 = 1 from rfl]
    by_cases hv : (if b then acc ||| 1 else acc) > B ∨ (if b then acc ||| 1 else acc) = 0
    · refine ⟨sync_kind.hdr, ?_, trivial, ?_⟩
      · simp only [sync_next, show ¬ (7 < 7) by omega, if_false, if_pos hv]
      · unfold length_byte_cb
        simp only
        rcases hv with hv | hv
        · rw [if_pos hv]; rfl
        · by_cases hv2 : (if b then acc ||| 1 else acc) > B
          · rw [if_pos hv2]; rfl
          · rw [if_neg hv2, if_pos hv]; rfl
    · refine ⟨sync_kind.chk 0 0 a (if b then acc ||| 1 else acc), ?_, ⟨hg, by omega⟩, ?_⟩
      · simp only [sync_next, show ¬ (7 < 7) by omega, if_false, if_neg hv]
      · unfold length_byte_cb
        simp only
        rw [if_neg (fun h => hv (Or.inl h)), if_neg (fun h => hv (Or.inr h))]
        rfl

/-- One bit in CHKSUM: the bit is sunk, and the eighth bit takes the decoder to
PAYLOAD. -/
theorem sync_bit_chk (s B u : Nat) (hs2 : 2 ≤ s) (hs : s ≤ 127) (hB : 16 ≤ B)
    (j acc a L : Nat) (hk : sync_ok s (sync_kind.chk j acc a L)) (m : Nat)
    (buf : List Nat) (prev b : Bool) (hlen : buf.length = B) (hm1 : 1 ≤ m)
    (hm2 : m + 2 < 65536) :
    ∃ buf', buf'.length = B
      ∧ ring_window buf' (m + (one_bit_gaps s prev b).length)
          = (ring_window buf m ++ one_bit_gaps s prev b).drop (one_bit_gaps s prev b).length
      ∧ ((∃ k', sync_next B
              ((ring_window buf m ++ one_bit_gaps s prev b).drop (one_bit_gaps s prev b).length)
              b (sync_kind.chk j acc a L) = some k'
            ∧ sync_ok s k'
            ∧ decoder_feed (chunk_init s prev b ++ [b])
                (sync_state B u m buf prev (sync_kind.chk j acc a L))
                = (sync_state B u (m + (one_bit_gaps s prev b).length) buf' b k', []))
          ∨ (j = 7
            ∧ (decoder_feed (chunk_init s prev b ++ [b])
                (sync_state B u m buf prev (sync_kind.chk j acc a L))).1.mode = RX_PAYLOAD)) := by
  obtain ⟨hg, hj⟩ := hk
  obtain ⟨dpre, buf', hfeed, hmode, hedge, hes, hl, hwin⟩ :=
    chunk_arrive_ring s a hs2 hs hg m B RX_CHKSUM (Or.inr rfl) (0x80 >>> j) acc prev b L 0 buf u
      (by omega) hm1 hm2
  have hfeed' : decoder_feed (chunk_init s prev b)
      (sync_state B u m buf prev (sync_kind.chk j acc a L)) = (dpre, []) := hfeed
  refine ⟨buf', by rw [hl, hlen], hwin, ?_⟩
  rw [decoder_feed_append_of _ _ _ _ hfeed', decoder_feed_single]
  have hm' : dpre.mode ≠ RX_HEADER := by rw [hmode]; simp
  by_cases hj7 : j < 7
  · left
    have hes' : edge_state (ticked dpre) b (decide (dpre.mode ≠ RX_PAYLOAD))
        = ⟨m + (one_bit_gaps s prev b).length, B, RX_CHKSUM, 0, 0x80 >>> j, acc, bool_val b, a,
            L, 0, 0, buf', u⟩ := by
      rw [hmode]; exact hes
    refine ⟨sync_kind.chk (j + 1) (if b then acc ||| (0x80 >>> j) else acc) a L, ?_,
      ⟨hg, by omega⟩, ?_⟩
    · simp only [sync_next, if_pos hj7]
    · rw [step_edge_midbyte dpre b hm' hedge (by rw [hes']; exact mask_shift_ne j hj7), hes']
      simp only [stored_byte, mask_shift_succ]
      rfl
  · right
    have hj' : j = 7 := by omega
    subst hj'
    have hb0 : (edge_state (ticked dpre) b true).bit_index >>> 1 = 0 := by
      rw [hes]; show ((0x80 : Nat) >>> 7) >>> 1 = 0; decide
    rw [step_edge_byte_chksum dpre b hmode hedge hb0]
    exact ⟨rfl, rfl⟩

/-- One bit from a synchronised state: the decoder is in the next synchronised
state, or in PAYLOAD. -/
theorem sync_bit (s B u : Nat) (hs2 : 2 ≤ s) (hs : s ≤ 127) (hB : 16 ≤ B) (k : sync_kind)
    (hk : sync_ok s k) (m : Nat) (buf : List Nat) (prev b : Bool) (hlen : buf.length = B)
    (hm1 : 1 ≤ m) (hm2 : m + 2 < 65536) (hw : clean_window s (ring_window buf m)) :
    ∃ buf', buf'.length = B
      ∧ ring_window buf' (m + (one_bit_gaps s prev b).length)
          = (ring_window buf m ++ one_bit_gaps s prev b).drop (one_bit_gaps s prev b).length
      ∧ ((∃ k', sync_next B
              ((ring_window buf m ++ one_bit_gaps s prev b).drop (one_bit_gaps s prev b).length)
              b k = some k'
            ∧ sync_ok s k'
            ∧ decoder_feed (chunk_init s prev b ++ [b]) (sync_state B u m buf prev k)
                = (sync_state B u (m + (one_bit_gaps s prev b).length) buf' b k', []))
          ∨ (decoder_feed (chunk_init s prev b ++ [b])
                (sync_state B u m buf prev k)).1.mode = RX_PAYLOAD) := by
  cases k with
  | hdr =>
    obtain ⟨buf', h1, h2, h3⟩ := sync_bit_hdr s B u hs2 hs hB m buf prev b hlen hm1 hm2 hw
    exact ⟨buf', h1, h2, Or.inl h3⟩
  | len j acc a =>
    obtain ⟨buf', h1, h2, h3⟩ := sync_bit_len s B u hs2 hs hB j acc a hk m buf prev b hlen hm1 hm2
    exact ⟨buf', h1, h2, Or.inl h3⟩
  | chk j acc a L =>
    obtain ⟨buf', h1, h2, h3⟩ :=
      sync_bit_chk s B u hs2 hs hB j acc a L hk m buf prev b hlen hm1 hm2
    refine ⟨buf', h1, h2, ?_⟩
    rcases h3 with h3 | h3
    · exact Or.inl h3
    · exact Or.inr h3.2

theorem one_bit_gaps_length_le (s : Nat) (prev b : Bool) : (one_bit_gaps s prev b).length ≤ 2 := by
  unfold one_bit_gaps
  split_ifs <;> simp

theorem one_bit_gaps_length_pos (s : Nat) (prev b : Bool) :
    1 ≤ (one_bit_gaps s prev b).length := by
  unfold one_bit_gaps
  split_ifs <;> simp

/-- A run of Manchester bits from a synchronised state: as long as the decoder
is never in PAYLOAD it passes from one synchronised state to the next. -/
theorem sync_run_feed (s B u : Nat) (hs2 : 2 ≤ s) (hs : s ≤ 127) (hB : 16 ≤ B)
    (bs : List Bool) :
    ∀ (prev : Bool) (k : sync_kind) (m : Nat) (buf : List Nat), buf.length = B → 1 ≤ m →
      m + 2 * bs.length + 2 < 65536 → sync_ok s k → clean_window s (ring_window buf m) →
      never_payload (bits_stream s prev bs) (sync_state B u m buf prev k) = true →
      ∃ k' buf' m', sync_run B s (ring_window buf m) prev bs k = some k' ∧ sync_ok s k'
        ∧ buf'.length = B ∧ 1 ≤ m' ∧ m' ≤ m + 2 * bs.length
        ∧ clean_window s (ring_window buf' m')
        ∧ decoder_feed (bits_stream s prev bs) (sync_state B u m buf prev k)
            = (sync_state B u m' buf' (bs.getLastD prev) k', []) := by
  induction bs with
  | nil =>
    intro prev k m buf hlen hm1 _ hk hw _
    exact ⟨k, buf, m, rfl, hk, hlen, hm1, by omega, hw, rfl⟩
  | cons b bs ih =>
    intro prev k m buf hlen hm1 hm2 hk hw hq
    simp only [List.length_cons] at hm2
    rw [bits_stream] at hq ⊢
    obtain ⟨hq1, hq2⟩ := never_payload_append _ _ _ hq
    have hmode := never_payload_mode _ _ (by simp) hq1
    obtain ⟨buf1, hlen1, hwin1, hstep⟩ :=
      sync_bit s B u hs2 hs hB k hk m buf prev b hlen hm1 (by omega) hw
    rcases hstep with ⟨k1, hnext, hk1, hf1⟩ | hpay
    · rw [hf1] at hq2
      have hg2 := one_bit_gaps_length_le s prev b
      have hw1 : clean_window s
          (ring_window buf1 (m + (one_bit_gaps s prev b).length)) := by
        rw [hwin1]; exact clean_window_one_bit s _ prev b hw
      obtain ⟨k2, buf2, m2, hrun, hk2, hlen2, hm21, hm22, hw2, hf2⟩ :=
        ih b k1 (m + (one_bit_gaps s prev b).length) buf1 hlen1 (by omega) (by omega) hk1 hw1 hq2
      refine ⟨k2, buf2, m2, ?_, hk2, hlen2, hm21, by simp only [List.length_cons]; omega, hw2, ?_⟩
      · rw [sync_run, hnext]
        simp only
        rw [← hwin1]
        exact hrun
      · rw [decoder_feed_append_of _ _ _ _ hf1, hf2, getLastD_cons]
    · exact absurd hpay hmode

theorem drop_append_window (w g G : List Nat) :
    ((w ++ g).drop g.length ++ G).drop G.length = (w ++ (g ++ G)).drop (g ++ G).length := by
  rw [← List.drop_append_of_le_length (by simp), List.drop_drop, List.append_assoc,
    List.length_append, Nat.add_comm]

theorem sync_next_no_lock (B : Nat) (w : List Nat) (b : Bool) (k : sync_kind)
    (h : (scan_list w 0 0 0 0).1 ≠ 8) : sync_next B w b k = sync_next B [] b k := by
  cases k with
  | hdr =>
    simp only [sync_next, if_neg h]
    rw [if_neg (by decide)]
  | len j acc a => rfl
  | chk j acc a L => rfl

/-- A run of bits none of whose edges completes a window that passes the scan. -/
theorem sync_run_no_lock (B s : Nat) (bs : List Bool) :
    ∀ (w : List Nat) (prev : Bool) (k : sync_kind),
      (∀ i, i < bs.length →
        (scan_list ((w ++ bit_gaps s prev (bs.take (i + 1))).drop
          (bit_gaps s prev (bs.take (i + 1))).length) 0 0 0 0).1 ≠ 8) →
      sync_run B s w prev bs k = sync_run0 B bs k := by
  induction bs with
  | nil => intro w prev k _; rfl
  | cons b bs ih =>
    intro w prev k h
    have h0 := h 0 (by simp)
    simp only [Nat.zero_add, List.take_succ_cons, List.take_zero, bit_gaps,
      List.append_nil] at h0
    have h0' : (scan_list ((w ++ one_bit_gaps s prev b).drop (one_bit_gaps s prev b).length)
        0 0 0 0).1 ≠ 8 := by
      unfold one_bit_gaps; exact h0
    rw [sync_run, sync_run0, sync_next_no_lock B _ b k h0']
    cases hn : sync_next B [] b k with
    | none => rfl
    | some k1 =>
      simp only
      apply ih
      intro i hi
      have := h (i + 1) (by simpa using hi)
      simp only [List.take_succ_cons, bit_gaps] at this
      rw [drop_append_window]
      unfold one_bit_gaps
      exact this

theorem sync_next_hdr_nil (B : Nat) (b : Bool) :
    sync_next B [] b sync_kind.hdr = some sync_kind.hdr := by
  simp only [sync_next]
  rw [if_neg (by decide)]

theorem sync_run0_hdr (B : Nat) (bs : List Bool) :
    sync_run0 B bs sync_kind.hdr = some sync_kind.hdr := by
  induction bs with
  | nil => rfl
  | cons b bs ih => rw [sync_run0, sync_next_hdr_nil]; exact ih

/-- In CHKSUM, the bit that completes the byte takes the decoder to PAYLOAD. -/
theorem sync_run0_chk (B a L : Nat) (bs : List Bool) :
    ∀ j acc, j < 8 → 8 - j ≤ bs.length → sync_run0 B bs (sync_kind.chk j acc a L) = none := by
  induction bs with
  | nil => intro j acc hj h; simp at h; omega
  | cons b bs ih =>
    intro j acc hj h
    simp only [List.length_cons] at h
    by_cases hj7 : j < 7
    · rw [sync_run0]
      simp only [sync_next, if_pos hj7]
      exact ih _ _ (by omega) (by omega)
    · rw [sync_run0]
      simp only [sync_next, if_neg hj7]

theorem sync_run0_chk_lt (B a L : Nat) (bs : List Bool) :
    ∀ j acc, bs.length < 8 - j →
      ∃ acc', sync_run0 B bs (sync_kind.chk j acc a L)
        = some (sync_kind.chk (j + bs.length) acc' a L) := by
  induction bs with
  | nil => intro j acc _; exact ⟨acc, rfl⟩
  | cons b bs ih =>
    intro j acc h
    simp only [List.length_cons] at h
    have hj7 : j < 7 := by omega
    rw [sync_run0]
    simp only [sync_next, if_pos hj7]
    obtain ⟨acc', h'⟩ := ih (j + 1) (if b then acc ||| (0x80 >>> j) else acc) (by omega)
    refine ⟨acc', ?_⟩
    rw [h', List.length_cons]
    congr 2
    omega

/-- In LENGTH, the bit that completes the byte takes the decoder back to HEADER
or on to CHKSUM. -/
theorem sync_run0_len (B a : Nat) (bs : List Bool) :
    ∀ j acc, j < 8 → 8 - j ≤ bs.length →
      sync_run0 B bs (sync_kind.len j acc a) = some sync_kind.hdr
        ∨ ∃ L, sync_run0 B bs (sync_kind.len j acc a)
            = sync_run0 B (bs.drop (8 - j)) (sync_kind.chk 0 0 a L) := by
  induction bs with
  | nil => intro j acc hj h; simp at h; omega
  | cons b bs ih =>
    intro j acc hj h
    simp only [List.length_cons] at h
    by_cases hj7 : j < 7
    · rw [sync_run0]
      simp only [sync_next, if_pos hj7]
      rw [show 8 - j = (8 - (j + 1)) + 1 by omega, List.drop_succ_cons]
      exact ih _ _ (by omega) (by omega)
    · have hj' : j = 7 := by omega
      subst hj'
      rw [sync_run0]
      simp only [sync_next, if_neg hj7]
      by_cases hv : (if b then acc ||| 1 else acc) > B ∨ (if b then acc ||| 1 else acc) = 0
      · left
        rw [if_pos hv]
        exact sync_run0_hdr B bs
      · right
        rw [if_neg hv]
        exact ⟨_, rfl⟩

/-- The preamble after its first bit, up to its last bit but one, from any
synchronised state: the decoder is back in HEADER, or it has reached PAYLOAD,
or it is one bit from PAYLOAD. -/
theorem preamble_run0 (s B : Nat) (hB : B < 254) (k0 : sync_kind) (hk : sync_ok s k0) :
    sync_run0 B (List.replicate 7 true ++ [false, true, false, true, false, true, false]) k0
        = some sync_kind.hdr
      ∨ sync_run0 B (List.replicate 7 true ++ [false, true, false, true, false, true, false]) k0
        = none
      ∨ ∃ acc a L,
        sync_run0 B (List.replicate 7 true ++ [false, true, false, true, false, true, false]) k0
          = some (sync_kind.chk 7 acc a L) := by
  cases k0 with
  | hdr => exact Or.inl (sync_run0_hdr B _)
  | chk j acc a L =>
    right; left
    exact sync_run0_chk B a L _ j acc hk.2 (by simp; omega)
  | len j acc a =>
    obtain ⟨_, hj, h0⟩ := hk
    by_cases hj0 : j = 0
    · subst hj0
      have hacc := h0 rfl
      subst hacc
      left
      simp only [List.replicate, List.cons_append, List.nil_append, sync_run0, sync_next]
      have hs : ¬ (scan_list [] 0 0 0 0).1 = 8 := by decide
      simp [hB, hs]
    · rcases sync_run0_len B a
          (List.replicate 7 true ++ [false, true, false, true, false, true, false]) j acc hj
          (by simp; omega) with h | ⟨L, h⟩
      · exact Or.inl h
      · right
        rw [h]
        by_cases hj1 : j = 1
        · subst hj1
          right
          obtain ⟨acc', h'⟩ := sync_run0_chk_lt B a L
            ((List.replicate 7 true ++ [false, true, false, true, false, true, false]).drop
              (8 - 1)) 0 0 (by simp)
          exact ⟨acc', a, L, by rw [h']; simp⟩
        · left
          exact sync_run0_chk B a L _ 0 0 (by omega) (by simp; omega)

theorem sync_run_append (B s : Nat) (xs : List Bool) :
    ∀ (w : List Nat) (prev : Bool) (k : sync_kind) (ys : List Bool),
      sync_run B s w prev (xs ++ ys) k
        = match sync_run B s w prev xs k with
          | none => none
          | some k1 =>
            sync_run B s ((w ++ bit_gaps s prev xs).drop (bit_gaps s prev xs).length)
              (xs.getLastD prev) ys k1 := by
  induction xs with
  | nil => intro w prev k ys; simp [sync_run, bit_gaps]
  | cons x xs ih =>
    intro w prev k ys
    rw [List.cons_append, sync_run, sync_run]
    cases hn : sync_next B ((w ++ one_bit_gaps s prev x).drop (one_bit_gaps s prev x).length) x k
      with
    | none => rfl
    | some k1 =>
      simp only
      rw [ih, getLastD_cons, drop_append_window]
      rfl

/-- The gaps of the preamble after its first bit, up to its last bit but one. -/
theorem preamble_bit_gaps (s : Nat) (i : Nat) (hi : i < 14) :
    ∃ c, c < 21
      ∧ bit_gaps s true
          ((List.replicate 7 true ++ [false, true, false, true, false, true, false]).take (i + 1))
        = (List.replicate 14 s ++ List.replicate 7 (2 * s)).take (c + 1) := by
  refine ⟨if i < 7 then 2 * i + 1 else i + 7, by split_ifs <;> omega, ?_⟩
  interval_cases i <;> simp [bit_gaps, List.replicate]

/-- The preamble after its first bit, from any synchronised state with a clean
window: if the decoder does not reach PAYLOAD, its last edge locks the clock,
with the half-cell width as the interval. -/
theorem preamble_run (s B : Nat) (hs2 : 2 ≤ s) (hs : s ≤ 127) (hB : B < 254) (w1 : List Nat)
    (hw : clean_window s w1) (k0 : sync_kind) (hk : sync_ok s k0) (kf : sync_kind)
    (h : sync_run B s w1 true (List.replicate 7 true ++ byte_bits 0x55) k0 = some kf) :
    kf = sync_kind.len 0 0 s := by
  have h55 : List.replicate 7 true ++ byte_bits 0x55
      = (List.replicate 7 true ++ [false, true, false, true, false, true, false]) ++ [true] := by
    decide
  have hnl : sync_run B s w1 true
      (List.replicate 7 true ++ [false, true, false, true, false, true, false]) k0
      = sync_run0 B (List.replicate 7 true ++ [false, true, false, true, false, true, false])
          k0 := by
    apply sync_run_no_lock
    intro i hi
    obtain ⟨c, hc, hg⟩ := preamble_bit_gaps s i (by simpa using hi)
    rw [hg]
    have hl : ((List.replicate 14 s ++ List.replicate 7 (2 * s)).take (c + 1)).length = c + 1 := by
      simp; omega
    rw [hl]
    exact preamble_no_lock s hs2 hs w1 hw c (by simpa using hc)
  have hgaps : bit_gaps s true
      (List.replicate 7 true ++ [false, true, false, true, false, true, false])
      = List.replicate 14 s ++ List.replicate 7 (2 * s) := by
    simp [bit_gaps, List.replicate]
  have hlast : (List.replicate 7 true ++ [false, true, false, true, false, true, false]).getLastD
      true = false := by decide
  have hwin : (((w1 ++ (List.replicate 14 s ++ List.replicate 7 (2 * s))).drop
      (List.replicate 14 s ++ List.replicate 7 (2 * s)).length) ++ one_bit_gaps s false true).drop
        (one_bit_gaps s false true).length
      = List.replicate 8 s ++ List.replicate 8 (2 * s) := by
    rw [← preamble_last_window s w1 hw.1]
    have h1 : one_bit_gaps s false true = [2 * s] := by simp [one_bit_gaps]
    rw [h1, List.length_singleton, ← window_push_one _ _ (by simp [hw.1])]
  rw [h55, sync_run_append, hnl, hgaps, hlast] at h
  rcases preamble_run0 s B hB k0 hk with h0 | h0 | ⟨acc, a, L, h0⟩
  · rw [h0] at h
    simp only [sync_run, hwin, sync_next, scan_lock s (by omega) hs, if_true] at h
    exact (Option.some.inj h).symm
  · rw [h0] at h
    cases h
  · rw [h0] at h
    simp [sync_run, sync_next] at h

/-- Noise, then a frame. A fresh decoder (`buffer_size` below 254) is fed the
Manchester samples (`s` per half-cell, `2 ≤ s ≤ 127`) of arbitrary noise bits
`N` followed by a frame with payload `P`. If it is not in PAYLOAD after any
sample of the noise or of the frame's preamble, the callback is invoked exactly
once, with `P`. -/
theorem noise_frame_delivered (s : Nat) (hs2 : 2 ≤ s) (hs : s ≤ 127) (B u : Nat) (hB : 16 ≤ B)
    (hB254 : B < 254) (buf : List Nat) (hlen : buf.length = B) (N : List Bool)
    (hN : N.length ≤ 30000) (P : List Nat) (hP1 : 1 ≤ P.length) (hPb : P.length ≤ B)
    (hbytes : ∀ x ∈ P, x < 256)
    (hq : never_payload ((N ++ (byte_bits 0xFF ++ byte_bits 0x55)).flatMap (expect_bit s))
      ⟨0, B, RX_HEADER, 0, 0x80, 0, 0xFF, 0, 0, 0, 0, buf, u⟩ = true) :
    ∃ Bf, Bf.length = B ∧ Bf.take P.length = P
      ∧ (decoder_feed ((N ++ frame_bits P).flatMap (expect_bit s))
          ⟨0, B, RX_HEADER, 0, 0x80, 0, 0xFF, 0, 0, 0, 0, buf, u⟩).2
        = [⟨Bf, P.length, u⟩] := by
  have hs1 : 1 ≤ s := by omega
  -- the bits up to the first preamble bit
  obtain ⟨b0, restA, hA, hlastA, hlenA⟩ : ∃ b0 restA, N ++ [true] = b0 :: restA
      ∧ restA.getLastD b0 = true ∧ restA.length ≤ N.length := by
    cases N with
    | nil => exact ⟨true, [], rfl, rfl, by simp⟩
    | cons x xs => exact ⟨x, xs ++ [true], rfl, by simp, by simp⟩
  have hFF : byte_bits 0xFF = [true] ++ List.replicate 7 true := by decide
  have hpre : N ++ (byte_bits 0xFF ++ byte_bits 0x55)
      = b0 :: (restA ++ (List.replicate 7 true ++ byte_bits 0x55)) := by
    rw [hFF, ← List.cons_append, ← hA]
    simp only [List.append_assoc]
  have hbits : N ++ frame_bits P
      = b0 :: (restA ++ ((List.replicate 7 true ++ byte_bits 0x55)
          ++ (byte_bits P.length ++ byte_bits (spec_chksum P) ++ P.flatMap byte_bits))) := by
    unfold frame_bits
    rw [hFF, ← List.cons_append, ← hA]
    simp only [List.append_assoc]
  obtain ⟨D', bl, hD⟩ : ∃ D' bl,
      byte_bits P.length ++ byte_bits (spec_chksum P) ++ P.flatMap byte_bits = D' ++ [bl] := by
    obtain ⟨Q, x, rfl⟩ : ∃ Q x, P = Q ++ [x] := by
      rcases List.eq_nil_or_concat P with h | ⟨Q, x, h⟩
      · subst h; simp at hP1
      · exact ⟨Q, x, by simpa using h⟩
    refine ⟨byte_bits (Q ++ [x]).length ++ byte_bits (spec_chksum (Q ++ [x]))
      ++ Q.flatMap byte_bits ++ byte_hi x, x.testBit 0, ?_⟩
    rw [List.flatMap_append, List.flatMap_singleton, byte_bits_eq x]
    simp only [List.append_assoc]
  have hH55 : (List.replicate 7 true ++ byte_bits 0x55).getLastD true = true := by decide
  -- the premise, in its parts
  have hprem : (N ++ (byte_bits 0xFF ++ byte_bits 0x55)).flatMap (expect_bit s)
      = (!b0) :: (gap_run s (!b0)
          ++ (bits_stream s b0 restA
          ++ (bits_stream s true (List.replicate 7 true ++ byte_bits 0x55)
          ++ List.replicate (s - 1) true))) := by
    have hl : (restA ++ (List.replicate 7 true ++ byte_bits 0x55)).getLastD b0 = true := by
      have : List.replicate 7 true ++ byte_bits 0x55
          = (List.replicate 7 true ++ [false, true, false, true, false, true, false])
              ++ [true] := by decide
      rw [this, ← List.append_assoc]
      exact getLastD_concat _ _ _
    rw [hpre, expect_bits_stream s hs1, hl, first_gap_eq s hs1, bits_stream_cat, hlastA]
    simp only [List.cons_append, List.append_assoc]
  -- the whole stream, in its parts
  have hfull : (N ++ frame_bits P).flatMap (expect_bit s)
      = (!b0) :: (gap_run s (!b0)
          ++ (bits_stream s b0 restA
          ++ (bits_stream s true (List.replicate 7 true ++ byte_bits 0x55)
          ++ (bits_stream s true
                (byte_bits P.length ++ byte_bits (spec_chksum P) ++ P.flatMap byte_bits)
          ++ List.replicate (s - 1) bl)))) := by
    have hl : (restA ++ ((List.replicate 7 true ++ byte_bits 0x55)
        ++ (byte_bits P.length ++ byte_bits (spec_chksum P) ++ P.flatMap byte_bits))).getLastD b0
        = bl := by
      rw [hD, ← List.append_assoc, ← List.append_assoc]
      exact getLastD_concat _ _ _
    rw [hbits, expect_bits_stream s hs1, hl, first_gap_eq s hs1, bits_stream_cat, hlastA,
      bits_stream_cat, hH55]
    simp only [List.cons_append, List.append_assoc]
  rw [hprem] at hq
  -- the first sample
  obtain ⟨d1, w0, hw0, hstep1, hst1⟩ := hdr_first B u buf hlen hB (!b0)
  have hq1 : never_payload (gap_run s (!b0)
      ++ (bits_stream s b0 restA
      ++ (bits_stream s true (List.replicate 7 true ++ byte_bits 0x55)
      ++ List.replicate (s - 1) true))) d1 = true := by
    simp only [never_payload, Bool.and_eq_true, hstep1] at hq
    exact hq.2
  have hw1 : clean_window s (w0 ++ [255]) :=
    ⟨by simp [hw0], Or.inl ⟨w0, [], rfl, by simp⟩⟩
  -- the first half-cell
  have hw2 : clean_window s ((w0 ++ [255]).tail ++ [s]) :=
    clean_window_push s _ s hw1 (Or.inl rfl)
  obtain ⟨d2, hf2, hst2⟩ := hdr_gap d1 1 B u (w0 ++ [255]) (!b0) s hst1 hB (le_refl _)
    (by omega) hs1 (by omega)
    (clean_window_no_lock s hs2 hs _ hw2 15 (by omega) (by omega)
      (getD_last_16 _ _ hw1.1))
  rw [Bool.not_not] at hst2
  obtain ⟨buf2, hlen2, hwin2, hd2⟩ := hst2
  have hd2' : d2 = sync_state B u 2 buf2 b0 sync_kind.hdr := hd2
  have hq2 := (never_payload_append _ _ _ hq1).2
  rw [hf2, hd2'] at hq2
  -- the noise and the first preamble bit
  obtain ⟨hq3, hq4⟩ := never_payload_append _ _ _ hq2
  obtain ⟨k3, buf3, m3, _, hk3, hlen3, hm31, hm32, hw3, hf3⟩ :=
    sync_run_feed s B u hs2 hs hB restA b0 sync_kind.hdr 2 buf2 hlen2 (by omega) (by omega)
      trivial (by rw [hwin2]; exact hw2) hq3
  rw [hf3, hlastA] at hq4
  rw [hlastA] at hf3
  -- the rest of the preamble
  have hq5 := (never_payload_append _ _ _ hq4).1
  obtain ⟨k4, buf4, m4, hrun4, _, hlen4, _, _, _, hf4⟩ :=
    sync_run_feed s B u hs2 hs hB (List.replicate 7 true ++ byte_bits 0x55) true k3 m3 buf3
      hlen3 hm31
      (by
        have : (List.replicate 7 true ++ byte_bits 0x55).length = 15 := by decide
        rw [this]; omega)
      hk3 hw3 hq5
  have hk4 := preamble_run s B hs2 hs hB254 _ hw3 k3 hk3 k4 hrun4
  subst hk4
  rw [hH55] at hf4
  have hf4' : decoder_feed (bits_stream s true (List.replicate 7 true ++ byte_bits 0x55))
      (sync_state B u m3 buf3 true k3)
      = (⟨m4, B, RX_LENGTH, 0, 0x80, 0, bool_val true, s, 0, 0, 0, buf4, u⟩, []) := hf4
  -- the data
  obtain ⟨init, lastb, dpre, Bf, hsplit, hfeed, hlenf, hstep⟩ :=
    data_feed s hs2 hs B u P hP1 hPb (by omega) hbytes (spec_chksum P) (spec_chksum_lt P)
      m4 0 0 buf4 true
  have htake : (store_bytes Bf 0 P).take P.length = P := by
    have := store_bytes_take P Bf 0 (by rw [hlenf, hlen4]; omega)
    simpa using this
  have hck : checksum (store_bytes Bf 0 P) P.length = spec_chksum P := by
    rw [checksum_eq_spec _ _ (by rw [store_bytes_length, hlenf, hlen4]; exact hPb), htake]
  have hmod : P.length % 256 = P.length := Nat.mod_eq_of_lt (by omega)
  simp only [hck, if_true, hmod] at hstep
  have hlast : lastb = bl := by
    have hsplit' := hsplit
    rw [hD, bits_stream_append] at hsplit'
    have := List.append_inj_right' hsplit'.symm rfl
    simpa using this
  subst hlast
  -- the samples after the last bit edge
  have hquiet := header_quiet_run (s - 1)
    ⟨0, B, RX_HEADER, 0, 0x80, 0, bool_val lastb, 0, 0, spec_chksum P, 0, store_bytes Bf 0 P, u⟩
    lastb rfl rfl (by simp only; omega)
  refine ⟨store_bytes Bf 0 P, by rw [store_bytes_length, hlenf, hlen4], htake, ?_⟩
  rw [hfull, decoder_feed, hstep1]
  simp only [List.nil_append]
  rw [decoder_feed_append_of _ _ _ _ hf2, hd2', decoder_feed_append_of _ _ _ _ hf3,
    decoder_feed_append_of _ _ _ _ hf4', hsplit, List.append_assoc,
    decoder_feed_append_of _ _ _ _ hfeed, List.singleton_append, decoder_feed, hstep, hquiet]
  rfl

/-- C18 (amended). Noise rejection: for every noise prefix of at most 15
arbitrary bytes and every half-cell width `h = 2 * rate` with
`1 ≤ rate ≤ 63`, if the freshly initialised decoder (`buffer_size` 32) is not
in PAYLOAD after any sample of the Manchester coding of the noise bytes and of
the frame's preamble `0xFF, 0x55` (the noise does not make it take the frame
for payload; false locks that leave it in LENGTH or CHKSUM are allowed), then
feeding it the coding of the noise followed by that of the frame
`0xFF, 0x55, 0x01, 0x85, 0x7A` invokes the callback exactly once, with the
one-byte payload `[0x7A]`. -/
theorem noise_rejection (rate : Nat) (hr1 : 1 ≤ rate) (hr : rate ≤ 63) (noise : List Nat)
    (hn : noise.length ≤ 15)
    (hq : never_payload ((noise ++ [0xFF, 0x55]).flatMap (expect_byte (2 * rate))) test_decoder
        = true) :
    ∃ Bf, (decoder_feed
          ((noise ++ [0xFF, 0x55, 0x01, 0x85, 0x7A]).flatMap (expect_byte (2 * rate)))
          test_decoder).2 = [⟨Bf, 1, 0⟩]
      ∧ Bf.take 1 = [0x7A] := by
  have htd : test_decoder
      = ⟨0, 32, RX_HEADER, 0, 0x80, 0, 0xFF, 0, 0, 0, 0, List.replicate 32 0, 0⟩ := by decide
  have hframe : [0xFF, 0x55, 0x01, 0x85, 0x7A].flatMap byte_bits = frame_bits [0x7A] := by decide
  have hpre : [0xFF, 0x55].flatMap byte_bits = byte_bits 0xFF ++ byte_bits 0x55 := by decide
  have hlenN : (noise.flatMap byte_bits).length ≤ 30000 := by
    have : ∀ l : List Nat, (l.flatMap byte_bits).length = 8 * l.length := by
      intro l
      induction l with
      | nil => rfl
      | cons a l ih =>
        rw [List.flatMap_cons, List.length_append, ih]
        simp [byte_bits]; omega
    rw [this]; omega
  have hq' : never_payload ((noise.flatMap byte_bits ++ (byte_bits 0xFF ++ byte_bits 0x55)).flatMap
      (expect_bit (2 * rate)))
      ⟨0, 32, RX_HEADER, 0, 0x80, 0, 0xFF, 0, 0, 0, 0, List.replicate 32 0, 0⟩ = true := by
    rw [← hpre, ← List.flatMap_append, ← expect_bytes_bits, ← htd]
    exact hq
  obtain ⟨Bf, _, htake, hcalls⟩ := noise_frame_delivered (2 * rate) (by omega) (by omega) 32 0
    (by decide) (by decide) (List.replicate 32 0) (by simp) (noise.flatMap byte_bits) hlenN
    [0x7A] (by decide) (by decide) (by decide) hq'
  refine ⟨Bf, ?_, htake⟩
  rw [expect_bytes_bits, List.flatMap_append, hframe, htd]
  exact hcalls

/-- Witness of C18 (amended): the false preamble `0x0F, 0x55` of the unit test
`decode_buffer_when_preceded_by_false_header`, `rate = 1`. -/
theorem noise_rejection_witness :
    never_payload (([0x0F, 0x55] ++ [0xFF, 0x55]).flatMap (expect_byte (2 * 1))) test_decoder
        = true
      ∧ ∃ Bf, (decoder_feed
            (([0x0F, 0x55] ++ [0xFF, 0x55, 0x01, 0x85, 0x7A]).flatMap (expect_byte (2 * 1)))
            test_decoder).2 = [⟨Bf, 1, 0⟩]
          ∧ Bf.take 1 = [0x7A] :=
  ⟨by set_option maxRecDepth 100000 in decide,
    noise_rejection 1 (by decide) (by decide) [0x0F, 0x55] (by decide)
      (by set_option maxRecDepth 100000 in decide)⟩

/-- The noise of the unit test `recover_from_noise` makes the decoder lock
falsely, yet never takes it to PAYLOAD: the frame that follows is delivered. -/
theorem recover_from_noise_delivered :
    header_throughout
        ([0xb0, 0x39, 0x8d, 0xca, 0xb6, 0xc6, 0x0d, 0x57].flatMap (expect_byte (2 * 1)))
        test_decoder = false
      ∧ never_payload
          (([0xb0, 0x39, 0x8d, 0xca, 0xb6, 0xc6, 0x0d, 0x57] ++ [0xFF, 0x55]).flatMap
            (expect_byte (2 * 1)))
          test_decoder = true
      ∧ ∃ Bf, (decoder_feed
            (([0xb0, 0x39, 0x8d, 0xca, 0xb6, 0xc6, 0x0d, 0x57]
                ++ [0xFF, 0x55, 0x01, 0x85, 0x7A]).flatMap (expect_byte (2 * 1)))
            test_decoder).2 = [⟨Bf, 1, 0⟩]
          ∧ Bf.take 1 = [0x7A] := by
  refine ⟨by set_option maxRecDepth 100000 in decide,
    by set_option maxRecDepth 100000 in decide, ?_⟩
  refine ⟨(decoder_feed
      (([0xb0, 0x39, 0x8d, 0xca, 0xb6, 0xc6, 0x0d, 0x57]
          ++ [0xFF, 0x55, 0x01, 0x85, 0x7A]).flatMap (expect_byte (2 * 1)))
      test_decoder).1.buffer, ?_, ?_⟩
  · set_option maxRecDepth 100000 in decide
  · set_option maxRecDepth 100000 in decide

theorem never_payload_cat (xs ys : List Bool) :
    ∀ d, never_payload (xs ++ ys) d
      = (never_payload xs d && never_payload ys (decoder_feed xs d).1) := by
  induction xs with
  | nil => intro d; simp [never_payload, decoder_feed]
  | cons x xs ih =>
    intro d
    rw [List.cons_append, never_payload, never_payload, ih, Bool.and_assoc]
    rfl

theorem never_payload_quiet (c : Nat) :
    ∀ (d : spooky_decoder) (x : Bool), d.mode = RX_HEADER → bool_val x = d.last →
      d.ticks + c < 256 → never_payload (List.replicate c x) d = true := by
  induction c with
  | zero => intro d x _ _ _; rfl
  | succ c ih =>
    intro d x hm hx ht
    rw [List.replicate_succ, never_payload, header_quiet_step d x hm hx (by omega)]
    rw [Bool.and_eq_true]
    exact ⟨by simp [hm], ih _ x hm hx (by simp only; omega)⟩

theorem quiet_feed_eq (c : Nat) :
    ∀ (x : Bool) (d : spooky_decoder),
      quiet_feed c x d
        = (decoder_feed (List.replicate c x) d, never_payload (List.replicate c x) d) := by
  induction c with
  | zero => intro x d; rfl
  | succ c ih =>
    intro x d
    rw [quiet_feed]
    split_ifs with h
    · rw [header_quiet_run (c + 1) d x h.1 h.2.1 h.2.2,
        never_payload_quiet (c + 1) d x h.1 h.2.1 h.2.2]
    · rw [ih, List.replicate_succ, decoder_feed, never_payload]

theorem runs_feed_eq (rs : List (Nat × Bool)) :
    ∀ d, runs_feed rs d
      = (decoder_feed (rs.flatMap (fun r => List.replicate r.1 r.2)) d,
          never_payload (rs.flatMap (fun r => List.replicate r.1 r.2)) d) := by
  induction rs with
  | nil => intro d; rfl
  | cons r rs ih =>
    intro d
    rw [runs_feed, ih, quiet_feed_eq, List.flatMap_cons, decoder_feed_append,
      never_payload_cat]

theorem byte_runs_eq (n : Nat) (bytes : List Nat) :
    bytes.flatMap (expect_byte n)
      = (byte_runs n bytes).flatMap (fun r => List.replicate r.1 r.2) := by
  unfold byte_runs
  induction bytes with
  | nil => rfl
  | cons b bytes ih =>
    rw [List.flatMap_cons, List.flatMap_cons, List.flatMap_append, ← ih]
    congr 1
    unfold expect_byte
    generalize List.range 8 = l
    induction l with
    | nil => rfl
    | cons i l ihl =>
      rw [List.flatMap_cons, List.flatMap_cons, List.flatMap_append, ← ihl]
      simp

/-- C18 as stated fails, in two ways. With the six noise bytes of the
repository's skipped test (`0x9a 0xdc 0x68 0x8c 0x55 0x01`) and `rate = 1`
(half-cell width 2) the freshly initialised 32-byte decoder locks on the noise,
is not in PAYLOAD after any sample of the noise itself but enters PAYLOAD
during the preamble of the real frame, takes the bytes of the real frame for
payload, and never invokes the callback. With the single noise byte `0x00` and
`rate = 64` (half-cell width 128) a long gap of the preamble is 256 samples,
which the 8-bit tick counter cannot hold: the decoder never leaves HEADER and
never invokes the callback. -/
theorem noise_rejection_counterexample :
    spooky_decoder_init (some dec_zero) (some (List.replicate 32 0)) 32 (some ()) 0
        = (SPOOKY_DECODER_INIT_OK, some test_decoder)
      ∧ never_payload
          ([0x9a, 0xdc, 0x68, 0x8c, 0x55, 0x01].flatMap (expect_byte (2 * 1))) test_decoder
        = true
      ∧ never_payload
          (([0x9a, 0xdc, 0x68, 0x8c, 0x55, 0x01] ++ [0xFF, 0x55]).flatMap (expect_byte (2 * 1)))
          test_decoder = false
      ∧ (decoder_feed
          (([0x9a, 0xdc, 0x68, 0x8c, 0x55, 0x01] ++ [0xFF, 0x55, 0x01, 0x85, 0x7A]).flatMap
            (expect_byte (2 * 1)))
          test_decoder).2 = []
      ∧ never_payload (([0x00] ++ [0xFF, 0x55]).flatMap (expect_byte (2 * 64))) test_decoder
        = true
      ∧ (decoder_feed
          (([0x00] ++ [0xFF, 0x55, 0x01, 0x85, 0x7A]).flatMap (expect_byte (2 * 64)))
          test_decoder).2 = [] := by
  have h1 := runs_feed_eq (byte_runs (2 * 64) ([0x00] ++ [0xFF, 0x55])) test_decoder
  have h2 := runs_feed_eq (byte_runs (2 * 64) ([0x00] ++ [0xFF, 0x55, 0x01, 0x85, 0x7A]))
    test_decoder
  rw [← byte_runs_eq] at h1 h2
  have h1' : never_payload (([0x00] ++ [0xFF, 0x55]).flatMap (expect_byte (2 * 64))) test_decoder
      = (runs_feed (byte_runs (2 * 64) ([0x00] ++ [0xFF, 0x55])) test_decoder).2 := by
    rw [h1]
  have h2' : decoder_feed
      (([0x00] ++ [0xFF, 0x55, 0x01, 0x85, 0x7A]).flatMap (expect_byte (2 * 64))) test_decoder
      = (runs_feed (byte_runs (2 * 64) ([0x00] ++ [0xFF, 0x55, 0x01, 0x85, 0x7A]))
          test_decoder).1 := by
    rw [h2]
  refine ⟨by decide, ?_, ?_, ?_, ?_, ?_⟩
  · set_option maxRecDepth 100000 in decide
  · set_option maxRecDepth 100000 in decide
  · set_option maxRecDepth 100000 in decide
  · rw [h1']
    set_option maxRecDepth 100000 in decide
  · rw [h2']
    set_option maxRecDepth 100000 in decide

end Spooky
